import Mathlib

/-! # Deck-of-cards storage engine: a relational model of `database/deck.go`

The engine keeps five SQLite tables (`database/creation.go`).  A `Store` below is the
committed content of those tables.  Every table is a list of rows in rowid order, which is
the order of an unindexed table scan; `QueryRow` reads the first matching row of such a scan.

Modelling conventions, all read off the source:

* ids are `INTEGER PRIMARY KEY AUTOINCREMENT`: a new row receives the table's sequence
  value plus one, and the sequence never goes back (`seqDeckCard`, `seqPile`, `seqPileCard`);
* foreign keys are enforced (`PRAGMA foreign_keys = ON`, `_foreign_keys=on`): a statement
  that would leave a dangling reference is rejected (`DBError.constraint`), and deleting a
  card row sets every reference to it to NULL (`ON DELETE SET NULL`);
* counters are SQLite integers, modelled by `Int`;
* every engine operation holds the process-wide lock for its whole body, so an operation is
  a function from the store before to the store after, paired with its result;
* statements run inside `tx` become visible only at `tx.Commit()`: when such an operation
  returns an error the committed store is the store before the call (`atomically`);
  `UpdatePileOrder` issues its statements directly on `db` and keeps what it already wrote;
* random choices (`crypto/rand`, `math/rand`) are arguments of the operation, and so is the
  row that `GetPileCards` meets first when it ranges over its Go map in search of a head;
* storage failures (I/O errors, a full disk, an exhausted id space) are not modelled.
-/

namespace DeckOfCards

/-! ## Tables -/

/-- Row of table `Deck`. -/
structure DeckRow where
  deckId : String
  topCardId : Option Nat
  shuffled : Bool
deriving DecidableEq, Repr

/-- Row of table `DeckCard`: a node of a deck's linked list. -/
structure DeckCardRow where
  id : Nat
  deckId : String
  code : String
  nextId : Option Nat
deriving DecidableEq, Repr

/-- Row of table `Pile`; its column `topCardId` is never written and stays NULL. -/
structure PileRow where
  id : Nat
  deckId : String
  name : String
deriving DecidableEq, Repr

/-- Row of table `PileCard`: a node of a pile's linked list. -/
structure PileCardRow where
  id : Nat
  pileId : Nat
  code : String
  nextCardId : Option Nat
deriving DecidableEq, Repr

/-- Row of table `DeckEntry`, the ledger; its surrogate `id` is never read. -/
structure DeckEntryRow where
  deckId : String
  code : String
  total : Int
  inDeck : Int
  inPile : Int
deriving DecidableEq, Repr

/-- Committed content of the database. -/
structure Store where
  decks : List DeckRow
  deckCards : List DeckCardRow
  piles : List PileRow
  pileCards : List PileCardRow
  entries : List DeckEntryRow
  seqDeckCard : Nat
  seqPile : Nat
  seqPileCard : Nat
deriving DecidableEq, Repr

/-- Database right after the schema has been applied. -/
def Store.empty : Store :=
  { decks := [], deckCards := [], piles := [], pileCards := [], entries := [],
    seqDeckCard := 0, seqPile := 0, seqPileCard := 0 }

/-- Errors returned by the engine, one constructor per message of `deck.go`. -/
inductive DBError where
  | idExhausted
  | constraint
  | cardNotFound
  | cardNotAvailable
  | pileNotFound
  | pileEmpty
  | invalidMethod
  | cardNotInPile
  | notDrawn
  | inconsistentEntry
  | noTopCard
  | circular
  | brokenList
  | deckNotFound
  | noRows
  | fuel
deriving DecidableEq, Repr

deriving instance DecidableEq for Except

/-- Run `body` as one transaction: its writes are committed only when it succeeds. -/
def atomically {α : Type} (s : Store) (body : Except DBError (Store × α)) :
    Store × Except DBError α :=
  match body with
  | .ok (s', a) => (s', .ok a)
  | .error e => (s, .error e)

/-! ## Statements -/

/-- Some `Deck` row has this id. -/
def Store.deckExists (s : Store) (d : String) : Bool :=
  s.decks.any (fun r => r.deckId = d)

/-- Some `DeckCard` row has this id. -/
def Store.deckCardExists (s : Store) (i : Nat) : Bool :=
  s.deckCards.any (fun r => r.id = i)

/-- Some `Pile` row has this id. -/
def Store.pileExists (s : Store) (i : Nat) : Bool :=
  s.piles.any (fun r => r.id = i)

/-- Some `PileCard` row has this id. -/
def Store.pileCardExists (s : Store) (i : Nat) : Bool :=
  s.pileCards.any (fun r => r.id = i)

/-- Foreign key `REFERENCES DeckCard(id)` on a nullable column. -/
def Store.fkDeckCard (s : Store) : Option Nat → Bool
  | none => true
  | some i => s.deckCardExists i

/-- Foreign key `REFERENCES PileCard(id)` on a nullable column. -/
def Store.fkPileCard (s : Store) : Option Nat → Bool
  | none => true
  | some i => s.pileCardExists i

/-- `SELECT ... FROM Deck WHERE deckId = ?`. -/
def findDeck (s : Store) (d : String) : Option DeckRow :=
  s.decks.find? (fun r => r.deckId = d)

/-- `SELECT id FROM Pile WHERE deckId = ? AND name = ?`. -/
def findPile (s : Store) (d name : String) : Option PileRow :=
  s.piles.find? (fun r => r.deckId = d ∧ r.name = name)

/-- `SELECT total, inDeck, inPile FROM DeckEntry WHERE deckId = ? AND code = ?`. -/
def findEntry (s : Store) (d c : String) : Option DeckEntryRow :=
  s.entries.find? (fun e => e.deckId = d ∧ e.code = c)

/-- `INSERT INTO Deck(deckId, topCardId) VALUES (?, NULL)`. -/
def insertDeckRow (s : Store) (d : String) : Except DBError Store :=
  if s.deckExists d then .error .constraint
  else .ok { s with decks := s.decks ++ [⟨d, none, false⟩] }

/-- `INSERT INTO DeckCard (deckId, code, nextId) VALUES (?, ?, ?)` with its new id. -/
def insertDeckCard (s : Store) (d c : String) (next : Option Nat) :
    Except DBError (Store × Nat) :=
  if s.deckExists d && s.fkDeckCard next then
    .ok ({ s with deckCards := s.deckCards ++ [⟨s.seqDeckCard + 1, d, c, next⟩],
                  seqDeckCard := s.seqDeckCard + 1 }, s.seqDeckCard + 1)
  else .error .constraint

/-- `UPDATE DeckCard SET nextId = ? WHERE id = ?`. -/
def setDeckCardNext (s : Store) (i : Nat) (next : Option Nat) : Except DBError Store :=
  if !s.deckCardExists i || s.fkDeckCard next then
    .ok { s with deckCards :=
      s.deckCards.map (fun r => if r.id = i then { r with nextId := next } else r) }
  else .error .constraint

/-- `UPDATE Deck SET topCardId = ? WHERE deckId = ?`. -/
def setTopCard (s : Store) (d : String) (top : Option Nat) : Except DBError Store :=
  if !s.deckExists d || s.fkDeckCard top then
    .ok { s with decks :=
      s.decks.map (fun r => if r.deckId = d then { r with topCardId := top } else r) }
  else .error .constraint

/-- `UPDATE Deck SET topCardId = ?, shuffled = 1 WHERE deckId = ?`. -/
def setTopCardShuffled (s : Store) (d : String) (top : Option Nat) : Except DBError Store :=
  if !s.deckExists d || s.fkDeckCard top then
    .ok { s with decks :=
      s.decks.map (fun r =>
        if r.deckId = d then { r with topCardId := top, shuffled := true } else r) }
  else .error .constraint

/-- `DELETE FROM DeckCard WHERE id = ?`; references to the row become NULL. -/
def deleteDeckCard (s : Store) (i : Nat) : Store :=
  { s with
    deckCards := (s.deckCards.filter (fun r => r.id ≠ i)).map
      (fun r => if r.nextId = some i then { r with nextId := none } else r),
    decks := s.decks.map
      (fun r => if r.topCardId = some i then { r with topCardId := none } else r) }

/-- `INSERT INTO Pile (deckId, name) VALUES (?, ?)` with its new id; the engine issues it
only after the lookup of `(deckId, name)` found no row. -/
def insertPile (s : Store) (d name : String) : Except DBError (Store × Nat) :=
  if s.deckExists d then
    .ok ({ s with piles := s.piles ++ [⟨s.seqPile + 1, d, name⟩],
                  seqPile := s.seqPile + 1 }, s.seqPile + 1)
  else .error .constraint

/-- `INSERT INTO PileCard (pileId, code, nextCardId) VALUES (?, ?, ?)` with its new id. -/
def insertPileCard (s : Store) (p : Nat) (c : String) (next : Option Nat) :
    Except DBError (Store × Nat) :=
  if s.pileExists p && s.fkPileCard next then
    .ok ({ s with pileCards := s.pileCards ++ [⟨s.seqPileCard + 1, p, c, next⟩],
                  seqPileCard := s.seqPileCard + 1 }, s.seqPileCard + 1)
  else .error .constraint

/-- `UPDATE PileCard SET nextCardId = ? WHERE id = ?`. -/
def setPileCardNext (s : Store) (i : Nat) (next : Option Nat) : Except DBError Store :=
  if !s.pileCardExists i || s.fkPileCard next then
    .ok { s with pileCards :=
      s.pileCards.map (fun r => if r.id = i then { r with nextCardId := next } else r) }
  else .error .constraint

/-- `UPDATE PileCard SET nextCardId = NULL WHERE pileId = ?`. -/
def clearPileLinks (s : Store) (p : Nat) : Store :=
  { s with pileCards :=
      s.pileCards.map (fun r => if r.pileId = p then { r with nextCardId := none } else r) }

/-- `DELETE FROM PileCard WHERE id = ?`; references to the row become NULL. -/
def deletePileCard (s : Store) (i : Nat) : Store :=
  { s with pileCards :=
      (s.pileCards.filter (fun r => r.id ≠ i)).map (fun r =>
        if r.nextCardId = some i then { r with nextCardId := none } else r) }

/-- `DELETE FROM PileCard WHERE pileId = ?`; references to deleted rows become NULL. -/
def deletePileCardsOf (s : Store) (p : Nat) : Store :=
  { s with pileCards :=
      (s.pileCards.filter (fun r => r.pileId ≠ p)).map (fun r =>
        match r.nextCardId with
        | none => r
        | some j =>
          if s.pileCards.any (fun r' => r'.pileId = p ∧ r'.id = j)
          then { r with nextCardId := none } else r) }

/-- Rewrite the `DeckEntry` rows of `(deckId, code)` that satisfy `guard`. -/
def updateEntry (s : Store) (d c : String) (guard : DeckEntryRow → Bool)
    (f : DeckEntryRow → DeckEntryRow) : Store :=
  { s with entries :=
      s.entries.map (fun e => if e.deckId = d ∧ e.code = c ∧ guard e = true then f e else e) }

/-- Number of rows an `UPDATE DeckEntry ... WHERE deckId = ? AND code = ? AND guard` hits. -/
def entriesAffected (s : Store) (d c : String) (guard : DeckEntryRow → Bool) : Nat :=
  (s.entries.filter (fun e => e.deckId = d ∧ e.code = c ∧ guard e = true)).length

/-- `INSERT INTO DeckEntry (deckId, code, total, inDeck) VALUES (?, ?, ?, ?)
ON CONFLICT(deckId, code) DO UPDATE SET total = excluded.total, inDeck = excluded.inDeck`. -/
def upsertEntry (s : Store) (d c : String) (n : Int) : Except DBError Store :=
  if s.entries.any (fun e => e.deckId = d ∧ e.code = c) then
    .ok (updateEntry s d c (fun _ => true) (fun e => { e with total := n, inDeck := n }))
  else if s.deckExists d then
    .ok { s with entries := s.entries ++ [⟨d, c, n, n, 0⟩] }
  else .error .constraint

/-! ## Reading counts -/

/-- Engine `CardsInDeck`:
`SELECT COUNT(*) FROM Deck INNER JOIN DeckCard ON Deck.deckId = DeckCard.deckId
WHERE Deck.deckId = ?`. -/
def CardsInDeck (s : Store) (d : String) : Nat :=
  (s.decks.filter (fun r => r.deckId = d)).length *
    (s.deckCards.filter (fun r => r.deckId = d)).length

/-- Engine `CardsInPile`:
`SELECT COUNT(*) FROM Pile INNER JOIN PileCard ON Pile.id = PileCard.pileId
WHERE Pile.deckId = ? AND Pile.name = ?`. -/
def CardsInPile (s : Store) (d name : String) : Nat :=
  ((s.piles.filter (fun p => p.deckId = d ∧ p.name = name)).map
    (fun p => (s.pileCards.filter (fun c => c.pileId = p.id)).length)).sum

/-- Engine `ListPiles`:
`SELECT name, COUNT(PileCard.id) FROM Pile LEFT JOIN PileCard ON Pile.id = PileCard.pileId
WHERE deckId = ? GROUP BY name`, as the list of the `(name, count)` groups. -/
def ListPiles (s : Store) (d : String) : List (String × Nat) :=
  (((s.piles.filter (fun p => p.deckId = d)).map (fun p => p.name)).dedup).map
    (fun n => (n, CardsInPile s d n))

/-! ## InsertDeck -/

/-- The alphabet `base62` of `deck.go`. -/
def base62 : List Char :=
  "abcdefghijklmnopqrstuvwxyzABCDEFGHIJKLMNOPQRSTUVWXYZ0123456789".toList

/-- Engine `randomBase62`; `bytes i` is the `i`-th byte delivered by `rand.Read`. -/
def randomBase62 (n : Nat) (bytes : Nat → Nat) : String :=
  String.mk ((List.range n).map (fun i => base62.getD ((bytes i % 256) % base62.length) 'a'))

/-- The loop `for tries := 0; tries < 30; tries++` of `InsertDeck`, with `fuel` tries left:
the first candidate that is no deck id yet, or the empty string. -/
def tokenLoop (s : Store) (rand : Nat → Nat → Nat) : Nat → Nat → String
  | 0, _ => ""
  | fuel + 1, tries =>
    let id := randomBase62 12 (rand tries)
    if (s.decks.filter (fun r => r.deckId = id)).length = 0 then id
    else tokenLoop s rand fuel (tries + 1)

/-- First loop of `InsertDeck`: one unlinked `DeckCard` row per card, ids collected. -/
def insertCards (s : Store) (d : String) : List String → Except DBError (Store × List Nat)
  | [] => .ok (s, [])
  | c :: cs =>
    match insertDeckCard s d c none with
    | .error e => .error e
    | .ok (s1, i) =>
      match insertCards s1 d cs with
      | .error e => .error e
      | .ok (s2, ids) => .ok (s2, i :: ids)

/-- The loop `for i := 0; i < len(ids)-1; i++ { UPDATE DeckCard SET nextId = ids[i+1]
WHERE id = ids[i] }` of `InsertDeck` and `ShuffleDeck`. -/
def linkCards (s : Store) : List Nat → Except DBError Store
  | i :: j :: rest =>
    match setDeckCardNext s i (some j) with
    | .error e => .error e
    | .ok s1 => linkCards s1 (j :: rest)
  | _ => .ok s

/-- Last loop of `InsertDeck`: one ledger row per key of `cardCounts`. -/
def insertEntries (s : Store) (d : String) (cards : List String) :
    List String → Except DBError Store
  | [] => .ok s
  | c :: cs =>
    match upsertEntry s d c (cards.count c) with
    | .error e => .error e
    | .ok s1 => insertEntries s1 d cards cs

/-- The guarded `UPDATE Deck SET topCardId = ? WHERE deckId = ?` that ends `InsertDeck`
(`if len(cardIDs) > 0`), `ReturnAllDrawn` and `ReturnAllFromPile` (`if topCardId.Valid`). -/
def commitTop (s : Store) (d : String) : Option Nat → Except DBError Store
  | none => .ok s
  | some i => setTopCard s d (some i)

/-- The transaction of `InsertDeck`.  Go ranges over the keys of `cardCounts` in no fixed
order; the rows written are the same in any order. -/
def insertDeckTx (s : Store) (deckToken : String) (cards : List String) :
    Except DBError (Store × String) :=
  match insertDeckRow s deckToken with
  | .error e => .error e
  | .ok s1 =>
    match insertCards s1 deckToken cards with
    | .error e => .error e
    | .ok (s2, cardIDs) =>
      match linkCards s2 cardIDs with
      | .error e => .error e
      | .ok s3 =>
        match commitTop s3 deckToken cardIDs.head? with
        | .error e => .error e
        | .ok s4 =>
          match insertEntries s4 deckToken cards cards.dedup with
          | .error e => .error e
          | .ok s5 => .ok (s5, deckToken)

/-- Engine `InsertDeck`.  `rand t i` is byte `i` of the candidate drawn at try `t`. -/
def InsertDeck (s : Store) (rand : Nat → Nat → Nat) (cards : List String) :
    Store × Except DBError String :=
  if tokenLoop s rand 30 0 = "" then (s, .error .idExhausted)
  else atomically s (insertDeckTx s (tokenLoop s rand 30 0) cards)

/-! ## DrawCards -/

/-- `SELECT DeckCard.id, DeckCard.code, DeckCard.nextId FROM DeckCard INNER JOIN Deck
ON DeckCard.id = Deck.topCardId WHERE Deck.deckId = ?`. -/
def topCard (s : Store) (d : String) : Option DeckCardRow :=
  match findDeck s d with
  | none => none
  | some dk =>
    match dk.topCardId with
    | none => none
    | some i => s.deckCards.find? (fun r => r.id = i)

/-- The loop of `DrawCards` with `n` iterations left. -/
def drawLoop : Nat → Store → String → Int → List String →
    Except DBError (Store × List String × Int)
  | 0, s, _, remaining, codes => .ok (s, codes, remaining)
  | n + 1, s, d, remaining, codes =>
    match topCard s d with
    | none => .ok (s, codes, remaining)
    | some r =>
      let s1 := updateEntry s d r.code (fun _ => true)
        (fun e => { e with inDeck := e.inDeck - 1 })
      match setTopCard s1 d r.nextId with
      | .error e => .error e
      | .ok s2 => drawLoop n (deleteDeckCard s2 r.id) d (remaining - 1) (codes ++ [r.code])

/-- Engine `DrawCards`: the codes drawn and the number of cards left. -/
def DrawCards (s : Store) (d : String) (amount : Int) :
    Store × Except DBError (List String × Int) :=
  let remaining : Int := (s.deckCards.filter (fun r => r.deckId = d)).length
  let amount := if remaining < amount then remaining else amount
  if amount = 0 then (s, .ok ([], remaining))
  else atomically s (drawLoop amount.toNat s d remaining [])

/-! ## Piles -/

/-- The traversal loop of `GetPileCards`; it stops by itself, `fuel` only makes that
evident. -/
def walkPile (cards : List PileCardRow) : Nat → Nat → List Nat → List String →
    Except DBError (List String)
  | 0, _, _, _ => .error .fuel
  | fuel + 1, cur, visited, codes =>
    if cur ∈ visited then .error .circular
    else
      match cards.find? (fun c => c.id = cur) with
      | none => .error .brokenList
      | some c =>
        match c.nextCardId with
        | none => .ok (codes ++ [c.code])
        | some nx => walkPile cards fuel nx (cur :: visited) (codes ++ [c.code])

/-- Engine `GetPileCards`.  Go ranges over the map `cards` in no fixed order and takes the
first unreferenced id it meets: `choice` selects it among the unreferenced rows. -/
def GetPileCards (s : Store) (d name : String) (choice : Nat) :
    Except DBError (List String) :=
  match findPile s d name with
  | none => .error .pileNotFound
  | some p =>
    let cards := s.pileCards.filter (fun c => c.pileId = p.id)
    if cards.length = 0 then .ok []
    else
      let heads := cards.filter
        (fun c => !(cards.any (fun c' => c'.nextCardId = some c.id)))
      match heads[choice % heads.length]? with
      | none => .error .noTopCard
      | some h => walkPile cards (cards.length + 1) h.id [] []

/-- `SELECT id, code, nextCardId FROM PileCard WHERE pileId = ? AND id NOT IN
(SELECT nextCardId FROM PileCard WHERE nextCardId IS NOT NULL)`, first row. -/
def pileHead (s : Store) (p : Nat) : Option PileCardRow :=
  s.pileCards.find?
    (fun c => c.pileId = p ∧ ¬ (s.pileCards.any (fun c' => c'.nextCardId = some c.id)) = true)

/-- `SELECT id FROM PileCard WHERE pileId = ? AND nextCardId = ?`, first row. -/
def pilePrev (s : Store) (p i : Nat) : Option PileCardRow :=
  s.pileCards.find? (fun c => c.pileId = p ∧ c.nextCardId = some i)

/-- First loop of `InsertIntoPile`: check every code against the running ledger and
increment its `inPile`. -/
def checkCodes (s : Store) (d : String) : List String → Except DBError Store
  | [] => .ok s
  | c :: cs =>
    match findEntry s d c with
    | none => .error .cardNotFound
    | some e =>
      if e.total < e.inDeck + e.inPile + 1 then .error .cardNotAvailable
      else checkCodes
        (updateEntry s d c (fun _ => true) (fun e => { e with inPile := e.inPile + 1 })) d cs

/-- Second loop of `InsertIntoPile`: every code becomes the new head of the pile. -/
def pushPileCards (s : Store) (p : Nat) : Option Nat → List String → Except DBError Store
  | _, [] => .ok s
  | top, c :: cs =>
    match insertPileCard s p c top with
    | .error e => .error e
    | .ok (s1, i) => pushPileCards s1 p (some i) cs

/-- `SELECT id FROM Pile WHERE deckId = ? AND name = ?`, then `INSERT INTO Pile` when the
lookup finds no row. -/
def pileIdFor (s : Store) (d name : String) : Except DBError (Store × Nat) :=
  match findPile s d name with
  | some p => .ok (s, p.id)
  | none => insertPile s d name

/-- The transaction of `InsertIntoPile`. -/
def insertIntoPileTx (s : Store) (name d : String) (codes : List String) :
    Except DBError Store :=
  match checkCodes s d codes with
  | .error e => .error e
  | .ok s1 =>
    match pileIdFor s1 d name with
    | .error e => .error e
    | .ok (s2, pileId) =>
      pushPileCards s2 pileId ((pileHead s2 pileId).map (fun c => c.id)) codes

/-- Engine `InsertIntoPile`: on success the counts read back by `CardsInPile` and
`CardsInDeck`. -/
def InsertIntoPile (s : Store) (name d : String) (codes : List String) :
    Store × Except DBError (Nat × Nat) :=
  match insertIntoPileTx s name d codes with
  | .error e => (s, .error e)
  | .ok s' => (s', .ok (CardsInPile s' d name, CardsInDeck s' d))

/-- The guarded `if prevId.Valid { UPDATE PileCard SET nextCardId = ? WHERE id = ? }`. -/
def relinkPrev (s : Store) (prev : Option PileCardRow) (nextId : Option Nat) :
    Except DBError Store :=
  match prev with
  | some pr => setPileCardNext s pr.id nextId
  | none => .ok s

/-- The transaction shared by `DrawFromPile` and `DrawSpecificFromPile`: relink the
predecessor, delete the card, decrement `inPile`. -/
def unlinkPileCard (s : Store) (d : String) (prev : Option PileCardRow) (cardId : Nat)
    (code : String) (nextId : Option Nat) : Except DBError Store :=
  match relinkPrev s prev nextId with
  | .error e => .error e
  | .ok s1 =>
    .ok (updateEntry (deletePileCard s1 cardId) d code (fun e => decide (e.inPile > 0))
      (fun e => { e with inPile := e.inPile - 1 }))

/-- The `switch method` of `DrawFromPile`: id, code and scanned `nextCardId` of the card to
draw (`bottom` does not scan `nextCardId`, which stays NULL); `random` takes
`pick % len(cards)` for the value of `mathrand.Intn(len(cards))`. -/
def selectPileCard (s : Store) (p : Nat) (method : String) (pick : Nat) :
    Except DBError (Nat × String × Option Nat) :=
  if method = "top" then
    match pileHead s p with
    | none => .error .pileEmpty
    | some c => .ok (c.id, c.code, c.nextCardId)
  else if method = "bottom" then
    match s.pileCards.find? (fun c => c.pileId = p ∧ c.nextCardId = none) with
    | none => .error .pileEmpty
    | some c => .ok (c.id, c.code, none)
  else if method = "random" then
    match (s.pileCards.filter (fun c => c.pileId = p))[pick %
      (s.pileCards.filter (fun c => c.pileId = p)).length]? with
    | none => .error .pileEmpty
    | some c => .ok (c.id, c.code, c.nextCardId)
  else .error .invalidMethod

/-- Engine `DrawFromPile`; method `random` takes `pick % len(cards)` for the value of
`mathrand.Intn(len(cards))`. -/
def DrawFromPile (s : Store) (d name method : String) (pick : Nat) :
    Store × Except DBError String :=
  match findPile s d name with
  | none => (s, .error .pileNotFound)
  | some p =>
    match selectPileCard s p.id method pick with
    | .error e => (s, .error e)
    | .ok (cardId, cardCode, nextId) =>
      atomically s (
        match unlinkPileCard s d (pilePrev s p.id cardId) cardId cardCode nextId with
        | .error e => .error e
        | .ok s1 => .ok (s1, cardCode))

/-- Engine `DrawSpecificFromPile`. -/
def DrawSpecificFromPile (s : Store) (d name code : String) :
    Store × Except DBError String :=
  match findPile s d name with
  | none => (s, .error .noRows)
  | some p =>
    match s.pileCards.find? (fun c => c.pileId = p.id ∧ c.code = code) with
    | none => (s, .error .cardNotInPile)
    | some c =>
      atomically s (
        match unlinkPileCard s d (pilePrev s p.id c.id) c.id code c.nextCardId with
        | .error e => .error e
        | .ok s1 => .ok (s1, code))

/-! ## Returning cards to the deck -/

/-- `SELECT topCardId FROM Deck WHERE deckId = ?` scanned into a `sql.NullInt64` whose scan
error is dropped: no row and a NULL column both leave it invalid. -/
def deckTop (s : Store) (d : String) : Option Nat :=
  (findDeck s d).bind (fun r => r.topCardId)

/-- Insert the codes one after another, each as the new first node in front of the last. -/
def pushDeckCards (s : Store) (d : String) :
    Option Nat → List String → Except DBError (Store × Option Nat)
  | top, [] => .ok (s, top)
  | top, c :: cs =>
    match insertDeckCard s d c top with
    | .error e => .error e
    | .ok (s1, i) => pushDeckCards s1 d (some i) cs

/-- Engine `ReturnSpecificDrawn`. -/
def ReturnSpecificDrawn (s : Store) (d code : String) : Store × Except DBError String :=
  atomically s (
    match findEntry s d code with
    | none => .error .cardNotFound
    | some e =>
      if e.total - e.inDeck - e.inPile ≤ 0 then .error .notDrawn
      else
        match insertDeckCard s d code (deckTop s d) with
        | .error err => .error err
        | .ok (s1, newCardId) =>
          match setTopCard s1 d (some newCardId) with
          | .error err => .error err
          | .ok s2 =>
            .ok (updateEntry s2 d code (fun _ => true)
              (fun e => { e with inDeck := e.inDeck + 1 }), code))

/-- Engine `ReturnAllDrawn`. -/
def ReturnAllDrawn (s : Store) (d : String) : Store × Except DBError Unit :=
  atomically s (
    let toReturn := (s.entries.filter (fun e => e.deckId = d)).filter
      (fun e => decide (e.total - e.inDeck - e.inPile > 0))
    let pushes := toReturn.reverse.flatMap
      (fun e => List.replicate (e.total - e.inDeck - e.inPile).toNat e.code)
    match pushDeckCards s d (deckTop s d) pushes with
    | .error err => .error err
    | .ok (s1, top) =>
      match commitTop s1 d top with
      | .error err => .error err
      | .ok s2 =>
        .ok ({ s2 with entries := s2.entries.map (fun e =>
                if e.deckId = d then { e with inDeck := e.total - e.inPile } else e) }, ()))

/-- Engine `ReturnSpecificFromPile`. -/
def ReturnSpecificFromPile (s : Store) (d name code : String) :
    Store × Except DBError String :=
  match findPile s d name with
  | none => (s, .error .pileNotFound)
  | some p =>
    match s.pileCards.find? (fun c => c.pileId = p.id ∧ c.code = code) with
    | none => (s, .error .cardNotInPile)
    | some c =>
      atomically s (
        match relinkPrev s (pilePrev s p.id c.id) c.nextCardId with
        | .error e => .error e
        | .ok s1 =>
          let s2 := deletePileCard s1 c.id
          let guard := fun (e : DeckEntryRow) => decide (e.inPile > 0)
          let s3 := updateEntry s2 d code guard
            (fun e => { e with inPile := e.inPile - 1, inDeck := e.inDeck + 1 })
          if entriesAffected s2 d code guard = 0 then .error .inconsistentEntry
          else
            match insertDeckCard s3 d code (deckTop s3 d) with
            | .error e => .error e
            | .ok (s4, newCardId) =>
              match setTopCard s4 d (some newCardId) with
              | .error e => .error e
              | .ok s5 => .ok (s5, code))

/-- The loop over `codeCounts` of `ReturnAllFromPile`: move `cnt` units of every code from
`inPile` to `inDeck`, failing when no ledger row can give them. -/
def moveCounts (s : Store) (d : String) (codes : List String) :
    List String → Except DBError Store
  | [] => .ok s
  | c :: cs =>
    let cnt : Int := codes.count c
    let guard := fun (e : DeckEntryRow) => decide (e.inPile ≥ cnt)
    if entriesAffected s d c guard = 0 then .error .inconsistentEntry
    else moveCounts
      (updateEntry s d c guard
        (fun e => { e with inPile := e.inPile - cnt, inDeck := e.inDeck + cnt }))
      d codes cs

/-- `SELECT code FROM PileCard WHERE pileId = ? ORDER BY id ASC`. -/
def pileCodesById (s : Store) (p : Nat) : List String :=
  ((s.pileCards.filter (fun c => c.pileId = p)).insertionSort
    (fun a b => a.id ≤ b.id)).map (fun c => c.code)

/-- Engine `ReturnAllFromPile`.  Go ranges over the keys of `codeCounts` in no fixed order;
the updates touch different ledger rows, so the order does not show. -/
def ReturnAllFromPile (s : Store) (d name : String) : Store × Except DBError Unit :=
  match findPile s d name with
  | none => (s, .error .pileNotFound)
  | some p =>
    let codes := pileCodesById s p.id
    atomically s (
      match moveCounts s d codes codes.dedup with
      | .error e => .error e
      | .ok s1 =>
        let s2 := deletePileCardsOf s1 p.id
        match pushDeckCards s2 d (deckTop s2 d) codes.reverse with
        | .error e => .error e
        | .ok (s3, top) =>
          match commitTop s3 d top with
          | .error e => .error e
          | .ok s4 => .ok (s4, ()))

/-! ## Shuffling and reordering -/

/-- The callback `cards[i], cards[j] = cards[j], cards[i]`. -/
def swapAt {α : Type} (xs : List α) (i j : Nat) : List α :=
  match xs[i]?, xs[j]? with
  | some a, some b => (xs.set i b).set j a
  | _, _ => xs

/-- The loop of `mathrand.Shuffle`: for `i` from the given index down to 1, swap `i` with
`j = Intn(i + 1)`, the value `rnd i % (i + 1)`. -/
def shuffleFrom {α : Type} (rnd : Nat → Nat) : Nat → List α → List α
  | 0, xs => xs
  | i + 1, xs => shuffleFrom rnd i (swapAt xs (i + 1) (rnd (i + 1) % (i + 2)))

/-- The call `mathrand.Shuffle(len(cards), swap)`. -/
def shuffle {α : Type} (rnd : Nat → Nat) (xs : List α) : List α :=
  shuffleFrom rnd (xs.length - 1) xs

/-- Engine `ShuffleDeck`: the codes in their new order. -/
def ShuffleDeck (s : Store) (d : String) (rnd : Nat → Nat) :
    Store × Except DBError (List String) :=
  if (s.decks.filter (fun r => r.deckId = d)).length = 0 then (s, .error .deckNotFound)
  else
    let cards := shuffle rnd (s.deckCards.filter (fun r => r.deckId = d))
    match cards.getLast? with
    | none => (s, .ok [])
    | some last =>
      atomically s (
        match linkCards s (cards.map (fun r => r.id)) with
        | .error e => .error e
        | .ok s1 =>
          match setDeckCardNext s1 last.id none with
          | .error e => .error e
          | .ok s2 =>
            match setTopCardShuffled s2 d ((cards.head?).map (fun r => r.id)) with
            | .error e => .error e
            | .ok s3 => .ok (s3, cards.map (fun r => r.code)))

/-- The loop `UPDATE PileCard SET nextCardId = cards[i+1] WHERE id = cards[i]`. -/
def linkPileCards (s : Store) : List Nat → Except DBError Store
  | i :: j :: rest =>
    match setPileCardNext s i (some j) with
    | .error e => .error e
    | .ok s1 => linkPileCards s1 (j :: rest)
  | _ => .ok s

/-- The loop over the piles in `ShuffleAllPiles`; `results` collects `(name, count)`. -/
def shufflePiles (rnd : Nat → Nat → Nat) (s : Store) (results : List (String × Nat)) :
    List PileRow → Except DBError (Store × List (String × Nat))
  | [] => .ok (s, results)
  | p :: ps =>
    let ids := ((s.pileCards.filter (fun c => c.pileId = p.id)).insertionSort
      (fun a b => a.id ≤ b.id)).map (fun c => c.id)
    if ids.length = 0 then shufflePiles rnd s (results ++ [(p.name, 0)]) ps
    else
      let cards := shuffle (rnd p.id) ids
      match linkPileCards (clearPileLinks s p.id) cards with
      | .error e => .error e
      | .ok s1 => shufflePiles rnd s1 (results ++ [(p.name, cards.length)]) ps

/-- Engine `ShuffleAllPiles`; `rnd p` drives the shuffle of the pile with id `p`. -/
def ShuffleAllPiles (s : Store) (d : String) (rnd : Nat → Nat → Nat) :
    Store × Except DBError (List (String × Nat)) :=
  atomically s (shufflePiles rnd s [] (s.piles.filter (fun p => p.deckId = d)))

/-- The loop over `codes` in `UpdatePileOrder`; every statement is committed at once. -/
def orderLoop (p : Nat) : Store → Option Nat → List String → Store × Except DBError Unit
  | s, _, [] => (s, .ok ())
  | s, prevId, code :: rest =>
    match s.pileCards.find? (fun c => c.pileId = p ∧ c.code = code) with
    | none => (s, .error .noRows)
    | some c =>
      match prevId with
      | none => orderLoop p s (some c.id) rest
      | some pr =>
        match setPileCardNext s pr (some c.id) with
        | .error e => (s, .error e)
        | .ok s1 => orderLoop p s1 (some c.id) rest

/-- Engine `UpdatePileOrder`. -/
def UpdatePileOrder (s : Store) (d name : String) (codes : List String) :
    Store × Except DBError Unit :=
  match findPile s d name with
  | none => (s, .error .noRows)
  | some p => orderLoop p.id (clearPileLinks s p.id) none codes

/-! ## Card lists of `models/deck.go` -/

/-- The fields of `models.Deck` that `NewMultiDeck` sets. -/
structure Deck where
  Cards : List String
  NPackets : Int
deriving DecidableEq, Repr

/-- The 52 codes of one packet, values outermost, and the two jokers when asked for. -/
def packetCodes (jokers : Bool) : List String :=
  (["A", "2", "3", "4", "5", "6", "7", "8", "9", "10", "J", "Q", "K"].flatMap
    (fun value => ["S", "H", "D", "C"].map (fun suit => value ++ suit))) ++
    (if jokers then ["ZB", "ZR"] else [])

/-- Function `NewMultiDeck` of `models/deck.go`. -/
def NewMultiDeck (number : Int) (jokers : Bool) : Deck :=
  { Cards := (List.range number.toNat).flatMap (fun _ => packetCodes jokers),
    NPackets := number }

/-- The codes carried by the result of a `DrawCards` call, none for an error. -/
def drawnCodes (r : Except DBError (List String × Int)) : List String :=
  match r with
  | .ok (codes, _) => codes
  | .error _ => []

/-- Call `DrawCards(deck, 1)` `m` times, one call after the other: the final store and the
results in call order. -/
def drawOneByOne : Nat → Store → String → Store × List (Except DBError (List String × Int))
  | 0, s, _ => (s, [])
  | m + 1, s, d =>
    ((drawOneByOne m (DrawCards s d 1).1 d).1,
      (DrawCards s d 1).2 :: (drawOneByOne m (DrawCards s d 1).1 d).2)

/-! ## Linked lists stored as rows

A list is stored as rows that carry their own id (`key`) and the id of the row that follows
(`nxt`).  `Linked top rows` says that `rows`, read left to right, is what a reader finds who
starts at the pointer `top` and follows `nxt` until NULL. -/

section Chain

variable {α : Type} (key : α → Nat) (nxt : α → Option Nat)

/-- The rows are linked head to tail, starting at the pointer `top`. -/
def Linked : Option Nat → List α → Prop
  | top, [] => top = none
  | top, a :: as => top = some (key a) ∧ Linked (nxt a) as

/-- Follow the pointers from `top` through the table `tbl`, for at most `fuel` rows. -/
def walk (tbl : List α) : Nat → Option Nat → Option (List α)
  | _, none => some []
  | 0, some _ => none
  | fuel + 1, some i =>
    match tbl.find? (fun a => key a = i) with
    | none => none
    | some a => (walk tbl fuel (nxt a)).map (fun as => a :: as)

/-- Read the list that starts at `top` and check that it is made of exactly the rows
`mine`, each met once. -/
def readList [DecidableEq α] (tbl mine : List α) (top : Option Nat) : Option (List α) :=
  match walk key nxt tbl mine.length top with
  | none => none
  | some rows =>
    if rows.length = mine.length ∧ (∀ a ∈ rows, a ∈ mine) ∧ (rows.map key).Nodup
    then some rows else none

end Chain

/-- The rows of deck `d` in list order, when its list is well formed: following `nextId`
from `Deck.topCardId` meets every `DeckCard` row of the deck exactly once and ends at NULL. -/
def deckRows (s : Store) (d : String) : Option (List DeckCardRow) :=
  match findDeck s d with
  | none => none
  | some dk =>
    readList (fun r => r.id) (fun r => r.nextId) s.deckCards
      (s.deckCards.filter (fun r => r.deckId = d)) dk.topCardId

/-- The codes of deck `d` read head to tail, when its list is well formed. -/
def deckList (s : Store) (d : String) : Option (List String) :=
  (deckRows s d).map (fun rows => rows.map (fun r => r.code))

/-- The rows of the pile with id `p` in list order, when its list is well formed: following
`nextCardId` from the head the engine finds (`pileHead`) meets every `PileCard` row of the
pile exactly once and ends at NULL. -/
def pileRows (s : Store) (p : Nat) : Option (List PileCardRow) :=
  readList (fun c => c.id) (fun c => c.nextCardId) s.pileCards
    (s.pileCards.filter (fun c => c.pileId = p)) ((pileHead s p).map (fun c => c.id))

/-- The codes of pile `(d, name)` read head to tail, when the pile exists and its list is
well formed. -/
def pileList (s : Store) (d name : String) : Option (List String) :=
  match findPile s d name with
  | none => none
  | some p => (pileRows s p.id).map (fun rows => rows.map (fun c => c.code))

/-! ## Vocabulary of the statements

Well-formedness of the stored lists, the ledgers expected after each operation, the
invariant of reachable stores, and the concrete stores the statements are evaluated on. -/

/-- The list of deck `d` is well formed and consists of `rows`, in a table with unique ids. -/
structure DeckAt (s : Store) (d : String) (rows : List DeckCardRow) : Prop where
  ids : (s.deckCards.map (fun r => r.id)).Nodup
  deck : ∃ dk, findDeck s d = some dk ∧
    Linked (fun r => r.id) (fun r => r.nextId) dk.topCardId rows
  perm : rows.Perm (s.deckCards.filter (fun r => r.deckId = d))

/-- What a draw leaves untouched, and what it does to the ledger: `drawn` are the codes
taken from deck `d`. -/
structure DrawFrame (s s' : Store) (d : String) (drawn : List String) : Prop where
  entries : s'.entries = s.entries.map (fun e =>
    if e.deckId = d then { e with inDeck := e.inDeck - drawn.count e.code } else e)
  piles : s'.piles = s.piles
  pileCards : s'.pileCards = s.pileCards
  seqDeckCard : s'.seqDeckCard = s.seqDeckCard
  seqPile : s'.seqPile = s.seqPile
  seqPileCard : s'.seqPileCard = s.seqPileCard
  deckIds : s'.decks.map (fun r => r.deckId) = s.decks.map (fun r => r.deckId)
  cardIds : (s'.deckCards.map (fun r => r.id)).Sublist (s.deckCards.map (fun r => r.id))

/-- The store after the iteration of the `DrawCards` loop that takes row `r` off deck `d`. -/
def popTop (s : Store) (d : String) (r : DeckCardRow) : Store :=
  deleteDeckCard
    { updateEntry s d r.code (fun _ => true) (fun e => { e with inDeck := e.inDeck - 1 }) with
      decks := s.decks.map
        (fun x => if x.deckId = d then { x with topCardId := r.nextId } else x) } r.id

/-- The ledger after the codes `drawn` have left the list of deck `d`. -/
def ledgerAfterDraw (es : List DeckEntryRow) (d : String) (drawn : List String) :
    List DeckEntryRow :=
  es.map (fun e => if e.deckId = d then { e with inDeck := e.inDeck - drawn.count e.code } else e)

/-- A two-deck store: deck `"d"` holds `AS, KD, AS` from its top, deck `"e"` holds `2C`. -/
def drawWitnessStore : Store :=
  { decks := [⟨"d", some 3, false⟩, ⟨"e", some 4, false⟩],
    deckCards := [⟨1, "d", "AS", none⟩, ⟨2, "d", "KD", some 1⟩, ⟨3, "d", "AS", some 2⟩,
      ⟨4, "e", "2C", none⟩],
    piles := [], pileCards := [],
    entries := [⟨"d", "AS", 2, 2, 0⟩, ⟨"d", "KD", 1, 1, 0⟩, ⟨"e", "2C", 1, 1, 0⟩],
    seqDeckCard := 4, seqPile := 0, seqPileCard := 0 }

/-- The rows written by the first loop of `InsertDeck`: ids follow the sequence `seq`. -/
def freshRows (seq : Nat) (d : String) : List String → List DeckCardRow
  | [] => []
  | c :: cs => ⟨seq + 1, d, c, none⟩ :: freshRows (seq + 1) d cs

/-- The same rows once the second loop has linked each to the next. -/
def chainRows (seq : Nat) (d : String) : List String → List DeckCardRow
  | [] => []
  | [c] => [⟨seq + 1, d, c, none⟩]
  | c :: c' :: cs => ⟨seq + 1, d, c, some (seq + 2)⟩ :: chainRows (seq + 1) d (c' :: cs)

/-- The store `InsertDeck` commits when it creates deck `tok` from `cards`. -/
def insertedStore (s : Store) (tok : String) (cards : List String) : Store :=
  { s with
    decks := s.decks ++
      [⟨tok, ((chainRows s.seqDeckCard tok cards).head?).map (fun r => r.id), false⟩],
    deckCards := s.deckCards ++ chainRows s.seqDeckCard tok cards,
    entries := s.entries ++
      cards.dedup.map (fun c => ⟨tok, c, cards.count c, cards.count c, 0⟩),
    seqDeckCard := s.seqDeckCard + cards.length }

/-- Every code of `codes` has a ledger row in deck `d` with at least as many units out of
the deck and out of every pile as the code occurs in `codes`. -/
def Available (s : Store) (d : String) (codes : List String) : Prop :=
  ∀ c ∈ codes, ∃ e, findEntry s d c = some e ∧
    (codes.count c : Int) ≤ e.total - e.inDeck - e.inPile

/-- The ledger after the codes `codes` have entered piles of deck `d`. -/
def ledgerAfterInsert (es : List DeckEntryRow) (d : String) (codes : List String) :
    List DeckEntryRow :=
  es.map (fun e => if e.deckId = d then { e with inPile := e.inPile + codes.count e.code } else e)

/-- The store after the first loop of `InsertIntoPile` has accepted the code `c`. -/
def bumpPile (s : Store) (d c : String) : Store :=
  updateEntry s d c (fun _ => true) (fun e => { e with inPile := e.inPile + 1 })

/-- The rows of pile `p` are `rows`, linked from the pointer `top`, in a table whose ids
are unique and not above the sequence. -/
structure PileLinked (s : Store) (p : Nat) (top : Option Nat) (rows : List PileCardRow) :
    Prop where
  ids : (s.pileCards.map (fun c => c.id)).Nodup
  seq : ∀ c ∈ s.pileCards, c.id ≤ s.seqPileCard
  linked : Linked (fun c => c.id) (fun c => c.nextCardId) top rows
  perm : rows.Perm (s.pileCards.filter (fun c => c.pileId = p))

/-- What pushing cards on pile `p` leaves untouched. -/
structure PushFrame (s s' : Store) (p : Nat) : Prop where
  decks : s'.decks = s.decks
  deckCards : s'.deckCards = s.deckCards
  piles : s'.piles = s.piles
  entries : s'.entries = s.entries
  seqDeckCard : s'.seqDeckCard = s.seqDeckCard
  seqPile : s'.seqPile = s.seqPile
  others : ∀ q, q ≠ p →
    s'.pileCards.filter (fun c => c.pileId = q) = s.pileCards.filter (fun c => c.pileId = q)

/-- A store in which deck `"d"` has two `AS` and one `KD` drawn, and `2C` still in the deck. -/
def pileWitnessStore : Store :=
  { decks := [⟨"d", some 4, false⟩],
    deckCards := [⟨4, "d", "2C", none⟩],
    piles := [⟨1, "d", "discard"⟩],
    pileCards := [⟨1, 1, "KD", none⟩, ⟨2, 1, "AS", some 1⟩],
    entries := [⟨"d", "AS", 3, 0, 1⟩, ⟨"d", "KD", 2, 0, 1⟩, ⟨"d", "2C", 1, 1, 0⟩],
    seqDeckCard := 4, seqPile := 1, seqPileCard := 2 }

/-- The ledger after one unit of `code` has left a pile of deck `d`. -/
def ledgerAfterPileDraw (es : List DeckEntryRow) (d code : String) : List DeckEntryRow :=
  es.map (fun e =>
    if e.deckId = d ∧ e.code = code ∧ decide (e.inPile > 0) = true
    then { e with inPile := e.inPile - 1 } else e)

/-- What taking the row `c` out of the list `pre ++ c :: post` of pile `p` does. -/
structure Unlinked (s s1 : Store) (d : String) (p : Nat) (pre : List PileCardRow)
    (c : PileCardRow) (post : List PileCardRow) : Prop where
  ids : (s1.pileCards.map (fun c => c.id)).Nodup
  rows : ∃ top' rows', Linked (fun c : PileCardRow => c.id) (fun c => c.nextCardId) top' rows' ∧
    rows'.Perm (s1.pileCards.filter (fun c => c.pileId = p)) ∧
    rows'.map (fun c => c.code) = (pre ++ post).map (fun c => c.code)
  piles : s1.piles = s.piles
  decks : s1.decks = s.decks
  deckCards : s1.deckCards = s.deckCards
  entries : s1.entries = ledgerAfterPileDraw s.entries d c.code

/-- The list of the pile with id `p` is well formed and consists of `rows`: they are linked
from the head the engine finds, in a table with unique ids. -/
structure PileAt (s : Store) (p : Nat) (rows : List PileCardRow) : Prop where
  ids : (s.pileCards.map (fun c => c.id)).Nodup
  linked : Linked (fun c : PileCardRow => c.id) (fun c => c.nextCardId)
    ((pileHead s p).map (fun c => c.id)) rows
  perm : rows.Perm (s.pileCards.filter (fun c => c.pileId = p))

/-- A store whose pile `"discard"` of deck `"d"` reads `AS, KD, 2C` from its top. -/
def pileDrawStore : Store :=
  { decks := [⟨"d", none, false⟩],
    deckCards := [],
    piles := [⟨1, "d", "discard"⟩],
    pileCards := [⟨1, 1, "2C", none⟩, ⟨2, 1, "KD", some 1⟩, ⟨3, 1, "AS", some 2⟩],
    entries := [⟨"d", "AS", 1, 0, 1⟩, ⟨"d", "KD", 1, 0, 1⟩, ⟨"d", "2C", 1, 0, 1⟩],
    seqDeckCard := 3, seqPile := 1, seqPileCard := 3 }

/-- The rows `pushDeckCards` appends: each new row points to the one pushed before it. -/
def pushedDeckRows (seq : Nat) (d : String) : Option Nat → List String → List DeckCardRow
  | _, [] => []
  | top, c :: cs => ⟨seq + 1, d, c, top⟩ :: pushedDeckRows (seq + 1) d (some (seq + 1)) cs

/-- The head pointer `pushDeckCards` ends with. -/
def pushedTop (seq : Nat) : Option Nat → List String → Option Nat
  | top, [] => top
  | _, _ :: cs => pushedTop (seq + 1) (some (seq + 1)) cs

/-- The ledger after the units `codes` have moved from piles of deck `d` to its list. -/
def ledgerAfterReturn (es : List DeckEntryRow) (d : String) (codes : List String) :
    List DeckEntryRow :=
  es.map (fun e =>
    if e.deckId = d then
      { e with inPile := e.inPile - codes.count e.code, inDeck := e.inDeck + codes.count e.code }
    else e)

/-- The store `ReturnAllFromPile` commits when it empties the pile with id `p` of deck `d`. -/
def returnAllStore (s : Store) (d : String) (p : Nat) : Store :=
  { decks := (s.decks.map (fun r =>
      if r.deckId = d ∧
        pushedTop s.seqDeckCard (deckTop s d) (pileCodesById s p).reverse ≠ none
      then { r with topCardId :=
        (pushedTop s.seqDeckCard (deckTop s d) (pileCodesById s p).reverse) }
      else r)),
    deckCards := (s.deckCards ++
      pushedDeckRows s.seqDeckCard d (deckTop s d) (pileCodesById s p).reverse),
    piles := s.piles,
    pileCards := (deletePileCardsOf s p).pileCards,
    entries := ledgerAfterReturn s.entries d (pileCodesById s p),
    seqDeckCard := s.seqDeckCard + (pileCodesById s p).length,
    seqPile := s.seqPile,
    seqPileCard := s.seqPileCard }

/-- A deck with nothing outstanding whose pile `"discard"` already holds `AS, KD`. -/
def usedPileStore : Store :=
  { decks := [⟨"d", some 4, false⟩],
    deckCards := [⟨4, "d", "2C", none⟩],
    piles := [⟨1, "d", "discard"⟩],
    pileCards := [⟨1, 1, "KD", none⟩, ⟨2, 1, "AS", some 1⟩],
    entries := [⟨"d", "AS", 1, 0, 1⟩, ⟨"d", "KD", 1, 0, 1⟩, ⟨"d", "2C", 1, 1, 0⟩],
    seqDeckCard := 4, seqPile := 1, seqPileCard := 2 }

/-- The store after `DrawCards(deck, amount)`, `InsertIntoPile` of the codes drawn into
pile `name`, and `ReturnAllFromPile(deck, name)`. -/
def drawInsertReturn (s : Store) (d name : String) (amount : Int) : Store :=
  (ReturnAllFromPile
    (InsertIntoPile (DrawCards s d amount).1 name d (drawnCodes (DrawCards s d amount).2)).1
    d name).1

/-- The number of cards `DrawCards` takes from a list of `n` cards when asked for `amount`. -/
def drawCount (amount : Int) (n : Nat) : Nat :=
  min (max amount 0).toNat n

/-- The `(deckId, code)` of every `DeckCard` row. -/
def cardKinds (s : Store) : List (String × String) :=
  s.deckCards.map (fun r => (r.deckId, r.code))

/-- A pointer that may be stored as the head of deck `d` or as the successor of one of its
rows: it is below the id sequence and every row carrying that id belongs to deck `d`. -/
def OwnPtr (s : Store) (d : String) (top : Option Nat) : Prop :=
  ∀ i, top = some i → i ≤ s.seqDeckCard ∧ ∀ r ∈ s.deckCards, r.id = i → r.deckId = d

/-- What the schema and the engine keep true of the deck tables and of the ledger's keys. -/
structure Sound (s : Store) : Prop where
  keys : (s.entries.map (fun e => (e.deckId, e.code))).Nodup
  entryDeck : ∀ e ∈ s.entries, s.deckExists e.deckId = true
  cardDeck : ∀ r ∈ s.deckCards, s.deckExists r.deckId = true
  cardSeq : ∀ r ∈ s.deckCards, r.id ≤ s.seqDeckCard
  idDeck : ∀ r ∈ s.deckCards, ∀ r' ∈ s.deckCards, r.id = r'.id → r.deckId = r'.deckId
  topOwn : ∀ dk ∈ s.decks, OwnPtr s dk.deckId dk.topCardId
  nextOwn : ∀ r ∈ s.deckCards, OwnPtr s r.deckId r.nextId

/-- The conservation property of the ledger. -/
def Conserved (s : Store) : Prop :=
  ∀ e ∈ s.entries, 0 ≤ e.inDeck ∧ 0 ≤ e.inPile ∧ e.inDeck + e.inPile ≤ e.total

/-- Every ledger row counts at least the `DeckCard` rows of its deck and code, up to the
rows `owed` that a running transaction has counted but not yet written (or the reverse). -/
def Held (s : Store) (owed : String → String → Int) : Prop :=
  ∀ e ∈ s.entries,
    ((cardKinds s).count (e.deckId, e.code) : Int) + owed e.deckId e.code ≤ e.inDeck

/-- The invariant of committed stores. -/
structure Inv (s : Store) : Prop where
  sound : Sound s
  conserved : Conserved s
  held : Held s (fun _ _ => 0)

/-- Stores the engine can be in: the fresh database, and the store left by any call of any
engine operation, successful or not, on such a store. -/
inductive Reachable : Store → Prop
  | empty : Reachable Store.empty
  | insertDeck (s : Store) (rand : Nat → Nat → Nat) (cards : List String) :
      Reachable s → Reachable (InsertDeck s rand cards).1
  | drawCards (s : Store) (d : String) (amount : Int) :
      Reachable s → Reachable (DrawCards s d amount).1
  | shuffleDeck (s : Store) (d : String) (rnd : Nat → Nat) :
      Reachable s → Reachable (ShuffleDeck s d rnd).1
  | shuffleAllPiles (s : Store) (d : String) (rnd : Nat → Nat → Nat) :
      Reachable s → Reachable (ShuffleAllPiles s d rnd).1
  | updatePileOrder (s : Store) (d name : String) (codes : List String) :
      Reachable s → Reachable (UpdatePileOrder s d name codes).1
  | insertIntoPile (s : Store) (name d : String) (codes : List String) :
      Reachable s → Reachable (InsertIntoPile s name d codes).1
  | drawFromPile (s : Store) (d name method : String) (pick : Nat) :
      Reachable s → Reachable (DrawFromPile s d name method pick).1
  | drawSpecificFromPile (s : Store) (d name code : String) :
      Reachable s → Reachable (DrawSpecificFromPile s d name code).1
  | returnSpecificDrawn (s : Store) (d code : String) :
      Reachable s → Reachable (ReturnSpecificDrawn s d code).1
  | returnAllDrawn (s : Store) (d : String) :
      Reachable s → Reachable (ReturnAllDrawn s d).1
  | returnSpecificFromPile (s : Store) (d name code : String) :
      Reachable s → Reachable (ReturnSpecificFromPile s d name code).1
  | returnAllFromPile (s : Store) (d name : String) :
      Reachable s → Reachable (ReturnAllFromPile s d name).1

/-- The two stores agree on the deck tables, the ledger and the `DeckCard` id sequence. -/
structure DeckSide (s s' : Store) : Prop where
  decks : s'.decks = s.decks
  deckCards : s'.deckCards = s.deckCards
  entries : s'.entries = s.entries
  seqDeckCard : s'.seqDeckCard = s.seqDeckCard

/-- The two stores differ at most in the `nextId` of their `DeckCard` rows. -/
structure SameCards (s s' : Store) : Prop where
  rows : s'.deckCards.map (fun r => (r.id, r.deckId, r.code)) =
    s.deckCards.map (fun r => (r.id, r.deckId, r.code))
  decks : s'.decks = s.decks
  entries : s'.entries = s.entries
  seqDeckCard : s'.seqDeckCard = s.seqDeckCard

/-- A store reached by three calls: a deck of `AS, KD, AS` is created, two cards are drawn
and one `AS` is put on pile `"discard"`. -/
def playedStore : Store :=
  (InsertIntoPile
    (DrawCards (InsertDeck Store.empty (fun t i => t + i) ["AS", "KD", "AS"]).1
      "abcdefghijkl" 2).1
    "discard" "abcdefghijkl" ["AS"]).1

/-- The store after a successful `ReturnSpecificDrawn(d, code)`. -/
def returnedStore (s : Store) (d code : String) : Store :=
  { s with
    decks := (s.decks.map (fun r =>
      if r.deckId = d then { r with topCardId := some (s.seqDeckCard + 1) } else r)),
    deckCards := s.deckCards ++ [⟨s.seqDeckCard + 1, d, code, deckTop s d⟩],
    seqDeckCard := s.seqDeckCard + 1,
    entries := (s.entries.map (fun e =>
      if e.deckId = d ∧ e.code = code then { e with inDeck := e.inDeck + 1 } else e)) }

/-- A deck `"d"` reading `KD` from its top, with both `AS` of its two drawn. -/
def returnWitnessStore : Store :=
  { decks := [⟨"d", some 2, false⟩],
    deckCards := [⟨2, "d", "KD", none⟩],
    piles := [], pileCards := [],
    entries := [⟨"d", "AS", 2, 0, 0⟩, ⟨"d", "KD", 1, 1, 0⟩],
    seqDeckCard := 3, seqPile := 0, seqPileCard := 0 }

/-- The codes `ReturnAllDrawn` pushes on deck `d`, in the order of the pushes. -/
def drawnPushes (s : Store) (d : String) : List String :=
  ((s.entries.filter (fun e => e.deckId = d)).filter
    (fun e => decide (e.total - e.inDeck - e.inPile > 0))).reverse.flatMap
  (fun e => List.replicate (e.total - e.inDeck - e.inPile).toNat e.code)

/-- The number of units of deck `d` that are neither in its list nor in a pile. -/
def outstandingUnits (s : Store) (d : String) : Nat :=
  ((s.entries.filter (fun e => e.deckId = d)).map
    (fun e => (e.total - e.inDeck - e.inPile).toNat)).sum

/-- The store `ReturnAllDrawn` commits on deck `d`. -/
def returnDrawnStore (s : Store) (d : String) : Store :=
  { s with
    decks := (s.decks.map (fun r =>
      if r.deckId = d ∧ pushedTop s.seqDeckCard (deckTop s d) (drawnPushes s d) ≠ none
      then { r with topCardId := pushedTop s.seqDeckCard (deckTop s d) (drawnPushes s d) }
      else r)),
    deckCards := (s.deckCards ++
      pushedDeckRows s.seqDeckCard d (deckTop s d) (drawnPushes s d)),
    seqDeckCard := s.seqDeckCard + (drawnPushes s d).length,
    entries := (s.entries.map (fun e =>
      if e.deckId = d then { e with inDeck := e.total - e.inPile } else e)) }

/-- The id that follows `i` in `ids`, none for the last id and for an id not in `ids`. -/
def nextIn : List Nat → Nat → Option Nat
  | a :: b :: rest, i => if i = a then some b else nextIn (b :: rest) i
  | _, _ => none

/-- The table after the loop that links every id of `ids` to the id after it. -/
def linkRows {α : Type} (key : α → Nat) (setNxt : α → Option Nat → α) :
    List α → List Nat → List α
  | tbl, i :: j :: rest =>
    linkRows key setNxt (tbl.map (fun r => if key r = i then setNxt r (some j) else r))
      (j :: rest)
  | tbl, _ => tbl

/-- The store `ShuffleDeck` commits when it writes the order `cards` for deck `d`. -/
def shuffledStore (s : Store) (d : String) (cards : List DeckCardRow) : Store :=
  { s with
    deckCards := (s.deckCards.map (fun r =>
      if r.id ∈ cards.map (fun c => c.id)
      then { r with nextId := nextIn (cards.map (fun c => c.id)) r.id } else r)),
    decks := (s.decks.map (fun r =>
      if r.deckId = d
      then { r with topCardId := (cards.head?).map (fun c => c.id), shuffled := true }
      else r)) }

/-- The rows of the pile with id `p` in the order `ShuffleAllPiles` gives them. -/
def shuffledPileRows (rnd : Nat → Nat) (s : Store) (p : Nat) : List PileCardRow :=
  shuffle rnd ((s.pileCards.filter (fun c => c.pileId = p)).insertionSort
    (fun a b => a.id ≤ b.id))

/-- The store after the iteration of `ShuffleAllPiles` for the pile with id `p`. -/
def shuffleStep (rnd : Nat → Nat → Nat) (s : Store) (p : PileRow) : Store :=
  { s with pileCards := (s.pileCards.map (fun r =>
      if r.pileId = p.id
      then { r with nextCardId :=
        (nextIn ((shuffledPileRows (rnd p.id) s p.id).map (fun c => c.id)) r.id) }
      else r)) }

/-- The two stores differ at most in the `nextCardId` of their `PileCard` rows. -/
structure SamePiles (s s' : Store) : Prop where
  rows : s'.pileCards.map (fun r => (r.id, r.pileId, r.code)) =
    s.pileCards.map (fun r => (r.id, r.pileId, r.code))
  piles : s'.piles = s.piles
  entries : s'.entries = s.entries
  decks : s'.decks = s.decks
  deckCards : s'.deckCards = s.deckCards

/-- A pile `"discard"` of deck `"d"` that reads `AS, AS`: two cards with the same code, as a
deck of two packets gives. -/
def dupPileStore : Store :=
  { decks := [⟨"d", none, false⟩],
    deckCards := [],
    piles := [⟨1, "d", "discard"⟩],
    pileCards := [⟨1, 1, "AS", none⟩, ⟨2, 1, "AS", some 1⟩],
    entries := [⟨"d", "AS", 2, 0, 2⟩],
    seqDeckCard := 2, seqPile := 1, seqPileCard := 2 }

/-- A pile `"discard"` of deck `"d"` whose two rows both have a NULL `nextCardId`, as
`UpdatePileOrder` with an empty code list leaves it: two ids are unreferenced. -/
def twoHeadStore : Store :=
  { decks := [⟨"d", some 4, false⟩],
    deckCards := [⟨4, "d", "2C", none⟩],
    piles := [⟨1, "d", "discard"⟩],
    pileCards := [⟨1, 1, "KD", none⟩, ⟨2, 1, "AS", none⟩],
    entries := [⟨"d", "AS", 3, 0, 1⟩, ⟨"d", "KD", 2, 0, 1⟩, ⟨"d", "2C", 1, 1, 0⟩],
    seqDeckCard := 4, seqPile := 1, seqPileCard := 2 }

/-- A pointer that may be stored as the successor of a row of the pile with id `p`: it is
below the id sequence and every row carrying that id belongs to that pile. -/
def PilePtr (s : Store) (p : Nat) (top : Option Nat) : Prop :=
  ∀ i, top = some i → i ≤ s.seqPileCard ∧ ∀ c ∈ s.pileCards, c.id = i → c.pileId = p

/-- What the schema and the engine keep true of the pile tables. -/
structure PileSound (s : Store) : Prop where
  pileDeck : ∀ p ∈ s.piles, ∀ p' ∈ s.piles, p.id = p'.id → p.deckId = p'.deckId
  pileSeq : ∀ p ∈ s.piles, p.id ≤ s.seqPile
  cardPile : ∀ c ∈ s.pileCards, ∀ c' ∈ s.pileCards, c.id = c'.id → c.pileId = c'.pileId
  cardSeq : ∀ c ∈ s.pileCards, c.id ≤ s.seqPileCard
  nextOwn : ∀ c ∈ s.pileCards, PilePtr s c.pileId c.nextCardId

/-- The `PileCard` row belongs to a pile of deck `B`. -/
def ownedBy (s : Store) (B : String) (c : PileCardRow) : Bool :=
  s.piles.any (fun p => p.id = c.pileId ∧ p.deckId = B)

/-- Everything the store holds for one deck. -/
structure DeckView where
  decks : List DeckRow
  deckCards : List DeckCardRow
  piles : List PileRow
  pileCards : List PileCardRow
  entries : List DeckEntryRow
deriving DecidableEq, Repr

/-- The rows of deck `B`: its `Deck` row with `topCardId` and `shuffled`, its `DeckCard` rows
with their links, its piles, the `PileCard` rows of its piles with their links, and its
ledger rows, each in table order. -/
def viewOf (s : Store) (B : String) : DeckView :=
  { decks := s.decks.filter (fun r => r.deckId = B),
    deckCards := s.deckCards.filter (fun r => r.deckId = B),
    piles := s.piles.filter (fun p => p.deckId = B),
    pileCards := s.pileCards.filter (ownedBy s B),
    entries := s.entries.filter (fun e => e.deckId = B) }

/-- An operation on deck `A` left the deck tables and the ledger of every other deck as
they were. -/
structure IsoDeck (A : String) (s s' : Store) : Prop where
  decks : ∀ B, B ≠ A →
    s'.decks.filter (fun r => r.deckId = B) = s.decks.filter (fun r => r.deckId = B)
  deckCards : ∀ B, B ≠ A →
    s'.deckCards.filter (fun r => r.deckId = B) = s.deckCards.filter (fun r => r.deckId = B)
  entries : ∀ B, B ≠ A →
    s'.entries.filter (fun e => e.deckId = B) = s.entries.filter (fun e => e.deckId = B)

/-- An operation on deck `A` left the piles of every other deck as they were. -/
structure IsoPile (A : String) (s s' : Store) : Prop where
  piles : ∀ B, B ≠ A →
    s'.piles.filter (fun p => p.deckId = B) = s.piles.filter (fun p => p.deckId = B)
  pileCards : ∀ B, B ≠ A →
    s'.pileCards.filter (ownedBy s' B) = s.pileCards.filter (ownedBy s B)

/-- The two stores agree on the pile tables and their id sequences. -/
structure PileSide (s s' : Store) : Prop where
  piles : s'.piles = s.piles
  pileCards : s'.pileCards = s.pileCards
  seqPile : s'.seqPile = s.seqPile
  seqPileCard : s'.seqPileCard = s.seqPileCard

/-- What an operation on deck `A` that only writes deck tables and ledger keeps. -/
structure DeckOp (A : String) (s s' : Store) : Prop where
  iso : IsoDeck A s s'
  side : PileSide s s'

/-- The pile id `p` is that of a pile of deck `A`. -/
def PileOf (s : Store) (A : String) (p : Nat) : Prop :=
  ∃ pr ∈ s.piles, pr.id = p ∧ pr.deckId = A

/-- Some `PileCard` row with id `i` lies in the pile with id `p`. -/
def RowOf (s : Store) (p i : Nat) : Prop :=
  ∃ c ∈ s.pileCards, c.id = i ∧ c.pileId = p

/-- What a statement on the pile tables issued for deck `A` keeps. -/
structure PileOp (A : String) (s s' : Store) : Prop where
  iso : IsoPile A s s'
  side : DeckSide s s'
  psound : PileSound s'
  pileOf : ∀ p, PileOf s A p → PileOf s' A p

/-- The `DeckCard` rows with one of the ids `ids` belong to deck `A`. -/
def OwnIds (s : Store) (A : String) (ids : List Nat) : Prop :=
  ∀ i ∈ ids, ∀ r ∈ s.deckCards, r.id = i → r.deckId = A

/-- An operation on deck `A` took `s` to `s'`: every other deck keeps its rows, the pile
tables stay sound and the piles of `A` stay piles of `A`. -/
structure Kept (A : String) (s s' : Store) : Prop where
  deck : IsoDeck A s s'
  pile : IsoPile A s s'
  psound : PileSound s'
  pileOf : ∀ p, PileOf s A p → PileOf s' A p

/-- A call of an engine operation that takes a deck id, with its other arguments. -/
inductive Call where
  | drawCards (amount : Int)
  | shuffleDeck (rnd : Nat → Nat)
  | shuffleAllPiles (rnd : Nat → Nat → Nat)
  | updatePileOrder (name : String) (codes : List String)
  | insertIntoPile (name : String) (codes : List String)
  | drawFromPile (name method : String) (pick : Nat)
  | drawSpecificFromPile (name code : String)
  | returnSpecificDrawn (code : String)
  | returnAllDrawn
  | returnSpecificFromPile (name code : String)
  | returnAllFromPile (name : String)

/-- The store the call leaves when it is invoked on deck `A`, whether it succeeds or not. -/
def Call.run (c : Call) (s : Store) (A : String) : Store :=
  match c with
  | .drawCards amount => (DrawCards s A amount).1
  | .shuffleDeck rnd => (ShuffleDeck s A rnd).1
  | .shuffleAllPiles rnd => (ShuffleAllPiles s A rnd).1
  | .updatePileOrder name codes => (UpdatePileOrder s A name codes).1
  | .insertIntoPile name codes => (InsertIntoPile s name A codes).1
  | .drawFromPile name method pick => (DrawFromPile s A name method pick).1
  | .drawSpecificFromPile name code => (DrawSpecificFromPile s A name code).1
  | .returnSpecificDrawn code => (ReturnSpecificDrawn s A code).1
  | .returnAllDrawn => (ReturnAllDrawn s A).1
  | .returnSpecificFromPile name code => (ReturnSpecificFromPile s A name code).1
  | .returnAllFromPile name => (ReturnAllFromPile s A name).1

/-- The store left by a sequence of calls, each with the deck id it is invoked on. -/
def runAll (s : Store) : List (String × Call) → Store
  | [] => s
  | x :: rest => runAll (x.2.run s x.1) rest

/-- A store with two decks: `"abcdefghijkl"` reads `AS, KD`; `"bcdefghijklm"` was created
from `2C, 3C`, then `2C` was drawn and put on its pile `"discard"`. -/
def twoDeckStore : Store :=
  (InsertIntoPile
    (DrawCards
      (InsertDeck (InsertDeck Store.empty (fun t i => t + i) ["AS", "KD"]).1
        (fun t i => t + i) ["2C", "3C"]).1
      "bcdefghijklm" 1).1
    "discard" "bcdefghijklm" ["2C"]).1

/-- Calls on the deck `"abcdefghijkl"` and on a deck that does not exist. -/
def otherDeckCalls : List (String × Call) :=
  [("abcdefghijkl", .drawCards 1), ("abcdefghijkl", .insertIntoPile "discard" ["AS"]),
   ("abcdefghijkl", .shuffleAllPiles (fun _ i => i)),
   ("abcdefghijkl", .returnAllFromPile "discard"), ("zz", .drawCards 1)]

/-- The UTF-8 encoding of a character. -/
def utf8 (c : Char) : List Nat :=
  if c.toNat < 128 then [c.toNat]
  else if c.toNat < 2048 then [192 + c.toNat / 64, 128 + c.toNat % 64]
  else if c.toNat < 65536 then
    [224 + c.toNat / 4096, 128 + c.toNat / 64 % 64, 128 + c.toNat % 64]
  else
    [240 + c.toNat / 262144, 128 + c.toNat / 4096 % 64, 128 + c.toNat / 64 % 64,
      128 + c.toNat % 64]

/-- The bytes of a string literal of the source. -/
def goBytes (s : String) : List Nat :=
  s.toList.flatMap utf8

/-- The conversion `string(b)` of a byte `b`: the UTF-8 encoding of the rune `b`. -/
def runeString (b : Nat) : List Nat :=
  if b < 128 then [b] else [192 + b / 64, 128 + b % 64]

/-- The map `values` of `models/card.go`. -/
def values : List (String × String) :=
  [("A", "1"), ("2", "2"), ("3", "3"), ("4", "4"), ("5", "5"), ("6", "6"), ("7", "7"),
   ("8", "8"), ("9", "9"), ("10", "10"), ("J", "VALET"), ("Q", "REINE"), ("K", "ROI"),
   ("Z", "JOKER")]

/-- The map `suits` of `models/card.go`. -/
def suits : List (String × String) :=
  [("S", "PIQUE"), ("H", "COEUR"), ("D", "CARREAU"), ("C", "TREFLE")]

/-- The lookup `m[key]` in a map with string keys. -/
def mapGet (m : List (String × String)) (key : List Nat) : Option String :=
  (m.find? (fun kv => goBytes kv.1 = key)).map (fun kv => kv.2)

/-- Function `CodeValid` of `models/card.go`. -/
def CodeValid (code : List Nat) : Bool :=
  if code.length = 2 then
    if (mapGet values (runeString (code.getD 0 0))).isNone then false
    else if code.getD 0 0 = 'Z'.toNat then
      decide (code.getD 1 0 = 'R'.toNat) || decide (code.getD 1 0 = 'B'.toNat)
    else (mapGet suits (runeString (code.getD 1 0))).isSome
  else if code.length = 3 then
    if code.take 2 = goBytes "10" then
      match mapGet suits (runeString (code.getD 2 0)) with
      | some val => decide (val ≠ "R") && decide (val ≠ "B")
      | none => false
    else false
  else false

/-- The errors of `models/card.go`: `"code invalide"` and `"Couleur invalide: " + key`. -/
inductive CardError where
  | codeInvalide
  | couleurInvalide (key : List Nat)
deriving DecidableEq, Repr

/-- Function `GetValue` of `models/card.go`; `toUpper` and `trimSpace` stand for
`strings.ToUpper` and `strings.TrimSpace`. -/
def GetValue (toUpper trimSpace : List Nat → List Nat) (code : List Nat) :
    Except CardError String :=
  if !CodeValid (toUpper (trimSpace code)) then .error .codeInvalide
  else
    match mapGet values
      (if (toUpper (trimSpace code)).length = 3 then (toUpper (trimSpace code)).take 2
        else runeString ((toUpper (trimSpace code)).getD 0 0)) with
    | none => .error .codeInvalide
    | some value => .ok value

/-- Function `GetSuit` of `models/card.go`; `toUpper` and `trimSpace` stand for
`strings.ToUpper` and `strings.TrimSpace`. -/
def GetSuit (toUpper trimSpace : List Nat → List Nat) (code : List Nat) :
    Except CardError String :=
  if !CodeValid (toUpper (trimSpace code)) then .error .codeInvalide
  else
    match mapGet suits
      (if (toUpper (trimSpace code)).length = 3
        then runeString ((toUpper (trimSpace code)).getD 2 0)
        else runeString ((toUpper (trimSpace code)).getD 1 0)) with
    | none =>
      .error (.couleurInvalide
        (if (toUpper (trimSpace code)).length = 3
          then runeString ((toUpper (trimSpace code)).getD 2 0)
          else runeString ((toUpper (trimSpace code)).getD 1 0)))
    | some suit => .ok suit

/-- The 54 codes the claim names: a rank other than 10 followed by a suit, `10` followed by
a suit, and the two jokers. -/
def validCodes : List String :=
  (["A", "2", "3", "4", "5", "6", "7", "8", "9", "J", "Q", "K"].flatMap
    (fun rank => ["S", "H", "D", "C"].map (fun suit => rank ++ suit))) ++
  ["S", "H", "D", "C"].map (fun suit => "10" ++ suit) ++ ["ZR", "ZB"]

/-- The bytes of the one-character keys of `values`. -/
def rankBytes : List Nat :=
  ['A'.toNat, '2'.toNat, '3'.toNat, '4'.toNat, '5'.toNat, '6'.toNat, '7'.toNat, '8'.toNat,
   '9'.toNat, 'J'.toNat, 'Q'.toNat, 'K'.toNat, 'Z'.toNat]

/-- The bytes of the keys of `suits`. -/
def suitBytes : List Nat := ['S'.toNat, 'H'.toNat, 'D'.toNat, 'C'.toNat]

/-- The rank of a code as the claim reads it: the first two bytes of a three-byte code, the
first byte otherwise. -/
def rankOf (c : List Nat) : List Nat :=
  if c.length = 3 then c.take 2 else c.take 1

/-- The rank names the claim lists: `A` is `1`, `J`, `Q`, `K`, `Z` have their names, and
`2` to `10` are named by the same digits. -/
def rankName (r : List Nat) : String :=
  if r = goBytes "A" then "1"
  else if r = goBytes "J" then "VALET"
  else if r = goBytes "Q" then "REINE"
  else if r = goBytes "K" then "ROI"
  else if r = goBytes "Z" then "JOKER"
  else String.mk (r.map Char.ofNat)

/-- The suit names the claim lists, by the last byte of the code. -/
def suitName (c : List Nat) : String :=
  if c.getLast? = some 'S'.toNat then "PIQUE"
  else if c.getLast? = some 'H'.toNat then "COEUR"
  else if c.getLast? = some 'D'.toNat then "CARREAU"
  else "TREFLE"

/-- `strings.ToUpper` on the ASCII letters. -/
def asciiUpper (s : List Nat) : List Nat :=
  s.map (fun b => if 'a'.toNat ≤ b ∧ b ≤ 'z'.toNat then b - 32 else b)

/-- `strings.TrimSpace` on the ASCII white space. -/
def asciiTrim (s : List Nat) : List Nat :=
  ((s.dropWhile (fun b => b ∈ [9, 10, 11, 12, 13, 32])).reverse.dropWhile
    (fun b => b ∈ [9, 10, 11, 12, 13, 32])).reverse

/-- The id the links lead to from the row with id `i`, when that row exists and has a
successor. -/
def stepId (cards : List PileCardRow) (i : Nat) : Option Nat :=
  (cards.find? (fun c => c.id = i)).bind (fun c => c.nextCardId)

/-- The id reached from `cur` after following `k` links, if the links lead that far. -/
def nodeAt (cards : List PileCardRow) : Nat → Nat → Option Nat
  | cur, 0 => some cur
  | cur, k + 1 => (stepId cards cur).bind (fun nx => nodeAt cards nx k)

/-- Rows of one pile whose links run in a cycle `1 → 2 → 3 → 2`. -/
def cyclicRows : List PileCardRow :=
  [⟨1, 1, "AS", some 2⟩, ⟨2, 1, "KD", some 3⟩, ⟨3, 1, "2C", some 2⟩]

/-- Rows of one pile whose second row points to an id that is no row of the pile. -/
def danglingRows : List PileCardRow :=
  [⟨1, 1, "AS", some 2⟩, ⟨2, 1, "KD", some 7⟩]

/-- What has become of the transaction a call began, when the call returns. -/
inductive TxEnd where
  | committed
  | rolledBack
  | leftOpen
deriving DecidableEq, Repr

/-- The closure of an operation at its `return`: the response it returns and the value of
the variable `err` declared by `tx, err := db.Begin()`. -/
structure Returned (α : Type) where
  resp : Except DBError α
  err : Option DBError

/-- The deferred `func() { if err != nil { _ = tx.Rollback() } }()` after the body: a body
that returns a result has passed `tx.Commit()`; after a body that returns an error the
transaction is rolled back when `err` is set and is left as it is otherwise. -/
def deferredEnd {α : Type} (r : Returned α) : TxEnd :=
  match r.resp with
  | .ok _ => .committed
  | .error _ => if r.err.isSome then .rolledBack else .leftOpen

/-- The transaction part of the closure of `InsertIntoPile` with the variable `err` made
explicit.  `db.Begin()` leaves it nil; the failing statements of the two loops and of the
pile lookup bind their error to an `err` of their own block, and the availability check
returns without an `err` at all. -/
def insertIntoPileClosure (s : Store) (name d : String) (codes : List String) :
    Returned Store :=
  match checkCodes s d codes with
  | .error e => { resp := .error e, err := none }
  | .ok s1 =>
    match pileIdFor s1 d name with
    | .error e => { resp := .error e, err := none }
    | .ok (s2, pileId) =>
      match pushPileCards s2 pileId ((pileHead s2 pileId).map (fun c => c.id)) codes with
      | .error e => { resp := .error e, err := none }
      | .ok s3 => { resp := .ok s3, err := none }

/-- The closure of `ReturnSpecificDrawn` with the variable `err` made explicit.  The
lookup of the ledger row and the two `UPDATE` statements bind their error to an `err` of
their own `if`, and the `drawn <= 0` check returns without an `err`; only
`res, err := tx.Exec("INSERT INTO DeckCard ...")`, at the top level of the closure, assigns
the variable the deferred function reads. -/
def returnSpecificDrawnClosure (s : Store) (d code : String) : Returned (Store × String) :=
  match findEntry s d code with
  | none => { resp := .error .cardNotFound, err := none }
  | some e =>
    if e.total - e.inDeck - e.inPile ≤ 0 then { resp := .error .notDrawn, err := none }
    else
      match insertDeckCard s d code (deckTop s d) with
      | .error x => { resp := .error x, err := some x }
      | .ok (s1, newCardId) =>
        match setTopCard s1 d (some newCardId) with
        | .error x => { resp := .error x, err := none }
        | .ok s2 =>
          { resp := .ok (updateEntry s2 d code (fun _ => true)
              (fun e => { e with inDeck := e.inDeck + 1 }), code),
            err := none }

/-- One statement of an operation.  `deckToo` allows the statements that write the `Deck`
and `DeckCard` tables or the counter `inDeck`, `pileToo` those that insert or delete `Pile`
and `PileCard` rows or write the counter `inPile`; rewriting `nextCardId` is always
allowed. -/
inductive Stmt (deckToo pileToo : Bool) : Store → Store → Prop
  | ledgerDeck (s : Store) (d c : String) (g : DeckEntryRow → Bool)
      (f : DeckEntryRow → DeckEntryRow) (hd : deckToo = true)
      (hf : ∀ e, (f e).deckId = e.deckId ∧ (f e).code = e.code ∧ (f e).total = e.total ∧
        (f e).inPile = e.inPile) :
      Stmt deckToo pileToo s (updateEntry s d c g f)
  | ledgerPile (s : Store) (d c : String) (g : DeckEntryRow → Bool)
      (f : DeckEntryRow → DeckEntryRow) (hp : pileToo = true)
      (hf : ∀ e, (f e).deckId = e.deckId ∧ (f e).code = e.code ∧ (f e).total = e.total ∧
        (f e).inDeck = e.inDeck) :
      Stmt deckToo pileToo s (updateEntry s d c g f)
  | ledgerMove (s : Store) (d c : String) (g : DeckEntryRow → Bool)
      (f : DeckEntryRow → DeckEntryRow) (hd : deckToo = true) (hp : pileToo = true)
      (hf : ∀ e, (f e).deckId = e.deckId ∧ (f e).code = e.code ∧ (f e).total = e.total) :
      Stmt deckToo pileToo s (updateEntry s d c g f)
  | resetInDeck (s : Store) (d : String) (hd : deckToo = true) :
      Stmt deckToo pileToo s
        { s with entries := (s.entries.map (fun e =>
            if e.deckId = d then { e with inDeck := e.total - e.inPile } else e)) }
  | setTopCard {s s1 : Store} {d : String} {top : Option Nat} (hd : deckToo = true)
      (h : setTopCard s d top = .ok s1) : Stmt deckToo pileToo s s1
  | setTopCardShuffled {s s1 : Store} {d : String} {top : Option Nat} (hd : deckToo = true)
      (h : setTopCardShuffled s d top = .ok s1) : Stmt deckToo pileToo s s1
  | setDeckCardNext {s s1 : Store} {i : Nat} {next : Option Nat} (hd : deckToo = true)
      (h : setDeckCardNext s i next = .ok s1) : Stmt deckToo pileToo s s1
  | insertDeckCard {s s1 : Store} {d c : String} {next : Option Nat} {i : Nat}
      (hd : deckToo = true) (h : insertDeckCard s d c next = .ok (s1, i)) :
      Stmt deckToo pileToo s s1
  | deleteDeckCard (s : Store) (i : Nat) (hd : deckToo = true) :
      Stmt deckToo pileToo s (deleteDeckCard s i)
  | insertPile {s s1 : Store} {d name : String} {i : Nat} (hp : pileToo = true)
      (hnew : findPile s d name = none) (h : insertPile s d name = .ok (s1, i)) :
      Stmt deckToo pileToo s s1
  | insertPileCard {s s1 : Store} {p : Nat} {c : String} {next : Option Nat} {i : Nat}
      (hp : pileToo = true) (h : insertPileCard s p c next = .ok (s1, i)) :
      Stmt deckToo pileToo s s1
  | deletePileCard (s : Store) (i : Nat) (hp : pileToo = true) :
      Stmt deckToo pileToo s (deletePileCard s i)
  | deletePileCardsOf (s : Store) (p : Nat) (hp : pileToo = true) :
      Stmt deckToo pileToo s (deletePileCardsOf s p)
  | setPileCardNext {s s1 : Store} {i : Nat} {next : Option Nat}
      (h : setPileCardNext s i next = .ok s1) : Stmt deckToo pileToo s s1
  | clearPileLinks (s : Store) (p : Nat) : Stmt deckToo pileToo s (clearPileLinks s p)

/-- A sequence of statements. -/
inductive Steps (deckToo pileToo : Bool) : Store → Store → Prop
  | done (s : Store) : Steps deckToo pileToo s s
  | next {a b c : Store} : Stmt deckToo pileToo a b → Steps deckToo pileToo b c →
      Steps deckToo pileToo a c

/-- The uniqueness of the primary keys and of the pile names of a deck, the bounds the
`AUTOINCREMENT` sequences give, and the foreign keys of the pile tables. -/
structure Schema (s : Store) : Prop where
  cardIds : (s.deckCards.map (fun r => r.id)).Nodup
  cardSeq : ∀ r ∈ s.deckCards, r.id ≤ s.seqDeckCard
  deckIds : (s.decks.map (fun r => r.deckId)).Nodup
  pileIds : (s.piles.map (fun p => p.id)).Nodup
  pileSeq : ∀ p ∈ s.piles, p.id ≤ s.seqPile
  pileNames : (s.piles.map (fun p => (p.deckId, p.name))).Nodup
  pileFk : ∀ p ∈ s.piles, s.deckExists p.deckId = true
  pileCardIds : (s.pileCards.map (fun c => c.id)).Nodup
  pileCardSeq : ∀ c ∈ s.pileCards, c.id ≤ s.seqPileCard
  pileCardFk : ∀ c ∈ s.pileCards, s.pileExists c.pileId = true

/-- What statements that do not write the deck tables keep. -/
structure DeckFrame (s s' : Store) : Prop where
  decks : s'.decks = s.decks
  deckCards : s'.deckCards = s.deckCards
  seqDeckCard : s'.seqDeckCard = s.seqDeckCard
  entries : s'.entries.map (fun e => (e.deckId, e.code, e.total, e.inDeck)) =
    s.entries.map (fun e => (e.deckId, e.code, e.total, e.inDeck))

/-- What statements that neither insert nor delete pile rows keep. -/
structure PileFrame (s s' : Store) : Prop where
  piles : s'.piles = s.piles
  pileCards : s'.pileCards.map (fun c => (c.id, c.pileId, c.code)) =
    s.pileCards.map (fun c => (c.id, c.pileId, c.code))
  seqPile : s'.seqPile = s.seqPile
  seqPileCard : s'.seqPileCard = s.seqPileCard
  entries : s'.entries.map (fun e => (e.deckId, e.code, e.total, e.inPile)) =
    s.entries.map (fun e => (e.deckId, e.code, e.total, e.inPile))

/-- The list of deck `d` is well formed and the ledger counts its rows: the rows with code
`c` are as many as `inDeck` of `(d, c)` says, and every row has a ledger row. -/
def DeckOk (s : Store) (d : String) : Prop :=
  ∃ rows, DeckAt s d rows ∧
    (∀ e ∈ s.entries, e.deckId = d →
      ((rows.map (fun r => r.code)).count e.code : Int) = e.inDeck) ∧
    (∀ r ∈ rows, ∃ e ∈ s.entries, e.deckId = d ∧ e.code = r.code)

/-- The two stores hold the same for deck `d` in the deck tables and in the `inDeck`
counters. -/
structure SameDeck (d : String) (s s' : Store) : Prop where
  deck : findDeck s' d = findDeck s d
  cards : s'.deckCards.filter (fun r => r.deckId = d) =
    s.deckCards.filter (fun r => r.deckId = d)
  entries : (s'.entries.filter (fun e => e.deckId = d)).map (fun e => (e.code, e.inDeck)) =
    (s.entries.filter (fun e => e.deckId = d)).map (fun e => (e.code, e.inDeck))

/-- The codes of the `PileCard` rows that lie in a pile of deck `d`, in table order. -/
def pileCodes (s : Store) (d : String) : List String :=
  (s.pileCards.filter (ownedBy s d)).map (fun r => r.code)

/-- Every ledger row counts in `inPile` the `PileCard` rows of its code in the piles of its
deck. -/
def PileLedger (s : Store) : Prop :=
  ∀ e ∈ s.entries, ((pileCodes s e.deckId).count e.code : Int) = e.inPile

/-- The rows of the pile with id `p` can be arranged in a list linked head to tail. -/
def Chained (s : Store) (p : Nat) : Prop :=
  ∃ top rows, Linked (fun c : PileCardRow => c.id) (fun c => c.nextCardId) top rows ∧
    rows.Perm (s.pileCards.filter (fun c => c.pileId = p))

/-- Every pile's rows form a single list: following `nextCardId` from the head the engine
finds reads every `PileCard` row of the pile exactly once and ends at NULL, which is what
`pileRows` checks; a pile without rows reads as the empty list. -/
def PilesListed (s : Store) : Prop :=
  ∀ p ∈ s.piles, (pileRows s p.id).isSome = true

instance (s : Store) : Decidable (PilesListed s) :=
  inferInstanceAs (Decidable (∀ p ∈ s.piles, (pileRows s p.id).isSome = true))

/-! ## Facts about lists of rows -/

section ListFacts

variable {α : Type}

theorem find?_of_key {key : α → Nat} {l : List α} (hn : (l.map key).Nodup) {a : α}
    (ha : a ∈ l) : l.find? (fun x => key x = key a) = some a := by
  induction l with
  | nil => simp at ha
  | cons b l ih =>
    simp only [List.map_cons, List.nodup_cons] at hn
    by_cases hb : key b = key a
    · have : b = a := by
        rcases List.mem_cons.1 ha with h | h
        · exact h.symm
        · exact absurd (hb ▸ List.mem_map_of_mem key h) hn.1
      simp [List.find?_cons, this]
    · have hal : a ∈ l := by
        rcases List.mem_cons.1 ha with h | h
        · exact absurd (h ▸ rfl) hb
        · exact h
      simp [List.find?_cons, hb, ih hn.2 hal]

theorem eq_of_key {key : α → Nat} {l : List α} (hn : (l.map key).Nodup) {a b : α}
    (ha : a ∈ l) (hb : b ∈ l) (h : key a = key b) : a = b := by
  have h1 := find?_of_key hn ha
  have h2 := find?_of_key hn hb
  rw [h] at h1
  exact Option.some.inj (h1.symm.trans h2)

theorem find?_key_mem {key : α → Nat} {l : List α} {i : Nat} {a : α}
    (h : l.find? (fun x => key x = i) = some a) : a ∈ l ∧ key a = i := by
  refine ⟨List.mem_of_find?_eq_some h, ?_⟩
  simpa using List.find?_some h

theorem nodup_of_map_nodup {β : Type} {f : α → β} {l : List α} (h : (l.map f).Nodup) :
    l.Nodup := List.Nodup.of_map f h

end ListFacts

section ChainFacts

variable {α : Type} {key : α → Nat} {nxt : α → Option Nat}

theorem walk_linked {tbl : List α} :
    ∀ {fuel : Nat} {top : Option Nat} {rows : List α},
      walk key nxt tbl fuel top = some rows →
        Linked key nxt top rows ∧ ∀ a ∈ rows, a ∈ tbl := by
  intro fuel
  induction fuel with
  | zero =>
    intro top rows h
    cases top with
    | none => simp [walk] at h; subst h; simp [Linked]
    | some i => simp [walk] at h
  | succ n ih =>
    intro top rows h
    cases top with
    | none => simp [walk] at h; subst h; simp [Linked]
    | some i =>
      simp only [walk] at h
      cases hf : tbl.find? (fun a => key a = i) with
      | none => simp [hf] at h
      | some a =>
        simp only [hf, Option.map_eq_some'] at h
        obtain ⟨as, has, rfl⟩ := h
        obtain ⟨hl, hm⟩ := ih has
        obtain ⟨hmem, hk⟩ := find?_key_mem hf
        refine ⟨⟨by rw [hk], hl⟩, ?_⟩
        intro b hb
        rcases List.mem_cons.1 hb with h | h
        · exact h ▸ hmem
        · exact hm b h

theorem walk_of_linked {tbl : List α} (hn : (tbl.map key).Nodup) :
    ∀ {rows : List α} {top : Option Nat} {fuel : Nat},
      Linked key nxt top rows → (∀ a ∈ rows, a ∈ tbl) → rows.length ≤ fuel →
        walk key nxt tbl fuel top = some rows := by
  intro rows
  induction rows with
  | nil =>
    intro top fuel hl _ _
    simp only [Linked] at hl
    subst hl
    cases fuel <;> simp [walk]
  | cons a as ih =>
    intro top fuel hl hm hf
    obtain ⟨ht, hl⟩ := hl
    subst ht
    cases fuel with
    | zero => simp at hf
    | succ n =>
      have ha : a ∈ tbl := hm a (List.mem_cons_self _ _)
      simp only [walk, find?_of_key hn ha]
      rw [ih hl (fun b hb => hm b (List.mem_cons_of_mem _ hb))
        (by simpa using hf)]
      rfl

theorem readList_iff [DecidableEq α] {tbl mine : List α} (hn : (tbl.map key).Nodup)
    (hsub : mine.Sublist tbl) {top : Option Nat} {rows : List α} :
    readList key nxt tbl mine top = some rows ↔
      Linked key nxt top rows ∧ rows.Perm mine := by
  constructor
  · intro h
    unfold readList at h
    cases hw : walk key nxt tbl mine.length top with
    | none => simp [hw] at h
    | some rs =>
      simp only [hw] at h
      split at h
      · rename_i hc
        cases h
        obtain ⟨hlen, hmem, hnd⟩ := hc
        refine ⟨(walk_linked hw).1, ?_⟩
        exact (List.subperm_of_subset (nodup_of_map_nodup hnd) hmem).perm_of_length_le
          (le_of_eq hlen.symm)
      · cases h
  · rintro ⟨hl, hp⟩
    have hmem : ∀ a ∈ rows, a ∈ mine := fun a ha => hp.subset ha
    have hw : walk key nxt tbl mine.length top = some rows :=
      walk_of_linked hn hl (fun a ha => hsub.subset (hmem a ha)) (le_of_eq hp.length_eq)
    have hnd : (rows.map key).Nodup :=
      (hp.map key).nodup_iff.2 (List.Nodup.sublist (hsub.map key) hn)
    unfold readList
    rw [hw]
    simp only [hp.length_eq, hnd, and_true, true_and]
    rw [if_pos hmem]

end ChainFacts

/-! ## The deck list under `DrawCards` -/

theorem deckAt_iff {s : Store} {d : String} {rows : List DeckCardRow}
    (hn : (s.deckCards.map (fun r => r.id)).Nodup) :
    deckRows s d = some rows ↔ DeckAt s d rows := by
  unfold deckRows
  constructor
  · intro h
    cases hd : findDeck s d with
    | none => simp [hd] at h
    | some dk =>
      simp only [hd] at h
      obtain ⟨hl, hp⟩ := (readList_iff hn (List.filter_sublist _)).1 h
      exact ⟨hn, ⟨dk, hd, hl⟩, hp⟩
  · rintro ⟨_, ⟨dk, hd, hl⟩, hp⟩
    simp only [hd]
    exact (readList_iff hn (List.filter_sublist _)).2 ⟨hl, hp⟩

theorem DrawFrame.draw_refl (s : Store) (d : String) : DrawFrame s s d [] := by
  refine ⟨?_, rfl, rfl, rfl, rfl, rfl, rfl, List.Sublist.refl _⟩
  simp

theorem DrawFrame.draw_trans {s s1 s2 : Store} {d : String} {c : String} {cs : List String}
    (h1 : DrawFrame s s1 d [c]) (h2 : DrawFrame s1 s2 d cs) : DrawFrame s s2 d (c :: cs) := by
  refine ⟨?_, h2.piles.trans h1.piles, h2.pileCards.trans h1.pileCards,
    h2.seqDeckCard.trans h1.seqDeckCard, h2.seqPile.trans h1.seqPile,
    h2.seqPileCard.trans h1.seqPileCard, h2.deckIds.trans h1.deckIds,
    h2.cardIds.trans h1.cardIds⟩
  rw [h2.entries, h1.entries, List.map_map]
  apply List.map_congr_left
  intro e _
  by_cases hd : e.deckId = d
  · by_cases hc : c = e.code
    · simp [hd, hc, List.count_cons]; omega
    · simp [hd, hc, List.count_cons]
  · simp [hd]

theorem deckExists_iff {s : Store} {d : String} :
    s.deckExists d = true ↔ d ∈ s.decks.map (fun r => r.deckId) := by
  simp [Store.deckExists]

theorem deckExists_of_find {s : Store} {d : String} {dk : DeckRow}
    (h : findDeck s d = some dk) : s.deckExists d = true := by
  have := List.mem_of_find?_eq_some h
  have h2 := List.find?_some h
  simp only [decide_eq_true_eq] at h2
  simp only [Store.deckExists, List.any_eq_true, decide_eq_true_eq]
  exact ⟨dk, this, h2⟩

theorem deckCardExists_of_mem {s : Store} {r : DeckCardRow} (h : r ∈ s.deckCards) :
    s.deckCardExists r.id = true := by
  simp only [Store.deckCardExists, List.any_eq_true, decide_eq_true_eq]
  exact ⟨r, h, rfl⟩

theorem findDeck_map {s : Store} {d : String} (f : DeckRow → DeckRow)
    (hf : ∀ r, (f r).deckId = r.deckId) :
    (s.decks.map f).find? (fun r => r.deckId = d) = (findDeck s d).map f := by
  unfold findDeck
  induction s.decks with
  | nil => simp
  | cons a l ih =>
    by_cases h : a.deckId = d
    · simp [List.find?_cons, hf, h]
    · simp [List.find?_cons, hf, h, ih]

section ChainMore

variable {α : Type} {key : α → Nat} {nxt : α → Option Nat}

theorem linked_next_ne {rows : List α} {top : Option Nat}
    (hl : Linked key nxt top rows) {i : Nat} (hi : ∀ r ∈ rows, key r ≠ i) :
    ∀ r ∈ rows, nxt r ≠ some i := by
  induction rows generalizing top with
  | nil => simp
  | cons a as ih =>
    obtain ⟨_, hl⟩ := hl
    intro r hr
    rcases List.mem_cons.1 hr with h | h
    · subst h
      cases as with
      | nil =>
        simp only [Linked] at hl
        simp [hl]
      | cons b bs =>
        have h1 : nxt r = some (key b) := hl.1
        rw [h1]
        intro hb
        exact hi b (by simp) (Option.some.inj hb)
    · exact ih hl (fun r hr => hi r (List.mem_cons_of_mem _ hr)) r h

theorem linked_head_unref {h : α} {rest : List α} {top : Option Nat}
    (hl : Linked key nxt top (h :: rest)) (hnd : ((h :: rest).map key).Nodup) :
    ∀ r ∈ h :: rest, nxt r ≠ some (key h) := by
  simp only [List.map_cons, List.nodup_cons] at hnd
  have hne : ∀ r ∈ rest, key r ≠ key h := by
    intro r hr hc
    exact hnd.1 (hc ▸ List.mem_map_of_mem key hr)
  intro r hr
  rcases List.mem_cons.1 hr with e | e
  · subst e
    cases rest with
    | nil =>
      have : nxt r = none := hl.2
      simp [this]
    | cons b bs =>
      have h1 : nxt r = some (key b) := hl.2.1
      rw [h1]
      intro hb
      exact hne b (by simp) (Option.some.inj hb)
  · exact linked_next_ne hl.2 hne r e

theorem linked_pred {rows : List α} {top : Option Nat}
    (hl : Linked key nxt top rows) {c : α} (hc : c ∈ rows) :
    top = some (key c) ∨ ∃ c' ∈ rows, nxt c' = some (key c) := by
  induction rows generalizing top with
  | nil => simp at hc
  | cons a as ih =>
    rcases List.mem_cons.1 hc with e | e
    · subst e
      exact Or.inl hl.1
    · rcases ih hl.2 e with h | ⟨c', hc', h⟩
      · exact Or.inr ⟨a, List.mem_cons_self _ _, h⟩
      · exact Or.inr ⟨c', List.mem_cons_of_mem _ hc', h⟩

theorem linked_top {rows : List α} {top : Option Nat} (hl : Linked key nxt top rows) :
    top = (rows.head?).map key := by
  cases rows with
  | nil => exact hl
  | cons a as => exact hl.1

theorem filter_eq_singleton {l : List α} {p : α → Bool} {a : α} (hnd : l.Nodup)
    (ha : a ∈ l) (hp : ∀ x ∈ l, p x = true ↔ x = a) : l.filter p = [a] := by
  induction l with
  | nil => simp at ha
  | cons b l ih =>
    simp only [List.nodup_cons] at hnd
    by_cases hb : b = a
    · subst hb
      have hpb : p b = true := (hp b (List.mem_cons_self _ _)).2 rfl
      rw [List.filter_cons_of_pos hpb]
      congr 1
      rw [List.filter_eq_nil_iff]
      intro x hx hpx
      have := (hp x (List.mem_cons_of_mem _ hx)).1 hpx
      exact hnd.1 (this ▸ hx)
    · have hal : a ∈ l := by
        rcases List.mem_cons.1 ha with h | h
        · exact absurd h.symm hb
        · exact h
      have hpb : ¬ p b = true := fun h => hb ((hp b (List.mem_cons_self _ _)).1 h)
      rw [List.filter_cons_of_neg hpb]
      exact ih hnd.2 hal (fun x hx => hp x (List.mem_cons_of_mem _ hx))

end ChainMore

theorem deckAt_head_mem {s : Store} {d : String} {r : DeckCardRow} {rs : List DeckCardRow}
    (h : DeckAt s d (r :: rs)) : ∀ x ∈ r :: rs, x ∈ s.deckCards ∧ x.deckId = d := by
  intro x hx
  have := h.perm.subset hx
  simpa using this

theorem deckAt_nodup {s : Store} {d : String} {rows : List DeckCardRow}
    (h : DeckAt s d rows) : (rows.map (fun r => r.id)).Nodup :=
  (h.perm.map _).nodup_iff.2
    (List.Nodup.sublist ((List.filter_sublist _).map _) h.ids)

theorem topCard_of_deckAt {s : Store} {d : String} {r : DeckCardRow} {rs : List DeckCardRow}
    (h : DeckAt s d (r :: rs)) : topCard s d = some r := by
  obtain ⟨dk, hd, hl⟩ := h.deck
  have htop : dk.topCardId = some r.id := hl.1
  have hr := (deckAt_head_mem h r (List.mem_cons_self _ _)).1
  unfold topCard
  simp only [hd, htop]
  exact find?_of_key h.ids hr

theorem topCard_of_deckAt_nil {s : Store} {d : String} (h : DeckAt s d []) :
    topCard s d = none := by
  obtain ⟨dk, hd, hl⟩ := h.deck
  have htop : dk.topCardId = none := hl
  unfold topCard
  simp only [hd, htop]

theorem next_of_deckAt {s : Store} {d : String} {r : DeckCardRow} {rs : List DeckCardRow}
    (h : DeckAt s d (r :: rs)) :
    r.nextId = (rs.head?).map (fun x => x.id) ∧ r.nextId ≠ some r.id ∧
      s.fkDeckCard r.nextId = true := by
  obtain ⟨dk, hd, hl⟩ := h.deck
  have hl2 := hl.2
  cases rs with
  | nil =>
    have : r.nextId = none := hl2
    simp [this, Store.fkDeckCard]
  | cons b bs =>
    have hb : r.nextId = some b.id := hl2.1
    have hnd := deckAt_nodup h
    simp only [List.map_cons, List.nodup_cons, List.mem_cons, not_or] at hnd
    refine ⟨by simp [hb], ?_, ?_⟩
    · rw [hb]
      intro hc
      exact hnd.1.1 (Option.some.inj hc).symm
    · rw [hb]
      exact deckCardExists_of_mem (deckAt_head_mem h b (by simp)).1

theorem drawLoop_step {s : Store} {d : String} {r : DeckCardRow} {rs : List DeckCardRow}
    (h : DeckAt s d (r :: rs)) (n : Nat) (remaining : Int) (codes : List String) :
    drawLoop (n + 1) s d remaining codes =
      drawLoop n (popTop s d r) d (remaining - 1) (codes ++ [r.code]) := by
  have hfk := (next_of_deckAt h).2.2
  have hfk' : (updateEntry s d r.code (fun _ => true)
      (fun e => { e with inDeck := e.inDeck - 1 })).fkDeckCard r.nextId = true := hfk
  simp only [drawLoop, topCard_of_deckAt h, setTopCard, hfk', Bool.or_true, if_true]
  rfl

theorem popTop_deckAt {s : Store} {d : String} {r : DeckCardRow} {rs : List DeckCardRow}
    (h : DeckAt s d (r :: rs)) : DeckAt (popTop s d r) d rs := by
  obtain ⟨dk, hd, hl⟩ := h.deck
  obtain ⟨hnx, hne, _⟩ := next_of_deckAt h
  have hnd := deckAt_nodup h
  simp only [List.map_cons, List.nodup_cons] at hnd
  have hrs_ne : ∀ x ∈ rs, x.id ≠ r.id := by
    intro x hx hc
    exact hnd.1 (hc ▸ List.mem_map_of_mem (fun r => r.id) hx)
  have hnonext : ∀ x ∈ rs, x.nextId ≠ some r.id :=
    fun x hx => linked_next_ne hl.2 hrs_ne x hx
  refine ⟨?_, ?_, ?_⟩
  · have : ((popTop s d r).deckCards.map (fun r => r.id)).Sublist
        (s.deckCards.map (fun r => r.id)) := by
      simp only [popTop, deleteDeckCard, updateEntry, List.map_map]
      have hfun : ((fun r => r.id) ∘ fun x : DeckCardRow =>
          if x.nextId = some r.id then { x with nextId := none } else x) = fun r => r.id := by
        funext x
        by_cases hx : x.nextId = some r.id <;> simp [hx]
      rw [hfun]
      exact (List.filter_sublist _).map _
    exact List.Nodup.sublist this h.ids
  · refine ⟨{ dk with topCardId := r.nextId }, ?_, hl.2⟩
    unfold findDeck
    simp only [popTop, deleteDeckCard, updateEntry, List.map_map]
    rw [findDeck_map]
    · have hdk : dk.deckId = d := by simpa using List.find?_some hd
      simp only [hd, Option.map_some', Function.comp]
      simp [hne, hdk]
    · intro x
      simp only [Function.comp]
      split_ifs <;> rfl
  · have h1 : (List.filter (fun x : DeckCardRow => decide (x.id ≠ r.id)) (r :: rs)).Perm
        (List.filter (fun x : DeckCardRow => decide (x.id ≠ r.id))
          (s.deckCards.filter (fun r => r.deckId = d))) := h.perm.filter _
    have h2 : List.filter (fun x : DeckCardRow => decide (x.id ≠ r.id)) (r :: rs) = rs := by
      rw [List.filter_cons_of_neg (by simp)]
      exact List.filter_eq_self.2 (fun x hx => by simpa using hrs_ne x hx)
    rw [h2] at h1
    have h3 := h1.map
      (fun x : DeckCardRow => if x.nextId = some r.id then { x with nextId := none } else x)
    have h4 : rs.map
        (fun x : DeckCardRow => if x.nextId = some r.id then { x with nextId := none } else x)
        = rs := by
      conv_rhs => rw [← List.map_id rs]
      apply List.map_congr_left
      intro x hx
      simp [hnonext x hx]
    rw [h4] at h3
    refine h3.trans (List.Perm.of_eq ?_)
    simp only [popTop, deleteDeckCard, updateEntry, List.filter_map, List.filter_filter]
    congr 1
    apply List.filter_congr
    intro x _
    by_cases hx : x.nextId = some r.id <;> simp [hx, Function.comp, Bool.and_comm]

theorem popTop_frame (s : Store) (d : String) (r : DeckCardRow) :
    DrawFrame s (popTop s d r) d [r.code] := by
  refine ⟨?_, rfl, rfl, rfl, rfl, rfl, ?_, ?_⟩
  · simp only [popTop, deleteDeckCard, updateEntry]
    apply List.map_congr_left
    intro e _
    by_cases hd : e.deckId = d
    · by_cases hc : r.code = e.code
      · simp [hd, hc]
      · have hc' : ¬ e.code = r.code := fun h => hc h.symm
        subst hd
        simp [hc, hc']
    · simp [hd]
  · simp only [popTop, deleteDeckCard, updateEntry, List.map_map]
    apply List.map_congr_left
    intro x _
    simp only [Function.comp]
    split_ifs <;> rfl
  · simp only [popTop, deleteDeckCard, updateEntry, List.map_map]
    have hfun : ((fun r => r.id) ∘ fun x : DeckCardRow =>
        if x.nextId = some r.id then { x with nextId := none } else x) = fun r => r.id := by
      funext x
      by_cases hx : x.nextId = some r.id <;> simp [hx]
    rw [hfun]
    exact (List.filter_sublist _).map _

theorem drawLoop_spec {d : String} :
    ∀ (n : Nat) (s : Store) (rows : List DeckCardRow) (remaining : Int) (codes : List String),
      DeckAt s d rows → n ≤ rows.length →
      ∃ s', drawLoop n s d remaining codes =
          .ok (s', codes ++ (rows.take n).map (fun r => r.code), remaining - n) ∧
        DeckAt s' d (rows.drop n) ∧
        DrawFrame s s' d ((rows.take n).map (fun r => r.code)) := by
  intro n
  induction n with
  | zero =>
    intro s rows remaining codes h _
    exact ⟨s, by simp [drawLoop], by simpa using h, by simpa using DrawFrame.draw_refl s d⟩
  | succ n ih =>
    intro s rows remaining codes h hn
    cases rows with
    | nil => simp at hn
    | cons r rs =>
      obtain ⟨s', h1, h2, h3⟩ := ih (popTop s d r) rs (remaining - 1) (codes ++ [r.code])
        (popTop_deckAt h) (by simpa using hn)
      refine ⟨s', ?_, by simpa using h2, ?_⟩
      · rw [drawLoop_step h, h1]
        simp only [List.take_succ_cons, List.map_cons, List.append_assoc, List.singleton_append,
          Nat.cast_add, Nat.cast_one]
        congr 3
        omega
      · simpa using (popTop_frame s d r).draw_trans h3

theorem drawCards_effect {s : Store} {d : String} {rows : List DeckCardRow}
    (h : DeckAt s d rows) (amount : Int) :
    ∃ s', DrawCards s d amount =
        (s', .ok ((rows.take (min amount.toNat rows.length)).map (fun r => r.code),
          (rows.length : Int) - (min amount.toNat rows.length : Nat))) ∧
      DeckAt s' d (rows.drop (min amount.toNat rows.length)) ∧
      DrawFrame s s' d ((rows.take (min amount.toNat rows.length)).map (fun r => r.code)) := by
  have hlen : (s.deckCards.filter (fun r => r.deckId = d)).length = rows.length :=
    h.perm.length_eq.symm
  unfold DrawCards
  simp only [hlen]
  by_cases h0 : (if (rows.length : Int) < amount then (rows.length : Int) else amount) = 0
  · have hk : min amount.toNat rows.length = 0 := by
      split_ifs at h0 <;> omega
    rw [if_pos h0, hk]
    exact ⟨s, by simp, by simpa using h, by simpa using DrawFrame.draw_refl s d⟩
  · have hk : (if (rows.length : Int) < amount then (rows.length : Int) else amount).toNat
        = min amount.toNat rows.length := by
      split_ifs <;> omega
    rw [if_neg h0, hk]
    obtain ⟨s', h1, h2, h3⟩ := drawLoop_spec (min amount.toNat rows.length) s rows
      (rows.length : Int) [] h (Nat.min_le_right _ _)
    refine ⟨s', ?_, h2, h3⟩
    rw [h1]
    simp [atomically]

theorem deckList_eq_some {s : Store} {d : String} {L : List String} :
    deckList s d = some L ↔
      ∃ rows, deckRows s d = some rows ∧ rows.map (fun r => r.code) = L := by
  simp [deckList]

/-- C3. On a deck whose well-formed list is `L`, `DrawCards` with any integer `amount`
returns without error the first `k = min (max amount 0) |L|` codes of `L` in order and
`|L| - k` as the remaining count; afterwards the deck list is `L` without its first `k`
codes and `inDeck` of every code of the deck has dropped by the number of times the code
occurs among the `k` returned ones. -/
theorem drawCards_returns_first_codes (s : Store) (d : String) (amount : Int) (L : List String)
    (hids : (s.deckCards.map (fun r => r.id)).Nodup) (hL : deckList s d = some L) :
    (DrawCards s d amount).2 =
        .ok (L.take (min (max amount 0).toNat L.length),
          (L.length : Int) - (min (max amount 0).toNat L.length : Nat)) ∧
      deckList (DrawCards s d amount).1 d = some (L.drop (min (max amount 0).toNat L.length)) ∧
      (DrawCards s d amount).1.entries =
        ledgerAfterDraw s.entries d (L.take (min (max amount 0).toNat L.length)) := by
  obtain ⟨rows, hr, rfl⟩ := deckList_eq_some.1 hL
  have hmax : (max amount 0).toNat = amount.toNat := by omega
  obtain ⟨s', h1, h2, h3⟩ := drawCards_effect ((deckAt_iff hids).1 hr) amount
  rw [hmax, h1]
  simp only [List.length_map, List.map_take, List.map_drop, true_and]
  refine ⟨?_, ?_⟩
  · exact deckList_eq_some.2 ⟨_, (deckAt_iff h2.ids).2 h2, by simp [List.map_drop]⟩
  · simpa [ledgerAfterDraw, List.map_take] using h3.entries

theorem drawCards_returns_first_codes_witness :
    (DrawCards drawWitnessStore "d" 2).2 = .ok (["AS", "KD"], 1) ∧
      deckList (DrawCards drawWitnessStore "d" 2).1 "d" = some ["AS"] ∧
      (DrawCards drawWitnessStore "d" 2).1.entries =
        [⟨"d", "AS", 2, 1, 0⟩, ⟨"d", "KD", 1, 0, 0⟩, ⟨"e", "2C", 1, 1, 0⟩] :=
  drawCards_returns_first_codes drawWitnessStore "d" 2 ["AS", "KD", "AS"] (by decide) (by decide)

/-! ## InsertDeck builds the list and the ledger -/

theorem freshRows_id_gt {seq : Nat} {d : String} {cs : List String} :
    ∀ r ∈ freshRows seq d cs, seq < r.id ∧ r.deckId = d := by
  induction cs generalizing seq with
  | nil => simp [freshRows]
  | cons c cs ih =>
    intro r hr
    simp only [freshRows, List.mem_cons] at hr
    rcases hr with h | h
    · subst h; simp
    · have := ih r h
      exact ⟨by omega, this.2⟩

theorem chainRows_id_gt {seq : Nat} {d : String} {cs : List String} :
    ∀ r ∈ chainRows seq d cs, seq < r.id ∧ r.deckId = d := by
  induction cs generalizing seq with
  | nil => simp [chainRows]
  | cons c cs ih =>
    intro r hr
    cases cs with
    | nil =>
      simp only [chainRows, List.mem_singleton] at hr
      subst hr; simp
    | cons c' cs =>
      simp only [chainRows, List.mem_cons] at hr
      rcases hr with h | h
      · subst h; simp
      · have := ih r (by simpa [chainRows] using h)
        exact ⟨by omega, this.2⟩

theorem chainRows_codes (seq : Nat) (d : String) (cs : List String) :
    (chainRows seq d cs).map (fun r => r.code) = cs := by
  induction cs generalizing seq with
  | nil => simp [chainRows]
  | cons c cs ih =>
    cases cs with
    | nil => simp [chainRows]
    | cons c' cs => simp [chainRows, ih (seq + 1)]

theorem chainRows_ids_nodup (seq : Nat) (d : String) (cs : List String) :
    ((chainRows seq d cs).map (fun r => r.id)).Nodup := by
  induction cs generalizing seq with
  | nil => simp [chainRows]
  | cons c cs ih =>
    cases cs with
    | nil => simp [chainRows]
    | cons c' cs =>
      simp only [chainRows, List.map_cons, List.nodup_cons]
      refine ⟨?_, by simpa [chainRows] using ih (seq + 1)⟩
      intro hmem
      have hmem' : seq + 1 ∈ (chainRows (seq + 1) d (c' :: cs)).map (fun r => r.id) := by
        simpa [chainRows] using hmem
      obtain ⟨r, hr, hid⟩ := List.mem_map.1 hmem'
      have := (chainRows_id_gt r hr).1
      omega

theorem chainRows_linked (seq : Nat) (d : String) (cs : List String) :
    Linked (fun r : DeckCardRow => r.id) (fun r => r.nextId)
      (((chainRows seq d cs).head?).map (fun r => r.id)) (chainRows seq d cs) := by
  induction cs generalizing seq with
  | nil => simp [chainRows, Linked]
  | cons c cs ih =>
    cases cs with
    | nil => simp [chainRows, Linked]
    | cons c' cs =>
      have := ih (seq + 1)
      cases cs with
      | nil => simp [chainRows, Linked]
      | cons c'' cs => simpa [chainRows, Linked] using this

theorem chainRows_head (seq : Nat) (d : String) (cs : List String) :
    ((chainRows seq d cs).head?).map (fun r => r.id) =
      ((freshRows seq d cs).map (fun r => r.id)).head? := by
  cases cs with
  | nil => simp [chainRows, freshRows]
  | cons c cs =>
    cases cs with
    | nil => simp [chainRows, freshRows]
    | cons c' cs => simp [chainRows, freshRows]

theorem insertCards_spec (s : Store) (d : String) (cards : List String)
    (hd : s.deckExists d = true) :
    insertCards s d cards =
      .ok ({ s with deckCards := s.deckCards ++ freshRows s.seqDeckCard d cards,
                    seqDeckCard := s.seqDeckCard + cards.length },
        (freshRows s.seqDeckCard d cards).map (fun r => r.id)) := by
  induction cards generalizing s with
  | nil => simp [insertCards, freshRows]
  | cons c cs ih =>
    have hd' : Store.deckExists
        { s with deckCards := s.deckCards ++ [⟨s.seqDeckCard + 1, d, c, none⟩],
                 seqDeckCard := s.seqDeckCard + 1 } d = true := hd
    simp only [insertCards, insertDeckCard, hd, Store.fkDeckCard, Bool.and_self, if_true]
    rw [ih _ hd']
    simp only [freshRows, List.map_cons, List.append_assoc, List.singleton_append,
      List.length_cons]
    congr 3
    omega

theorem map_setNext_of_ne {l : List DeckCardRow} {i : Nat} {nx : Option Nat}
    (h : ∀ r ∈ l, r.id ≠ i) :
    l.map (fun r => if r.id = i then { r with nextId := nx } else r) = l := by
  conv_rhs => rw [← List.map_id l]
  apply List.map_congr_left
  intro r hr
  simp [h r hr]

theorem linkCards_fresh (cards : List String) :
    ∀ (s : Store) (old : List DeckCardRow) (seq : Nat) (d : String),
      (∀ r ∈ old, r.id ≤ seq) → s.deckCards = old ++ freshRows seq d cards →
      linkCards s ((freshRows seq d cards).map (fun r => r.id)) =
        .ok { s with deckCards := old ++ chainRows seq d cards } := by
  induction cards with
  | nil =>
    intro s old seq d _ hs
    simp only [freshRows, List.append_nil] at hs
    simp [linkCards, freshRows, chainRows, ← hs]
  | cons c cs ih =>
    intro s old seq d hold hs
    cases cs with
    | nil =>
      simp only [freshRows] at hs
      simp [linkCards, freshRows, chainRows, ← hs]
    | cons c' cs =>
      have hfk : s.fkDeckCard (some (seq + 1 + 1)) = true := by
        simp [Store.fkDeckCard, Store.deckCardExists, hs, freshRows]
      simp only [freshRows, List.map_cons, linkCards, setDeckCardNext, hfk, Bool.or_true,
        if_true]
      have h1 : ∀ r ∈ old, r.id ≠ seq + 1 := by
        intro r hr
        have := hold r hr
        omega
      have h2 : ∀ r ∈ freshRows (seq + 1) d (c' :: cs), r.id ≠ seq + 1 := by
        intro r hr
        have := (freshRows_id_gt r hr).1
        omega
      have hmap : s.deckCards.map
          (fun r => if r.id = seq + 1 then { r with nextId := some (seq + 1 + 1) } else r) =
          (old ++ [⟨seq + 1, d, c, some (seq + 2)⟩]) ++ freshRows (seq + 1) d (c' :: cs) := by
        rw [hs]
        show (old ++ (⟨seq + 1, d, c, none⟩ :: freshRows (seq + 1) d (c' :: cs))).map _ = _
        rw [List.map_append, List.map_cons, map_setNext_of_ne h1, map_setNext_of_ne h2]
        simp
      have hold' : ∀ r ∈ old ++ [(⟨seq + 1, d, c, some (seq + 2)⟩ : DeckCardRow)],
          r.id ≤ seq + 1 := by
        intro r hr
        rcases List.mem_append.1 hr with h | h
        · have := hold r h; omega
        · simp only [List.mem_singleton] at h
          subst h; simp
      have h3 := ih { s with deckCards := (s.deckCards.map (fun r =>
            if r.id = seq + 1 then { r with nextId := some (seq + 1 + 1) } else r)) }
        (old ++ [⟨seq + 1, d, c, some (seq + 2)⟩]) (seq + 1) d hold' hmap
      simp only [freshRows, List.map_cons] at h3
      rw [h3]
      simp [chainRows]

theorem tokenLoop_fresh (s : Store) (rand : Nat → Nat → Nat) :
    ∀ (fuel tries : Nat), tokenLoop s rand fuel tries ≠ "" →
      s.deckExists (tokenLoop s rand fuel tries) = false := by
  intro fuel
  induction fuel with
  | zero => intro tries h; simp [tokenLoop] at h
  | succ n ih =>
    intro tries h
    simp only [tokenLoop] at h ⊢
    split_ifs at h ⊢ with hc
    · simp only [List.length_eq_zero, List.filter_eq_nil_iff, decide_eq_true_eq] at hc
      simp only [Store.deckExists, List.any_eq_false, decide_eq_true_eq]
      exact hc
    · exact ih _ h

theorem insertEntries_spec (d : String) (cards : List String) :
    ∀ (keys : List String) (s : Store), keys.Nodup → s.deckExists d = true →
      (∀ e ∈ s.entries, e.deckId = d → e.code ∉ keys) →
      insertEntries s d cards keys =
        .ok { s with entries :=
          (s.entries ++ keys.map (fun c => ⟨d, c, cards.count c, cards.count c, 0⟩)) } := by
  intro keys
  induction keys with
  | nil => intro s _ _ _; simp [insertEntries]
  | cons c cs ih =>
    intro s hnd hd hfree
    simp only [List.nodup_cons] at hnd
    have hany : s.entries.any (fun e => e.deckId = d ∧ e.code = c) = false := by
      simp only [List.any_eq_false, decide_eq_true_eq, not_and]
      intro e he hed hec
      exact hfree e he hed (hec ▸ List.mem_cons_self _ _)
    simp only [insertEntries, upsertEntry, hany, hd, if_true, Bool.false_eq_true, if_false]
    have hd' : Store.deckExists { s with entries :=
        (s.entries ++ [⟨d, c, cards.count c, cards.count c, 0⟩]) } d = true := hd
    rw [ih _ hnd.2 hd']
    · simp
    · intro e he hed
      simp only [List.mem_append, List.mem_singleton] at he
      rcases he with h | h
      · exact fun hm => hfree e h hed (List.mem_cons_of_mem _ hm)
      · subst h
        exact hnd.1

theorem insertDeckTx_store (s : Store) (tok : String) (cards : List String)
    (hseq : ∀ r ∈ s.deckCards, r.id ≤ s.seqDeckCard)
    (hfke : ∀ e ∈ s.entries, s.deckExists e.deckId = true)
    (hfresh : s.deckExists tok = false) :
    insertDeckTx s tok cards = .ok (insertedStore s tok cards, tok) := by
  have hnod : ∀ r ∈ s.decks, r.deckId ≠ tok := by
    simpa [Store.deckExists] using hfresh
  have hd1 : Store.deckExists { s with decks := s.decks ++ [⟨tok, none, false⟩] } tok = true := by
    simp [Store.deckExists]
  unfold insertDeckTx
  simp only [insertDeckRow, hfresh, Bool.false_eq_true, if_false]
  rw [insertCards_spec _ _ _ hd1]
  simp only
  rw [linkCards_fresh cards _ s.deckCards s.seqDeckCard tok hseq rfl]
  simp only
  have hdecks : ∀ top : Option Nat, (s.decks ++ [(⟨tok, none, false⟩ : DeckRow)]).map
      (fun r => if r.deckId = tok then { r with topCardId := top } else r) =
      s.decks ++ [⟨tok, top, false⟩] := by
    intro top
    rw [List.map_append]
    congr 1
    · conv_rhs => rw [← List.map_id s.decks]
      apply List.map_congr_left
      intro r hr
      simp [hnod r hr]
    · simp
  have hcommit : commitTop
      { s with decks := s.decks ++ [⟨tok, none, false⟩],
               deckCards := s.deckCards ++ chainRows s.seqDeckCard tok cards,
               seqDeckCard := s.seqDeckCard + cards.length } tok
      ((freshRows s.seqDeckCard tok cards).map (fun r => r.id)).head? =
      .ok { s with
        decks := s.decks ++
          [⟨tok, ((chainRows s.seqDeckCard tok cards).head?).map (fun r => r.id), false⟩],
        deckCards := s.deckCards ++ chainRows s.seqDeckCard tok cards,
        seqDeckCard := s.seqDeckCard + cards.length } := by
    rw [← chainRows_head]
    cases hh : (chainRows s.seqDeckCard tok cards).head? with
    | none => simp [commitTop]
    | some r =>
      have hr : r ∈ chainRows s.seqDeckCard tok cards := List.mem_of_mem_head? hh
      have hfk : Store.fkDeckCard
          { s with decks := s.decks ++ [⟨tok, none, false⟩],
                   deckCards := s.deckCards ++ chainRows s.seqDeckCard tok cards,
                   seqDeckCard := s.seqDeckCard + cards.length } (some r.id) = true := by
        simp only [Store.fkDeckCard, Store.deckCardExists, List.any_eq_true,
          decide_eq_true_eq]
        exact ⟨r, List.mem_append_right _ hr, rfl⟩
      simp only [Option.map_some', commitTop, setTopCard, hfk, Bool.or_true, if_true]
      rw [hdecks]
  rw [hcommit]
  simp only
  rw [insertEntries_spec tok cards cards.dedup _ (List.nodup_dedup _)]
  · simp [insertedStore]
  · simp [Store.deckExists]
  · intro e he hed
    have := hfke e he
    rw [hed, hfresh] at this
    exact absurd this (by simp)

theorem insertDeck_store (s : Store) (rand : Nat → Nat → Nat) (cards : List String)
    (hseq : ∀ r ∈ s.deckCards, r.id ≤ s.seqDeckCard)
    (hfke : ∀ e ∈ s.entries, s.deckExists e.deckId = true)
    (htok : tokenLoop s rand 30 0 ≠ "") :
    InsertDeck s rand cards =
      (insertedStore s (tokenLoop s rand 30 0) cards, .ok (tokenLoop s rand 30 0)) := by
  unfold InsertDeck
  rw [if_neg htok, insertDeckTx_store s _ cards hseq hfke (tokenLoop_fresh s rand 30 0 htok)]
  rfl

theorem insertedStore_ids (s : Store) (tok : String) (cards : List String)
    (hids : (s.deckCards.map (fun r => r.id)).Nodup)
    (hseq : ∀ r ∈ s.deckCards, r.id ≤ s.seqDeckCard) :
    ((insertedStore s tok cards).deckCards.map (fun r => r.id)).Nodup := by
  simp only [insertedStore, List.map_append]
  refine List.Nodup.append hids (chainRows_ids_nodup _ _ _) ?_
  intro i h1 h2
  obtain ⟨r, hr, rfl⟩ := List.mem_map.1 h1
  obtain ⟨r', hr', hid⟩ := List.mem_map.1 h2
  have := hseq r hr
  have := (chainRows_id_gt r' hr').1
  omega

theorem insertedStore_deckAt (s : Store) (tok : String) (cards : List String)
    (hids : (s.deckCards.map (fun r => r.id)).Nodup)
    (hseq : ∀ r ∈ s.deckCards, r.id ≤ s.seqDeckCard)
    (hfkc : ∀ r ∈ s.deckCards, s.deckExists r.deckId = true)
    (hfresh : s.deckExists tok = false) :
    DeckAt (insertedStore s tok cards) tok (chainRows s.seqDeckCard tok cards) := by
  have hnod : ∀ r ∈ s.decks, r.deckId ≠ tok := by
    simpa [Store.deckExists] using hfresh
  refine ⟨insertedStore_ids s tok cards hids hseq,
    ⟨⟨tok, ((chainRows s.seqDeckCard tok cards).head?).map (fun r => r.id), false⟩, ?_,
      chainRows_linked _ _ _⟩, ?_⟩
  · simp only [findDeck, insertedStore, List.find?_append]
    have : s.decks.find? (fun r => r.deckId = tok) = none := by
      simp only [List.find?_eq_none, decide_eq_true_eq]
      exact hnod
    simp [this]
  · simp only [insertedStore, List.filter_append]
    have h1 : s.deckCards.filter (fun r => r.deckId = tok) = [] := by
      simp only [List.filter_eq_nil_iff, decide_eq_true_eq]
      intro r hr hd
      have := hfkc r hr
      rw [hd, hfresh] at this
      exact absurd this (by simp)
    have h2 : (chainRows s.seqDeckCard tok cards).filter (fun r => r.deckId = tok) =
        chainRows s.seqDeckCard tok cards :=
      List.filter_eq_self.2 (fun r hr => by simpa using (chainRows_id_gt r hr).2)
    rw [h1, h2]
    simp

theorem insertDeck_ok {s : Store} {rand : Nat → Nat → Nat} {cards : List String}
    {tok : String} (hok : (InsertDeck s rand cards).2 = .ok tok) :
    tokenLoop s rand 30 0 ≠ "" := by
  intro h
  simp [InsertDeck, h] at hok

/-- C2. A successful `InsertDeck` of any card list `L` creates a deck that did not exist,
whose linked list read from `topCardId` is `L` (`topCardId` is NULL for the empty list) and
whose ledger rows are one per distinct code of `L`, with `total = inDeck =` the number of
occurrences of the code in `L` and `inPile = 0`. -/
theorem insertDeck_creates_list_and_ledger (s : Store) (rand : Nat → Nat → Nat)
    (cards : List String) (tok : String)
    (hids : (s.deckCards.map (fun r => r.id)).Nodup)
    (hseq : ∀ r ∈ s.deckCards, r.id ≤ s.seqDeckCard)
    (hfkc : ∀ r ∈ s.deckCards, s.deckExists r.deckId = true)
    (hfke : ∀ e ∈ s.entries, s.deckExists e.deckId = true)
    (hok : (InsertDeck s rand cards).2 = .ok tok) :
    s.deckExists tok = false ∧
      deckList (InsertDeck s rand cards).1 tok = some cards ∧
      (cards = [] →
        (findDeck (InsertDeck s rand cards).1 tok).map (fun r => r.topCardId) = some none) ∧
      ((InsertDeck s rand cards).1.entries.filter (fun e => e.deckId = tok)).Perm
        (cards.dedup.map (fun c => ⟨tok, c, cards.count c, cards.count c, 0⟩)) := by
  have htok := insertDeck_ok hok
  have hst := insertDeck_store s rand cards hseq hfke htok
  have hfresh := tokenLoop_fresh s rand 30 0 htok
  rw [hst] at hok ⊢
  have : tokenLoop s rand 30 0 = tok := by simpa using hok
  rw [this] at hfresh
  simp only [this]
  have hat := insertedStore_deckAt s tok cards hids hseq hfkc hfresh
  refine ⟨hfresh, ?_, ?_, ?_⟩
  · exact deckList_eq_some.2 ⟨_, (deckAt_iff hat.ids).2 hat, chainRows_codes _ _ _⟩
  · rintro rfl
    obtain ⟨dk, hd, hl⟩ := hat.deck
    rw [hd]
    have : dk.topCardId = none := by simpa [chainRows, Linked] using hl
    simp [this]
  · simp only [insertedStore, List.filter_append]
    have h1 : s.entries.filter (fun e => e.deckId = tok) = [] := by
      simp only [List.filter_eq_nil_iff, decide_eq_true_eq]
      intro e he hd
      have := hfke e he
      rw [hd, hfresh] at this
      exact absurd this (by simp)
    rw [h1, List.nil_append]
    exact List.Perm.of_eq (List.filter_eq_self.2 (fun e he => by
      obtain ⟨c, _, rfl⟩ := List.mem_map.1 he
      simp))

theorem insertDeck_creates_list_and_ledger_witness :
    drawWitnessStore.deckExists "abcdefghijkl" = false ∧
      deckList (InsertDeck drawWitnessStore (fun t i => t + i) ["AS", "KD", "AS"]).1
        "abcdefghijkl" = some ["AS", "KD", "AS"] ∧
      (["AS", "KD", "AS"] = [] →
        (findDeck (InsertDeck drawWitnessStore (fun t i => t + i) ["AS", "KD", "AS"]).1
          "abcdefghijkl").map (fun r => r.topCardId) = some none) ∧
      ((InsertDeck drawWitnessStore (fun t i => t + i) ["AS", "KD", "AS"]).1.entries.filter
        (fun e => e.deckId = "abcdefghijkl")).Perm
        ((["AS", "KD", "AS"] : List String).dedup.map (fun c =>
          ⟨"abcdefghijkl", c, (["AS", "KD", "AS"] : List String).count c,
            (["AS", "KD", "AS"] : List String).count c, 0⟩)) :=
  insertDeck_creates_list_and_ledger drawWitnessStore (fun t i => t + i) ["AS", "KD", "AS"]
    "abcdefghijkl" (by decide) (by decide) (by decide) (by decide) (by decide)

/-! ## Single-card draws in a row -/

theorem drawOneByOne_spec {d : String} :
    ∀ (m : Nat) (s : Store) (rows : List DeckCardRow), DeckAt s d rows →
      (∀ r ∈ (drawOneByOne m s d).2, ∃ cs rem, r = .ok (cs, rem) ∧ cs.length ≤ 1) ∧
      (drawOneByOne m s d).2.flatMap drawnCodes = (rows.take m).map (fun r => r.code) ∧
      DeckAt (drawOneByOne m s d).1 d (rows.drop m) ∧
      (drawOneByOne m s d).1.decks.map (fun r => r.deckId) =
        s.decks.map (fun r => r.deckId) := by
  intro m
  induction m with
  | zero =>
    intro s rows h
    simp [drawOneByOne, h]
  | succ m ih =>
    intro s rows h
    obtain ⟨s', h1, h2, h3⟩ := drawCards_effect h 1
    have hk : min (1 : Int).toNat rows.length = min 1 rows.length := rfl
    rw [hk] at h1 h2 h3
    obtain ⟨i1, i2, i3, i4⟩ := ih s' _ h2
    simp only [drawOneByOne, h1]
    refine ⟨?_, ?_, ?_, ?_⟩
    · intro r hr
      rcases List.mem_cons.1 hr with hr | hr
      · exact ⟨_, _, hr, by simp⟩
      · exact i1 r hr
    · rw [List.flatMap_cons, i2]
      simp only [drawnCodes]
      cases rows with
      | nil => simp
      | cons a as => simp
    · have : (rows.drop (min 1 rows.length)).drop m = rows.drop (m + 1) := by
        cases rows with
        | nil => simp
        | cons a as => simp
      rw [← this]
      exact i3
    · rw [i4, h3.deckIds]

theorem length_filter_deckId (l : List DeckRow) (d : String) :
    (l.filter (fun r => r.deckId = d)).length = (l.map (fun r => r.deckId)).count d := by
  induction l with
  | nil => simp
  | cons a l ih =>
    by_cases h : a.deckId = d
    · simp [List.filter_cons, h, ih]
    · simp [List.filter_cons, h, ih, List.count_cons]

theorem cardsInDeck_of_deckAt {s : Store} {d : String} {rows : List DeckCardRow}
    (h : DeckAt s d rows) (hone : (s.decks.map (fun r => r.deckId)).count d = 1) :
    CardsInDeck s d = rows.length := by
  simp [CardsInDeck, length_filter_deckId, hone, h.perm.length_eq]

/-- C4. A deck is created from pairwise-distinct codes and `DrawCards(deck, 1)` is then
called `m` times in a row.  Every call succeeds with at most one code, the codes returned
over all calls are pairwise distinct, their number is `min m n`, and that number plus
`CardsInDeck` afterwards is `n`, the number of codes the deck was created from. -/
theorem single_draws_distinct (s : Store) (rand : Nat → Nat → Nat) (cards : List String)
    (tok : String) (m : Nat)
    (hids : (s.deckCards.map (fun r => r.id)).Nodup)
    (hseq : ∀ r ∈ s.deckCards, r.id ≤ s.seqDeckCard)
    (hfkc : ∀ r ∈ s.deckCards, s.deckExists r.deckId = true)
    (hfke : ∀ e ∈ s.entries, s.deckExists e.deckId = true)
    (hok : (InsertDeck s rand cards).2 = .ok tok) (hnd : cards.Nodup) :
    (∀ r ∈ (drawOneByOne m (InsertDeck s rand cards).1 tok).2,
        ∃ cs rem, r = .ok (cs, rem) ∧ cs.length ≤ 1) ∧
      ((drawOneByOne m (InsertDeck s rand cards).1 tok).2.flatMap drawnCodes).Nodup ∧
      ((drawOneByOne m (InsertDeck s rand cards).1 tok).2.flatMap drawnCodes).length =
        min m cards.length ∧
      ((drawOneByOne m (InsertDeck s rand cards).1 tok).2.flatMap drawnCodes).length +
        CardsInDeck (drawOneByOne m (InsertDeck s rand cards).1 tok).1 tok = cards.length := by
  have htok := insertDeck_ok hok
  have hst := insertDeck_store s rand cards hseq hfke htok
  have hfresh := tokenLoop_fresh s rand 30 0 htok
  rw [hst] at hok ⊢
  have : tokenLoop s rand 30 0 = tok := by simpa using hok
  rw [this] at hfresh
  simp only [this]
  have hat := insertedStore_deckAt s tok cards hids hseq hfkc hfresh
  obtain ⟨i1, i2, i3, i4⟩ := drawOneByOne_spec m _ _ hat
  have hcodes : ((chainRows s.seqDeckCard tok cards).take m).map (fun r => r.code) =
      cards.take m := by
    rw [List.map_take, chainRows_codes]
  have hlen : (chainRows s.seqDeckCard tok cards).length = cards.length := by
    have := congrArg List.length (chainRows_codes s.seqDeckCard tok cards)
    simpa using this
  have hone : ((drawOneByOne m (insertedStore s tok cards) tok).1.decks.map
      (fun r => r.deckId)).count tok = 1 := by
    rw [i4]
    have h0 : (s.decks.map (fun r => r.deckId)).count tok = 0 := by
      rw [List.count_eq_zero]
      intro hmem
      have := deckExists_iff.2 hmem
      rw [hfresh] at this
      exact absurd this (by simp)
    simp [insertedStore, List.count_append, h0]
  rw [i2, hcodes, cardsInDeck_of_deckAt i3 hone]
  refine ⟨i1, (List.take_sublist _ _).nodup hnd, by simp, ?_⟩
  simp only [List.length_take, List.length_drop, hlen]
  omega

set_option maxRecDepth 100000 in
theorem single_draws_distinct_witness :
    (∀ r ∈ (drawOneByOne 52
          (InsertDeck Store.empty (fun t i => t + i) (NewMultiDeck 1 false).Cards).1
          "abcdefghijkl").2,
        ∃ cs rem, r = .ok (cs, rem) ∧ cs.length ≤ 1) ∧
      ((drawOneByOne 52
          (InsertDeck Store.empty (fun t i => t + i) (NewMultiDeck 1 false).Cards).1
          "abcdefghijkl").2.flatMap drawnCodes).Nodup ∧
      ((drawOneByOne 52
          (InsertDeck Store.empty (fun t i => t + i) (NewMultiDeck 1 false).Cards).1
          "abcdefghijkl").2.flatMap drawnCodes).length =
        min 52 (NewMultiDeck 1 false).Cards.length ∧
      ((drawOneByOne 52
          (InsertDeck Store.empty (fun t i => t + i) (NewMultiDeck 1 false).Cards).1
          "abcdefghijkl").2.flatMap drawnCodes).length +
        CardsInDeck (drawOneByOne 52
          (InsertDeck Store.empty (fun t i => t + i) (NewMultiDeck 1 false).Cards).1
          "abcdefghijkl").1 "abcdefghijkl" = (NewMultiDeck 1 false).Cards.length :=
  single_draws_distinct Store.empty (fun t i => t + i) (NewMultiDeck 1 false).Cards
    "abcdefghijkl" 52 (by decide) (by decide) (by decide) (by decide) (by decide) (by decide)

/-! ## InsertIntoPile: the availability check -/

theorem findEntry_map {s : Store} {d c : String} (f : DeckEntryRow → DeckEntryRow)
    (hf : ∀ e, (f e).deckId = e.deckId ∧ (f e).code = e.code) :
    (s.entries.map f).find? (fun e => e.deckId = d ∧ e.code = c) = (findEntry s d c).map f := by
  unfold findEntry
  rw [List.find?_map]
  have : ((fun e : DeckEntryRow => decide (e.deckId = d ∧ e.code = c)) ∘ f) =
      fun e => decide (e.deckId = d ∧ e.code = c) := by
    funext e
    simp [hf e]
  rw [this]

theorem findEntry_key {s : Store} {d c : String} {e : DeckEntryRow}
    (h : findEntry s d c = some e) : e.deckId = d ∧ e.code = c := by
  simpa using List.find?_some h

theorem findEntry_bumpPile (s : Store) (d c c' : String) :
    findEntry (bumpPile s d c) d c' =
      (findEntry s d c').map
        (fun e => if c' = c then { e with inPile := e.inPile + 1 } else e) := by
  unfold bumpPile updateEntry
  show List.find? _ (List.map _ s.entries) = _
  rw [findEntry_map]
  · cases h : findEntry s d c' with
    | none => simp
    | some e =>
      obtain ⟨h1, h2⟩ := findEntry_key h
      by_cases hc : c' = c
      · subst hc
        simp [h1, h2]
      · have : ¬ e.code = c := by rw [h2]; exact hc
        simp [hc, this]
  · intro e
    split_ifs <;> simp

theorem available_cons (s : Store) (d c : String) (cs : List String) :
    Available s d (c :: cs) ↔
      (∃ e, findEntry s d c = some e ∧ e.inDeck + e.inPile + 1 ≤ e.total) ∧
        Available (bumpPile s d c) d cs := by
  constructor
  · intro h
    obtain ⟨e, he, hcnt⟩ := h c (List.mem_cons_self _ _)
    have hpos : (1 : Int) ≤ ((c :: cs).count c : Int) := by
      simp [List.count_cons]
    refine ⟨⟨e, he, by omega⟩, ?_⟩
    intro c' hc'
    obtain ⟨e', he', hcnt'⟩ := h c' (List.mem_cons_of_mem _ hc')
    rw [findEntry_bumpPile, he']
    by_cases hcc : c' = c
    · subst hcc
      refine ⟨{ e' with inPile := e'.inPile + 1 }, by simp, ?_⟩
      simp only [List.count_cons_self, Nat.cast_add, Nat.cast_one] at hcnt'
      simp only
      omega
    · have hcc' : ¬ c = c' := fun h => hcc h.symm
      refine ⟨e', by simp [hcc], ?_⟩
      simpa [List.count_cons, hcc'] using hcnt'
  · rintro ⟨⟨e, he, hg⟩, h⟩
    intro c' hc'
    by_cases hcc : c' = c
    · subst hcc
      refine ⟨e, he, ?_⟩
      by_cases hmem : c' ∈ cs
      · obtain ⟨e', he', hcnt'⟩ := h c' hmem
        rw [findEntry_bumpPile, he] at he'
        simp only [Option.map_some', if_true, Option.some.injEq] at he'
        subst he'
        simp only at hcnt'
        simp only [List.count_cons_self, Nat.cast_add, Nat.cast_one]
        omega
      · have : cs.count c' = 0 := List.count_eq_zero.2 hmem
        simp only [List.count_cons_self, this, zero_add, Nat.cast_one]
        omega
    · have hmem : c' ∈ cs := by
        rcases List.mem_cons.1 hc' with h1 | h1
        · exact absurd h1 hcc
        · exact h1
      have hcc' : ¬ c = c' := fun h => hcc h.symm
      obtain ⟨e', he', hcnt'⟩ := h c' hmem
      rw [findEntry_bumpPile] at he'
      cases hf : findEntry s d c' with
      | none => simp [hf] at he'
      | some e0 =>
        simp only [hf, Option.map_some', hcc, if_false, Option.some.injEq] at he'
        subst he'
        exact ⟨e0, rfl, by simpa [List.count_cons, hcc'] using hcnt'⟩

theorem ledgerAfterInsert_cons (s : Store) (d c : String) (cs : List String) :
    ledgerAfterInsert (bumpPile s d c).entries d cs = ledgerAfterInsert s.entries d (c :: cs) := by
  simp only [ledgerAfterInsert, bumpPile, updateEntry, List.map_map]
  apply List.map_congr_left
  intro e _
  by_cases hd : e.deckId = d
  · by_cases hc : c = e.code
    · subst hc
      simp [hd, List.count_cons]
      omega
    · have hc' : ¬ e.code = c := fun h => hc h.symm
      simp [hd, hc, hc', List.count_cons]
  · simp [hd]

theorem checkCodes_spec (d : String) :
    ∀ (codes : List String) (s : Store),
      (Available s d codes →
        checkCodes s d codes =
          .ok { s with entries := ledgerAfterInsert s.entries d codes }) ∧
      (¬ Available s d codes → ∃ err, checkCodes s d codes = .error err) := by
  intro codes
  induction codes with
  | nil =>
    intro s
    refine ⟨fun _ => ?_, fun h => absurd (fun c hc => by simp at hc) h⟩
    simp [checkCodes, ledgerAfterInsert]
  | cons c cs ih =>
    intro s
    rw [available_cons]
    constructor
    · rintro ⟨⟨e, he, hg⟩, h⟩
      have hng : ¬ e.total < e.inDeck + e.inPile + 1 := by omega
      simp only [checkCodes, he, hng, if_false]
      have := (ih (bumpPile s d c)).1 h
      rw [ledgerAfterInsert_cons] at this
      exact this
    · intro h
      cases he : findEntry s d c with
      | none => exact ⟨.cardNotFound, by simp [checkCodes, he]⟩
      | some e =>
        by_cases hg : e.total < e.inDeck + e.inPile + 1
        · exact ⟨.cardNotAvailable, by simp [checkCodes, he, hg]⟩
        · simp only [checkCodes, he, hg, if_false]
          apply (ih (bumpPile s d c)).2
          intro hav
          exact h ⟨⟨e, he, by omega⟩, hav⟩

/-! ## InsertIntoPile: the pile list -/

theorem PushFrame.push_refl (s : Store) (p : Nat) : PushFrame s s p :=
  ⟨rfl, rfl, rfl, rfl, rfl, rfl, fun _ _ => rfl⟩

theorem PushFrame.push_trans {s s1 s2 : Store} {p : Nat} (h1 : PushFrame s s1 p)
    (h2 : PushFrame s1 s2 p) : PushFrame s s2 p :=
  ⟨h2.decks.trans h1.decks, h2.deckCards.trans h1.deckCards, h2.piles.trans h1.piles,
    h2.entries.trans h1.entries, h2.seqDeckCard.trans h1.seqDeckCard,
    h2.seqPile.trans h1.seqPile, fun q hq => (h2.others q hq).trans (h1.others q hq)⟩

theorem pileLinked_top_fk {s : Store} {p : Nat} {top : Option Nat} {rows : List PileCardRow}
    (h : PileLinked s p top rows) : s.fkPileCard top = true := by
  cases rows with
  | nil =>
    have : top = none := h.linked
    simp [this, Store.fkPileCard]
  | cons r rs =>
    have ht : top = some r.id := h.linked.1
    have hr : r ∈ s.pileCards := by
      have := h.perm.subset (List.mem_cons_self r rs)
      exact (List.mem_filter.1 this).1
    simp only [ht, Store.fkPileCard, Store.pileCardExists, List.any_eq_true, decide_eq_true_eq]
    exact ⟨r, hr, rfl⟩

theorem pushPileCards_spec (p : Nat) :
    ∀ (codes : List String) (s : Store) (top : Option Nat) (rows : List PileCardRow),
      PileLinked s p top rows → s.pileExists p = true →
      ∃ s' top' rows', pushPileCards s p top codes = .ok s' ∧
        PileLinked s' p top' rows' ∧
        rows'.map (fun c => c.code) = codes.reverse ++ rows.map (fun c => c.code) ∧
        PushFrame s s' p := by
  intro codes
  induction codes with
  | nil =>
    intro s top rows h _
    exact ⟨s, top, rows, by simp [pushPileCards], h, by simp, PushFrame.push_refl s p⟩
  | cons c cs ih =>
    intro s top rows h hp
    have hfk := pileLinked_top_fk h
    have h1 : PileLinked
        { s with pileCards := s.pileCards ++ [⟨s.seqPileCard + 1, p, c, top⟩],
                 seqPileCard := s.seqPileCard + 1 } p (some (s.seqPileCard + 1))
        (⟨s.seqPileCard + 1, p, c, top⟩ :: rows) := by
      refine ⟨?_, ?_, ⟨rfl, h.linked⟩, ?_⟩
      · simp only [List.map_append, List.map_cons, List.map_nil]
        refine List.Nodup.append h.ids (by simp) ?_
        intro i hi1 hi2
        obtain ⟨r, hr, rfl⟩ := List.mem_map.1 hi1
        have := h.seq r hr
        simp only [List.mem_singleton] at hi2
        omega
      · intro r hr
        simp only [List.mem_append, List.mem_singleton] at hr
        rcases hr with hr | hr
        · have := h.seq r hr
          show r.id ≤ s.seqPileCard + 1
          omega
        · subst hr
          exact le_refl _
      · simp only [List.filter_append, List.filter_cons, List.filter_nil, decide_True, if_true]
        exact (h.perm.cons _).trans (List.perm_append_singleton _ _).symm
    have hp1 : Store.pileExists
        { s with pileCards := s.pileCards ++ [⟨s.seqPileCard + 1, p, c, top⟩],
                 seqPileCard := s.seqPileCard + 1 } p = true := hp
    obtain ⟨s', top', rows', e1, e2, e3, e4⟩ := ih _ _ _ h1 hp1
    refine ⟨s', top', rows', ?_, e2, ?_, ?_⟩
    · simp only [pushPileCards, insertPileCard, hp, hfk, Bool.and_self, if_true]
      exact e1
    · rw [e3]
      simp
    · have f1 : PushFrame s
          { s with pileCards := s.pileCards ++ [⟨s.seqPileCard + 1, p, c, top⟩],
                   seqPileCard := s.seqPileCard + 1 } p := by
        refine ⟨rfl, rfl, rfl, rfl, rfl, rfl, ?_⟩
        intro q hq
        have : ¬ p = q := fun h => hq h.symm
        simp [List.filter_append, List.filter_cons, this]
      exact f1.push_trans e4

theorem walkPile_of_linked {cards : List PileCardRow}
    (hn : (cards.map (fun c => c.id)).Nodup) :
    ∀ (rs : List PileCardRow) (r : PileCardRow) (fuel : Nat) (visited : List Nat)
      (acc : List String),
      Linked (fun c : PileCardRow => c.id) (fun c => c.nextCardId) (some r.id) (r :: rs) →
      (∀ x ∈ r :: rs, x ∈ cards) → ((r :: rs).map (fun c => c.id)).Nodup →
      (∀ x ∈ r :: rs, x.id ∉ visited) → rs.length + 1 ≤ fuel →
      walkPile cards fuel r.id visited acc =
        .ok (acc ++ (r :: rs).map (fun c => c.code)) := by
  intro rs
  induction rs with
  | nil =>
    intro r fuel visited acc hl hm _ hv hf
    cases fuel with
    | zero => simp at hf
    | succ n =>
      have hnx : r.nextCardId = none := hl.2
      have hnv : r.id ∉ visited := hv r (List.mem_cons_self _ _)
      have hfind := find?_of_key hn (hm r (List.mem_cons_self _ _))
      simp only at hfind
      simp [walkPile, hnv, hfind, hnx]
  | cons r2 rs ih =>
    intro r fuel visited acc hl hm hnd hv hf
    cases fuel with
    | zero => simp at hf
    | succ n =>
      have hnx : r.nextCardId = some r2.id := hl.2.1
      have hnv : r.id ∉ visited := hv r (List.mem_cons_self _ _)
      have hfind := find?_of_key hn (hm r (List.mem_cons_self _ _))
      simp only at hfind
      have hnd' := hnd
      simp only [List.map_cons, List.nodup_cons] at hnd'
      have hl2 : Linked (fun c : PileCardRow => c.id) (fun c => c.nextCardId)
          (some r2.id) (r2 :: rs) := ⟨rfl, hl.2.2⟩
      have := ih r2 n (r.id :: visited) (acc ++ [r.code]) hl2
        (fun x hx => hm x (List.mem_cons_of_mem _ hx))
        (by simpa using hnd'.2)
        (by
          intro x hx hmem
          rcases List.mem_cons.1 hmem with e | e
          · exact hnd'.1 (e ▸ List.mem_map_of_mem (fun c => c.id) hx)
          · exact hv x (List.mem_cons_of_mem _ hx) e)
        (by simpa using hf)
      simp only [walkPile, hnv, if_false, hfind, hnx]
      rw [this]
      simp

theorem getPileCards_of_rows {s : Store} {d name : String} {p : PileRow}
    {rows : List PileCardRow} {top : Option Nat}
    (hp : findPile s d name = some p)
    (hids : (s.pileCards.map (fun c => c.id)).Nodup)
    (hl : Linked (fun c : PileCardRow => c.id) (fun c => c.nextCardId) top rows)
    (hperm : rows.Perm (s.pileCards.filter (fun c => c.pileId = p.id))) (choice : Nat) :
    GetPileCards s d name choice = .ok (rows.map (fun c => c.code)) := by
  have hsub : (s.pileCards.filter (fun c => c.pileId = p.id)).Sublist s.pileCards :=
    List.filter_sublist _
  have hcids : ((s.pileCards.filter (fun c => c.pileId = p.id)).map
      (fun c => c.id)).Nodup := List.Nodup.sublist (hsub.map _) hids
  have hrids : (rows.map (fun c => c.id)).Nodup := (hperm.map _).nodup_iff.2 hcids
  unfold GetPileCards
  simp only [hp]
  cases rows with
  | nil =>
    have : s.pileCards.filter (fun c => c.pileId = p.id) = [] := List.Perm.nil_eq hperm |>.symm
    simp [this]
  | cons h rest =>
    have hlen : (s.pileCards.filter (fun c => c.pileId = p.id)).length = rest.length + 1 := by
      rw [← hperm.length_eq]
      simp
    have hne : ¬ (s.pileCards.filter (fun c => c.pileId = p.id)).length = 0 := by omega
    have hheads : (s.pileCards.filter (fun c => c.pileId = p.id)).filter
        (fun c => !((s.pileCards.filter (fun c => c.pileId = p.id)).any
          (fun c' => c'.nextCardId = some c.id))) = [h] := by
      apply filter_eq_singleton (nodup_of_map_nodup hcids) (hperm.subset (List.mem_cons_self _ _))
      intro x hx
      have hxr : x ∈ h :: rest := hperm.symm.subset hx
      simp only [Bool.not_eq_true', List.any_eq_false, decide_eq_true_eq]
      constructor
      · intro hun
        rcases linked_pred hl hxr with e | ⟨c', hc', e⟩
        · have e2 : top = some h.id := hl.1
          rw [e2] at e
          exact (eq_of_key hrids (List.mem_cons_self _ _) hxr (Option.some.inj e)).symm
        · exact absurd e (hun c' (hperm.subset hc'))
      · rintro rfl c' hc'
        exact linked_head_unref hl hrids c' (hperm.symm.subset hc')
    simp only [hne, if_false, hheads, List.length_singleton, Nat.mod_one,
      List.getElem?_cons_zero]
    have hl' : Linked (fun c : PileCardRow => c.id) (fun c => c.nextCardId)
        (some h.id) (h :: rest) := ⟨rfl, hl.2⟩
    have := walkPile_of_linked hcids rest h
      ((s.pileCards.filter (fun c => c.pileId = p.id)).length + 1) [] [] hl'
      (fun x hx => hperm.subset hx) hrids (by simp) (by omega)
    simpa using this

/-! ## InsertIntoPile: success and failure -/

theorem pushPileCards_ok (p : Nat) :
    ∀ (codes : List String) (s : Store) (top : Option Nat),
      s.pileExists p = true → s.fkPileCard top = true →
      ∃ s', pushPileCards s p top codes = .ok s' := by
  intro codes
  induction codes with
  | nil => intro s top _ _; exact ⟨s, rfl⟩
  | cons c cs ih =>
    intro s top hp hfk
    simp only [pushPileCards, insertPileCard, hp, hfk, Bool.and_self, if_true]
    apply ih
    · exact hp
    · simp [Store.fkPileCard, Store.pileCardExists]

theorem pileHead_fk (s : Store) (p : Nat) :
    s.fkPileCard ((pileHead s p).map (fun c => c.id)) = true := by
  cases h : pileHead s p with
  | none => simp [Store.fkPileCard]
  | some c =>
    have := List.mem_of_find?_eq_some h
    simp only [Option.map_some', Store.fkPileCard, Store.pileCardExists, List.any_eq_true,
      decide_eq_true_eq]
    exact ⟨c, this, rfl⟩

theorem findPile_key {s : Store} {d name : String} {p : PileRow}
    (h : findPile s d name = some p) : p ∈ s.piles ∧ p.deckId = d ∧ p.name = name := by
  refine ⟨List.mem_of_find?_eq_some h, ?_⟩
  simpa using List.find?_some h

theorem pileExists_of_mem {s : Store} {p : PileRow} (h : p ∈ s.piles) :
    s.pileExists p.id = true := by
  simp only [Store.pileExists, List.any_eq_true, decide_eq_true_eq]
  exact ⟨p, h, rfl⟩

theorem pileIdFor_ok {s : Store} {d name : String} {s2 : Store} {pid : Nat}
    (h : pileIdFor s d name = .ok (s2, pid)) :
    s2.pileExists pid = true ∧
      ((∃ p, findPile s d name = some p ∧ s2 = s ∧ pid = p.id) ∨
       (findPile s d name = none ∧ s.deckExists d = true ∧ pid = s.seqPile + 1 ∧
         s2 = { s with piles := s.piles ++ [⟨s.seqPile + 1, d, name⟩],
                       seqPile := s.seqPile + 1 })) := by
  unfold pileIdFor at h
  cases hf : findPile s d name with
  | some p =>
    simp only [hf, Except.ok.injEq, Prod.mk.injEq] at h
    obtain ⟨rfl, rfl⟩ := h
    exact ⟨pileExists_of_mem (findPile_key hf).1, Or.inl ⟨p, rfl, rfl, rfl⟩⟩
  | none =>
    simp only [hf, insertPile] at h
    by_cases hd : s.deckExists d = true
    · simp only [hd, if_true, Except.ok.injEq, Prod.mk.injEq] at h
      obtain ⟨rfl, rfl⟩ := h
      refine ⟨by simp [Store.pileExists], Or.inr ⟨rfl, hd, rfl, rfl⟩⟩
    · simp [hd] at h

theorem insertIntoPile_result (s : Store) (name d : String) (codes : List String) :
    (∀ s', insertIntoPileTx s name d codes = .ok s' →
        InsertIntoPile s name d codes = (s', .ok (CardsInPile s' d name, CardsInDeck s' d))) ∧
      (∀ e, insertIntoPileTx s name d codes = .error e →
        InsertIntoPile s name d codes = (s, .error e)) := by
  constructor
  · intro s' h
    simp [InsertIntoPile, h]
  · intro e h
    simp [InsertIntoPile, h]

theorem insertIntoPileTx_ok_of (s : Store) (name d : String) (codes : List String)
    (hd : s.deckExists d = true) (hav : Available s d codes) :
    ∃ s', insertIntoPileTx s name d codes = .ok s' := by
  unfold insertIntoPileTx
  rw [(checkCodes_spec d codes s).1 hav]
  simp only
  have hpf : ∃ s2 pid, pileIdFor { s with entries := ledgerAfterInsert s.entries d codes }
      d name = .ok (s2, pid) := by
    unfold pileIdFor
    cases hf : findPile { s with entries := ledgerAfterInsert s.entries d codes } d name with
    | some p => exact ⟨_, _, rfl⟩
    | none =>
      have hd' : Store.deckExists
          { s with entries := ledgerAfterInsert s.entries d codes } d = true := hd
      simp only [insertPile, hd', if_true]
      exact ⟨_, _, rfl⟩
  obtain ⟨s2, pid, hpf⟩ := hpf
  rw [hpf]
  simp only
  exact pushPileCards_ok pid codes s2 _ (pileIdFor_ok hpf).1 (pileHead_fk s2 pid)

theorem insertIntoPileTx_ok_iff (s : Store) (name d : String) (codes : List String)
    (hfkp : ∀ p ∈ s.piles, s.deckExists p.deckId = true) :
    (∃ s', insertIntoPileTx s name d codes = .ok s') ↔
      (s.deckExists d = true ∧ Available s d codes) := by
  constructor
  · rintro ⟨s', h⟩
    unfold insertIntoPileTx at h
    by_cases hav : Available s d codes
    · refine ⟨?_, hav⟩
      rw [(checkCodes_spec d codes s).1 hav] at h
      simp only at h
      cases hpf : pileIdFor { s with entries := ledgerAfterInsert s.entries d codes } d name with
      | error e => simp [hpf] at h
      | ok r =>
        obtain ⟨s2, pid⟩ := r
        rcases (pileIdFor_ok hpf).2 with ⟨p, hp, _, _⟩ | ⟨_, hd, _, _⟩
        · obtain ⟨hm, hpd, _⟩ := findPile_key hp
          exact hpd ▸ hfkp p hm
        · exact hd
    · obtain ⟨err, he⟩ := (checkCodes_spec d codes s).2 hav
      simp [he] at h
  · rintro ⟨hd, hav⟩
    exact insertIntoPileTx_ok_of s name d codes hd hav

/-- C5 as stated fails: with no codes every code is available, yet the call on a deck id
that is no deck is rejected, because the lazily created `Pile` row must reference a deck. -/
theorem insertIntoPile_no_codes_unknown_deck :
    ¬ ((∃ r, (InsertIntoPile Store.empty "discard" "nodeck" []).2 = .ok r) ↔
        ∀ c ∈ ([] : List String), ∃ e, findEntry Store.empty "nodeck" c = some e ∧
          ((([] : List String).count c : Nat) : Int) ≤ e.total - e.inDeck - e.inPile) := by
  intro h
  obtain ⟨r, hr⟩ := h.2 (fun c hc => by simp at hc)
  have : (InsertIntoPile Store.empty "discard" "nodeck" []).2 = .error .constraint := by decide
  rw [this] at hr
  cases hr

/-- C5, amended. In a store whose piles reference existing decks, `InsertIntoPile` succeeds
if and only if the deck exists and every code of `codes` has a ledger row of the deck whose
`total - inDeck - inPile` is at least the number of times the code occurs in `codes`; when
it fails the committed store is the store before the call: no ledger increment, no new
pile and no new `PileCard` row. -/
theorem insertIntoPile_succeeds_iff (s : Store) (name d : String) (codes : List String)
    (hfkp : ∀ p ∈ s.piles, s.deckExists p.deckId = true) :
    ((∃ r, (InsertIntoPile s name d codes).2 = .ok r) ↔
        (s.deckExists d = true ∧ Available s d codes)) ∧
      ((∀ r, (InsertIntoPile s name d codes).2 ≠ .ok r) →
        (InsertIntoPile s name d codes).1 = s) := by
  obtain ⟨h1, h2⟩ := insertIntoPile_result s name d codes
  constructor
  · rw [← insertIntoPileTx_ok_iff s name d codes hfkp]
    constructor
    · rintro ⟨r, hr⟩
      cases htx : insertIntoPileTx s name d codes with
      | ok s' => exact ⟨s', rfl⟩
      | error e =>
        rw [h2 e htx] at hr
        cases hr
    · rintro ⟨s', hs'⟩
      exact ⟨_, by rw [h1 s' hs']⟩
  · intro hno
    cases htx : insertIntoPileTx s name d codes with
    | ok s' =>
      exact absurd (by rw [h1 s' htx]) (hno (CardsInPile s' d name, CardsInDeck s' d))
    | error e => rw [h2 e htx]

theorem insertIntoPile_succeeds_iff_witness :
    ((∃ r, (InsertIntoPile pileWitnessStore "discard" "d" ["AS", "KD", "AS"]).2 = .ok r) ↔
        (pileWitnessStore.deckExists "d" = true ∧
          Available pileWitnessStore "d" ["AS", "KD", "AS"])) ∧
      ((∀ r, (InsertIntoPile pileWitnessStore "discard" "d" ["AS", "KD", "AS"]).2 ≠ .ok r) →
        (InsertIntoPile pileWitnessStore "discard" "d" ["AS", "KD", "AS"]).1 =
          pileWitnessStore) :=
  insertIntoPile_succeeds_iff pileWitnessStore "discard" "d" ["AS", "KD", "AS"] (by decide)

/-! ## InsertIntoPile: what `GetPileCards` reads afterwards -/

theorem pileRows_linked {s : Store} {p : Nat} {rows : List PileCardRow}
    (hids : (s.pileCards.map (fun c => c.id)).Nodup)
    (hseq : ∀ c ∈ s.pileCards, c.id ≤ s.seqPileCard)
    (h : pileRows s p = some rows) :
    PileLinked s p ((pileHead s p).map (fun c => c.id)) rows := by
  obtain ⟨hl, hp⟩ := (readList_iff hids (List.filter_sublist _)).1 h
  exact ⟨hids, hseq, hl, hp⟩

theorem piles_filter_singleton {s : Store} {d name : String} {p : PileRow}
    (hpn : (s.piles.map (fun p => (p.deckId, p.name))).Nodup)
    (hp : findPile s d name = some p) :
    s.piles.filter (fun q => q.deckId = d ∧ q.name = name) = [p] := by
  obtain ⟨hm, hd, hn⟩ := findPile_key hp
  apply filter_eq_singleton (nodup_of_map_nodup hpn) hm
  intro x hx
  simp only [decide_eq_true_eq]
  constructor
  · rintro ⟨h1, h2⟩
    exact List.inj_on_of_nodup_map hpn hx hm (by simp [h1, h2, hd, hn])
  · rintro rfl
    exact ⟨hd, hn⟩

theorem cardsInPile_of_singleton {s : Store} {d name : String} {p : PileRow}
    (h : s.piles.filter (fun q => q.deckId = d ∧ q.name = name) = [p]) :
    CardsInPile s d name = (s.pileCards.filter (fun c => c.pileId = p.id)).length := by
  unfold CardsInPile
  rw [h]
  simp

theorem listPiles_mem {s : Store} {d name : String} {p : PileRow}
    (hm : p ∈ s.piles) (hd : p.deckId = d) (hn : p.name = name) :
    (name, CardsInPile s d name) ∈ ListPiles s d := by
  unfold ListPiles
  refine List.mem_map.2 ⟨name, ?_, rfl⟩
  rw [List.mem_dedup]
  exact List.mem_map.2 ⟨p, List.mem_filter.2 ⟨hm, by simpa using hd⟩, hn⟩

/-- The pile `(d, name)` after a successful `InsertIntoPile`: its row, its linked rows. -/
theorem insertIntoPileTx_rows {s s' : Store} {name d : String} {codes P : List String}
    (hids : (s.pileCards.map (fun c => c.id)).Nodup)
    (hseq : ∀ c ∈ s.pileCards, c.id ≤ s.seqPileCard)
    (hpn : (s.piles.map (fun p => (p.deckId, p.name))).Nodup)
    (hpseq : ∀ p ∈ s.piles, p.id ≤ s.seqPile)
    (hfk : ∀ c ∈ s.pileCards, s.pileExists c.pileId = true)
    (hP : pileList s d name = some P ∨ (findPile s d name = none ∧ P = []))
    (h : insertIntoPileTx s name d codes = .ok s') :
    ∃ p top rows, findPile s' d name = some p ∧
      s'.piles.filter (fun q => q.deckId = d ∧ q.name = name) = [p] ∧
      PileLinked s' p.id top rows ∧
      rows.map (fun c => c.code) = codes.reverse ++ P ∧
      s'.entries = ledgerAfterInsert s.entries d codes ∧
      s'.decks = s.decks ∧ s'.deckCards = s.deckCards := by
  unfold insertIntoPileTx at h
  cases hc : checkCodes s d codes with
  | error e => simp [hc] at h
  | ok s1 =>
    have hav : Available s d codes := by
      by_contra hn
      obtain ⟨err, he⟩ := (checkCodes_spec d codes s).2 hn
      rw [he] at hc
      cases hc
    rw [(checkCodes_spec d codes s).1 hav] at hc
    cases hc
    rw [(checkCodes_spec d codes s).1 hav] at h
    simp only at h
    cases hpf : pileIdFor { s with entries := ledgerAfterInsert s.entries d codes } d name with
    | error e => simp [hpf] at h
    | ok r =>
      obtain ⟨s2, pid⟩ := r
      simp only [hpf] at h
      obtain ⟨hex, hcase⟩ := pileIdFor_ok hpf
      rcases hcase with ⟨p, hp, rfl, rfl⟩ | ⟨hnone, _, rfl, rfl⟩
      · have hp0 : findPile s d name = some p := hp
        rcases hP with hP | ⟨hno, _⟩
        · unfold pileList at hP
          simp only [hp0, Option.map_eq_some'] at hP
          obtain ⟨rows, hr, hcodes⟩ := hP
          have hlk := pileRows_linked hids hseq hr
          have hlk' : PileLinked { s with entries := ledgerAfterInsert s.entries d codes }
              p.id ((pileHead { s with entries := ledgerAfterInsert s.entries d codes }
                p.id).map (fun c => c.id)) rows := ⟨hlk.ids, hlk.seq, hlk.linked, hlk.perm⟩
          obtain ⟨s3, top', rows', e1, e2, e3, e4⟩ :=
            pushPileCards_spec p.id codes _ _ _ hlk' hex
          rw [e1] at h
          cases h
          have hp' : findPile s' d name = some p := by
            unfold findPile
            rw [e4.piles]
            exact hp0
          refine ⟨p, top', rows', hp', ?_, e2, by rw [e3, hcodes], e4.entries, e4.decks,
            e4.deckCards⟩
          rw [e4.piles]
          exact piles_filter_singleton hpn hp0
        · rw [hno] at hp0
          cases hp0
      · have hnone0 : findPile s d name = none := hnone
        have hP' : P = [] := by
          rcases hP with hP | ⟨_, hP⟩
          · simp [pileList, hnone0] at hP
          · exact hP
        subst hP'
        have hempty : s.pileCards.filter (fun c => c.pileId = s.seqPile + 1) = [] := by
          simp only [List.filter_eq_nil_iff, decide_eq_true_eq]
          intro c hc hcp
          have := hfk c hc
          simp only [Store.pileExists, List.any_eq_true, decide_eq_true_eq] at this
          obtain ⟨q, hq, hqid⟩ := this
          have := hpseq q hq
          omega
        have hhead : pileHead
            { s with entries := ledgerAfterInsert s.entries d codes,
                     piles := s.piles ++ [⟨s.seqPile + 1, d, name⟩],
                     seqPile := s.seqPile + 1 } (s.seqPile + 1) = none := by
          simp only [pileHead, List.find?_eq_none, decide_eq_true_eq, not_and]
          intro c hc hcp
          have : c ∈ s.pileCards.filter (fun c => c.pileId = s.seqPile + 1) :=
            List.mem_filter.2 ⟨hc, by simpa using hcp⟩
          rw [hempty] at this
          exact absurd this (List.not_mem_nil _)
        have hlk' : PileLinked
            { s with entries := ledgerAfterInsert s.entries d codes,
                     piles := s.piles ++ [⟨s.seqPile + 1, d, name⟩],
                     seqPile := s.seqPile + 1 } (s.seqPile + 1) none [] :=
          ⟨hids, hseq, rfl, by simp [hempty]⟩
        rw [show (s.seqPile + 1 = ({ s with entries := ledgerAfterInsert s.entries d codes }
          : Store).seqPile + 1) from rfl] at hlk' hhead
        simp only [hhead, Option.map_none'] at h
        obtain ⟨s3, top', rows', e1, e2, e3, e4⟩ :=
          pushPileCards_spec _ codes _ _ _ hlk' hex
        rw [e1] at h
        cases h
        have hfilt : s.piles.filter (fun q => q.deckId = d ∧ q.name = name) = [] := by
          simp only [List.filter_eq_nil_iff]
          intro q hq
          have := List.find?_eq_none.1 hnone0 q hq
          exact this
        refine ⟨⟨s.seqPile + 1, d, name⟩, top', rows', ?_, ?_, e2, by simpa using e3,
          e4.entries, e4.decks, e4.deckCards⟩
        · unfold findPile
          rw [e4.piles]
          have : s.piles.find? (fun r => r.deckId = d ∧ r.name = name) = none := hnone0
          show List.find? _ (s.piles ++ [_]) = _
          rw [List.find?_append, this]
          simp
        · rw [e4.piles]
          show List.filter _ (s.piles ++ [_]) = _
          rw [List.filter_append, hfilt]
          simp

/-- C6. A successful `InsertIntoPile(name, deck, codes)` on a pile whose well-formed sequence
read head to tail was `P` (`P` empty when the call creates the pile) leaves a pile that
`GetPileCards` reads as `reverse codes ++ P`, whichever head candidate its map iteration
meets first; `CardsInPile`, the count returned by the call and the count `ListPiles` gives
for the pile are all `|P| + |codes|`. -/
theorem insertIntoPile_stacks_on_top (s : Store) (name d : String) (codes P : List String)
    (r : Nat × Nat)
    (hids : (s.pileCards.map (fun c => c.id)).Nodup)
    (hseq : ∀ c ∈ s.pileCards, c.id ≤ s.seqPileCard)
    (hpn : (s.piles.map (fun p => (p.deckId, p.name))).Nodup)
    (hpseq : ∀ p ∈ s.piles, p.id ≤ s.seqPile)
    (hfk : ∀ c ∈ s.pileCards, s.pileExists c.pileId = true)
    (hP : pileList s d name = some P ∨ (findPile s d name = none ∧ P = []))
    (hok : (InsertIntoPile s name d codes).2 = .ok r) :
    (∀ choice, GetPileCards (InsertIntoPile s name d codes).1 d name choice =
        .ok (codes.reverse ++ P)) ∧
      r.1 = P.length + codes.length ∧
      CardsInPile (InsertIntoPile s name d codes).1 d name = P.length + codes.length ∧
      (name, P.length + codes.length) ∈ ListPiles (InsertIntoPile s name d codes).1 d := by
  obtain ⟨h1, h2⟩ := insertIntoPile_result s name d codes
  cases htx : insertIntoPileTx s name d codes with
  | error e =>
    rw [h2 e htx] at hok
    cases hok
  | ok s' =>
    rw [h1 s' htx] at hok ⊢
    simp only [Except.ok.injEq] at hok
    obtain ⟨p, top, rows, hp, hfilt, hlk, hcodes, _, _, _⟩ :=
      insertIntoPileTx_rows hids hseq hpn hpseq hfk hP htx
    have hcount : CardsInPile s' d name = P.length + codes.length := by
      rw [cardsInPile_of_singleton hfilt, ← hlk.perm.length_eq]
      have := congrArg List.length hcodes
      simp only [List.length_map, List.length_append, List.length_reverse] at this
      omega
    refine ⟨?_, ?_, hcount, ?_⟩
    · intro choice
      rw [← hcodes]
      exact getPileCards_of_rows hp hlk.ids hlk.linked hlk.perm choice
    · rw [← hok]
      exact hcount
    · rw [← hcount]
      obtain ⟨hm, hd, hn⟩ := findPile_key hp
      exact listPiles_mem hm hd hn

theorem insertIntoPile_stacks_on_top_witness :
    (∀ choice,
        GetPileCards (InsertIntoPile pileWitnessStore "discard" "d" ["AS", "KD", "AS"]).1
          "d" "discard" choice =
        .ok ((["AS", "KD", "AS"] : List String).reverse ++ ["AS", "KD"])) ∧
      ((5, 1) : Nat × Nat).1 =
        (["AS", "KD"] : List String).length + (["AS", "KD", "AS"] : List String).length ∧
      CardsInPile (InsertIntoPile pileWitnessStore "discard" "d" ["AS", "KD", "AS"]).1
        "d" "discard" =
        (["AS", "KD"] : List String).length + (["AS", "KD", "AS"] : List String).length ∧
      ("discard",
          (["AS", "KD"] : List String).length + (["AS", "KD", "AS"] : List String).length) ∈
        ListPiles (InsertIntoPile pileWitnessStore "discard" "d" ["AS", "KD", "AS"]).1 "d" :=
  insertIntoPile_stacks_on_top pileWitnessStore "discard" "d" ["AS", "KD", "AS"]
    ["AS", "KD"] (5, 1) (by decide) (by decide) (by decide) (by decide) (by decide)
    (Or.inl (by decide)) (by decide)

/-! ## Removing one node from a linked list -/

section ChainRemove

variable {α : Type} {key : α → Nat} {nxt : α → Option Nat}

theorem linked_pred_next {pre : List α} {q c : α} {post : List α} {top : Option Nat}
    (hl : Linked key nxt top (pre ++ q :: c :: post)) : nxt q = some (key c) := by
  induction pre generalizing top with
  | nil => exact hl.2.1
  | cons a pre ih => exact ih hl.2

theorem linked_pred_unique {pre : List α} {q c : α} {post : List α} {top : Option Nat}
    (hl : Linked key nxt top (pre ++ q :: c :: post))
    (hnd : ((pre ++ q :: c :: post).map key).Nodup) :
    ∀ x ∈ pre ++ q :: c :: post, nxt x = some (key c) → x = q := by
  induction pre generalizing top with
  | nil =>
    intro x hx hnx
    simp only [List.nil_append, List.mem_cons] at hx
    rcases hx with e | e
    · exact e
    · have hnd' : ((c :: post).map key).Nodup := by
        simp only [List.nil_append, List.map_cons, List.nodup_cons] at hnd
        simpa using hnd.2
      exact absurd hnx (linked_head_unref hl.2 hnd' x (by simpa using e))
  | cons a pre ih =>
    intro x hx hnx
    have hnd' : ((pre ++ q :: c :: post).map key).Nodup := by
      simp only [List.cons_append, List.map_cons, List.nodup_cons] at hnd
      exact hnd.2
    rcases List.mem_cons.1 hx with e | e
    · subst e
      exfalso
      have h2 := hl.2
      cases pre with
      | nil =>
        have hk : nxt x = some (key q) := h2.1
        rw [hk] at hnx
        simp only [List.nil_append, List.map_cons, List.nodup_cons, List.mem_cons,
          not_or] at hnd'
        exact hnd'.1.1 (Option.some.inj hnx)
      | cons b pre =>
        have hk : nxt x = some (key b) := h2.1
        rw [hk] at hnx
        simp only [List.cons_append, List.map_cons, List.nodup_cons, List.map_append,
          List.mem_append, List.mem_cons, not_or] at hnd'
        exact hnd'.1.2.2.1 (Option.some.inj hnx)
    · exact ih hl.2 hnd' x e hnx

theorem linked_remove {pre : List α} {q q' c : α} {post : List α} {top : Option Nat}
    (hl : Linked key nxt top (pre ++ q :: c :: post))
    (hk : key q' = key q) (hn : nxt q' = nxt c) :
    Linked key nxt top (pre ++ q' :: post) := by
  induction pre generalizing top with
  | nil =>
    refine ⟨?_, ?_⟩
    · rw [hk]; exact hl.1
    · rw [hn]; exact hl.2.2
  | cons a pre ih => exact ⟨hl.1, ih hl.2⟩

theorem linked_last_next {pre : List α} {c : α} {top : Option Nat}
    (hl : Linked key nxt top (pre ++ [c])) : nxt c = none := by
  induction pre generalizing top with
  | nil => exact hl.2
  | cons a pre ih => exact ih hl.2

theorem linked_next_none_last {rows : List α} {top : Option Nat}
    (hl : Linked key nxt top rows) {c : α} (hc : c ∈ rows) (hn : nxt c = none) :
    ∃ pre, rows = pre ++ [c] := by
  induction rows generalizing top with
  | nil => simp at hc
  | cons a as ih =>
    cases as with
    | nil =>
      simp only [List.mem_singleton] at hc
      exact ⟨[], by simp [hc]⟩
    | cons b bs =>
      rcases List.mem_cons.1 hc with e | e
      · subst e
        have : nxt c = some (key b) := hl.2.1
        rw [hn] at this
        cases this
      · obtain ⟨pre, hpre⟩ := ih hl.2 e
        exact ⟨a :: pre, by simp [hpre]⟩

end ChainRemove

theorem map_setPileNext_split {pre : List PileCardRow} {q : PileCardRow}
    {rest : List PileCardRow} (nx : Option Nat)
    (hnd : ((pre ++ q :: rest).map (fun c => c.id)).Nodup) :
    (pre ++ q :: rest).map
        (fun r => if r.id = q.id then { r with nextCardId := nx } else r) =
      pre ++ { q with nextCardId := nx } :: rest := by
  simp only [List.map_append, List.map_cons, List.nodup_append, List.nodup_cons,
    List.mem_map, not_exists, not_and] at hnd
  obtain ⟨_, ⟨hq, _⟩, hdis⟩ := hnd
  have h1 : ∀ r ∈ pre, ¬ r.id = q.id := by
    intro r hr he
    exact hdis (List.mem_map_of_mem (fun c => c.id) hr)
      (by simp only [List.mem_cons, List.mem_map]; exact Or.inl he)
  have h2 : ∀ r ∈ rest, ¬ r.id = q.id := fun r hr he => hq r hr he
  rw [List.map_append, List.map_cons]
  simp only [if_true]
  congr 1
  · conv_rhs => rw [← List.map_id pre]
    apply List.map_congr_left
    intro r hr
    simp [h1 r hr]
  · congr 1
    conv_rhs => rw [← List.map_id rest]
    apply List.map_congr_left
    intro r hr
    simp [h2 r hr]

theorem filter_ne_split (pre : List PileCardRow) (c : PileCardRow) (post : List PileCardRow)
    (hnd : ((pre ++ c :: post).map (fun c => c.id)).Nodup) :
    (pre ++ c :: post).filter (fun r => r.id ≠ c.id) = pre ++ post := by
  simp only [List.map_append, List.map_cons, List.nodup_append, List.nodup_cons,
    List.mem_map, not_exists, not_and] at hnd
  obtain ⟨_, ⟨hq, _⟩, hdis⟩ := hnd
  have h1 : ∀ r ∈ pre, ¬ r.id = c.id := by
    intro r hr he
    exact hdis (List.mem_map_of_mem (fun c => c.id) hr)
      (by simp only [List.mem_cons, List.mem_map]; exact Or.inl he)
  have h2 : ∀ r ∈ post, ¬ r.id = c.id := fun r hr he => hq r hr he
  rw [List.filter_append, List.filter_cons_of_neg (by simp)]
  congr 1
  · exact List.filter_eq_self.2 (fun r hr => by simpa using h1 r hr)
  · exact List.filter_eq_self.2 (fun r hr => by simpa using h2 r hr)

theorem map_nullify_id {l : List PileCardRow} {i : Nat}
    (h : ∀ r ∈ l, r.nextCardId ≠ some i) :
    l.map (fun r => if r.nextCardId = some i then { r with nextCardId := none } else r) = l := by
  conv_rhs => rw [← List.map_id l]
  apply List.map_congr_left
  intro r hr
  simp [h r hr]

section ChainSuffix

variable {α : Type} {key : α → Nat} {nxt : α → Option Nat}

theorem linked_suffix (pre suf : List α) {top : Option Nat}
    (hl : Linked key nxt top (pre ++ suf)) : ∃ top', Linked key nxt top' suf := by
  induction pre generalizing top with
  | nil => exact ⟨top, hl⟩
  | cons a pre ih => exact ih hl.2

end ChainSuffix

theorem filter_pile_map {T : List PileCardRow} {p : Nat} (f : PileCardRow → PileCardRow)
    (hf : ∀ r, (f r).pileId = r.pileId) :
    (T.map f).filter (fun c => c.pileId = p) = (T.filter (fun c => c.pileId = p)).map f := by
  rw [List.filter_map]
  congr 1
  apply List.filter_congr
  intro x _
  simp [hf]

theorem unlink_head {s : Store} {d : String} {p : Nat} {top : Option Nat}
    {c : PileCardRow} {post : List PileCardRow}
    (hids : (s.pileCards.map (fun c => c.id)).Nodup)
    (hl : Linked (fun c : PileCardRow => c.id) (fun c => c.nextCardId) top (c :: post))
    (hperm : (c :: post).Perm (s.pileCards.filter (fun c => c.pileId = p))) :
    ∃ s1, unlinkPileCard s d (pilePrev s p c.id) c.id c.code c.nextCardId = .ok s1 ∧
      Unlinked s s1 d p [] c post := by
  have hrids : ((c :: post).map (fun c => c.id)).Nodup :=
    (hperm.map _).nodup_iff.2 (List.Nodup.sublist ((List.filter_sublist _).map _) hids)
  have hun := linked_head_unref hl hrids
  have hprev : pilePrev s p c.id = none := by
    simp only [pilePrev, List.find?_eq_none, decide_eq_true_eq, not_and]
    intro x hx hxp
    exact hun x (hperm.symm.subset (List.mem_filter.2 ⟨hx, by simpa using hxp⟩))
  refine ⟨updateEntry (deletePileCard s c.id) d c.code (fun e => decide (e.inPile > 0))
      (fun e => { e with inPile := e.inPile - 1 }),
    by simp only [unlinkPileCard, hprev, relinkPrev], ?_, ?_, rfl, rfl, rfl, rfl⟩
  · simp only [updateEntry, deletePileCard, List.map_map]
    have hfun : ((fun c : PileCardRow => c.id) ∘ fun r : PileCardRow =>
        if r.nextCardId = some c.id then { r with nextCardId := none } else r) =
        fun c => c.id := by
      funext x
      by_cases hx : x.nextCardId = some c.id <;> simp [hx]
    rw [hfun]
    exact List.Nodup.sublist ((List.filter_sublist _).map _) hids
  · refine ⟨c.nextCardId, post, hl.2, ?_, by simp⟩
    simp only [updateEntry, deletePileCard]
    rw [filter_pile_map _ (fun r => by split_ifs <;> rfl)]
    have h1 := (hperm.filter (fun r => decide (r.id ≠ c.id))).map
      (fun r : PileCardRow =>
        if r.nextCardId = some c.id then { r with nextCardId := none } else r)
    have h2 : (c :: post).filter (fun r => decide (r.id ≠ c.id)) = post := by
      have := filter_ne_split [] c post (by simpa using hrids)
      simpa using this
    rw [h2, map_nullify_id (fun r hr => hun r (List.mem_cons_of_mem _ hr))] at h1
    refine h1.trans (List.Perm.of_eq ?_)
    congr 1
    simp only [List.filter_filter]
    apply List.filter_congr
    intro x _
    simp [Bool.and_comm]

theorem unlink_inner {s : Store} {d : String} {p : Nat} {top : Option Nat}
    {pre : List PileCardRow} {q c : PileCardRow} {post : List PileCardRow}
    (hids : (s.pileCards.map (fun c => c.id)).Nodup)
    (hl : Linked (fun c : PileCardRow => c.id) (fun c => c.nextCardId) top
      (pre ++ q :: c :: post))
    (hperm : (pre ++ q :: c :: post).Perm (s.pileCards.filter (fun c => c.pileId = p))) :
    ∃ s1, unlinkPileCard s d (pilePrev s p c.id) c.id c.code c.nextCardId = .ok s1 ∧
      Unlinked s s1 d p (pre ++ [q]) c post := by
  have hrids : ((pre ++ q :: c :: post).map (fun c => c.id)).Nodup :=
    (hperm.map _).nodup_iff.2 (List.Nodup.sublist ((List.filter_sublist _).map _) hids)
  have hmemT : ∀ x ∈ pre ++ q :: c :: post, x ∈ s.pileCards ∧ x.pileId = p := by
    intro x hx
    have := List.mem_filter.1 (hperm.subset hx)
    exact ⟨this.1, by simpa using this.2⟩
  have hqn : q.nextCardId = some c.id := linked_pred_next hl
  have huniq := linked_pred_unique hl hrids
  -- the predecessor found by the engine is `q`
  have hprev : pilePrev s p c.id = some q := by
    unfold pilePrev
    cases hf : s.pileCards.find? (fun x => x.pileId = p ∧ x.nextCardId = some c.id) with
    | none =>
      have := List.find?_eq_none.1 hf q (hmemT q (by simp)).1
      simp [(hmemT q (by simp)).2, hqn] at this
    | some x =>
      have hx1 := List.mem_of_find?_eq_some hf
      have hx2 := List.find?_some hf
      simp only [decide_eq_true_eq] at hx2
      have hxr : x ∈ pre ++ q :: c :: post :=
        hperm.symm.subset (List.mem_filter.2 ⟨hx1, by simpa using hx2.1⟩)
      rw [huniq x hxr hx2.2]
  -- the suffix that starts at `c`
  obtain ⟨topc, hlc⟩ := linked_suffix (pre ++ [q]) (c :: post)
    (by simpa using hl)
  have hcids : ((c :: post).map (fun c => c.id)).Nodup := by
    have : (c :: post).Sublist (pre ++ q :: c :: post) := by
      have h1 : (c :: post).Sublist (q :: c :: post) := List.sublist_cons_self _ _
      exact h1.trans (List.sublist_append_right _ _)
    exact List.Nodup.sublist (this.map _) hrids
  have hcun := linked_head_unref hlc hcids
  have hfk : s.fkPileCard c.nextCardId = true := by
    have : c.nextCardId = (post.head?).map (fun c => c.id) := linked_top hlc.2
    rw [this]
    cases post with
    | nil => simp [Store.fkPileCard]
    | cons b bs =>
      simp only [List.head?_cons, Option.map_some', Store.fkPileCard, Store.pileCardExists,
        List.any_eq_true, decide_eq_true_eq]
      exact ⟨b, (hmemT b (by simp)).1, rfl⟩
  have hmapq : (pre ++ q :: c :: post).map
      (fun r => if r.id = q.id then { r with nextCardId := c.nextCardId } else r) =
      pre ++ { q with nextCardId := c.nextCardId } :: c :: post :=
    map_setPileNext_split c.nextCardId hrids
  have hrids2 : ((pre ++ { q with nextCardId := c.nextCardId } :: c :: post).map
      (fun c => c.id)).Nodup := by
    simpa using hrids
  have hfilt : (pre ++ { q with nextCardId := c.nextCardId } :: c :: post).filter
      (fun r => r.id ≠ c.id) = pre ++ { q with nextCardId := c.nextCardId } :: post := by
    have := filter_ne_split (pre ++ [{ q with nextCardId := c.nextCardId }]) c post
      (by simpa using hrids2)
    simpa using this
  have hsplit : (pre.map (fun c => c.id)).Nodup ∧
      ((q :: c :: post).map (fun c => c.id)).Nodup ∧
      List.Disjoint (pre.map (fun c => c.id)) ((q :: c :: post).map (fun c => c.id)) := by
    have := hrids
    rw [List.map_append] at this
    exact List.nodup_append.1 this
  have hnonul : ∀ r ∈ pre ++ { q with nextCardId := c.nextCardId } :: post,
      r.nextCardId ≠ some c.id := by
    intro r hr
    simp only [List.mem_append, List.mem_cons] at hr
    rcases hr with h | h | h
    · intro hn
      have e := huniq r (by simp [h]) hn
      exact hsplit.2.2 (List.mem_map_of_mem (fun c => c.id) h) (by simp [e])
    · subst h
      exact hcun c (List.mem_cons_self _ _)
    · exact hcun r (List.mem_cons_of_mem _ h)
  let s1 : Store := updateEntry (deletePileCard
    { s with pileCards := (s.pileCards.map
        (fun r => if r.id = q.id then { r with nextCardId := c.nextCardId } else r)) } c.id)
    d c.code (fun e => decide (e.inPile > 0)) (fun e => { e with inPile := e.inPile - 1 })
  have hcall : unlinkPileCard s d (pilePrev s p c.id) c.id c.code c.nextCardId = .ok s1 := by
    have hex : s.pileCardExists q.id = true := by
      simp only [Store.pileCardExists, List.any_eq_true, decide_eq_true_eq]
      exact ⟨q, (hmemT q (by simp)).1, rfl⟩
    simp only [unlinkPileCard, hprev, relinkPrev, setPileCardNext, hfk, Bool.or_true, if_true]
  refine ⟨s1, hcall, ?_, ?_, rfl, rfl, rfl, rfl⟩
  · show ((List.map _ (List.filter _ (List.map _ s.pileCards))).map
      (fun x : PileCardRow => x.id)).Nodup
    rw [List.map_map]
    have hfun : ((fun c : PileCardRow => c.id) ∘ fun r : PileCardRow =>
        if r.nextCardId = some c.id then { r with nextCardId := none } else r) =
        fun c => c.id := by
      funext x
      by_cases hx : x.nextCardId = some c.id <;> simp [hx]
    rw [hfun]
    refine List.Nodup.sublist ((List.filter_sublist _).map _) ?_
    rw [List.map_map]
    have hfun2 : ((fun c : PileCardRow => c.id) ∘ fun r : PileCardRow =>
        if r.id = q.id then { r with nextCardId := c.nextCardId } else r) =
        fun c => c.id := by
      funext x
      by_cases hx : x.id = q.id <;> simp [hx]
    rw [hfun2]
    exact hids
  · refine ⟨top, pre ++ { q with nextCardId := c.nextCardId } :: post,
      linked_remove hl rfl rfl, ?_, by simp⟩
    show List.Perm _ (List.filter _ (List.map _ (List.filter _ (List.map _ s.pileCards))))
    rw [filter_pile_map _ (fun r => by split_ifs <;> rfl)]
    have h1 := ((hperm.map (fun r : PileCardRow =>
        if r.id = q.id then { r with nextCardId := c.nextCardId } else r)).filter
        (fun r => decide (r.id ≠ c.id))).map
      (fun r : PileCardRow =>
        if r.nextCardId = some c.id then { r with nextCardId := none } else r)
    rw [hmapq, hfilt, map_nullify_id hnonul] at h1
    refine h1.trans (List.Perm.of_eq ?_)
    congr 1
    rw [← filter_pile_map _ (fun r => by split_ifs <;> rfl)]
    simp only [List.filter_filter]
    apply List.filter_congr
    intro x _
    simp [Bool.and_comm]

theorem eq_nil_or_snoc {α : Type} (l : List α) : l = [] ∨ ∃ L b, l = L ++ [b] := by
  rcases List.eq_nil_or_concat l with h | ⟨L, b, h⟩
  · exact Or.inl h
  · exact Or.inr ⟨L, b, by rw [h, List.concat_eq_append]⟩

theorem unlink_any {s : Store} {d : String} {p : Nat} {top : Option Nat}
    {pre : List PileCardRow} {c : PileCardRow} {post : List PileCardRow}
    (hids : (s.pileCards.map (fun c => c.id)).Nodup)
    (hl : Linked (fun c : PileCardRow => c.id) (fun c => c.nextCardId) top
      (pre ++ c :: post))
    (hperm : (pre ++ c :: post).Perm (s.pileCards.filter (fun c => c.pileId = p))) :
    ∃ s1, unlinkPileCard s d (pilePrev s p c.id) c.id c.code c.nextCardId = .ok s1 ∧
      Unlinked s s1 d p pre c post := by
  rcases eq_nil_or_snoc pre with rfl | ⟨pre', q, rfl⟩
  · exact unlink_head hids (by simpa using hl) (by simpa using hperm)
  · exact unlink_inner hids (by simpa using hl) (by simpa using hperm)

/-! ## DrawFromPile -/

theorem pileAt_iff {s : Store} {p : Nat} {rows : List PileCardRow}
    (hn : (s.pileCards.map (fun c => c.id)).Nodup) :
    pileRows s p = some rows ↔ PileAt s p rows := by
  unfold pileRows
  constructor
  · intro h
    obtain ⟨hl, hp⟩ := (readList_iff hn (List.filter_sublist _)).1 h
    exact ⟨hn, hl, hp⟩
  · rintro ⟨_, hl, hp⟩
    exact (readList_iff hn (List.filter_sublist _)).2 ⟨hl, hp⟩

theorem pileAt_mem {s : Store} {p : Nat} {rows : List PileCardRow} (h : PileAt s p rows) :
    ∀ x, x ∈ rows ↔ (x ∈ s.pileCards ∧ x.pileId = p) := by
  intro x
  rw [h.perm.mem_iff, List.mem_filter]
  simp

theorem pileAt_rows_nodup {s : Store} {p : Nat} {rows : List PileCardRow}
    (h : PileAt s p rows) : (rows.map (fun c => c.id)).Nodup :=
  (h.perm.map _).nodup_iff.2 (List.Nodup.sublist ((List.filter_sublist _).map _) h.ids)

theorem pileHead_of_pileAt {s : Store} {p : Nat} {rows : List PileCardRow}
    (h : PileAt s p rows) : pileHead s p = rows.head? := by
  have hl := h.linked
  cases rows with
  | nil =>
    have : (pileHead s p).map (fun c => c.id) = none := hl
    simpa using this
  | cons a rest =>
    have ht : (pileHead s p).map (fun c => c.id) = some a.id := hl.1
    cases hh : pileHead s p with
    | none => simp [hh] at ht
    | some x =>
      simp only [hh, Option.map_some', Option.some.injEq] at ht
      have hx : x ∈ s.pileCards := List.mem_of_find?_eq_some hh
      have ha : a ∈ s.pileCards := ((pileAt_mem h a).1 (List.mem_cons_self _ _)).1
      simp [eq_of_key h.ids hx ha ht]

theorem selectPileCard_spec {s : Store} {p : Nat} {rows : List PileCardRow}
    (h : PileAt s p rows) {method : String} {pick : Nat} {cid : Nat} {code : String}
    {nx : Option Nat} (hsel : selectPileCard s p method pick = .ok (cid, code, nx)) :
    ∃ pre c post, rows = pre ++ c :: post ∧ cid = c.id ∧ code = c.code ∧
      nx = c.nextCardId ∧ (method = "top" → pre = []) ∧ (method = "bottom" → post = []) := by
  unfold selectPileCard at hsel
  by_cases ht : method = "top"
  · rw [if_pos ht, pileHead_of_pileAt h] at hsel
    cases rows with
    | nil => cases hsel
    | cons a rest =>
      simp only [List.head?_cons, Except.ok.injEq, Prod.mk.injEq] at hsel
      obtain ⟨rfl, rfl, rfl⟩ := hsel
      refine ⟨[], a, rest, rfl, rfl, rfl, rfl, fun _ => rfl, fun hb => ?_⟩
      rw [ht] at hb
      exact absurd hb (by decide)
  · by_cases hb : method = "bottom"
    · rw [if_neg ht, if_pos hb] at hsel
      cases hf : s.pileCards.find? (fun c => c.pileId = p ∧ c.nextCardId = none) with
      | none =>
        rw [hf] at hsel
        cases hsel
      | some x =>
        rw [hf] at hsel
        simp only [Except.ok.injEq, Prod.mk.injEq] at hsel
        obtain ⟨rfl, rfl, rfl⟩ := hsel
        have hx1 := List.mem_of_find?_eq_some hf
        have hx2 := List.find?_some hf
        simp only [decide_eq_true_eq] at hx2
        have hxr : x ∈ rows := (pileAt_mem h x).2 ⟨hx1, hx2.1⟩
        obtain ⟨pre, hpre⟩ := linked_next_none_last h.linked hxr hx2.2
        exact ⟨pre, x, [], hpre, rfl, rfl, hx2.2.symm, fun h' => absurd h' ht, fun _ => rfl⟩
    · by_cases hr : method = "random"
      · rw [if_neg ht, if_neg hb, if_pos hr] at hsel
        cases hg : (s.pileCards.filter (fun c => c.pileId = p))[pick %
            (s.pileCards.filter (fun c => c.pileId = p)).length]? with
        | none =>
          rw [hg] at hsel
          cases hsel
        | some x =>
          rw [hg] at hsel
          simp only [Except.ok.injEq, Prod.mk.injEq] at hsel
          obtain ⟨rfl, rfl, rfl⟩ := hsel
          have hxm : x ∈ s.pileCards.filter (fun c => c.pileId = p) :=
            List.getElem?_mem hg
          have hxr : x ∈ rows := h.perm.symm.subset hxm
          obtain ⟨pre, post, hpp⟩ := List.append_of_mem hxr
          exact ⟨pre, x, post, hpp, rfl, rfl, rfl, fun h' => absurd h' ht,
            fun h' => absurd h' hb⟩
      · rw [if_neg ht, if_neg hb, if_neg hr] at hsel
        cases hsel

theorem selectPileCard_ok {s : Store} {p : Nat} {rows : List PileCardRow}
    (h : PileAt s p rows) (hne : rows ≠ []) {method : String} (pick : Nat)
    (hm : method = "top" ∨ method = "bottom" ∨ method = "random") :
    ∃ r, selectPileCard s p method pick = .ok r := by
  unfold selectPileCard
  by_cases ht : method = "top"
  · rw [if_pos ht, pileHead_of_pileAt h]
    cases rows with
    | nil => exact absurd rfl hne
    | cons a rest => exact ⟨_, rfl⟩
  · by_cases hb : method = "bottom"
    · rw [if_neg ht, if_pos hb]
      cases hf : s.pileCards.find? (fun c => c.pileId = p ∧ c.nextCardId = none) with
      | some x => exact ⟨_, rfl⟩
      | none =>
        exfalso
        obtain ⟨pre, l, hpl⟩ := (eq_nil_or_snoc rows).resolve_left hne
        have hl := h.linked
        rw [hpl] at hl
        have hln := linked_last_next hl
        have hlm := (pileAt_mem h l).1 (by simp [hpl])
        have := List.find?_eq_none.1 hf l hlm.1
        simp only [decide_eq_true_eq, not_and] at this
        exact this hlm.2 hln
    · have hr : method = "random" := by
        rcases hm with h1 | h1 | h1
        · exact absurd h1 ht
        · exact absurd h1 hb
        · exact h1
      rw [if_neg ht, if_neg hb, if_pos hr]
      have hlen : 0 < (s.pileCards.filter (fun c => c.pileId = p)).length := by
        rw [← h.perm.length_eq]
        exact List.length_pos.2 hne
      have hlt := Nat.mod_lt pick hlen
      rw [List.getElem?_eq_getElem hlt]
      exact ⟨_, rfl⟩

theorem selectPileCard_empty {s : Store} {p : Nat} (h : PileAt s p [])
    {method : String} (pick : Nat)
    (hm : method = "top" ∨ method = "bottom" ∨ method = "random") :
    selectPileCard s p method pick = .error .pileEmpty := by
  have hempty : s.pileCards.filter (fun c => c.pileId = p) = [] :=
    (List.Perm.nil_eq h.perm).symm
  unfold selectPileCard
  by_cases ht : method = "top"
  · rw [if_pos ht, pileHead_of_pileAt h]
    rfl
  · by_cases hb : method = "bottom"
    · have : s.pileCards.find? (fun c => c.pileId = p ∧ c.nextCardId = none) = none := by
        rw [List.find?_eq_none]
        intro x hx hc
        simp only [decide_eq_true_eq] at hc
        have : x ∈ s.pileCards.filter (fun c => c.pileId = p) :=
          List.mem_filter.2 ⟨hx, by simpa using hc.1⟩
        rw [hempty] at this
        exact absurd this (List.not_mem_nil _)
      rw [if_neg ht, if_pos hb, this]
    · have hr : method = "random" := by
        rcases hm with h1 | h1 | h1
        · exact absurd h1 ht
        · exact absurd h1 hb
        · exact h1
      rw [if_neg ht, if_neg hb, if_pos hr, hempty]
      rfl

theorem eraseIdx_length_append {α : Type} (xs : List α) (y : α) (ys : List α) :
    (xs ++ y :: ys).eraseIdx xs.length = xs ++ ys := by
  induction xs with
  | nil => simp
  | cons a xs ih => simp [ih]

theorem getElem?_length_append {α : Type} (xs : List α) (y : α) (ys : List α) :
    (xs ++ y :: ys)[xs.length]? = some y := by
  induction xs with
  | nil => simp
  | cons a xs ih => simpa using ih

theorem drawFromPile_error_store (s : Store) (d name method : String) (pick : Nat)
    (h : ∀ code, (DrawFromPile s d name method pick).2 ≠ .ok code) :
    (DrawFromPile s d name method pick).1 = s := by
  unfold DrawFromPile at h ⊢
  cases hp : findPile s d name with
  | none => rfl
  | some p =>
    simp only [hp] at h ⊢
    cases hsel : selectPileCard s p.id method pick with
    | error e => rfl
    | ok r =>
      obtain ⟨cid, code, nx⟩ := r
      simp only [hsel] at h ⊢
      cases hu : unlinkPileCard s d (pilePrev s p.id cid) cid code nx with
      | error e => simp [atomically]
      | ok s1 =>
        simp only [hu, atomically] at h
        exact absurd rfl (h code)

/-- The effect of a successful `DrawFromPile` on a well-formed pile. -/
theorem drawFromPile_ok_spec {s : Store} {d name method : String} {pick : Nat}
    {p : PileRow} {rows : List PileCardRow} {code : String}
    (hp : findPile s d name = some p) (hat : PileAt s p.id rows)
    (hok : (DrawFromPile s d name method pick).2 = .ok code) :
    ∃ pre c post, rows = pre ++ c :: post ∧ c.code = code ∧
      (method = "top" → pre = []) ∧ (method = "bottom" → post = []) ∧
      Unlinked s (DrawFromPile s d name method pick).1 d p.id pre c post := by
  unfold DrawFromPile at hok ⊢
  simp only [hp] at hok ⊢
  cases hsel : selectPileCard s p.id method pick with
  | error e => simp [hsel] at hok
  | ok r =>
    obtain ⟨cid, ccode, nx⟩ := r
    obtain ⟨pre, c, post, hrows, rfl, rfl, rfl, h1, h2⟩ := selectPileCard_spec hat hsel
    have hl := hat.linked
    have hperm := hat.perm
    rw [hrows] at hl hperm
    obtain ⟨s1, hu, hun⟩ := unlink_any (d := d) hat.ids hl hperm
    simp only [hsel, hu, atomically] at hok ⊢
    simp only [Except.ok.injEq] at hok
    exact ⟨pre, c, post, hrows, hok, h1, h2, hun⟩

/-- C9. On a pile whose well-formed sequence read head to tail is `P`, in a store whose
ledger counts the pile's cards, a successful `DrawFromPile` returns the code at one position
`i` of `P` (the first for `top`, the last for `bottom`), `GetPileCards` afterwards reads `P`
with exactly that position deleted and the other cards in the same order, and `inPile` of
the returned code has dropped by exactly 1 while no other ledger field changed. -/
theorem drawFromPile_removes_one (s : Store) (d name method : String) (pick : Nat)
    (P : List String) (code : String)
    (hids : (s.pileCards.map (fun c => c.id)).Nodup)
    (hP : pileList s d name = some P)
    (hled : ∀ e ∈ s.entries, e.deckId = d → e.code ∈ P → 0 < e.inPile)
    (hok : (DrawFromPile s d name method pick).2 = .ok code) :
    ∃ i, i < P.length ∧ P[i]? = some code ∧
      (method = "top" → i = 0) ∧ (method = "bottom" → i + 1 = P.length) ∧
      (∀ choice, GetPileCards (DrawFromPile s d name method pick).1 d name choice =
        .ok (P.eraseIdx i)) ∧
      (DrawFromPile s d name method pick).1.entries =
        s.entries.map (fun e =>
          if e.deckId = d ∧ e.code = code then { e with inPile := e.inPile - 1 } else e) := by
  unfold pileList at hP
  cases hp : findPile s d name with
  | none => simp [hp] at hP
  | some p =>
    simp only [hp, Option.map_eq_some'] at hP
    obtain ⟨rows, hr, rfl⟩ := hP
    have hat := (pileAt_iff hids).1 hr
    obtain ⟨pre, c, post, hrows, hcode, h1, h2, hun⟩ := drawFromPile_ok_spec hp hat hok
    subst hrows
    refine ⟨pre.length, by simp, ?_, ?_, ?_, ?_, ?_⟩
    · rw [← hcode]
      have := getElem?_length_append (pre.map (fun c => c.code)) c.code
        (post.map (fun c => c.code))
      simpa using this
    · intro hm
      rw [h1 hm]
      rfl
    · intro hm
      rw [h2 hm]
      simp
    · intro choice
      obtain ⟨top', rows', hl', hperm', hcodes'⟩ := hun.rows
      have hp' : findPile (DrawFromPile s d name method pick).1 d name = some p := by
        unfold findPile
        rw [hun.piles]
        exact hp
      rw [getPileCards_of_rows hp' hun.ids hl' hperm' choice, hcodes']
      have := eraseIdx_length_append (pre.map (fun c => c.code)) c.code
        (post.map (fun c => c.code))
      simp only [List.length_map] at this
      simp [this]
    · rw [hun.entries]
      unfold ledgerAfterPileDraw
      apply List.map_congr_left
      intro e he
      by_cases hk : e.deckId = d ∧ e.code = code
      · have hpos : 0 < e.inPile := by
          apply hled e he hk.1
          rw [hk.2, ← hcode]
          simp
        have hk2 : e.code = c.code := hk.2.trans hcode.symm
        simp [hk.1, hk2, hcode, hk.2, hpos]
      · have hk2 : ¬ (e.deckId = d ∧ e.code = c.code ∧ decide (e.inPile > 0) = true) := by
          rintro ⟨a, b, _⟩
          exact hk ⟨a, b.trans hcode⟩
        rw [if_neg hk, if_neg hk2]

theorem drawFromPile_removes_one_witness :
    ∃ i, i < (["AS", "KD", "2C"] : List String).length ∧
      (["AS", "KD", "2C"] : List String)[i]? = some "KD" ∧
      ("random" = "top" → i = 0) ∧
      ("random" = "bottom" → i + 1 = (["AS", "KD", "2C"] : List String).length) ∧
      (∀ choice, GetPileCards (DrawFromPile pileDrawStore "d" "discard" "random" 1).1
          "d" "discard" choice = .ok ((["AS", "KD", "2C"] : List String).eraseIdx i)) ∧
      (DrawFromPile pileDrawStore "d" "discard" "random" 1).1.entries =
        pileDrawStore.entries.map (fun e =>
          if e.deckId = "d" ∧ e.code = "KD" then { e with inPile := e.inPile - 1 } else e) :=
  drawFromPile_removes_one pileDrawStore "d" "discard" "random" 1 ["AS", "KD", "2C"] "KD"
    (by decide) (by decide) (by decide) (by decide)

/-- C10. On a store whose list of pile `(deck, pile)` is well formed whenever the pile
exists, `DrawFromPile` fails if and only if the pile does not exist, or the method is none
of `top`, `bottom`, `random`, or the pile has no cards (with the errors pile-not-found,
invalid-method and pile-empty in that order of precedence among existing piles); in every
failing case the store is unchanged. -/
theorem drawFromPile_fails_iff (s : Store) (d name method : String) (pick : Nat)
    (hids : (s.pileCards.map (fun c => c.id)).Nodup)
    (hwf : findPile s d name ≠ none → pileList s d name ≠ none) :
    ((∀ code, (DrawFromPile s d name method pick).2 ≠ .ok code) ↔
        (findPile s d name = none ∨
          ¬ (method = "top" ∨ method = "bottom" ∨ method = "random") ∨
          pileList s d name = some [])) ∧
      ((∀ code, (DrawFromPile s d name method pick).2 ≠ .ok code) →
        (DrawFromPile s d name method pick).1 = s) ∧
      (findPile s d name = none →
        (DrawFromPile s d name method pick).2 = .error .pileNotFound) ∧
      (findPile s d name ≠ none →
        ¬ (method = "top" ∨ method = "bottom" ∨ method = "random") →
        (DrawFromPile s d name method pick).2 = .error .invalidMethod) ∧
      (pileList s d name = some [] →
        (method = "top" ∨ method = "bottom" ∨ method = "random") →
        (DrawFromPile s d name method pick).2 = .error .pileEmpty) := by
  refine ⟨?_, drawFromPile_error_store s d name method pick, ?_, ?_, ?_⟩
  · cases hp : findPile s d name with
    | none =>
      refine ⟨fun _ => Or.inl rfl, fun _ code => ?_⟩
      simp [DrawFromPile, hp]
    | some p =>
      have hsome : pileList s d name ≠ none := hwf (by simp [hp])
      unfold pileList at hsome ⊢
      simp only [hp] at hsome ⊢
      cases hr : pileRows s p.id with
      | none => simp [hr] at hsome
      | some rows =>
        have hat := (pileAt_iff hids).1 hr
        by_cases hm : method = "top" ∨ method = "bottom" ∨ method = "random"
        · cases rows with
          | nil =>
            refine ⟨fun _ => Or.inr (Or.inr (by simp)), fun _ code => ?_⟩
            simp [DrawFromPile, hp, selectPileCard_empty hat pick hm]
          | cons a rest =>
            constructor
            · intro hfail
              exfalso
              obtain ⟨⟨cid, ccode, nx⟩, hsel⟩ := selectPileCard_ok hat (by simp) pick hm
              obtain ⟨pre, c, post, hrows, rfl, rfl, rfl, _, _⟩ := selectPileCard_spec hat hsel
              have hl := hat.linked
              have hperm := hat.perm
              rw [hrows] at hl hperm
              obtain ⟨s1, hu, _⟩ := unlink_any (d := d) hat.ids hl hperm
              apply hfail c.code
              simp [DrawFromPile, hp, hsel, hu, atomically]
            · rintro (h | h | h)
              · cases h
              · exact absurd hm h
              · simp at h
        · refine ⟨fun _ => Or.inr (Or.inl hm), fun _ code => ?_⟩
          have h1 : ¬ method = "top" := fun h => hm (Or.inl h)
          have h2 : ¬ method = "bottom" := fun h => hm (Or.inr (Or.inl h))
          have h3 : ¬ method = "random" := fun h => hm (Or.inr (Or.inr h))
          simp [DrawFromPile, hp, selectPileCard, h1, h2, h3]
  · intro hp
    simp [DrawFromPile, hp]
  · intro hp hm
    cases hp' : findPile s d name with
    | none => exact absurd hp' hp
    | some p =>
      have h1 : ¬ method = "top" := fun h => hm (Or.inl h)
      have h2 : ¬ method = "bottom" := fun h => hm (Or.inr (Or.inl h))
      have h3 : ¬ method = "random" := fun h => hm (Or.inr (Or.inr h))
      simp [DrawFromPile, hp', selectPileCard, h1, h2, h3]
  · intro hP hm
    unfold pileList at hP
    cases hp : findPile s d name with
    | none => simp [hp] at hP
    | some p =>
      simp only [hp, Option.map_eq_some'] at hP
      obtain ⟨rows, hr, hnil⟩ := hP
      have : rows = [] := by simpa using hnil
      subst this
      have hat := (pileAt_iff hids).1 hr
      simp [DrawFromPile, hp, selectPileCard_empty hat pick hm]

theorem drawFromPile_fails_iff_witness :
    ((∀ code, (DrawFromPile pileDrawStore "d" "discard" "middle" 0).2 ≠ .ok code) ↔
        (findPile pileDrawStore "d" "discard" = none ∨
          ¬ ("middle" = "top" ∨ "middle" = "bottom" ∨ "middle" = "random") ∨
          pileList pileDrawStore "d" "discard" = some [])) ∧
      ((∀ code, (DrawFromPile pileDrawStore "d" "discard" "middle" 0).2 ≠ .ok code) →
        (DrawFromPile pileDrawStore "d" "discard" "middle" 0).1 = pileDrawStore) ∧
      (findPile pileDrawStore "d" "discard" = none →
        (DrawFromPile pileDrawStore "d" "discard" "middle" 0).2 = .error .pileNotFound) ∧
      (findPile pileDrawStore "d" "discard" ≠ none →
        ¬ ("middle" = "top" ∨ "middle" = "bottom" ∨ "middle" = "random") →
        (DrawFromPile pileDrawStore "d" "discard" "middle" 0).2 = .error .invalidMethod) ∧
      (pileList pileDrawStore "d" "discard" = some [] →
        ("middle" = "top" ∨ "middle" = "bottom" ∨ "middle" = "random") →
        (DrawFromPile pileDrawStore "d" "discard" "middle" 0).2 = .error .pileEmpty) :=
  drawFromPile_fails_iff pileDrawStore "d" "discard" "middle" 0 (by decide) (by decide)

/-! ## ReturnAllFromPile -/

/-- C7, evaluated. The pile `"discard"` of `pileWitnessStore` reads `AS, KD` from its top and
the deck reads `2C`; `ReturnAllFromPile` succeeds and leaves the deck reading `KD, AS, 2C`:
the pile's cards come back in ascending id order, here the reverse of the pile's order. -/
theorem returnAllFromPile_pushes_in_id_order :
    GetPileCards pileWitnessStore "d" "discard" 0 = .ok ["AS", "KD"] ∧
      deckList pileWitnessStore "d" = some ["2C"] ∧
      (ReturnAllFromPile pileWitnessStore "d" "discard").2 = .ok () ∧
      deckList (ReturnAllFromPile pileWitnessStore "d" "discard").1 "d" =
        some ["KD", "AS", "2C"] := by
  decide

theorem pushDeckCards_spec (d : String) :
    ∀ (codes : List String) (s : Store) (top : Option Nat),
      s.deckExists d = true → s.fkDeckCard top = true →
      pushDeckCards s d top codes =
        .ok ({ s with deckCards := s.deckCards ++ pushedDeckRows s.seqDeckCard d top codes,
                      seqDeckCard := s.seqDeckCard + codes.length },
          pushedTop s.seqDeckCard top codes) := by
  intro codes
  induction codes with
  | nil => intro s top _ _; simp [pushDeckCards, pushedDeckRows, pushedTop]
  | cons c cs ih =>
    intro s top hd hfk
    have hd' : Store.deckExists
        { s with deckCards := s.deckCards ++ [⟨s.seqDeckCard + 1, d, c, top⟩],
                 seqDeckCard := s.seqDeckCard + 1 } d = true := hd
    have hfk' : Store.fkDeckCard
        { s with deckCards := s.deckCards ++ [⟨s.seqDeckCard + 1, d, c, top⟩],
                 seqDeckCard := s.seqDeckCard + 1 } (some (s.seqDeckCard + 1)) = true := by
      simp [Store.fkDeckCard, Store.deckCardExists]
    simp only [pushDeckCards, insertDeckCard, hd, hfk, Bool.and_self, if_true]
    rw [ih _ _ hd' hfk']
    simp only [pushedDeckRows, pushedTop, List.append_assoc, List.singleton_append,
      List.length_cons]
    congr 3
    omega

theorem pushedDeckRows_mem {seq : Nat} {d : String} {top : Option Nat} {codes : List String} :
    ∀ r ∈ pushedDeckRows seq d top codes, seq < r.id ∧ r.id ≤ seq + codes.length ∧
      r.deckId = d := by
  induction codes generalizing seq top with
  | nil => simp [pushedDeckRows]
  | cons c cs ih =>
    intro r hr
    simp only [pushedDeckRows, List.mem_cons] at hr
    rcases hr with h | h
    · subst h
      simp
    · have := ih r h
      simp only [List.length_cons]
      exact ⟨by omega, by omega, this.2.2⟩

theorem pushedDeckRows_codes (seq : Nat) (d : String) (top : Option Nat)
    (codes : List String) :
    (pushedDeckRows seq d top codes).map (fun r => r.code) = codes := by
  induction codes generalizing seq top with
  | nil => simp [pushedDeckRows]
  | cons c cs ih => simp [pushedDeckRows, ih]

theorem pushedTop_cases (seq : Nat) (top : Option Nat) (codes : List String) :
    pushedTop seq top codes = if codes = [] then top else some (seq + codes.length) := by
  induction codes generalizing seq top with
  | nil => simp [pushedTop]
  | cons c cs ih =>
    simp only [pushedTop, ih, List.length_cons]
    by_cases h : cs = []
    · simp [h]
    · simp only [h, if_false]
      simp
      omega

theorem moveCounts_spec (d : String) (codes : List String) :
    ∀ (keys : List String) (s : Store), keys.Nodup →
      (∀ c ∈ keys, ∃ e ∈ s.entries, e.deckId = d ∧ e.code = c) →
      (∀ e ∈ s.entries, e.deckId = d → e.code ∈ keys → (codes.count e.code : Int) ≤ e.inPile) →
      moveCounts s d codes keys =
        .ok { s with entries := s.entries.map (fun e =>
          if e.deckId = d ∧ e.code ∈ keys then
            { e with inPile := e.inPile - codes.count e.code,
                     inDeck := e.inDeck + codes.count e.code }
          else e) } := by
  intro keys
  induction keys with
  | nil =>
    intro s _ _ _
    simp [moveCounts]
  | cons c cs ih =>
    intro s hnd hex hcnt
    simp only [List.nodup_cons] at hnd
    obtain ⟨e0, he0, hd0, hc0⟩ := hex c (List.mem_cons_self _ _)
    have haff : entriesAffected s d c
        (fun e => decide (e.inPile ≥ (codes.count c : Int))) ≠ 0 := by
      unfold entriesAffected
      rw [← List.countP_eq_length_filter]
      intro h0
      rw [List.countP_eq_zero] at h0
      have := h0 e0 he0
      have hg := hcnt e0 he0 hd0 (hc0 ▸ List.mem_cons_self _ _)
      rw [hc0] at hg
      simp [hd0, hc0, hg] at this
    have hupd : (updateEntry s d c (fun e => decide (e.inPile ≥ (codes.count c : Int)))
        (fun e => { e with inPile := e.inPile - (codes.count c : Int),
                           inDeck := e.inDeck + (codes.count c : Int) })).entries =
        s.entries.map (fun e =>
          if e.deckId = d ∧ e.code = c then
            { e with inPile := e.inPile - codes.count e.code,
                     inDeck := e.inDeck + codes.count e.code }
          else e) := by
      simp only [updateEntry]
      apply List.map_congr_left
      intro e he
      by_cases hk : e.deckId = d ∧ e.code = c
      · have hg := hcnt e he hk.1 (hk.2 ▸ List.mem_cons_self _ _)
        rw [hk.2] at hg
        simp [hk.1, hk.2, hg]
      · have : ¬ (e.deckId = d ∧ e.code = c ∧
            decide (e.inPile ≥ (codes.count c : Int)) = true) := fun h => hk ⟨h.1, h.2.1⟩
        rw [if_neg this, if_neg hk]
    have hex' : ∀ c' ∈ cs, ∃ e ∈ (updateEntry s d c
        (fun e => decide (e.inPile ≥ (codes.count c : Int)))
        (fun e => { e with inPile := e.inPile - (codes.count c : Int),
                           inDeck := e.inDeck + (codes.count c : Int) })).entries,
        e.deckId = d ∧ e.code = c' := by
      intro c' hc'
      obtain ⟨e, he, hd', hce⟩ := hex c' (List.mem_cons_of_mem _ hc')
      refine ⟨e, ?_, hd', hce⟩
      rw [hupd]
      refine List.mem_map.2 ⟨e, he, ?_⟩
      have : ¬ (e.deckId = d ∧ e.code = c) := by
        rintro ⟨_, h⟩
        exact hnd.1 (h ▸ hce ▸ hc')
      rw [if_neg this]
    have hcnt' : ∀ e ∈ (updateEntry s d c
        (fun e => decide (e.inPile ≥ (codes.count c : Int)))
        (fun e => { e with inPile := e.inPile - (codes.count c : Int),
                           inDeck := e.inDeck + (codes.count c : Int) })).entries,
        e.deckId = d → e.code ∈ cs → (codes.count e.code : Int) ≤ e.inPile := by
      intro e he hd' hmem
      rw [hupd] at he
      obtain ⟨e1, he1, rfl⟩ := List.mem_map.1 he
      by_cases hk : e1.deckId = d ∧ e1.code = c
      · rw [if_pos hk] at hmem
        exact absurd (hk.2 ▸ hmem) hnd.1
      · rw [if_neg hk] at hmem hd' ⊢
        exact hcnt e1 he1 hd' (List.mem_cons_of_mem _ hmem)
    have hrec := ih _ hnd.2 hex' hcnt'
    rw [hupd, List.map_map] at hrec
    simp only [moveCounts, haff, if_false]
    rw [hrec]
    congr 2
    apply List.map_congr_left
    intro e _
    simp only [Function.comp]
    by_cases hd : e.deckId = d
    · by_cases hc : e.code = c
      · simp [hd, hc, hnd.1]
      · simp [hd, hc]
    · simp [hd]

theorem moveCounts_dedup (d : String) (codes : List String) (s : Store)
    (hex : ∀ c ∈ codes, ∃ e ∈ s.entries, e.deckId = d ∧ e.code = c)
    (hcnt : ∀ e ∈ s.entries, e.deckId = d → (codes.count e.code : Int) ≤ e.inPile) :
    moveCounts s d codes codes.dedup =
      .ok { s with entries := ledgerAfterReturn s.entries d codes } := by
  rw [moveCounts_spec d codes codes.dedup s (List.nodup_dedup _)
    (fun c hc => hex c (List.mem_dedup.1 hc)) (fun e he hd _ => hcnt e he hd)]
  congr 2
  unfold ledgerAfterReturn
  apply List.map_congr_left
  intro e _
  by_cases hd : e.deckId = d
  · by_cases hc : e.code ∈ codes
    · simp [hd, hc]
    · have : codes.count e.code = 0 := List.count_eq_zero.2 hc
      subst hd
      simp [hc, this]
  · simp [hd]

theorem pushDeckCards_fk (d : String) :
    ∀ (codes : List String) (s : Store) (top : Option Nat),
      s.fkDeckCard top = true →
      ({ s with deckCards := s.deckCards ++ pushedDeckRows s.seqDeckCard d top codes,
                seqDeckCard := s.seqDeckCard + codes.length } : Store).fkDeckCard
        (pushedTop s.seqDeckCard top codes) = true := by
  intro codes s top hfk
  rw [pushedTop_cases]
  by_cases h : codes = []
  · subst h
    simp only [if_true, pushedDeckRows, List.append_nil]
    exact hfk
  · simp only [h, if_false, Store.fkDeckCard, Store.deckCardExists, List.any_append,
      Bool.or_eq_true, List.any_eq_true, decide_eq_true_eq]
    right
    clear hfk
    generalize s.seqDeckCard = seq
    induction codes generalizing seq top with
    | nil => exact absurd rfl h
    | cons c cs ih =>
      by_cases hcs : cs = []
      · subst hcs
        exact ⟨⟨seq + 1, d, c, top⟩, by simp [pushedDeckRows], by simp⟩
      · obtain ⟨r, hr, hid⟩ := ih (some (seq + 1)) hcs (seq + 1)
        refine ⟨r, by simp [pushedDeckRows, hr], ?_⟩
        simp only [List.length_cons]
        omega

theorem commitTop_spec (s : Store) (d : String) (top : Option Nat)
    (hfk : s.fkDeckCard top = true) :
    commitTop s d top =
      .ok { s with decks := s.decks.map (fun r =>
        if r.deckId = d ∧ top ≠ none then { r with topCardId := top } else r) } := by
  cases top with
  | none =>
    simp only [commitTop, ne_eq, not_true_eq_false, and_false, if_false, List.map_id']
  | some i =>
    simp only [commitTop, setTopCard, hfk, Bool.or_true, if_true, ne_eq, reduceCtorEq,
      not_false_eq_true, and_true]

theorem returnAllFromPile_ok {s : Store} {d name : String} {p : PileRow}
    (hp : findPile s d name = some p) (hd : s.deckExists d = true)
    (hfk : s.fkDeckCard (deckTop s d) = true)
    (hex : ∀ c ∈ pileCodesById s p.id, ∃ e ∈ s.entries, e.deckId = d ∧ e.code = c)
    (hcnt : ∀ e ∈ s.entries, e.deckId = d →
      ((pileCodesById s p.id).count e.code : Int) ≤ e.inPile) :
    ReturnAllFromPile s d name = (returnAllStore s d p.id, .ok ()) := by
  unfold ReturnAllFromPile
  simp only [hp]
  rw [moveCounts_dedup d _ s hex hcnt]
  simp only
  have hd' : (deletePileCardsOf
      { s with entries := ledgerAfterReturn s.entries d (pileCodesById s p.id) }
      p.id).deckExists d = true := hd
  have hfk' : (deletePileCardsOf
      { s with entries := ledgerAfterReturn s.entries d (pileCodesById s p.id) }
      p.id).fkDeckCard (deckTop (deletePileCardsOf
        { s with entries := ledgerAfterReturn s.entries d (pileCodesById s p.id) }
        p.id) d) = true := hfk
  rw [pushDeckCards_spec d _ _ _ hd' hfk']
  simp only
  rw [commitTop_spec _ _ _ (pushDeckCards_fk d _ _ _ hfk')]
  simp only [atomically, returnAllStore, List.length_reverse]
  rfl

theorem returnAllFromPile_error_store (s : Store) (d name : String)
    (h : (ReturnAllFromPile s d name).2 ≠ .ok ()) : (ReturnAllFromPile s d name).1 = s := by
  unfold ReturnAllFromPile at h ⊢
  cases hp : findPile s d name with
  | none => rfl
  | some p =>
    simp only [hp] at h ⊢
    generalize hb : (match moveCounts s d (pileCodesById s p.id)
      (pileCodesById s p.id).dedup with
      | Except.error e => Except.error e
      | Except.ok s1 =>
        match pushDeckCards (deletePileCardsOf s1 p.id) d
          (deckTop (deletePileCardsOf s1 p.id) d) (pileCodesById s p.id).reverse with
        | Except.error e => Except.error e
        | Except.ok (s3, top) =>
          match commitTop s3 d top with
          | Except.error e => Except.error e
          | Except.ok s4 => Except.ok (s4, ())) = body at h ⊢
    cases body with
    | error e => rfl
    | ok r =>
      obtain ⟨s4, u⟩ := r
      exact absurd rfl h

/-! ## Draw, insert into a pile, return the pile -/

/-- C8 as stated fails when the pile already holds cards: they come back to the deck too.
Deck `"d"` has nothing outstanding, one card is drawn and put on pile `"discard"`, all three
calls succeed, the pile ends empty, but the ledger and `CardsInDeck` are not what they were
before the draw. -/
theorem roundtrip_through_used_pile :
    (∀ e ∈ usedPileStore.entries, e.total = e.inDeck + e.inPile) ∧
      (DrawCards usedPileStore "d" 1).2 = .ok (["2C"], 0) ∧
      (InsertIntoPile (DrawCards usedPileStore "d" 1).1 "discard" "d" ["2C"]).2 = .ok (3, 0) ∧
      (ReturnAllFromPile
        (InsertIntoPile (DrawCards usedPileStore "d" 1).1 "discard" "d" ["2C"]).1
        "d" "discard").2 = .ok () ∧
      CardsInPile (drawInsertReturn usedPileStore "d" "discard" 1) "d" "discard" = 0 ∧
      (drawInsertReturn usedPileStore "d" "discard" 1).entries ≠ usedPileStore.entries ∧
      CardsInDeck (drawInsertReturn usedPileStore "d" "discard" 1) "d" ≠
        CardsInDeck usedPileStore "d" := by
  decide

theorem findEntry_of_mem {s : Store} {d c : String}
    (h : ∃ e ∈ s.entries, e.deckId = d ∧ e.code = c) :
    ∃ e0, findEntry s d c = some e0 ∧ e0 ∈ s.entries := by
  obtain ⟨e, he, hk⟩ := h
  cases hf : findEntry s d c with
  | none =>
    have := List.find?_eq_none.1 hf e he
    simp [hk] at this
  | some e0 => exact ⟨e0, rfl, List.mem_of_find?_eq_some hf⟩

theorem pileCodesById_perm (s : Store) (p : Nat) :
    (pileCodesById s p).Perm
      ((s.pileCards.filter (fun c => c.pileId = p)).map (fun c => c.code)) :=
  (List.perm_insertionSort _ _).map _

theorem deletePileCardsOf_filter (s : Store) (p : Nat) :
    (deletePileCardsOf s p).pileCards.filter (fun c => c.pileId = p) = [] := by
  simp only [deletePileCardsOf, List.filter_eq_nil_iff, List.mem_map, List.mem_filter,
    decide_eq_true_eq]
  rintro x ⟨r, ⟨_, hr⟩, rfl⟩
  simp only [ne_eq, decide_not, Bool.not_eq_true', decide_eq_false_iff_not] at hr
  cases hn : r.nextCardId with
  | none => simpa [hn] using hr
  | some j =>
    simp only [hn]
    split_ifs <;> simpa using hr

theorem ledger_roundtrip (es : List DeckEntryRow) (d : String) (drawn back : List String)
    (h : ∀ c, back.count c = drawn.count c) :
    ledgerAfterReturn (ledgerAfterInsert (ledgerAfterDraw es d drawn) d drawn) d back = es := by
  simp only [ledgerAfterReturn, ledgerAfterInsert, ledgerAfterDraw, List.map_map]
  conv_rhs => rw [← List.map_id es]
  apply List.map_congr_left
  intro e _
  by_cases hd : e.deckId = d
  · cases e
    simp only at hd
    subst hd
    simp [h]
  · simp [hd]

/-- C8, amended. On a deck whose list is well formed, whose ledger has a row for every code
of the list and nothing outstanding, and with pile `name` empty or not yet created:
`DrawCards` of any amount followed by `InsertIntoPile` of exactly the codes drawn makes the
pile hold that many cards and raises `inPile` of each code by its multiplicity, and the
following `ReturnAllFromPile` succeeds, leaves the pile with 0 cards and restores every
ledger row and `CardsInDeck` to their values before the draw. -/
theorem roundtrip_through_empty_pile (s : Store) (d name : String) (amount : Int)
    (L : List String)
    (hcids : (s.deckCards.map (fun r => r.id)).Nodup)
    (hL : deckList s d = some L)
    (hpids : (s.pileCards.map (fun c => c.id)).Nodup)
    (hpseq : ∀ c ∈ s.pileCards, c.id ≤ s.seqPileCard)
    (hpn : (s.piles.map (fun p => (p.deckId, p.name))).Nodup)
    (hplseq : ∀ p ∈ s.piles, p.id ≤ s.seqPile)
    (hfk : ∀ c ∈ s.pileCards, s.pileExists c.pileId = true)
    (hP : pileList s d name = some [] ∨ findPile s d name = none)
    (hent : ∀ c ∈ L, ∃ e ∈ s.entries, e.deckId = d ∧ e.code = c)
    (hout : ∀ e ∈ s.entries, e.deckId = d → 0 ≤ e.inPile ∧ e.total = e.inDeck + e.inPile) :
    drawnCodes (DrawCards s d amount).2 = L.take (drawCount amount L.length) ∧
      (InsertIntoPile (DrawCards s d amount).1 name d
          (L.take (drawCount amount L.length))).2 =
        .ok ((L.take (drawCount amount L.length)).length,
          CardsInDeck (DrawCards s d amount).1 d) ∧
      (InsertIntoPile (DrawCards s d amount).1 name d
          (L.take (drawCount amount L.length))).1.entries =
        ledgerAfterInsert
          (ledgerAfterDraw s.entries d (L.take (drawCount amount L.length))) d
          (L.take (drawCount amount L.length)) ∧
      (ReturnAllFromPile
        (InsertIntoPile (DrawCards s d amount).1 name d
          (L.take (drawCount amount L.length))).1 d name).2 = .ok () ∧
      CardsInPile (drawInsertReturn s d name amount) d name = 0 ∧
      (drawInsertReturn s d name amount).entries = s.entries ∧
      CardsInDeck (drawInsertReturn s d name amount) d = CardsInDeck s d := by
  obtain ⟨rows, hr, rfl⟩ := deckList_eq_some.1 hL
  have hat := (deckAt_iff hcids).1 hr
  have hk : drawCount amount (rows.map (fun r => r.code)).length =
      min amount.toNat rows.length := by
    simp only [drawCount, List.length_map]
    omega
  obtain ⟨s1, h1, hat1, hfr⟩ := drawCards_effect hat amount
  have hdrawn : drawnCodes (DrawCards s d amount).2 =
      (rows.map (fun r => r.code)).take (drawCount amount (rows.map (fun r => r.code)).length) := by
    rw [h1, hk]
    simp [drawnCodes, List.map_take]
  unfold drawInsertReturn
  rw [hdrawn]
  rw [hk, ← List.map_take]
  rw [h1]
  simp only
  generalize hdr : (rows.take (min amount.toNat rows.length)).map (fun r => r.code) = drawn
    at hfr ⊢
  have hdsub : ∀ c ∈ drawn, c ∈ rows.map (fun r => r.code) := by
    intro c hc
    rw [← hdr] at hc
    obtain ⟨r, hr', rfl⟩ := List.mem_map.1 hc
    exact List.mem_map_of_mem _ (List.mem_of_mem_take hr')
  -- the deck still exists after the draw
  obtain ⟨dk1, hdk1, hl1⟩ := hat1.deck
  have hd1 : s1.deckExists d = true := deckExists_of_find hdk1
  -- availability of the drawn codes
  have hav : Available s1 d drawn := by
    intro c hc
    obtain ⟨e0, hf0, hm0⟩ := findEntry_of_mem (hent c (hdsub c hc))
    obtain ⟨hkd, hkc⟩ := findEntry_key hf0
    have hfe : findEntry s1 d c = (findEntry s d c).map (fun e =>
        if e.deckId = d then { e with inDeck := e.inDeck - drawn.count e.code } else e) := by
      have := findEntry_map (s := s) (d := d) (c := c) (fun e =>
        if e.deckId = d then { e with inDeck := e.inDeck - drawn.count e.code } else e)
        (fun e => by dsimp only; split_ifs <;> simp)
      unfold findEntry at this ⊢
      rw [hfr.entries]
      exact this
    rw [hfe, hf0]
    refine ⟨_, rfl, ?_⟩
    have := (hout e0 hm0 hkd).2
    simp only [hkd, if_true, hkc]
    omega
  obtain ⟨s2, htx⟩ := insertIntoPileTx_ok_of s1 name d drawn hd1 hav
  have hP1 : pileList s1 d name = some [] ∨ (findPile s1 d name = none ∧ ([] : List String) = []) := by
    have e1 : pileList s1 d name = pileList s d name := by
      unfold pileList pileRows findPile pileHead
      rw [hfr.piles, hfr.pileCards]
    have e2 : findPile s1 d name = findPile s d name := by
      unfold findPile
      rw [hfr.piles]
    rw [e1, e2]
    rcases hP with h | h
    · exact Or.inl h
    · exact Or.inr ⟨h, rfl⟩
  obtain ⟨p, top, prow, hp2, hfilt2, hlk2, hcodes2, hent2, hdecks2, hcards2⟩ :=
    insertIntoPileTx_rows (s := s1) (by rw [hfr.pileCards]; exact hpids)
      (by rw [hfr.pileCards, hfr.seqPileCard]; exact hpseq)
      (by rw [hfr.piles]; exact hpn)
      (by rw [hfr.piles, hfr.seqPile]; exact hplseq)
      (by
        intro c hc
        rw [hfr.pileCards] at hc
        have := hfk c hc
        unfold Store.pileExists at this ⊢
        rw [hfr.piles]
        exact this)
      hP1 htx
  have hins := (insertIntoPile_result s1 name d drawn).1 s2 htx
  rw [hins]
  simp only
  -- the codes lying in the pile are the drawn ones
  have hpc : ∀ c, (pileCodesById s2 p.id).count c = drawn.count c := by
    intro c
    rw [(pileCodesById_perm s2 p.id).count_eq, ← (hlk2.perm.map _).count_eq, hcodes2]
    simp
  have hpl : (pileCodesById s2 p.id).length = drawn.length := by
    rw [(pileCodesById_perm s2 p.id).length_eq, ← (hlk2.perm.map (fun c => c.code)).length_eq,
      hcodes2]
    simp
  have hent2' : s2.entries = ledgerAfterInsert (ledgerAfterDraw s.entries d drawn) d drawn := by
    rw [hent2, hfr.entries]
    rfl
  have hcountPile : CardsInPile s2 d name = drawn.length := by
    rw [cardsInPile_of_singleton hfilt2, ← hlk2.perm.length_eq]
    have := congrArg List.length hcodes2
    simpa using this
  -- the return succeeds
  have hd2 : s2.deckExists d = true := by
    unfold Store.deckExists
    rw [hdecks2]
    exact hd1
  have hfk2 : s2.fkDeckCard (deckTop s2 d) = true := by
    have e1 : deckTop s2 d = dk1.topCardId := by
      unfold deckTop findDeck
      rw [hdecks2]
      have : s1.decks.find? (fun r => r.deckId = d) = some dk1 := hdk1
      rw [this]
      rfl
    rw [e1]
    cases hrest : rows.drop (min amount.toNat rows.length) with
    | nil =>
      rw [hrest] at hl1
      have : dk1.topCardId = none := hl1
      simp [this, Store.fkDeckCard]
    | cons a rest =>
      rw [hrest] at hl1
      have ht : dk1.topCardId = some a.id := hl1.1
      have ha : a ∈ s1.deckCards := by
        have := hat1.perm.subset (hrest ▸ List.mem_cons_self a rest)
        exact (List.mem_filter.1 this).1
      rw [ht]
      simp only [Store.fkDeckCard, Store.deckCardExists, List.any_eq_true, decide_eq_true_eq]
      exact ⟨a, hcards2 ▸ ha, rfl⟩
  have hex2 : ∀ c ∈ pileCodesById s2 p.id, ∃ e ∈ s2.entries, e.deckId = d ∧ e.code = c := by
    intro c hc
    have hcd : c ∈ drawn := by
      have : 0 < (pileCodesById s2 p.id).count c := List.count_pos_iff.2 hc
      rw [hpc] at this
      exact List.count_pos_iff.1 this
    obtain ⟨e, he, hkd, hkc⟩ := hent c (hdsub c hcd)
    rw [hent2']
    simp only [ledgerAfterInsert, ledgerAfterDraw, List.map_map]
    refine ⟨_, List.mem_map_of_mem _ he, ?_, ?_⟩
    · simp only [Function.comp]
      split_ifs
      simp_all
    · simp only [Function.comp]
      split_ifs
      simp_all
  have hcnt2 : ∀ e ∈ s2.entries, e.deckId = d →
      ((pileCodesById s2 p.id).count e.code : Int) ≤ e.inPile := by
    intro e he hkd
    rw [hent2'] at he
    simp only [ledgerAfterInsert, ledgerAfterDraw, List.map_map] at he
    obtain ⟨e0, he0, rfl⟩ := List.mem_map.1 he
    have hkd0 : e0.deckId = d := by
      simp only [Function.comp] at hkd
      split_ifs at hkd <;> simp_all
    have := (hout e0 he0 hkd0).1
    rw [hpc]
    simp only [Function.comp, hkd0, if_true]
    omega
  have hret := returnAllFromPile_ok hp2 hd2 hfk2 hex2 hcnt2
  rw [hret]
  simp only
  refine ⟨?_, ?_, hent2', trivial, ?_, ?_, ?_⟩
  · trivial
  · rw [hcountPile]
    unfold CardsInDeck
    rw [hdecks2, hcards2]
  · have : (returnAllStore s2 d p.id).piles.filter
        (fun q => q.deckId = d ∧ q.name = name) = [p] := hfilt2
    rw [cardsInPile_of_singleton this]
    show (List.filter _ (deletePileCardsOf s2 p.id).pileCards).length = 0
    rw [deletePileCardsOf_filter]
    rfl
  · show ledgerAfterReturn s2.entries d (pileCodesById s2 p.id) = s.entries
    rw [hent2']
    exact ledger_roundtrip s.entries d drawn _ hpc
  · unfold CardsInDeck
    have e1 : ((returnAllStore s2 d p.id).decks.filter (fun r => r.deckId = d)).length =
        (s.decks.filter (fun r => r.deckId = d)).length := by
      rw [length_filter_deckId, length_filter_deckId, ← hfr.deckIds, ← hdecks2]
      congr 1
      simp only [returnAllStore, List.map_map]
      apply List.map_congr_left
      intro r _
      simp only [Function.comp]
      split_ifs <;> rfl
    have e2 : ((returnAllStore s2 d p.id).deckCards.filter (fun r => r.deckId = d)).length =
        (s.deckCards.filter (fun r => r.deckId = d)).length := by
      simp only [returnAllStore, List.filter_append, List.length_append]
      have hall : (pushedDeckRows s2.seqDeckCard d (deckTop s2 d)
          (pileCodesById s2 p.id).reverse).filter (fun r => r.deckId = d) =
          pushedDeckRows s2.seqDeckCard d (deckTop s2 d) (pileCodesById s2 p.id).reverse :=
        List.filter_eq_self.2 (fun r hr => by simpa using (pushedDeckRows_mem r hr).2.2)
      have hlen : (pushedDeckRows s2.seqDeckCard d (deckTop s2 d)
          (pileCodesById s2 p.id).reverse).length = drawn.length := by
        have := congrArg List.length (pushedDeckRows_codes s2.seqDeckCard d (deckTop s2 d)
          (pileCodesById s2 p.id).reverse)
        simp only [List.length_map, List.length_reverse] at this
        rw [this, hpl]
      rw [hall, hlen, hcards2, ← hat1.perm.length_eq, ← hat.perm.length_eq, ← hdr]
      simp only [List.length_drop, List.length_map, List.length_take]
      omega
    rw [e1, e2]

theorem roundtrip_through_empty_pile_witness :
    drawnCodes (DrawCards drawWitnessStore "d" 2).2 =
        (["AS", "KD", "AS"] : List String).take
          (drawCount 2 (["AS", "KD", "AS"] : List String).length) ∧
      (InsertIntoPile (DrawCards drawWitnessStore "d" 2).1 "discard" "d"
          ((["AS", "KD", "AS"] : List String).take
            (drawCount 2 (["AS", "KD", "AS"] : List String).length))).2 =
        .ok (((["AS", "KD", "AS"] : List String).take
            (drawCount 2 (["AS", "KD", "AS"] : List String).length)).length,
          CardsInDeck (DrawCards drawWitnessStore "d" 2).1 "d") ∧
      (InsertIntoPile (DrawCards drawWitnessStore "d" 2).1 "discard" "d"
          ((["AS", "KD", "AS"] : List String).take
            (drawCount 2 (["AS", "KD", "AS"] : List String).length))).1.entries =
        ledgerAfterInsert
          (ledgerAfterDraw drawWitnessStore.entries "d"
            ((["AS", "KD", "AS"] : List String).take
              (drawCount 2 (["AS", "KD", "AS"] : List String).length))) "d"
          ((["AS", "KD", "AS"] : List String).take
            (drawCount 2 (["AS", "KD", "AS"] : List String).length)) ∧
      (ReturnAllFromPile
        (InsertIntoPile (DrawCards drawWitnessStore "d" 2).1 "discard" "d"
          ((["AS", "KD", "AS"] : List String).take
            (drawCount 2 (["AS", "KD", "AS"] : List String).length))).1
        "d" "discard").2 = .ok () ∧
      CardsInPile (drawInsertReturn drawWitnessStore "d" "discard" 2) "d" "discard" = 0 ∧
      (drawInsertReturn drawWitnessStore "d" "discard" 2).entries =
        drawWitnessStore.entries ∧
      CardsInDeck (drawInsertReturn drawWitnessStore "d" "discard" 2) "d" =
        CardsInDeck drawWitnessStore "d" :=
  roundtrip_through_empty_pile drawWitnessStore "d" "discard" 2 ["AS", "KD", "AS"]
    (by decide) (by decide) (by decide) (by decide) (by decide) (by decide) (by decide)
    (Or.inr (by decide)) (by decide) (by decide)

/-! ## Conservation over reachable stores -/

theorem DeckSide.side_refl (s : Store) : DeckSide s s := ⟨rfl, rfl, rfl, rfl⟩

theorem DeckSide.side_trans {a b c : Store} (h1 : DeckSide a b) (h2 : DeckSide b c) :
    DeckSide a c :=
  ⟨h2.decks.trans h1.decks, h2.deckCards.trans h1.deckCards, h2.entries.trans h1.entries,
    h2.seqDeckCard.trans h1.seqDeckCard⟩

theorem Conserved.conserved_congr {s s' : Store} (h : Conserved s) (he : s'.entries = s.entries) :
    Conserved s' := by
  unfold Conserved
  rw [he]
  exact h

theorem Held.held_congr {s s' : Store} {owed : String → String → Int} (h : Held s owed)
    (he : s'.entries = s.entries) (hk : cardKinds s' = cardKinds s) : Held s' owed := by
  unfold Held
  rw [he, hk]
  exact h

theorem Held.held_mono {s : Store} {owed owed' : String → String → Int} (h : Held s owed)
    (hle : ∀ e ∈ s.entries, owed' e.deckId e.code ≤ owed e.deckId e.code) : Held s owed' := by
  intro e he
  have := h e he
  have := hle e he
  omega

theorem OwnPtr.ptr_congr {s s' : Store} {d : String} {top : Option Nat} (h : OwnPtr s d top)
    (hc : s'.deckCards = s.deckCards) (hs : s'.seqDeckCard = s.seqDeckCard) :
    OwnPtr s' d top := by
  unfold OwnPtr
  rw [hc, hs]
  exact h

theorem Sound.sound_congr {s s' : Store} (h : Sound s) (f : DeckSide s s') : Sound s' := by
  have hx : ∀ d, s'.deckExists d = s.deckExists d := by
    intro d
    unfold Store.deckExists
    rw [f.decks]
  refine ⟨?_, ?_, ?_, ?_, ?_, ?_, ?_⟩
  · rw [f.entries]
    exact h.keys
  · rw [f.entries]
    intro e he
    rw [hx]
    exact h.entryDeck e he
  · rw [f.deckCards]
    intro r hr
    rw [hx]
    exact h.cardDeck r hr
  · rw [f.deckCards, f.seqDeckCard]
    exact h.cardSeq
  · rw [f.deckCards]
    exact h.idDeck
  · rw [f.decks]
    intro dk hdk
    exact (h.topOwn dk hdk).ptr_congr f.deckCards f.seqDeckCard
  · rw [f.deckCards]
    intro r hr
    exact (h.nextOwn r hr).ptr_congr f.deckCards f.seqDeckCard

theorem Inv.inv_congr {s s' : Store} (h : Inv s) (f : DeckSide s s') : Inv s' :=
  ⟨h.sound.sound_congr f, h.conserved.conserved_congr f.entries,
    h.held.held_congr f.entries (by unfold cardKinds; rw [f.deckCards])⟩

theorem deckExists_congr {s s' : Store}
    (hd : s'.decks.map (fun r => r.deckId) = s.decks.map (fun r => r.deckId)) (d : String) :
    s'.deckExists d = s.deckExists d := by
  have h1 := @deckExists_iff s d
  have h2 := @deckExists_iff s' d
  rw [hd] at h2
  rw [Bool.eq_iff_iff, h2, h1]

theorem OwnPtr.ptr_none (s : Store) (d : String) : OwnPtr s d none := by
  intro i hi
  cases hi

/-- A pointer stays valid when the id sequence grows and every row below the old sequence
value comes from an old row with the same id and deck. -/
theorem OwnPtr.ptr_of_sub {s s' : Store} {d : String} {top : Option Nat} (h : OwnPtr s d top)
    (hs : s.seqDeckCard ≤ s'.seqDeckCard)
    (hc : ∀ r' ∈ s'.deckCards, r'.id ≤ s.seqDeckCard →
      ∃ r ∈ s.deckCards, r'.id = r.id ∧ r'.deckId = r.deckId) : OwnPtr s' d top := by
  intro i hi
  obtain ⟨h1, h2⟩ := h i hi
  refine ⟨le_trans h1 hs, ?_⟩
  intro r' hr' hid
  obtain ⟨r, hr, e1, e2⟩ := hc r' hr' (hid ▸ h1)
  rw [e2]
  exact h2 r hr (e1 ▸ hid)

/-- Rewriting ledger rows without touching their key keeps the store sound. -/
theorem Sound.sound_of_entries_map {s s' : Store} (h : Sound s) (g : DeckEntryRow → DeckEntryRow)
    (hg : ∀ e, (g e).deckId = e.deckId ∧ (g e).code = e.code)
    (hd : s'.decks = s.decks) (hc : s'.deckCards = s.deckCards)
    (hs : s'.seqDeckCard = s.seqDeckCard) (he : s'.entries = s.entries.map g) :
    Sound s' := by
  have hx : ∀ d, s'.deckExists d = s.deckExists d := fun d => deckExists_congr (by rw [hd]) d
  refine ⟨?_, ?_, ?_, ?_, ?_, ?_, ?_⟩
  · rw [he, List.map_map]
    have : ((fun e => (e.deckId, e.code)) ∘ g) = (fun e : DeckEntryRow => (e.deckId, e.code)) := by
      funext e
      simp [(hg e).1, (hg e).2]
    rw [this]
    exact h.keys
  · rw [he]
    intro e' he'
    obtain ⟨e, hm, rfl⟩ := List.mem_map.1 he'
    rw [hx, (hg e).1]
    exact h.entryDeck e hm
  · rw [hc]
    intro r hr
    rw [hx]
    exact h.cardDeck r hr
  · rw [hc, hs]
    exact h.cardSeq
  · rw [hc]
    exact h.idDeck
  · rw [hd]
    intro dk hdk
    exact (h.topOwn dk hdk).ptr_congr hc hs
  · rw [hc]
    intro r hr
    exact (h.nextOwn r hr).ptr_congr hc hs

/-- Rewriting head pointers to valid ones keeps the store sound. -/
theorem Sound.sound_of_decks {s s' : Store} (h : Sound s)
    (hd : s'.decks.map (fun r => r.deckId) = s.decks.map (fun r => r.deckId))
    (ht : ∀ dk ∈ s'.decks, OwnPtr s dk.deckId dk.topCardId)
    (hc : s'.deckCards = s.deckCards) (hs : s'.seqDeckCard = s.seqDeckCard)
    (he : s'.entries = s.entries) : Sound s' := by
  have hx : ∀ d, s'.deckExists d = s.deckExists d := fun d => deckExists_congr hd d
  refine ⟨?_, ?_, ?_, ?_, ?_, ?_, ?_⟩
  · rw [he]
    exact h.keys
  · rw [he]
    intro e hm
    rw [hx]
    exact h.entryDeck e hm
  · rw [hc]
    intro r hr
    rw [hx]
    exact h.cardDeck r hr
  · rw [hc, hs]
    exact h.cardSeq
  · rw [hc]
    exact h.idDeck
  · intro dk hdk
    exact (ht dk hdk).ptr_congr hc hs
  · rw [hc]
    intro r hr
    exact (h.nextOwn r hr).ptr_congr hc hs

/-- Dropping rows of `DeckCard` and rewriting successors to valid ones keeps the store
sound. -/
theorem Sound.sound_of_cards {s s' : Store} (h : Sound s)
    (hc : ∀ r' ∈ s'.deckCards, ∃ r ∈ s.deckCards,
      r'.id = r.id ∧ r'.deckId = r.deckId ∧ OwnPtr s r.deckId r'.nextId)
    (hd : s'.decks = s.decks) (hs : s'.seqDeckCard = s.seqDeckCard)
    (he : s'.entries = s.entries) : Sound s' := by
  have hx : ∀ d, s'.deckExists d = s.deckExists d := fun d => deckExists_congr (by rw [hd]) d
  have hsub : ∀ r' ∈ s'.deckCards, r'.id ≤ s.seqDeckCard →
      ∃ r ∈ s.deckCards, r'.id = r.id ∧ r'.deckId = r.deckId := by
    intro r' hr' _
    obtain ⟨r, hr, e1, e2, _⟩ := hc r' hr'
    exact ⟨r, hr, e1, e2⟩
  refine ⟨?_, ?_, ?_, ?_, ?_, ?_, ?_⟩
  · rw [he]
    exact h.keys
  · rw [he]
    intro e hm
    rw [hx]
    exact h.entryDeck e hm
  · intro r' hr'
    obtain ⟨r, hr, _, e2, _⟩ := hc r' hr'
    rw [hx, e2]
    exact h.cardDeck r hr
  · intro r' hr'
    obtain ⟨r, hr, e1, _, _⟩ := hc r' hr'
    rw [hs, e1]
    exact h.cardSeq r hr
  · intro a' ha' b' hb' hid
    obtain ⟨a, ha, a1, a2, _⟩ := hc a' ha'
    obtain ⟨b, hb, b1, b2, _⟩ := hc b' hb'
    rw [a2, b2]
    exact h.idDeck a ha b hb (by rw [← a1, ← b1, hid])
  · rw [hd]
    intro dk hdk
    exact (h.topOwn dk hdk).ptr_of_sub (le_of_eq hs.symm) hsub
  · intro r' hr'
    obtain ⟨r, hr, _, e2, e3⟩ := hc r' hr'
    rw [e2]
    exact e3.ptr_of_sub (le_of_eq hs.symm) hsub

/-! ### Single statements -/

theorem setTopCard_ok {s s1 : Store} {d : String} {top : Option Nat}
    (h : setTopCard s d top = .ok s1) :
    s1 = { s with decks :=
      (s.decks.map (fun r => if r.deckId = d then { r with topCardId := top } else r)) } := by
  unfold setTopCard at h
  split_ifs at h
  exact (Except.ok.inj h).symm

theorem setTopCardShuffled_ok {s s1 : Store} {d : String} {top : Option Nat}
    (h : setTopCardShuffled s d top = .ok s1) :
    s1 = { s with decks := (s.decks.map (fun r =>
      if r.deckId = d then { r with topCardId := top, shuffled := true } else r)) } := by
  unfold setTopCardShuffled at h
  split_ifs at h
  exact (Except.ok.inj h).symm

theorem setDeckCardNext_ok {s s1 : Store} {i : Nat} {next : Option Nat}
    (h : setDeckCardNext s i next = .ok s1) :
    s1 = { s with deckCards :=
      (s.deckCards.map (fun r => if r.id = i then { r with nextId := next } else r)) } := by
  unfold setDeckCardNext at h
  split_ifs at h
  exact (Except.ok.inj h).symm

theorem insertDeckCard_ok {s s1 : Store} {d c : String} {next : Option Nat} {i : Nat}
    (h : insertDeckCard s d c next = .ok (s1, i)) :
    s.deckExists d = true ∧ i = s.seqDeckCard + 1 ∧
      s1 = { s with deckCards := s.deckCards ++ [⟨s.seqDeckCard + 1, d, c, next⟩],
                    seqDeckCard := s.seqDeckCard + 1 } := by
  unfold insertDeckCard at h
  split_ifs at h with hc
  have := Except.ok.inj h
  simp only [Prod.mk.injEq] at this
  simp only [Bool.and_eq_true] at hc
  exact ⟨hc.1, this.2.symm, this.1.symm⟩

theorem Sound.sound_updateEntry {s : Store} (h : Sound s) (d c : String)
    (guard : DeckEntryRow → Bool) (f : DeckEntryRow → DeckEntryRow)
    (hf : ∀ e, (f e).deckId = e.deckId ∧ (f e).code = e.code) :
    Sound (updateEntry s d c guard f) := by
  refine h.sound_of_entries_map
    (fun e => if e.deckId = d ∧ e.code = c ∧ guard e = true then f e else e) ?_ rfl rfl rfl rfl
  intro e
  dsimp only
  split_ifs
  · exact hf e
  · exact ⟨rfl, rfl⟩

theorem Sound.sound_setTopCard {s s1 : Store} {d : String} {top : Option Nat} (h : Sound s)
    (hp : OwnPtr s d top) (hok : setTopCard s d top = .ok s1) : Sound s1 := by
  rw [setTopCard_ok hok]
  refine h.sound_of_decks ?_ ?_ rfl rfl rfl
  · simp only [List.map_map]
    apply List.map_congr_left
    intro r _
    simp only [Function.comp]
    split_ifs <;> rfl
  · intro dk hdk
    obtain ⟨r, hr, rfl⟩ := List.mem_map.1 hdk
    by_cases hrd : r.deckId = d
    · simp only [hrd, if_true]
      exact hp
    · simp only [hrd, if_false]
      exact h.topOwn r hr

theorem Sound.sound_setTopCardShuffled {s s1 : Store} {d : String} {top : Option Nat}
    (h : Sound s) (hp : OwnPtr s d top) (hok : setTopCardShuffled s d top = .ok s1) :
    Sound s1 := by
  rw [setTopCardShuffled_ok hok]
  refine h.sound_of_decks ?_ ?_ rfl rfl rfl
  · simp only [List.map_map]
    apply List.map_congr_left
    intro r _
    simp only [Function.comp]
    split_ifs <;> rfl
  · intro dk hdk
    obtain ⟨r, hr, rfl⟩ := List.mem_map.1 hdk
    by_cases hrd : r.deckId = d
    · simp only [hrd, if_true]
      exact hp
    · simp only [hrd, if_false]
      exact h.topOwn r hr

theorem Sound.sound_setDeckCardNext {s s1 : Store} {i : Nat} {next : Option Nat} (h : Sound s)
    (hp : ∀ r ∈ s.deckCards, r.id = i → OwnPtr s r.deckId next)
    (hok : setDeckCardNext s i next = .ok s1) : Sound s1 := by
  rw [setDeckCardNext_ok hok]
  refine h.sound_of_cards ?_ rfl rfl rfl
  intro r' hr'
  obtain ⟨r, hr, rfl⟩ := List.mem_map.1 hr'
  refine ⟨r, hr, ?_⟩
  by_cases hri : r.id = i
  · simp only [hri, if_true, true_and]
    exact hp r hr hri
  · simp only [hri, if_false, true_and]
    exact h.nextOwn r hr

theorem Sound.sound_deleteDeckCard {s : Store} (h : Sound s) (i : Nat) :
    Sound (deleteDeckCard s i) := by
  have h1 : Sound { s with deckCards := ((s.deckCards.filter (fun r => r.id ≠ i)).map
      (fun r => if r.nextId = some i then { r with nextId := none } else r)) } := by
    refine h.sound_of_cards ?_ rfl rfl rfl
    intro r' hr'
    obtain ⟨r, hr, rfl⟩ := List.mem_map.1 hr'
    refine ⟨r, (List.mem_filter.1 hr).1, ?_⟩
    by_cases hn : r.nextId = some i
    · simp only [hn, if_true, true_and]
      exact OwnPtr.ptr_none _ _
    · simp only [hn, if_false, true_and]
      exact h.nextOwn r (List.mem_filter.1 hr).1
  refine h1.sound_of_decks ?_ ?_ rfl rfl rfl
  · show List.map _ (List.map _ s.decks) = List.map _ s.decks
    simp only [List.map_map]
    apply List.map_congr_left
    intro r _
    simp only [Function.comp]
    split_ifs <;> rfl
  · intro dk hdk
    obtain ⟨r, hr, rfl⟩ := List.mem_map.1 hdk
    by_cases hn : r.topCardId = some i
    · simp only [hn, if_true]
      exact OwnPtr.ptr_none _ _
    · simp only [hn, if_false]
      exact h1.topOwn r hr

theorem Sound.sound_insertDeckCard {s s1 : Store} {d c : String} {next : Option Nat} {i : Nat}
    (h : Sound s) (hp : OwnPtr s d next) (hok : insertDeckCard s d c next = .ok (s1, i)) :
    Sound s1 ∧ OwnPtr s1 d (some i) := by
  obtain ⟨hd, rfl, rfl⟩ := insertDeckCard_ok hok
  have hsub : ∀ r' ∈ s.deckCards ++ [(⟨s.seqDeckCard + 1, d, c, next⟩ : DeckCardRow)],
      r'.id ≤ s.seqDeckCard → ∃ r ∈ s.deckCards, r'.id = r.id ∧ r'.deckId = r.deckId := by
    intro r' hr' hle
    rcases List.mem_append.1 hr' with hm | hm
    · exact ⟨r', hm, rfl, rfl⟩
    · rw [List.mem_singleton.1 hm] at hle
      simp at hle
  have hup : ∀ {d' : String} {p : Option Nat}, OwnPtr s d' p →
      OwnPtr { s with deckCards := s.deckCards ++ [⟨s.seqDeckCard + 1, d, c, next⟩],
                      seqDeckCard := s.seqDeckCard + 1 } d' p :=
    fun hq => hq.ptr_of_sub (Nat.le_succ _) hsub
  refine ⟨⟨h.keys, h.entryDeck, ?_, ?_, ?_, ?_, ?_⟩, ?_⟩
  · intro r hr
    rcases List.mem_append.1 hr with hm | hm
    · exact h.cardDeck r hm
    · rw [List.mem_singleton.1 hm]
      exact hd
  · intro r hr
    rcases List.mem_append.1 hr with hm | hm
    · exact Nat.le_succ_of_le (h.cardSeq r hm)
    · rw [List.mem_singleton.1 hm]
  · intro a ha b hb hid
    rcases List.mem_append.1 ha with ha | ha <;> rcases List.mem_append.1 hb with hb | hb
    · exact h.idDeck a ha b hb hid
    · rw [List.mem_singleton.1 hb] at hid
      have := h.cardSeq a ha
      simp only at hid
      omega
    · rw [List.mem_singleton.1 ha] at hid
      have := h.cardSeq b hb
      simp only at hid
      omega
    · rw [List.mem_singleton.1 ha, List.mem_singleton.1 hb]
  · intro dk hdk
    exact hup (h.topOwn dk hdk)
  · intro r hr
    rcases List.mem_append.1 hr with hm | hm
    · exact hup (h.nextOwn r hm)
    · rw [List.mem_singleton.1 hm]
      exact hup hp
  · intro j hj
    cases hj
    refine ⟨le_refl _, ?_⟩
    intro r hr hid
    rcases List.mem_append.1 hr with hm | hm
    · have := h.cardSeq r hm
      omega
    · rw [List.mem_singleton.1 hm]

/-! ### The ledger under single statements -/

theorem count_filter_map_le {α : Type} (f : α → String × String) (p : α → Bool)
    (l : List α) (b : String × String) : ((l.filter p).map f).count b ≤ (l.map f).count b :=
  List.Sublist.count_le ((List.filter_sublist l).map f) b

theorem count_filter_map_lt {α : Type} (f : α → String × String) (p : α → Bool)
    (l : List α) {r : α} (hr : r ∈ l) (hp : p r = false) :
    ((l.filter p).map f).count (f r) + 1 ≤ (l.map f).count (f r) := by
  induction l with
  | nil => simp at hr
  | cons a l ih =>
    rcases List.mem_cons.1 hr with h | h
    · subst h
      have := count_filter_map_le f p l (f r)
      simp only [List.filter_cons, hp, List.map_cons, List.count_cons_self]
      simp only [Bool.false_eq_true, if_false]
      omega
    · have := ih h
      by_cases hpa : p a = true
      · simp only [List.filter_cons, hpa, if_true, List.map_cons, List.count_cons]
        omega
      · simp only [List.filter_cons, hpa, List.map_cons, List.count_cons]
        simp only [Bool.false_eq_true, if_false]
        omega

theorem cardKinds_deleteDeckCard (s : Store) (i : Nat) :
    cardKinds (deleteDeckCard s i) =
      (s.deckCards.filter (fun r => r.id ≠ i)).map (fun r => (r.deckId, r.code)) := by
  unfold cardKinds deleteDeckCard
  simp only [List.map_map]
  apply List.map_congr_left
  intro r _
  simp only [Function.comp]
  split_ifs <;> rfl

theorem Held.held_insertDeckCard {s s1 : Store} {d c : String} {next : Option Nat} {i : Nat}
    {owed : String → String → Int} (h : Held s owed)
    (hok : insertDeckCard s d c next = .ok (s1, i)) :
    Held s1 (fun d' c' => owed d' c' - if d' = d ∧ c' = c then 1 else 0) := by
  obtain ⟨_, _, rfl⟩ := insertDeckCard_ok hok
  intro e he
  have := h e he
  simp only [cardKinds, List.map_append, List.map_cons, List.map_nil, List.count_append,
    List.count_cons, List.count_nil] at this ⊢
  by_cases hk : e.deckId = d ∧ e.code = c
  · obtain ⟨h1, h2⟩ := hk
    simp only [h1, h2, and_self, if_true, beq_self_eq_true] at this ⊢
    push_cast
    omega
  · have hne : ((d, c) == (e.deckId, e.code)) = false := by
      rw [beq_eq_false_iff_ne]
      intro heq
      simp only [Prod.mk.injEq] at heq
      exact hk ⟨heq.1.symm, heq.2.symm⟩
    simp only [hk, if_false, hne] at this ⊢
    simpa using this

theorem count_kinds_delete_le (s : Store) (i : Nat) (k : String × String) :
    (cardKinds (deleteDeckCard s i)).count k ≤ (cardKinds s).count k := by
  rw [cardKinds_deleteDeckCard]
  exact count_filter_map_le (fun x : DeckCardRow => (x.deckId, x.code)) _ s.deckCards k

theorem count_kinds_delete_lt (s : Store) {r : DeckCardRow} (hr : r ∈ s.deckCards) :
    (cardKinds (deleteDeckCard s r.id)).count (r.deckId, r.code) + 1 ≤
      (cardKinds s).count (r.deckId, r.code) := by
  rw [cardKinds_deleteDeckCard]
  exact count_filter_map_lt (fun x : DeckCardRow => (x.deckId, x.code))
    (fun x => decide (x.id ≠ r.id)) s.deckCards hr (by simp)

theorem Held.held_deleteDeckCard {s : Store} {owed : String → String → Int} (h : Held s owed)
    {r : DeckCardRow} (hr : r ∈ s.deckCards) :
    Held (deleteDeckCard s r.id)
      (fun d' c' => owed d' c' + if d' = r.deckId ∧ c' = r.code then 1 else 0) := by
  intro e he
  have he' : e ∈ s.entries := he
  have hb := h e he'
  dsimp only
  by_cases hk : e.deckId = r.deckId ∧ e.code = r.code
  · have hlt := count_kinds_delete_lt s hr
    rw [if_pos hk]
    rw [hk.1, hk.2] at hb ⊢
    omega
  · have hle := count_kinds_delete_le s r.id (e.deckId, e.code)
    rw [if_neg hk]
    omega

/-- An `UPDATE DeckEntry` whose new rows respect the bounds and move `inDeck` by `n`. -/
theorem ledger_updateEntry {s : Store} {d c : String} {g : DeckEntryRow → Bool}
    {f : DeckEntryRow → DeckEntryRow} {owed : String → String → Int} (n : Int)
    (hc : Conserved s) (hh : Held s owed)
    (hf : ∀ e ∈ s.entries, e.deckId = d → e.code = c → g e = true →
      (f e).deckId = e.deckId ∧ (f e).code = e.code ∧ 0 ≤ (f e).inDeck ∧ 0 ≤ (f e).inPile ∧
        (f e).inDeck + (f e).inPile ≤ (f e).total ∧ (f e).inDeck = e.inDeck + n)
    (hall : n = 0 ∨ ∀ e ∈ s.entries, e.deckId = d → e.code = c → g e = true) :
    Conserved (updateEntry s d c g f) ∧
      Held (updateEntry s d c g f)
        (fun d' c' => owed d' c' + if d' = d ∧ c' = c then n else 0) := by
  have hk : cardKinds (updateEntry s d c g f) = cardKinds s := rfl
  constructor
  · intro e' he'
    obtain ⟨e, he, rfl⟩ := List.mem_map.1 he'
    by_cases hcond : e.deckId = d ∧ e.code = c ∧ g e = true
    · rw [if_pos hcond]
      obtain ⟨_, _, h3, h4, h5, _⟩ := hf e he hcond.1 hcond.2.1 hcond.2.2
      exact ⟨h3, h4, h5⟩
    · rw [if_neg hcond]
      exact hc e he
  · intro e' he'
    rw [hk]
    obtain ⟨e, he, rfl⟩ := List.mem_map.1 he'
    have hb := hh e he
    dsimp only
    by_cases hcond : e.deckId = d ∧ e.code = c ∧ g e = true
    · rw [if_pos hcond]
      obtain ⟨h1, h2, _, _, _, h6⟩ := hf e he hcond.1 hcond.2.1 hcond.2.2
      rw [h1, h2, h6, if_pos ⟨hcond.1, hcond.2.1⟩]
      omega
    · rw [if_neg hcond]
      by_cases hkey : e.deckId = d ∧ e.code = c
      · rcases hall with h0 | hg
        · rw [if_pos hkey, h0]
          omega
        · exact absurd ⟨hkey.1, hkey.2, hg e he hkey.1 hkey.2⟩ hcond
      · rw [if_neg hkey]
        omega

theorem entry_unique {s : Store}
    (hk : (s.entries.map (fun e => (e.deckId, e.code))).Nodup) {a b : DeckEntryRow}
    (ha : a ∈ s.entries) (hb : b ∈ s.entries) (h1 : a.deckId = b.deckId)
    (h2 : a.code = b.code) : a = b :=
  List.inj_on_of_nodup_map hk ha hb (by simp [h1, h2])

theorem guard_of_affected {s : Store} {d c : String} {guard : DeckEntryRow → Bool}
    (hk : (s.entries.map (fun e => (e.deckId, e.code))).Nodup)
    (h : entriesAffected s d c guard ≠ 0) :
    ∀ e ∈ s.entries, e.deckId = d → e.code = c → guard e = true := by
  unfold entriesAffected at h
  obtain ⟨e0, he0⟩ := List.exists_mem_of_length_pos (Nat.pos_of_ne_zero h)
  obtain ⟨hm0, hp0⟩ := List.mem_filter.1 he0
  simp only [decide_eq_true_eq] at hp0
  intro e he hd hc
  have := entry_unique hk he hm0 (hd.trans hp0.1.symm) (hc.trans hp0.2.1.symm)
  rw [this]
  exact hp0.2.2

theorem deckTop_own {s : Store} (h : Sound s) (d : String) : OwnPtr s d (deckTop s d) := by
  unfold deckTop
  cases hf : findDeck s d with
  | none => exact OwnPtr.ptr_none _ _
  | some dk =>
    have hm : dk ∈ s.decks := List.mem_of_find?_eq_some hf
    have hd : dk.deckId = d := by simpa using List.find?_some hf
    have := h.topOwn dk hm
    rw [hd] at this
    exact this

/-! ### The operations keep the invariant -/

theorem atomically_inv {α : Type} {s : Store} {body : Except DBError (Store × α)}
    (h : Inv s) (hb : ∀ s' a, body = .ok (s', a) → Inv s') : Inv (atomically s body).1 := by
  cases body with
  | error e => exact h
  | ok r =>
    obtain ⟨s', a⟩ := r
    exact hb s' a rfl

theorem Inv.inv_count_le {s : Store} (h : Inv s) {e : DeckEntryRow} (he : e ∈ s.entries) :
    ((cardKinds s).count (e.deckId, e.code) : Int) ≤ e.inDeck := by
  have := h.held e he
  simpa using this

theorem topCard_own {s : Store} (h : Sound s) {d : String} {r : DeckCardRow}
    (ht : topCard s d = some r) : r ∈ s.deckCards ∧ r.deckId = d := by
  unfold topCard at ht
  cases hf : findDeck s d with
  | none => simp [hf] at ht
  | some dk =>
    rw [hf] at ht
    cases hi : dk.topCardId with
    | none => simp [hi] at ht
    | some i =>
      simp only [hi] at ht
      have hm : dk ∈ s.decks := List.mem_of_find?_eq_some hf
      have hd : dk.deckId = d := by simpa using List.find?_some hf
      obtain ⟨hr, hid⟩ := @find?_key_mem DeckCardRow (fun r => r.id) _ _ _ ht
      refine ⟨hr, ?_⟩
      rw [← hd]
      exact (h.topOwn dk hm i hi).2 r hr hid

theorem drawLoop_inv :
    ∀ (n : Nat) (s : Store) (d : String) (remaining : Int) (codes : List String)
      (s' : Store) (res : List String × Int),
      Inv s → drawLoop n s d remaining codes = .ok (s', res) → Inv s' := by
  intro n
  induction n with
  | zero =>
    intro s d remaining codes s' res h hok
    simp only [drawLoop, Except.ok.injEq, Prod.mk.injEq] at hok
    rw [← hok.1]
    exact h
  | succ n ih =>
    intro s d remaining codes s' res h hok
    unfold drawLoop at hok
    cases ht : topCard s d with
    | none =>
      simp only [ht, Except.ok.injEq, Prod.mk.injEq] at hok
      rw [← hok.1]
      exact h
    | some r =>
      simp only [ht] at hok
      obtain ⟨hr, hrd⟩ := topCard_own h.sound ht
      cases h2 : setTopCard (updateEntry s d r.code (fun _ => true)
          (fun e => { e with inDeck := e.inDeck - 1 })) d r.nextId with
      | error e => simp [h2] at hok
      | ok s2 =>
        simp only [h2] at hok
        refine ih _ d _ _ s' res ?_ hok
        have hpos : 0 < (cardKinds s).count (d, r.code) := by
          rw [List.count_pos_iff]
          exact List.mem_map.2 ⟨r, hr, by rw [hrd]⟩
        have hs1 : Sound (updateEntry s d r.code (fun _ => true)
            (fun e => { e with inDeck := e.inDeck - 1 })) :=
          h.sound.sound_updateEntry d r.code _ _ (fun e => ⟨rfl, rfl⟩)
        obtain ⟨hc1, hh1⟩ := ledger_updateEntry (s := s) (d := d) (c := r.code)
          (g := fun _ => true) (f := fun e => { e with inDeck := e.inDeck - 1 }) (-1)
          h.conserved h.held
          (by
            intro e he hd hc _
            have hb := h.inv_count_le he
            have hcn := h.conserved e he
            rw [hd, hc] at hb
            refine ⟨rfl, rfl, ?_, hcn.2.1, ?_, ?_⟩
            · show 0 ≤ e.inDeck - 1
              omega
            · show e.inDeck - 1 + e.inPile ≤ e.total
              omega
            · show e.inDeck - 1 = e.inDeck + -1
              omega)
          (Or.inr (fun _ _ _ _ => rfl))
        have hs2 : Sound s2 := hs1.sound_setTopCard
          (by
            have := h.sound.nextOwn r hr
            rw [hrd] at this
            exact this.ptr_congr rfl rfl) h2
        have e2 := setTopCard_ok h2
        have hc2 : Conserved s2 := hc1.conserved_congr (by rw [e2])
        have hh2 : Held s2 _ := hh1.held_congr (by rw [e2]) (by rw [e2]; rfl)
        have hr2 : r ∈ s2.deckCards := by
          rw [e2]
          exact hr
        refine ⟨hs2.sound_deleteDeckCard r.id, hc2.conserved_congr rfl, ?_⟩
        refine (hh2.held_deleteDeckCard hr2).held_mono ?_
        intro e _
        dsimp only
        rw [hrd]
        split_ifs <;> omega

theorem drawCards_inv {s : Store} (h : Inv s) (d : String) (amount : Int) :
    Inv (DrawCards s d amount).1 := by
  unfold DrawCards
  dsimp only
  split_ifs <;>
    first
    | exact h
    | exact atomically_inv h (fun s' a hb => drawLoop_inv _ _ _ _ _ s' a h hb)

/-! ### Statements on the pile tables -/

theorem insertPile_side {s s1 : Store} {d name : String} {i : Nat}
    (h : insertPile s d name = .ok (s1, i)) : DeckSide s s1 := by
  unfold insertPile at h
  split_ifs at h
  have := Except.ok.inj h
  simp only [Prod.mk.injEq] at this
  rw [← this.1]
  exact ⟨rfl, rfl, rfl, rfl⟩

theorem insertPileCard_side {s s1 : Store} {p : Nat} {c : String} {next : Option Nat}
    {i : Nat} (h : insertPileCard s p c next = .ok (s1, i)) : DeckSide s s1 := by
  unfold insertPileCard at h
  split_ifs at h
  have := Except.ok.inj h
  simp only [Prod.mk.injEq] at this
  rw [← this.1]
  exact ⟨rfl, rfl, rfl, rfl⟩

theorem setPileCardNext_side {s s1 : Store} {i : Nat} {next : Option Nat}
    (h : setPileCardNext s i next = .ok s1) : DeckSide s s1 := by
  unfold setPileCardNext at h
  split_ifs at h
  rw [← Except.ok.inj h]
  exact ⟨rfl, rfl, rfl, rfl⟩

theorem linkPileCards_side :
    ∀ (ids : List Nat) (s s1 : Store), linkPileCards s ids = .ok s1 → DeckSide s s1 := by
  intro ids
  induction ids with
  | nil =>
    intro s s1 h
    simp only [linkPileCards, Except.ok.injEq] at h
    rw [← h]
    exact DeckSide.side_refl s
  | cons i rest ih =>
    intro s s1 h
    cases rest with
    | nil =>
      simp only [linkPileCards, Except.ok.injEq] at h
      rw [← h]
      exact DeckSide.side_refl s
    | cons j rest =>
      simp only [linkPileCards] at h
      cases h1 : setPileCardNext s i (some j) with
      | error e => simp [h1] at h
      | ok s2 =>
        simp only [h1] at h
        exact (setPileCardNext_side h1).side_trans (ih s2 s1 h)

theorem pushPileCards_side (p : Nat) :
    ∀ (codes : List String) (s s1 : Store) (top : Option Nat),
      pushPileCards s p top codes = .ok s1 → DeckSide s s1 := by
  intro codes
  induction codes with
  | nil =>
    intro s s1 top h
    simp only [pushPileCards, Except.ok.injEq] at h
    rw [← h]
    exact DeckSide.side_refl s
  | cons c cs ih =>
    intro s s1 top h
    simp only [pushPileCards] at h
    cases h1 : insertPileCard s p c top with
    | error e => simp [h1] at h
    | ok r =>
      obtain ⟨s2, i⟩ := r
      simp only [h1] at h
      exact (insertPileCard_side h1).side_trans (ih s2 s1 _ h)

theorem relinkPrev_side {s s1 : Store} {prev : Option PileCardRow} {next : Option Nat}
    (h : relinkPrev s prev next = .ok s1) : DeckSide s s1 := by
  cases prev with
  | none =>
    simp only [relinkPrev, Except.ok.injEq] at h
    rw [← h]
    exact DeckSide.side_refl s
  | some pr => exact setPileCardNext_side h

theorem pileIdFor_side {s s1 : Store} {d name : String} {i : Nat}
    (h : pileIdFor s d name = .ok (s1, i)) : DeckSide s s1 := by
  unfold pileIdFor at h
  cases hf : findPile s d name with
  | some p =>
    simp only [hf, Except.ok.injEq, Prod.mk.injEq] at h
    rw [← h.1]
    exact DeckSide.side_refl s
  | none =>
    simp only [hf] at h
    exact insertPile_side h

theorem shufflePiles_side (rnd : Nat → Nat → Nat) :
    ∀ (ps : List PileRow) (s s1 : Store) (results res : List (String × Nat)),
      shufflePiles rnd s results ps = .ok (s1, res) → DeckSide s s1 := by
  intro ps
  induction ps with
  | nil =>
    intro s s1 results res h
    simp only [shufflePiles, Except.ok.injEq, Prod.mk.injEq] at h
    rw [← h.1]
    exact DeckSide.side_refl s
  | cons p ps ih =>
    intro s s1 results res h
    simp only [shufflePiles] at h
    split_ifs at h with h0
    · exact ih s s1 _ res h
    · cases h1 : linkPileCards (clearPileLinks s p.id)
          (shuffle (rnd p.id) (((s.pileCards.filter (fun c => c.pileId = p.id)).insertionSort
            (fun a b => a.id ≤ b.id)).map (fun c => c.id))) with
      | error e => simp [h1] at h
      | ok s2 =>
        simp only [h1] at h
        have f1 : DeckSide s (clearPileLinks s p.id) := ⟨rfl, rfl, rfl, rfl⟩
        exact (f1.side_trans (linkPileCards_side _ _ _ h1)).side_trans (ih s2 s1 _ res h)

theorem orderLoop_side (p : Nat) :
    ∀ (codes : List String) (s : Store) (prev : Option Nat),
      DeckSide s (orderLoop p s prev codes).1 := by
  intro codes
  induction codes with
  | nil =>
    intro s prev
    exact DeckSide.side_refl s
  | cons c cs ih =>
    intro s prev
    simp only [orderLoop]
    cases hf : s.pileCards.find? (fun x => x.pileId = p ∧ x.code = c) with
    | none => exact DeckSide.side_refl s
    | some x =>
      cases prev with
      | none => exact ih s _
      | some pr =>
        dsimp only
        cases h1 : setPileCardNext s pr (some x.id) with
        | error e => exact DeckSide.side_refl s
        | ok s2 => exact (setPileCardNext_side h1).side_trans (ih s2 _)

theorem shuffleAllPiles_inv {s : Store} (h : Inv s) (d : String) (rnd : Nat → Nat → Nat) :
    Inv (ShuffleAllPiles s d rnd).1 :=
  atomically_inv h (fun s' a hb => h.inv_congr (shufflePiles_side rnd _ s s' [] a hb))

theorem updatePileOrder_inv {s : Store} (h : Inv s) (d name : String)
    (codes : List String) : Inv (UpdatePileOrder s d name codes).1 := by
  unfold UpdatePileOrder
  cases findPile s d name with
  | none => exact h
  | some p =>
    have f1 : DeckSide s (clearPileLinks s p.id) := ⟨rfl, rfl, rfl, rfl⟩
    exact h.inv_congr (f1.side_trans (orderLoop_side p.id codes _ none))

/-- An `UPDATE DeckEntry` that leaves `inDeck` alone and respects the bounds. -/
theorem Inv.inv_updateEntry {s : Store} (h : Inv s) (d c : String) (guard : DeckEntryRow → Bool)
    (f : DeckEntryRow → DeckEntryRow)
    (hkey : ∀ e, (f e).deckId = e.deckId ∧ (f e).code = e.code)
    (hf : ∀ e ∈ s.entries, e.deckId = d → e.code = c → guard e = true →
      0 ≤ (f e).inPile ∧ (f e).inDeck + (f e).inPile ≤ (f e).total ∧
        (f e).inDeck = e.inDeck) :
    Inv (updateEntry s d c guard f) := by
  obtain ⟨hc1, hh1⟩ := ledger_updateEntry (s := s) (d := d) (c := c) (g := guard)
    (f := f) 0 h.conserved h.held
    (by
      intro e he hd hc hg
      obtain ⟨h1, h2, h3⟩ := hf e he hd hc hg
      have := (h.conserved e he).1
      exact ⟨(hkey e).1, (hkey e).2, by omega, h1, h2, by omega⟩)
    (Or.inl rfl)
  refine ⟨h.sound.sound_updateEntry d c guard f hkey, hc1, hh1.held_mono ?_⟩
  intro e _
  dsimp only
  split_ifs <;> omega

theorem checkCodes_inv (d : String) :
    ∀ (codes : List String) (s s1 : Store), Inv s → checkCodes s d codes = .ok s1 → Inv s1 := by
  intro codes
  induction codes with
  | nil =>
    intro s s1 h hok
    simp only [checkCodes, Except.ok.injEq] at hok
    rw [← hok]
    exact h
  | cons c cs ih =>
    intro s s1 h hok
    simp only [checkCodes] at hok
    cases hf : findEntry s d c with
    | none => simp [hf] at hok
    | some e0 =>
      simp only [hf] at hok
      split_ifs at hok with hlt
      refine ih _ s1 ?_ hok
      have hm0 : e0 ∈ s.entries := List.mem_of_find?_eq_some hf
      obtain ⟨hd0, hc0⟩ := findEntry_key hf
      refine h.inv_updateEntry d c _ _ (fun e => ⟨rfl, rfl⟩) ?_
      intro e he hd hc _
      have heq : e = e0 :=
        entry_unique h.sound.keys he hm0 (hd.trans hd0.symm) (hc.trans hc0.symm)
      have hb := h.conserved e he
      subst heq
      refine ⟨?_, ?_, rfl⟩
      · show 0 ≤ e.inPile + 1
        omega
      · show e.inDeck + (e.inPile + 1) ≤ e.total
        omega

theorem insertIntoPile_inv {s : Store} (h : Inv s) (name d : String) (codes : List String) :
    Inv (InsertIntoPile s name d codes).1 := by
  unfold InsertIntoPile
  cases htx : insertIntoPileTx s name d codes with
  | error e => exact h
  | ok s' =>
    dsimp only
    unfold insertIntoPileTx at htx
    cases h1 : checkCodes s d codes with
    | error e => simp [h1] at htx
    | ok s1 =>
      simp only [h1] at htx
      cases h2 : pileIdFor s1 d name with
      | error e => simp [h2] at htx
      | ok r =>
        obtain ⟨s2, pileId⟩ := r
        simp only [h2] at htx
        exact (checkCodes_inv d codes s s1 h h1).inv_congr
          ((pileIdFor_side h2).side_trans (pushPileCards_side pileId codes s2 s' _ htx))

theorem unlinkPileCard_inv {s s1 : Store} (h : Inv s) {d : String}
    {prev : Option PileCardRow} {cardId : Nat} {code : String} {nextId : Option Nat}
    (hok : unlinkPileCard s d prev cardId code nextId = .ok s1) : Inv s1 := by
  unfold unlinkPileCard at hok
  cases h1 : relinkPrev s prev nextId with
  | error e => simp [h1] at hok
  | ok s2 =>
    simp only [h1, Except.ok.injEq] at hok
    rw [← hok]
    have f1 : DeckSide s2 (deletePileCard s2 cardId) := ⟨rfl, rfl, rfl, rfl⟩
    refine (h.inv_congr ((relinkPrev_side h1).side_trans f1)).inv_updateEntry d code _ _
      (fun e => ⟨rfl, rfl⟩) ?_
    intro e he _ _ hg
    have he' : e ∈ s2.entries := he
    rw [(relinkPrev_side h1).entries] at he'
    have hb := h.conserved e he'
    simp only [decide_eq_true_eq] at hg
    refine ⟨?_, ?_, rfl⟩
    · show 0 ≤ e.inPile - 1
      omega
    · show e.inDeck + (e.inPile - 1) ≤ e.total
      omega

theorem drawFromPile_inv {s : Store} (h : Inv s) (d name method : String) (pick : Nat) :
    Inv (DrawFromPile s d name method pick).1 := by
  unfold DrawFromPile
  cases findPile s d name with
  | none => exact h
  | some p =>
    dsimp only
    cases hsel : selectPileCard s p.id method pick with
    | error e => exact h
    | ok r =>
      obtain ⟨cardId, cardCode, nextId⟩ := r
      dsimp only
      refine atomically_inv h ?_
      intro s' a hb
      cases hu : unlinkPileCard s d (pilePrev s p.id cardId) cardId cardCode nextId with
      | error e => simp [hu] at hb
      | ok s1 =>
        simp only [hu, Except.ok.injEq, Prod.mk.injEq] at hb
        rw [← hb.1]
        exact unlinkPileCard_inv h hu

theorem drawSpecificFromPile_inv {s : Store} (h : Inv s) (d name code : String) :
    Inv (DrawSpecificFromPile s d name code).1 := by
  unfold DrawSpecificFromPile
  cases findPile s d name with
  | none => exact h
  | some p =>
    dsimp only
    cases hsel : s.pileCards.find? (fun c => c.pileId = p.id ∧ c.code = code) with
    | none => exact h
    | some c =>
      dsimp only
      refine atomically_inv h ?_
      intro s' a hb
      cases hu : unlinkPileCard s d (pilePrev s p.id c.id) c.id code c.nextCardId with
      | error e => simp [hu] at hb
      | ok s1 =>
        simp only [hu, Except.ok.injEq, Prod.mk.injEq] at hb
        rw [← hb.1]
        exact unlinkPileCard_inv h hu

/-! ### ShuffleDeck -/

theorem SameCards.same_refl (s : Store) : SameCards s s := ⟨rfl, rfl, rfl, rfl⟩

theorem SameCards.same_trans {a b c : Store} (h1 : SameCards a b) (h2 : SameCards b c) :
    SameCards a c :=
  ⟨h2.rows.trans h1.rows, h2.decks.trans h1.decks, h2.entries.trans h1.entries,
    h2.seqDeckCard.trans h1.seqDeckCard⟩

theorem SameCards.same_kinds {s s' : Store} (h : SameCards s s') : cardKinds s' = cardKinds s := by
  have := congrArg (List.map (fun k : Nat × String × String => (k.2.1, k.2.2))) h.rows
  simpa [cardKinds, List.map_map, Function.comp] using this

theorem SameCards.same_row {s s' : Store} (h : SameCards s s') {i : Nat} {d : String}
    (hr : ∃ r ∈ s.deckCards, r.id = i ∧ r.deckId = d) :
    ∃ r ∈ s'.deckCards, r.id = i ∧ r.deckId = d := by
  obtain ⟨r, hm, h1, h2⟩ := hr
  have : (r.id, r.deckId, r.code) ∈ s'.deckCards.map (fun r => (r.id, r.deckId, r.code)) := by
    rw [h.rows]
    exact List.mem_map_of_mem _ hm
  obtain ⟨r', hm', heq⟩ := List.mem_map.1 this
  simp only [Prod.mk.injEq] at heq
  exact ⟨r', hm', heq.1.trans h1, heq.2.1.trans h2⟩

theorem SameCards.same_symm {s s' : Store} (h : SameCards s s') : SameCards s' s :=
  ⟨h.rows.symm, h.decks.symm, h.entries.symm, h.seqDeckCard.symm⟩

theorem OwnPtr.ptr_same {s s' : Store} (h : SameCards s s') {d : String} {top : Option Nat}
    (hp : OwnPtr s d top) : OwnPtr s' d top := by
  refine hp.ptr_of_sub (le_of_eq h.seqDeckCard.symm) ?_
  intro r' hr' _
  obtain ⟨r, hm, h1, h2⟩ := h.same_symm.same_row ⟨r', hr', rfl, rfl⟩
  exact ⟨r, hm, h1.symm, h2.symm⟩

theorem setDeckCardNext_same {s s1 : Store} {i : Nat} {next : Option Nat}
    (h : setDeckCardNext s i next = .ok s1) : SameCards s s1 := by
  rw [setDeckCardNext_ok h]
  refine ⟨?_, rfl, rfl, rfl⟩
  simp only [List.map_map]
  apply List.map_congr_left
  intro r _
  simp only [Function.comp]
  split_ifs <;> rfl

theorem ownPtr_of_row {s : Store} (h : Sound s) {r : DeckCardRow} (hr : r ∈ s.deckCards) :
    OwnPtr s r.deckId (some r.id) := by
  intro i hi
  cases hi
  exact ⟨h.cardSeq r hr, fun r' hr' hid => h.idDeck r' hr' r hr hid⟩

theorem linkCards_sound (d : String) :
    ∀ (ids : List Nat) (s s1 : Store), Sound s →
      (∀ i ∈ ids, ∃ r ∈ s.deckCards, r.id = i ∧ r.deckId = d) →
      linkCards s ids = .ok s1 → Sound s1 ∧ SameCards s s1 := by
  intro ids
  induction ids with
  | nil =>
    intro s s1 h _ hok
    simp only [linkCards, Except.ok.injEq] at hok
    rw [← hok]
    exact ⟨h, SameCards.same_refl s⟩
  | cons i rest ih =>
    intro s s1 h hids hok
    cases rest with
    | nil =>
      simp only [linkCards, Except.ok.injEq] at hok
      rw [← hok]
      exact ⟨h, SameCards.same_refl s⟩
    | cons j rest =>
      simp only [linkCards] at hok
      cases h1 : setDeckCardNext s i (some j) with
      | error e => simp [h1] at hok
      | ok s2 =>
        simp only [h1] at hok
        obtain ⟨ri, hri, hi1, hi2⟩ := hids i (List.mem_cons_self _ _)
        obtain ⟨rj, hrj, hj1, hj2⟩ := hids j (List.mem_cons_of_mem _ (List.mem_cons_self _ _))
        have hs2 : Sound s2 := by
          refine h.sound_setDeckCardNext ?_ h1
          intro r hr hid
          have hrd : r.deckId = d := (h.idDeck r hr ri hri (hid.trans hi1.symm)).trans hi2
          have := ownPtr_of_row h hrj
          rw [hj1, hj2] at this
          rw [hrd]
          exact this
        have hsame := setDeckCardNext_same h1
        obtain ⟨hs1, hsame1⟩ := ih s2 s1 hs2
          (fun k hk => hsame.same_row (hids k (List.mem_cons_of_mem _ hk))) hok
        exact ⟨hs1, hsame.same_trans hsame1⟩

theorem swapAt_subset {α : Type} (xs : List α) (i j : Nat) :
    ∀ x ∈ swapAt xs i j, x ∈ xs := by
  intro x hx
  unfold swapAt at hx
  cases hi : xs[i]? with
  | none => simpa [hi] using hx
  | some a =>
    cases hj : xs[j]? with
    | none => simpa [hi, hj] using hx
    | some b =>
      simp only [hi, hj] at hx
      rcases List.mem_or_eq_of_mem_set hx with h1 | h1
      · rcases List.mem_or_eq_of_mem_set h1 with h2 | h2
        · exact h2
        · rw [h2]
          exact List.getElem?_mem hj
      · rw [h1]
        exact List.getElem?_mem hi

theorem shuffleFrom_subset {α : Type} (rnd : Nat → Nat) :
    ∀ (n : Nat) (xs : List α), ∀ x ∈ shuffleFrom rnd n xs, x ∈ xs := by
  intro n
  induction n with
  | zero =>
    intro xs x hx
    exact hx
  | succ n ih =>
    intro xs x hx
    exact swapAt_subset xs _ _ x (ih _ x hx)

theorem shuffle_subset {α : Type} (rnd : Nat → Nat) (xs : List α) :
    ∀ x ∈ shuffle rnd xs, x ∈ xs :=
  shuffleFrom_subset rnd _ xs

theorem shuffleDeck_inv {s : Store} (h : Inv s) (d : String) (rnd : Nat → Nat) :
    Inv (ShuffleDeck s d rnd).1 := by
  unfold ShuffleDeck
  split_ifs
  · exact h
  · dsimp only
    have hsub : ∀ r ∈ shuffle rnd (s.deckCards.filter (fun r => r.deckId = d)),
        r ∈ s.deckCards ∧ r.deckId = d := by
      intro r hr
      have := shuffle_subset rnd _ r hr
      simpa using this
    cases hl : (shuffle rnd (s.deckCards.filter (fun r => r.deckId = d))).getLast? with
    | none => exact h
    | some last =>
      dsimp only
      refine atomically_inv h ?_
      intro s' a hb
      cases h1 : linkCards s ((shuffle rnd (s.deckCards.filter
          (fun r => r.deckId = d))).map (fun r => r.id)) with
      | error e => simp [h1] at hb
      | ok s1 =>
        simp only [h1] at hb
        cases h2 : setDeckCardNext s1 last.id none with
        | error e => simp [h2] at hb
        | ok s2 =>
          simp only [h2] at hb
          cases h3 : setTopCardShuffled s2 d ((shuffle rnd (s.deckCards.filter
              (fun r => r.deckId = d))).head?.map (fun r => r.id)) with
          | error e => simp [h3] at hb
          | ok s3 =>
            simp only [h3, Except.ok.injEq, Prod.mk.injEq] at hb
            rw [← hb.1]
            obtain ⟨hs1, hsame1⟩ := linkCards_sound d _ s s1 h.sound
              (by
                intro i hi
                obtain ⟨r, hr, rfl⟩ := List.mem_map.1 hi
                exact ⟨r, (hsub r hr).1, rfl, (hsub r hr).2⟩) h1
            have hs2 : Sound s2 :=
              hs1.sound_setDeckCardNext (fun _ _ _ => OwnPtr.ptr_none _ _) h2
            have hsame2 := hsame1.same_trans (setDeckCardNext_same h2)
            have hp : OwnPtr s2 d ((shuffle rnd (s.deckCards.filter
                (fun r => r.deckId = d))).head?.map (fun r => r.id)) := by
              cases hh : (shuffle rnd (s.deckCards.filter (fun r => r.deckId = d))).head? with
              | none => exact OwnPtr.ptr_none _ _
              | some r0 =>
                have hm := hsub r0 (List.mem_of_mem_head? hh)
                have := ownPtr_of_row h.sound hm.1
                rw [hm.2] at this
                exact this.ptr_same hsame2
            have hs3 : Sound s3 := hs2.sound_setTopCardShuffled hp h3
            have e3 := setTopCardShuffled_ok h3
            refine ⟨hs3, h.conserved.conserved_congr ?_, h.held.held_congr ?_ ?_⟩
            · rw [e3]
              exact hsame2.entries
            · rw [e3]
              exact hsame2.entries
            · rw [e3]
              exact hsame2.same_kinds

/-! ### Returning one card -/

theorem insertDeckCard_entries {s s1 : Store} {d c : String} {next : Option Nat} {i : Nat}
    (h : insertDeckCard s d c next = .ok (s1, i)) : s1.entries = s.entries := by
  obtain ⟨_, _, rfl⟩ := insertDeckCard_ok h
  rfl

theorem setTopCard_entries {s s1 : Store} {d : String} {top : Option Nat}
    (h : setTopCard s d top = .ok s1) :
    s1.entries = s.entries ∧ cardKinds s1 = cardKinds s := by
  rw [setTopCard_ok h]
  exact ⟨rfl, rfl⟩

/-- Push one card on deck `d` and make it the head: the store stays sound, the ledger is
untouched and one more row of that deck and code is held. -/
theorem pushOne_spec {s s1 s2 : Store} {d c : String} {i : Nat}
    {owed : String → String → Int} (hs : Sound s) (hc : Conserved s) (hh : Held s owed)
    (h1 : insertDeckCard s d c (deckTop s d) = .ok (s1, i))
    (h2 : setTopCard s1 d (some i) = .ok s2) :
    Sound s2 ∧ Conserved s2 ∧
      Held s2 (fun d' c' => owed d' c' - if d' = d ∧ c' = c then 1 else 0) ∧
      s2.entries = s.entries := by
  obtain ⟨hs1, hp1⟩ := hs.sound_insertDeckCard (deckTop_own hs d) h1
  have he1 := insertDeckCard_entries h1
  obtain ⟨he2, hk2⟩ := setTopCard_entries h2
  exact ⟨hs1.sound_setTopCard hp1 h2, hc.conserved_congr (he2.trans he1),
    (hh.held_insertDeckCard h1).held_congr he2 hk2, he2.trans he1⟩

theorem returnSpecificDrawn_inv {s : Store} (h : Inv s) (d code : String) :
    Inv (ReturnSpecificDrawn s d code).1 := by
  unfold ReturnSpecificDrawn
  refine atomically_inv h ?_
  intro s' a hb
  cases hf : findEntry s d code with
  | none => simp [hf] at hb
  | some e0 =>
    simp only [hf] at hb
    split_ifs at hb with hout
    cases h1 : insertDeckCard s d code (deckTop s d) with
    | error e => simp [h1] at hb
    | ok r =>
      obtain ⟨s1, i⟩ := r
      simp only [h1] at hb
      cases h2 : setTopCard s1 d (some i) with
      | error e => simp [h2] at hb
      | ok s2 =>
        simp only [h2, Except.ok.injEq, Prod.mk.injEq] at hb
        rw [← hb.1]
        obtain ⟨hs2, hc2, hh2, he2⟩ := pushOne_spec h.sound h.conserved h.held h1 h2
        have hm0 : e0 ∈ s.entries := List.mem_of_find?_eq_some hf
        obtain ⟨hd0, hc0⟩ := findEntry_key hf
        obtain ⟨hc3, hh3⟩ := ledger_updateEntry (s := s2) (d := d) (c := code)
          (g := fun _ => true) (f := fun e => { e with inDeck := e.inDeck + 1 }) 1
          hc2 hh2
          (by
            intro e he hd hc _
            rw [he2] at he
            have heq : e = e0 :=
              entry_unique h.sound.keys he hm0 (hd.trans hd0.symm) (hc.trans hc0.symm)
            have hb := h.conserved e he
            subst heq
            refine ⟨rfl, rfl, ?_, hb.2.1, ?_, rfl⟩
            · show 0 ≤ e.inDeck + 1
              omega
            · show e.inDeck + 1 + e.inPile ≤ e.total
              omega)
          (Or.inr (fun _ _ _ _ => rfl))
        refine ⟨hs2.sound_updateEntry d code _ _ (fun e => ⟨rfl, rfl⟩), hc3, hh3.held_mono ?_⟩
        intro e _
        dsimp only
        split_ifs <;> omega

theorem returnSpecificFromPile_inv {s : Store} (h : Inv s) (d name code : String) :
    Inv (ReturnSpecificFromPile s d name code).1 := by
  unfold ReturnSpecificFromPile
  cases findPile s d name with
  | none => exact h
  | some p =>
    dsimp only
    cases hsel : s.pileCards.find? (fun c => c.pileId = p.id ∧ c.code = code) with
    | none => exact h
    | some c =>
      dsimp only
      refine atomically_inv h ?_
      intro s' a hb
      cases h1 : relinkPrev s (pilePrev s p.id c.id) c.nextCardId with
      | error e => simp [h1] at hb
      | ok s1 =>
        simp only [h1] at hb
        split_ifs at hb with haff
        have f1 : DeckSide s1 (deletePileCard s1 c.id) := ⟨rfl, rfl, rfl, rfl⟩
        have hi2 : Inv (deletePileCard s1 c.id) := h.inv_congr ((relinkPrev_side h1).side_trans f1)
        obtain ⟨hc3, hh3⟩ := ledger_updateEntry (s := deletePileCard s1 c.id) (d := d)
          (c := code) (g := fun e => decide (e.inPile > 0))
          (f := fun e => { e with inPile := e.inPile - 1, inDeck := e.inDeck + 1 }) 1
          hi2.conserved hi2.held
          (by
            intro e he _ _ hg
            have hb := hi2.conserved e he
            simp only [decide_eq_true_eq] at hg
            refine ⟨rfl, rfl, ?_, ?_, ?_, rfl⟩
            · show 0 ≤ e.inDeck + 1
              omega
            · show 0 ≤ e.inPile - 1
              omega
            · show e.inDeck + 1 + (e.inPile - 1) ≤ e.total
              omega)
          (Or.inr (guard_of_affected hi2.sound.keys haff))
        have hs3 := hi2.sound.sound_updateEntry d code (fun e => decide (e.inPile > 0))
          (fun e => { e with inPile := e.inPile - 1, inDeck := e.inDeck + 1 })
          (fun e => ⟨rfl, rfl⟩)
        cases h4 : insertDeckCard (updateEntry (deletePileCard s1 c.id) d code
            (fun e => decide (e.inPile > 0))
            (fun e => { e with inPile := e.inPile - 1, inDeck := e.inDeck + 1 })) d code
            (deckTop (updateEntry (deletePileCard s1 c.id) d code
              (fun e => decide (e.inPile > 0))
              (fun e => { e with inPile := e.inPile - 1, inDeck := e.inDeck + 1 })) d) with
        | error e => simp [h4] at hb
        | ok r =>
          obtain ⟨s4, i⟩ := r
          simp only [h4] at hb
          cases h5 : setTopCard s4 d (some i) with
          | error e => simp [h5] at hb
          | ok s5 =>
            simp only [h5, Except.ok.injEq, Prod.mk.injEq] at hb
            rw [← hb.1]
            obtain ⟨hs5, hc5, hh5, _⟩ := pushOne_spec hs3 hc3 hh3 h4 h5
            refine ⟨hs5, hc5, hh5.held_mono ?_⟩
            intro e _
            dsimp only
            split_ifs <;> omega

/-! ### Returning many cards -/

theorem pushDeckCards_ledger (d : String) :
    ∀ (codes : List String) (s s1 : Store) (top top' : Option Nat)
      (owed : String → String → Int),
      Sound s → Conserved s → Held s owed → OwnPtr s d top →
      pushDeckCards s d top codes = .ok (s1, top') →
      Sound s1 ∧ Conserved s1 ∧
        Held s1 (fun d' c' => owed d' c' - if d' = d then (codes.count c' : Int) else 0) ∧
        OwnPtr s1 d top' ∧ s1.entries = s.entries := by
  intro codes
  induction codes with
  | nil =>
    intro s s1 top top' owed hs hc hh hp hok
    simp only [pushDeckCards, Except.ok.injEq, Prod.mk.injEq] at hok
    rw [← hok.1, ← hok.2]
    refine ⟨hs, hc, hh.held_mono ?_, hp, rfl⟩
    intro e _
    simp
  | cons c cs ih =>
    intro s s1 top top' owed hs hc hh hp hok
    simp only [pushDeckCards] at hok
    cases h1 : insertDeckCard s d c top with
    | error e => simp [h1] at hok
    | ok r =>
      obtain ⟨s2, i⟩ := r
      simp only [h1] at hok
      obtain ⟨hs2, hp2⟩ := hs.sound_insertDeckCard hp h1
      have he2 := insertDeckCard_entries h1
      obtain ⟨hs1, hc1, hh1, hp1, he1⟩ := ih s2 s1 (some i) top' _ hs2 (hc.conserved_congr he2)
        (hh.held_insertDeckCard h1) hp2 hok
      refine ⟨hs1, hc1, hh1.held_mono ?_, hp1, he1.trans he2⟩
      intro e _
      dsimp only
      by_cases hd : e.deckId = d
      · by_cases hcc : e.code = c
        · simp [hd, hcc]
          omega
        · have : (c == e.code) = false := by
            rw [beq_eq_false_iff_ne]
            exact fun h => hcc h.symm
          simp [hd, hcc, List.count_cons, this]
      · simp [hd]

theorem commitTop_sound {s s1 : Store} {d : String} {top : Option Nat} (hs : Sound s)
    (hp : OwnPtr s d top) (hok : commitTop s d top = .ok s1) :
    Sound s1 ∧ s1.entries = s.entries ∧ cardKinds s1 = cardKinds s := by
  cases top with
  | none =>
    simp only [commitTop, Except.ok.injEq] at hok
    rw [← hok]
    exact ⟨hs, rfl, rfl⟩
  | some i =>
    have h1 : setTopCard s d (some i) = .ok s1 := hok
    exact ⟨hs.sound_setTopCard hp h1, setTopCard_entries h1⟩

theorem moveCounts_ledger (d : String) (codes : List String) :
    ∀ (keys : List String) (s s1 : Store) (owed : String → String → Int),
      Sound s → Conserved s → Held s owed → moveCounts s d codes keys = .ok s1 →
      Sound s1 ∧ Conserved s1 ∧
        Held s1 (fun d' c' =>
          owed d' c' + if d' = d ∧ c' ∈ keys then (codes.count c' : Int) else 0) ∧
        s1.decks = s.decks ∧ s1.deckCards = s.deckCards ∧
        s1.seqDeckCard = s.seqDeckCard := by
  intro keys
  induction keys with
  | nil =>
    intro s s1 owed hs hc hh hok
    simp only [moveCounts, Except.ok.injEq] at hok
    rw [← hok]
    refine ⟨hs, hc, hh.held_mono ?_, rfl, rfl, rfl⟩
    intro e _
    simp
  | cons c cs ih =>
    intro s s1 owed hs hc hh hok
    simp only [moveCounts] at hok
    split_ifs at hok with haff
    obtain ⟨hc2, hh2⟩ := ledger_updateEntry (s := s) (d := d) (c := c)
      (g := fun e => decide (e.inPile ≥ (codes.count c : Int)))
      (f := fun e => { e with inPile := e.inPile - (codes.count c : Int),
                              inDeck := e.inDeck + (codes.count c : Int) })
      (codes.count c : Int) hc hh
      (by
        intro e he _ _ hg
        have hb := hc e he
        simp only [decide_eq_true_eq] at hg
        refine ⟨rfl, rfl, ?_, ?_, ?_, rfl⟩
        · show 0 ≤ e.inDeck + (codes.count c : Int)
          omega
        · show 0 ≤ e.inPile - (codes.count c : Int)
          omega
        · show e.inDeck + (codes.count c : Int) + (e.inPile - (codes.count c : Int)) ≤ e.total
          omega)
      (Or.inr (guard_of_affected hs.keys haff))
    have hs2 := hs.sound_updateEntry d c (fun e => decide (e.inPile ≥ (codes.count c : Int)))
      (fun e => { e with inPile := e.inPile - (codes.count c : Int),
                         inDeck := e.inDeck + (codes.count c : Int) })
      (fun e => ⟨rfl, rfl⟩)
    obtain ⟨hs1, hc1, hh1, e1, e2, e3⟩ := ih _ s1 _ hs2 hc2 hh2 hok
    refine ⟨hs1, hc1, hh1.held_mono ?_, e1, e2, e3⟩
    intro e _
    dsimp only
    by_cases hd : e.deckId = d
    · by_cases hcc : e.code = c
      · simp only [hd, hcc, true_and, List.mem_cons, true_or, if_true, and_self]
        split_ifs <;> omega
      · simp [hd, hcc]
    · simp [hd]

theorem returnAllFromPile_inv {s : Store} (h : Inv s) (d name : String) :
    Inv (ReturnAllFromPile s d name).1 := by
  unfold ReturnAllFromPile
  cases findPile s d name with
  | none => exact h
  | some p =>
    dsimp only
    refine atomically_inv h ?_
    intro s' a hb
    cases h1 : moveCounts s d (pileCodesById s p.id) (pileCodesById s p.id).dedup with
    | error e => simp [h1] at hb
    | ok s1 =>
      simp only [h1] at hb
      obtain ⟨hs1, hc1, hh1, e1, e2, e3⟩ :=
        moveCounts_ledger d _ _ s s1 _ h.sound h.conserved h.held h1
      have f2 : DeckSide s1 (deletePileCardsOf s1 p.id) := ⟨rfl, rfl, rfl, rfl⟩
      have hs2 := hs1.sound_congr f2
      cases h3 : pushDeckCards (deletePileCardsOf s1 p.id) d
          (deckTop (deletePileCardsOf s1 p.id) d) (pileCodesById s p.id).reverse with
      | error e => simp [h3] at hb
      | ok r =>
        obtain ⟨s3, top⟩ := r
        simp only [h3] at hb
        obtain ⟨hs3, hc3, hh3, hp3, _⟩ := pushDeckCards_ledger d _ _ s3 _ top _ hs2
          (hc1.conserved_congr rfl) (hh1.held_congr rfl rfl) (deckTop_own hs2 d) h3
        cases h4 : commitTop s3 d top with
        | error e => simp [h4] at hb
        | ok s4 =>
          simp only [h4, Except.ok.injEq, Prod.mk.injEq] at hb
          rw [← hb.1]
          obtain ⟨hs4, he4, hk4⟩ := commitTop_sound hs3 hp3 h4
          refine ⟨hs4, hc3.conserved_congr he4, (hh3.held_congr he4 hk4).held_mono ?_⟩
          intro e _
          dsimp only
          by_cases hd : e.deckId = d
          · by_cases hm : e.code ∈ pileCodesById s p.id
            · simp [hd, hm]
            · simp [hd, hm, List.count_eq_zero_of_not_mem hm]
          · simp [hd]

/-! ### InsertDeck -/

theorem chainRows_bounds (d : String) :
    ∀ (cs : List String) (seq : Nat), ∀ r ∈ chainRows seq d cs,
      r.id ≤ seq + cs.length ∧ ∀ j, r.nextId = some j → seq < j ∧ j ≤ seq + cs.length := by
  intro cs
  induction cs with
  | nil =>
    intro seq r hr
    simp [chainRows] at hr
  | cons c cs ih =>
    intro seq r hr
    cases cs with
    | nil =>
      simp only [chainRows, List.mem_singleton] at hr
      subst hr
      simp
    | cons c' cs =>
      simp only [chainRows, List.mem_cons] at hr
      rcases hr with hr | hr
      · subst hr
        simp only [List.length_cons, Option.some.injEq]
        refine ⟨by omega, ?_⟩
        intro j hj
        omega
      · have := ih (seq + 1) r (by simpa [chainRows] using hr)
        simp only [List.length_cons] at this ⊢
        refine ⟨by omega, ?_⟩
        intro j hj
        have := this.2 j hj
        omega

theorem chainRows_kinds (seq : Nat) (d : String) (cs : List String) :
    (chainRows seq d cs).map (fun r => (r.deckId, r.code)) = cs.map (fun c => (d, c)) := by
  have h1 := chainRows_codes seq d cs
  have h2 : (chainRows seq d cs).map (fun r => (r.deckId, r.code)) =
      ((chainRows seq d cs).map (fun r => r.code)).map (fun c => (d, c)) := by
    rw [List.map_map]
    apply List.map_congr_left
    intro r hr
    simp [(chainRows_id_gt r hr).2]
  rw [h2, h1]

theorem count_pair_map (d : String) (cs : List String) (d' c' : String) :
    (cs.map (fun c => (d, c))).count (d', c') = if d' = d then cs.count c' else 0 := by
  induction cs with
  | nil => simp
  | cons c cs ih =>
    simp only [List.map_cons, List.count_cons, ih]
    by_cases hd : d' = d
    · subst hd
      by_cases hc : c = c'
      · simp [hc]
      · have : ((d', c) == (d', c')) = false := by
          rw [beq_eq_false_iff_ne]
          intro h
          exact hc (Prod.mk.inj h).2
        have h2 : (c == c') = false := by
          rw [beq_eq_false_iff_ne]
          exact hc
        simp [this, h2]
    · have : ((d, c) == (d', c')) = false := by
        rw [beq_eq_false_iff_ne]
        intro h
        exact hd (Prod.mk.inj h).1.symm
      simp [hd, this]

theorem count_kinds_fresh {s : Store} (h : Sound s) {tok : String}
    (hfresh : s.deckExists tok = false) (c : String) : (cardKinds s).count (tok, c) = 0 := by
  apply List.count_eq_zero_of_not_mem
  intro hm
  obtain ⟨r, hr, heq⟩ := List.mem_map.1 hm
  have := h.cardDeck r hr
  rw [(Prod.mk.inj heq).1, hfresh] at this
  cases this

theorem deckExists_append (s : Store) (tok d : String) (top : Option Nat) :
    (s.decks ++ [(⟨tok, top, false⟩ : DeckRow)]).any (fun r => r.deckId = d) =
      (s.deckExists d || decide (tok = d)) := by
  simp [Store.deckExists, List.any_append]

theorem insertedStore_sound {s : Store} (h : Sound s) {tok : String}
    (hfresh : s.deckExists tok = false) (cards : List String) :
    Sound (insertedStore s tok cards) := by
  have hex : ∀ d, s.deckExists d = true → (insertedStore s tok cards).deckExists d = true := by
    intro d hd
    show (s.decks ++ [_]).any (fun r => r.deckId = d) = true
    rw [deckExists_append, hd]
    rfl
  have hexTok : (insertedStore s tok cards).deckExists tok = true := by
    show (s.decks ++ [_]).any (fun r => r.deckId = tok) = true
    rw [deckExists_append]
    simp
  have hsub : ∀ r' ∈ (insertedStore s tok cards).deckCards, r'.id ≤ s.seqDeckCard →
      ∃ r ∈ s.deckCards, r'.id = r.id ∧ r'.deckId = r.deckId := by
    intro r' hr' hle
    rcases List.mem_append.1 hr' with hm | hm
    · exact ⟨r', hm, rfl, rfl⟩
    · have := (chainRows_id_gt r' hm).1
      omega
  have hseq : s.seqDeckCard ≤ (insertedStore s tok cards).seqDeckCard := Nat.le_add_right _ _
  have hnew : ∀ j, s.seqDeckCard < j → j ≤ s.seqDeckCard + cards.length →
      OwnPtr (insertedStore s tok cards) tok (some j) := by
    intro j h1 h2 i hi
    cases hi
    refine ⟨h2, ?_⟩
    intro r hr hid
    rcases List.mem_append.1 hr with hm | hm
    · have := h.cardSeq r hm
      omega
    · exact (chainRows_id_gt r hm).2
  refine ⟨?_, ?_, ?_, ?_, ?_, ?_, ?_⟩
  · show ((s.entries ++ _).map _).Nodup
    rw [List.map_append, List.nodup_append]
    refine ⟨h.keys, ?_, ?_⟩
    · rw [List.map_map]
      refine (List.nodup_dedup cards).map ?_
      intro a b hab
      simpa using hab
    · intro k hk1 hk2
      obtain ⟨e, he, rfl⟩ := List.mem_map.1 hk1
      rw [List.map_map] at hk2
      obtain ⟨c, _, hc⟩ := List.mem_map.1 hk2
      have := h.entryDeck e he
      simp only [Function.comp, Prod.mk.injEq] at hc
      rw [← hc.1, hfresh] at this
      cases this
  · intro e he
    rcases List.mem_append.1 he with hm | hm
    · exact hex _ (h.entryDeck e hm)
    · obtain ⟨c, _, rfl⟩ := List.mem_map.1 hm
      exact hexTok
  · intro r hr
    rcases List.mem_append.1 hr with hm | hm
    · exact hex _ (h.cardDeck r hm)
    · rw [(chainRows_id_gt r hm).2]
      exact hexTok
  · intro r hr
    rcases List.mem_append.1 hr with hm | hm
    · exact le_trans (h.cardSeq r hm) hseq
    · exact (chainRows_bounds tok cards s.seqDeckCard r hm).1
  · intro a ha b hb hid
    rcases List.mem_append.1 ha with ha | ha <;> rcases List.mem_append.1 hb with hb | hb
    · exact h.idDeck a ha b hb hid
    · have := h.cardSeq a ha
      have := (chainRows_id_gt b hb).1
      omega
    · have := h.cardSeq b hb
      have := (chainRows_id_gt a ha).1
      omega
    · rw [(chainRows_id_gt a ha).2, (chainRows_id_gt b hb).2]
  · intro dk hdk
    rcases List.mem_append.1 hdk with hm | hm
    · exact (h.topOwn dk hm).ptr_of_sub hseq hsub
    · rw [List.mem_singleton.1 hm]
      cases hh : (chainRows s.seqDeckCard tok cards).head? with
      | none => exact OwnPtr.ptr_none _ _
      | some r0 =>
        have hm0 := List.mem_of_mem_head? hh
        exact hnew r0.id (chainRows_id_gt r0 hm0).1
          (chainRows_bounds tok cards s.seqDeckCard r0 hm0).1
  · intro r hr
    rcases List.mem_append.1 hr with hm | hm
    · exact (h.nextOwn r hm).ptr_of_sub hseq hsub
    · rw [(chainRows_id_gt r hm).2]
      intro j hj
      have := (chainRows_bounds tok cards s.seqDeckCard r hm).2 j hj
      exact hnew j this.1 this.2 j rfl

theorem insertedStore_inv {s : Store} (h : Inv s) {tok : String}
    (hfresh : s.deckExists tok = false) (cards : List String) :
    Inv (insertedStore s tok cards) := by
  refine ⟨insertedStore_sound h.sound hfresh cards, ?_, ?_⟩
  · intro e he
    rcases List.mem_append.1 he with hm | hm
    · exact h.conserved e hm
    · obtain ⟨c, _, rfl⟩ := List.mem_map.1 hm
      simp
  · intro e he
    have hk : cardKinds (insertedStore s tok cards) =
        cardKinds s ++ cards.map (fun c => (tok, c)) := by
      show (s.deckCards ++ _).map _ = _
      rw [List.map_append, chainRows_kinds]
      rfl
    rw [hk, List.count_append, count_pair_map]
    rcases List.mem_append.1 he with hm | hm
    · have hne : e.deckId ≠ tok := by
        intro heq
        have := h.sound.entryDeck e hm
        rw [heq, hfresh] at this
        cases this
      have := h.inv_count_le hm
      simp only [hne, if_false]
      omega
    · obtain ⟨c, _, rfl⟩ := List.mem_map.1 hm
      simp [count_kinds_fresh h.sound hfresh]

theorem insertDeck_inv {s : Store} (h : Inv s) (rand : Nat → Nat → Nat)
    (cards : List String) : Inv (InsertDeck s rand cards).1 := by
  by_cases htok : tokenLoop s rand 30 0 = ""
  · unfold InsertDeck
    rw [if_pos htok]
    exact h
  · rw [insertDeck_store s rand cards h.sound.cardSeq h.sound.entryDeck htok]
    exact insertedStore_inv h (tokenLoop_fresh s rand 30 0 htok) cards

/-! ### ReturnAllDrawn -/

theorem count_replicated_absent (n : DeckEntryRow → Nat) (c : String) :
    ∀ (es : List DeckEntryRow), c ∉ es.map (fun e => e.code) →
      (es.flatMap (fun e => List.replicate (n e) e.code)).count c = 0 := by
  intro es
  induction es with
  | nil => simp
  | cons a es ih =>
    intro hc
    simp only [List.map_cons, List.mem_cons, not_or] at hc
    have hne : (a.code == c) = false := by
      rw [beq_eq_false_iff_ne]
      exact fun h => hc.1 h.symm
    simp [List.count_append, List.count_replicate, hne, ih hc.2]

theorem count_replicated_mem (n : DeckEntryRow → Nat) :
    ∀ (es : List DeckEntryRow), (es.map (fun e => e.code)).Nodup → ∀ e ∈ es,
      (es.flatMap (fun e => List.replicate (n e) e.code)).count e.code = n e := by
  intro es
  induction es with
  | nil => simp
  | cons a es ih =>
    intro hnd e he
    simp only [List.map_cons, List.nodup_cons] at hnd
    rcases List.mem_cons.1 he with h | h
    · subst h
      simp [List.count_append, count_replicated_absent n e.code es hnd.1]
    · have hne : (a.code == e.code) = false := by
        rw [beq_eq_false_iff_ne]
        intro heq
        exact hnd.1 (heq ▸ List.mem_map_of_mem (fun e => e.code) h)
      simp [List.count_append, List.count_replicate, hne, ih hnd.2 e h]

/-- The cards `ReturnAllDrawn` pushes for a code are at most what the ledger row of that
code has outstanding. -/
theorem count_pushes_le {s : Store} (hs : Sound s) (hc : Conserved s) (d : String)
    {e : DeckEntryRow} (he : e ∈ s.entries) (hd : e.deckId = d) :
    (((((s.entries.filter (fun e => e.deckId = d)).filter
        (fun e => decide (e.total - e.inDeck - e.inPile > 0))).reverse.flatMap
      (fun e => List.replicate (e.total - e.inDeck - e.inPile).toNat e.code)).count e.code :
        Nat) : Int) ≤ e.total - e.inDeck - e.inPile := by
  have hb := hc e he
  have hsubl : (((s.entries.filter (fun e => e.deckId = d)).filter
      (fun e => decide (e.total - e.inDeck - e.inPile > 0))).reverse).Perm
      ((s.entries.filter (fun e => e.deckId = d)).filter
        (fun e => decide (e.total - e.inDeck - e.inPile > 0))) := List.reverse_perm _
  have hmem : ∀ x ∈ ((s.entries.filter (fun e => e.deckId = d)).filter
      (fun e => decide (e.total - e.inDeck - e.inPile > 0))).reverse,
      x ∈ s.entries ∧ x.deckId = d ∧ x.total - x.inDeck - x.inPile > 0 := by
    intro x hx
    obtain ⟨h1, h2⟩ := List.mem_filter.1 (hsubl.subset hx)
    obtain ⟨h3, h4⟩ := List.mem_filter.1 h1
    exact ⟨h3, by simpa using h4, by simpa using h2⟩
  have hnd : ((((s.entries.filter (fun e => e.deckId = d)).filter
      (fun e => decide (e.total - e.inDeck - e.inPile > 0))).reverse).map
      (fun e => e.code)).Nodup := by
    have h1 : (((s.entries.filter (fun e => e.deckId = d)).filter
        (fun e => decide (e.total - e.inDeck - e.inPile > 0))).map
        (fun e => (e.deckId, e.code))).Nodup :=
      hs.keys.sublist (((List.filter_sublist _).trans (List.filter_sublist _)).map _)
    have h2 := (hsubl.map (fun e : DeckEntryRow => (e.deckId, e.code))).nodup_iff.2 h1
    refine List.Nodup.of_map (fun c => (d, c)) ?_
    rw [List.map_map]
    have h3 : List.map ((fun c => (d, c)) ∘ fun e : DeckEntryRow => e.code)
        ((s.entries.filter (fun e => e.deckId = d)).filter
          (fun e => decide (e.total - e.inDeck - e.inPile > 0))).reverse =
        List.map (fun e : DeckEntryRow => (e.deckId, e.code))
          ((s.entries.filter (fun e => e.deckId = d)).filter
            (fun e => decide (e.total - e.inDeck - e.inPile > 0))).reverse := by
      apply List.map_congr_left
      intro x hx
      simp [(hmem x hx).2.1]
    rw [h3]
    exact h2
  by_cases hin : e ∈ ((s.entries.filter (fun e => e.deckId = d)).filter
      (fun e => decide (e.total - e.inDeck - e.inPile > 0))).reverse
  · rw [count_replicated_mem (fun e => (e.total - e.inDeck - e.inPile).toNat) _ hnd e hin]
    omega
  · rw [count_replicated_absent (fun e => (e.total - e.inDeck - e.inPile).toNat)]
    · simp only [Nat.cast_zero]
      omega
    · intro hcm
      obtain ⟨x, hx, hxc⟩ := List.mem_map.1 hcm
      have hxm := hmem x hx
      have : x = e := entry_unique hs.keys hxm.1 he (hxm.2.1.trans hd.symm) hxc
      exact hin (this ▸ hx)

theorem returnAllDrawn_inv {s : Store} (h : Inv s) (d : String) :
    Inv (ReturnAllDrawn s d).1 := by
  unfold ReturnAllDrawn
  refine atomically_inv h ?_
  intro s' a hb
  dsimp only at hb
  cases h1 : pushDeckCards s d (deckTop s d)
      (((s.entries.filter (fun e => e.deckId = d)).filter
        (fun e => decide (e.total - e.inDeck - e.inPile > 0))).reverse.flatMap
      (fun e => List.replicate (e.total - e.inDeck - e.inPile).toNat e.code)) with
  | error e =>
    rw [h1] at hb
    cases hb
  | ok r =>
    obtain ⟨s1, top⟩ := r
    rw [h1] at hb
    dsimp only at hb
    obtain ⟨hs1, hc1, hh1, hp1, he1⟩ := pushDeckCards_ledger d _ s s1 _ top _ h.sound
      h.conserved h.held (deckTop_own h.sound d) h1
    cases h2 : commitTop s1 d top with
    | error e =>
      rw [h2] at hb
      cases hb
    | ok s2 =>
      rw [h2] at hb
      simp only [Except.ok.injEq, Prod.mk.injEq] at hb
      rw [← hb.1]
      obtain ⟨hs2, he2, hk2⟩ := commitTop_sound hs1 hp1 h2
      have hh2 := hh1.held_congr he2 hk2
      have hent : s2.entries = s.entries := he2.trans he1
      refine ⟨hs2.sound_of_entries_map
        (fun e => if e.deckId = d then { e with inDeck := e.total - e.inPile } else e)
        ?_ rfl rfl rfl rfl, ?_, ?_⟩
      · intro e
        dsimp only
        split_ifs <;> exact ⟨rfl, rfl⟩
      · intro e' he'
        obtain ⟨e, he, rfl⟩ := List.mem_map.1 he'
        rw [hent] at he
        have hb := h.conserved e he
        by_cases hd : e.deckId = d
        · rw [if_pos hd]
          refine ⟨?_, hb.2.1, ?_⟩
          · show 0 ≤ e.total - e.inPile
            omega
          · show e.total - e.inPile + e.inPile ≤ e.total
            omega
        · rw [if_neg hd]
          exact hb
      · intro e' he'
        obtain ⟨e, he, rfl⟩ := List.mem_map.1 he'
        have hb2 := hh2 e he
        beta_reduce at hb2
        have hk : cardKinds { s2 with entries := s2.entries.map (fun e =>
            if e.deckId = d then { e with inDeck := e.total - e.inPile } else e) } =
            cardKinds s2 := rfl
        rw [hk]
        rw [hent] at he
        by_cases hd : e.deckId = d
        · have hle := count_pushes_le h.sound h.conserved d he hd
          rw [if_pos hd] at hb2 ⊢
          show ((cardKinds s2).count (e.deckId, e.code) : Int) + 0 ≤ e.total - e.inPile
          omega
        · rw [if_neg hd] at hb2 ⊢
          beta_reduce
          omega

/-! ### Conservation -/

theorem inv_empty : Inv Store.empty := by
  refine ⟨⟨?_, ?_, ?_, ?_, ?_, ?_, ?_⟩, ?_, ?_⟩ <;> simp [Store.empty, Conserved, Held]

theorem reachable_inv {s : Store} (h : Reachable s) : Inv s := by
  induction h with
  | empty => exact inv_empty
  | insertDeck s rand cards _ ih => exact insertDeck_inv ih rand cards
  | drawCards s d amount _ ih => exact drawCards_inv ih d amount
  | shuffleDeck s d rnd _ ih => exact shuffleDeck_inv ih d rnd
  | shuffleAllPiles s d rnd _ ih => exact shuffleAllPiles_inv ih d rnd
  | updatePileOrder s d name codes _ ih => exact updatePileOrder_inv ih d name codes
  | insertIntoPile s name d codes _ ih => exact insertIntoPile_inv ih name d codes
  | drawFromPile s d name method pick _ ih => exact drawFromPile_inv ih d name method pick
  | drawSpecificFromPile s d name code _ ih => exact drawSpecificFromPile_inv ih d name code
  | returnSpecificDrawn s d code _ ih => exact returnSpecificDrawn_inv ih d code
  | returnAllDrawn s d _ ih => exact returnAllDrawn_inv ih d
  | returnSpecificFromPile s d name code _ ih =>
    exact returnSpecificFromPile_inv ih d name code
  | returnAllFromPile s d name _ ih => exact returnAllFromPile_inv ih d name

/-- C1. In every store the engine can reach from the fresh database by any finite sequence
of calls of `InsertDeck`, `DrawCards`, `ShuffleDeck`, `ShuffleAllPiles`, `UpdatePileOrder`,
`InsertIntoPile`, `DrawFromPile`, `DrawSpecificFromPile`, `ReturnSpecificDrawn`,
`ReturnAllDrawn`, `ReturnSpecificFromPile` and `ReturnAllFromPile`, with any arguments and
any random choices, whether the calls succeed or fail, every ledger row has `inDeck ≥ 0`,
`inPile ≥ 0` and `inDeck + inPile ≤ total`, so that the number of drawn cards
`total - inDeck - inPile` is not negative. -/
theorem conservation_reachable (s : Store) (h : Reachable s) :
    ∀ e ∈ s.entries,
      0 ≤ e.inDeck ∧ 0 ≤ e.inPile ∧ e.inDeck + e.inPile ≤ e.total ∧
        0 ≤ e.total - e.inDeck - e.inPile := by
  intro e he
  obtain ⟨h1, h2, h3⟩ := (reachable_inv h).conserved e he
  exact ⟨h1, h2, h3, by omega⟩

theorem conservation_reachable_witness :
    playedStore.entries =
        [⟨"abcdefghijkl", "KD", 1, 0, 0⟩, ⟨"abcdefghijkl", "AS", 2, 1, 1⟩] ∧
      ∀ e ∈ playedStore.entries,
        0 ≤ e.inDeck ∧ 0 ≤ e.inPile ∧ e.inDeck + e.inPile ≤ e.total ∧
          0 ≤ e.total - e.inDeck - e.inPile :=
  ⟨by decide,
    conservation_reachable playedStore
      (Reachable.insertIntoPile _ _ _ _
        (Reachable.drawCards _ _ _ (Reachable.insertDeck _ _ _ Reachable.empty)))⟩

/-! ## DrawSpecificFromPile -/

theorem drawSpecific_find {s : Store} {p : Nat} {rows : List PileCardRow}
    (hat : PileAt s p rows) (code : String) :
    (code ∈ rows.map (fun c => c.code) →
      ∃ pre c post, rows = pre ++ c :: post ∧ c.code = code ∧
        s.pileCards.find? (fun x => x.pileId = p ∧ x.code = code) = some c) ∧
    (code ∉ rows.map (fun c => c.code) →
      s.pileCards.find? (fun x => x.pileId = p ∧ x.code = code) = none) := by
  constructor
  · intro hc
    obtain ⟨r, hr, hrc⟩ := List.mem_map.1 hc
    have hrm := (pileAt_mem hat r).1 hr
    cases hf : s.pileCards.find? (fun x => x.pileId = p ∧ x.code = code) with
    | none =>
      have := List.find?_eq_none.1 hf r hrm.1
      simp [hrm.2, hrc] at this
    | some c =>
      have hcm : c ∈ s.pileCards := List.mem_of_find?_eq_some hf
      have hcp : c.pileId = p ∧ c.code = code := by simpa using List.find?_some hf
      have hcr : c ∈ rows := (pileAt_mem hat c).2 ⟨hcm, hcp.1⟩
      obtain ⟨pre, post, hsplit⟩ := List.append_of_mem hcr
      exact ⟨pre, c, post, hsplit, hcp.2, rfl⟩
  · intro hc
    rw [List.find?_eq_none]
    intro x hx hcond
    simp only [decide_eq_true_eq] at hcond
    exact hc (List.mem_map.2 ⟨x, (pileAt_mem hat x).2 ⟨hx, hcond.1⟩, hcond.2⟩)

/-- C11. On a pile whose well-formed sequence read head to tail is `P`, in a store whose
ledger counts the pile's cards: when `code` occurs in `P`, `DrawSpecificFromPile` returns
`code`, `GetPileCards` afterwards reads `P` with exactly one position holding `code` deleted
and the other cards in the same order, and `inPile` of `code` has dropped by exactly 1 while
no other ledger field changed; when `code` does not occur in `P` the call fails with the
card-not-in-pile error and the store is unchanged. -/
theorem drawSpecificFromPile_removes_one (s : Store) (d name code : String)
    (P : List String)
    (hids : (s.pileCards.map (fun c => c.id)).Nodup)
    (hP : pileList s d name = some P)
    (hled : ∀ e ∈ s.entries, e.deckId = d → e.code ∈ P → 0 < e.inPile) :
    (code ∈ P →
      (DrawSpecificFromPile s d name code).2 = .ok code ∧
      ∃ i, i < P.length ∧ P[i]? = some code ∧
        (∀ choice, GetPileCards (DrawSpecificFromPile s d name code).1 d name choice =
          .ok (P.eraseIdx i)) ∧
        (DrawSpecificFromPile s d name code).1.entries =
          s.entries.map (fun e =>
            if e.deckId = d ∧ e.code = code then { e with inPile := e.inPile - 1 } else e)) ∧
    (code ∉ P → DrawSpecificFromPile s d name code = (s, .error .cardNotInPile)) := by
  unfold pileList at hP
  cases hp : findPile s d name with
  | none => simp [hp] at hP
  | some p =>
    simp only [hp, Option.map_eq_some'] at hP
    obtain ⟨rows, hr, rfl⟩ := hP
    have hat := (pileAt_iff hids).1 hr
    obtain ⟨hin, hout⟩ := drawSpecific_find hat code
    constructor
    · intro hc
      obtain ⟨pre, c, post, hrows, hcode, hf⟩ := hin hc
      subst hrows
      have hl := hat.linked
      have hperm := hat.perm
      obtain ⟨s1, hu, hun⟩ := unlink_any (d := d) hat.ids hl hperm
      rw [hcode] at hu
      have hres : DrawSpecificFromPile s d name code = (s1, .ok code) := by
        unfold DrawSpecificFromPile
        simp only [hp, hf, hu, atomically]
      rw [hres]
      refine ⟨rfl, pre.length, by simp, ?_, ?_, ?_⟩
      · rw [← hcode]
        have := getElem?_length_append (pre.map (fun c => c.code)) c.code
          (post.map (fun c => c.code))
        simpa using this
      · intro choice
        obtain ⟨top', rows', hl', hperm', hcodes'⟩ := hun.rows
        have hp' : findPile s1 d name = some p := by
          unfold findPile
          rw [hun.piles]
          exact hp
        show GetPileCards s1 d name choice = _
        rw [getPileCards_of_rows hp' hun.ids hl' hperm' choice, hcodes']
        have := eraseIdx_length_append (pre.map (fun c => c.code)) c.code
          (post.map (fun c => c.code))
        simp only [List.length_map] at this
        simp [this]
      · show s1.entries = _
        rw [hun.entries]
        unfold ledgerAfterPileDraw
        apply List.map_congr_left
        intro e he
        by_cases hk : e.deckId = d ∧ e.code = code
        · have hpos : 0 < e.inPile := hled e he hk.1 (hk.2 ▸ hc)
          have hk2 : e.code = c.code := hk.2.trans hcode.symm
          simp [hk.1, hk2, hcode, hk.2, hpos]
        · have hk2 : ¬ (e.deckId = d ∧ e.code = c.code ∧ decide (e.inPile > 0) = true) := by
            rintro ⟨a, b, _⟩
            exact hk ⟨a, b.trans hcode⟩
          rw [if_neg hk, if_neg hk2]
    · intro hc
      unfold DrawSpecificFromPile
      simp only [hp, hout hc]

theorem drawSpecificFromPile_removes_one_witness :
    ("KD" ∈ (["AS", "KD", "2C"] : List String) →
      (DrawSpecificFromPile pileDrawStore "d" "discard" "KD").2 = .ok "KD" ∧
      ∃ i, i < (["AS", "KD", "2C"] : List String).length ∧
        (["AS", "KD", "2C"] : List String)[i]? = some "KD" ∧
        (∀ choice, GetPileCards (DrawSpecificFromPile pileDrawStore "d" "discard" "KD").1
          "d" "discard" choice = .ok ((["AS", "KD", "2C"] : List String).eraseIdx i)) ∧
        (DrawSpecificFromPile pileDrawStore "d" "discard" "KD").1.entries =
          pileDrawStore.entries.map (fun e =>
            if e.deckId = "d" ∧ e.code = "KD" then { e with inPile := e.inPile - 1 }
            else e)) ∧
    ("KD" ∉ (["AS", "KD", "2C"] : List String) →
      DrawSpecificFromPile pileDrawStore "d" "discard" "KD" =
        (pileDrawStore, .error .cardNotInPile)) :=
  drawSpecificFromPile_removes_one pileDrawStore "d" "discard" "KD" ["AS", "KD", "2C"]
    (by decide) (by decide) (by decide)

/-! ## ReturnSpecificDrawn -/

theorem deckTop_fk {s : Store} {d : String} {rows : List DeckCardRow}
    (h : DeckAt s d rows) : s.fkDeckCard (deckTop s d) = true := by
  obtain ⟨dk, hdk, hl⟩ := h.deck
  unfold deckTop
  rw [hdk]
  show s.fkDeckCard dk.topCardId = true
  cases rows with
  | nil =>
    have : dk.topCardId = none := hl
    rw [this]
    rfl
  | cons a rest =>
    have ht : dk.topCardId = some a.id := hl.1
    rw [ht]
    exact deckCardExists_of_mem (deckAt_head_mem h a (List.mem_cons_self _ _)).1

theorem returnSpecificDrawn_ok {s : Store} {d code : String} {rows : List DeckCardRow}
    {e : DeckEntryRow} (hat : DeckAt s d rows) (hf : findEntry s d code = some e)
    (hout : ¬ e.total - e.inDeck - e.inPile ≤ 0) :
    ReturnSpecificDrawn s d code = (returnedStore s d code, .ok code) := by
  obtain ⟨dk, hdk, _⟩ := hat.deck
  have hd : s.deckExists d = true := deckExists_of_find hdk
  have hfk := deckTop_fk hat
  unfold ReturnSpecificDrawn
  simp only [hf, if_neg hout]
  have h1 : insertDeckCard s d code (deckTop s d) =
      .ok ({ s with deckCards := s.deckCards ++ [⟨s.seqDeckCard + 1, d, code, deckTop s d⟩],
                    seqDeckCard := s.seqDeckCard + 1 }, s.seqDeckCard + 1) := by
    unfold insertDeckCard
    rw [hd, hfk]
    rfl
  rw [h1]
  dsimp only
  have h2 : setTopCard { s with
        deckCards := s.deckCards ++ [⟨s.seqDeckCard + 1, d, code, deckTop s d⟩],
        seqDeckCard := s.seqDeckCard + 1 } d (some (s.seqDeckCard + 1)) =
      .ok { s with
        decks := (s.decks.map (fun r =>
          if r.deckId = d then { r with topCardId := some (s.seqDeckCard + 1) } else r)),
        deckCards := s.deckCards ++ [⟨s.seqDeckCard + 1, d, code, deckTop s d⟩],
        seqDeckCard := s.seqDeckCard + 1 } := by
    unfold setTopCard
    have : Store.fkDeckCard { s with
        deckCards := s.deckCards ++ [⟨s.seqDeckCard + 1, d, code, deckTop s d⟩],
        seqDeckCard := s.seqDeckCard + 1 } (some (s.seqDeckCard + 1)) = true := by
      simp [Store.fkDeckCard, Store.deckCardExists]
    rw [this]
    simp
  rw [h2]
  simp [atomically, updateEntry, returnedStore]

theorem returnedStore_deckAt {s : Store} {d : String} {rows : List DeckCardRow}
    (hat : DeckAt s d rows) (hseq : ∀ r ∈ s.deckCards, r.id ≤ s.seqDeckCard)
    (code : String) :
    DeckAt (returnedStore s d code) d (⟨s.seqDeckCard + 1, d, code, deckTop s d⟩ :: rows) := by
  obtain ⟨dk, hdk, hl⟩ := hat.deck
  refine ⟨?_, ?_, ?_⟩
  · show ((s.deckCards ++ [_]).map (fun r : DeckCardRow => r.id)).Nodup
    rw [List.map_append, List.nodup_append]
    refine ⟨hat.ids, by simp, ?_⟩
    intro i hi hi'
    obtain ⟨r, hr, rfl⟩ := List.mem_map.1 hi
    have := hseq r hr
    simp only [List.map_cons, List.map_nil, List.mem_singleton] at hi'
    omega
  · refine ⟨{ dk with topCardId := some (s.seqDeckCard + 1) }, ?_, ?_⟩
    · have := findDeck_map (s := s) (d := d)
        (fun r => if r.deckId = d then { r with topCardId := some (s.seqDeckCard + 1) } else r)
        (fun r => by dsimp only; split_ifs <;> rfl)
      have hd : dk.deckId = d := by simpa using List.find?_some hdk
      show (List.map _ s.decks).find? (fun r : DeckRow => r.deckId = d) = _
      rw [this, hdk]
      simp [hd]
    · refine ⟨rfl, ?_⟩
      show Linked _ _ (deckTop s d) rows
      unfold deckTop
      rw [hdk]
      exact hl
  · show (_ :: rows).Perm ((s.deckCards ++ [_]).filter (fun r : DeckCardRow => r.deckId = d))
    rw [List.filter_append]
    have : ([(⟨s.seqDeckCard + 1, d, code, deckTop s d⟩ : DeckCardRow)]).filter
        (fun r => r.deckId = d) = [⟨s.seqDeckCard + 1, d, code, deckTop s d⟩] := by
      simp
    rw [this]
    exact (hat.perm.cons _).trans (List.perm_append_singleton _ _).symm

/-- C12. On a deck whose well-formed list read head to tail is `L`, in a table whose ids
are below the id sequence: `ReturnSpecificDrawn(deck, code)` fails if and only if there is
no ledger row for `(deck, code)` or `total - inDeck - inPile ≤ 0` for it, and a failing call
leaves the store unchanged; a successful call returns `code`, the deck list becomes `code`
followed by `L`, the next `DrawCards(deck, 1)` returns `code`, and in the ledger exactly
`inDeck` of `(deck, code)` has grown by 1. -/
theorem returnSpecificDrawn_pushes_code (s : Store) (d code : String) (L : List String)
    (hcids : (s.deckCards.map (fun r => r.id)).Nodup)
    (hseq : ∀ r ∈ s.deckCards, r.id ≤ s.seqDeckCard)
    (hL : deckList s d = some L) :
    ((∀ c, (ReturnSpecificDrawn s d code).2 ≠ .ok c) ↔
        (findEntry s d code = none ∨
          ∃ e, findEntry s d code = some e ∧ e.total - e.inDeck - e.inPile ≤ 0)) ∧
      ((∀ c, (ReturnSpecificDrawn s d code).2 ≠ .ok c) →
        (ReturnSpecificDrawn s d code).1 = s) ∧
      ((∃ c, (ReturnSpecificDrawn s d code).2 = .ok c) →
        (ReturnSpecificDrawn s d code).2 = .ok code ∧
        deckList (ReturnSpecificDrawn s d code).1 d = some (code :: L) ∧
        (DrawCards (ReturnSpecificDrawn s d code).1 d 1).2 = .ok ([code], (L.length : Int)) ∧
        (ReturnSpecificDrawn s d code).1.entries =
          s.entries.map (fun e =>
            if e.deckId = d ∧ e.code = code then { e with inDeck := e.inDeck + 1 }
            else e)) := by
  obtain ⟨rows, hr, rfl⟩ := deckList_eq_some.1 hL
  have hat := (deckAt_iff hcids).1 hr
  cases hf : findEntry s d code with
  | none =>
    have hres : ReturnSpecificDrawn s d code = (s, .error .cardNotFound) := by
      unfold ReturnSpecificDrawn
      simp only [hf, atomically]
    rw [hres]
    simp
  | some e =>
    by_cases hout : e.total - e.inDeck - e.inPile ≤ 0
    · have hres : ReturnSpecificDrawn s d code = (s, .error .notDrawn) := by
        unfold ReturnSpecificDrawn
        simp only [hf, if_pos hout, atomically]
      rw [hres]
      refine ⟨?_, fun _ => rfl, ?_⟩
      · exact ⟨fun _ => Or.inr ⟨e, rfl, hout⟩, fun _ c hc => by cases hc⟩
      · rintro ⟨c, hc⟩
        cases hc
    · rw [returnSpecificDrawn_ok hat hf hout]
      have hat' := returnedStore_deckAt hat hseq code
      refine ⟨?_, ?_, ?_⟩
      · constructor
        · intro h
          exact absurd rfl (h code)
        · rintro (h | ⟨e', he', hle⟩)
          · cases h
          · cases he'
            exact absurd hle hout
      · intro h
        exact absurd rfl (h code)
      · intro _
        refine ⟨rfl, ?_, ?_, rfl⟩
        · show deckList (returnedStore s d code) d = _
          rw [deckList_eq_some]
          exact ⟨_, (deckAt_iff hat'.ids).2 hat', by simp⟩
        · obtain ⟨s', hdraw, _, _⟩ := drawCards_effect hat' 1
          show (DrawCards (returnedStore s d code) d 1).2 = _
          rw [hdraw]
          simp

theorem returnSpecificDrawn_pushes_code_witness :
    ((∀ c, (ReturnSpecificDrawn returnWitnessStore "d" "AS").2 ≠ .ok c) ↔
        (findEntry returnWitnessStore "d" "AS" = none ∨
          ∃ e, findEntry returnWitnessStore "d" "AS" = some e ∧
            e.total - e.inDeck - e.inPile ≤ 0)) ∧
      ((∀ c, (ReturnSpecificDrawn returnWitnessStore "d" "AS").2 ≠ .ok c) →
        (ReturnSpecificDrawn returnWitnessStore "d" "AS").1 = returnWitnessStore) ∧
      ((∃ c, (ReturnSpecificDrawn returnWitnessStore "d" "AS").2 = .ok c) →
        (ReturnSpecificDrawn returnWitnessStore "d" "AS").2 = .ok "AS" ∧
        deckList (ReturnSpecificDrawn returnWitnessStore "d" "AS").1 "d" =
          some ("AS" :: ["KD"]) ∧
        (DrawCards (ReturnSpecificDrawn returnWitnessStore "d" "AS").1 "d" 1).2 =
          .ok (["AS"], ((["KD"] : List String).length : Int)) ∧
        (ReturnSpecificDrawn returnWitnessStore "d" "AS").1.entries =
          returnWitnessStore.entries.map (fun e =>
            if e.deckId = "d" ∧ e.code = "AS" then { e with inDeck := e.inDeck + 1 }
            else e)) :=
  returnSpecificDrawn_pushes_code returnWitnessStore "d" "AS" ["KD"]
    (by decide) (by decide) (by decide)

/-! ## ReturnAllDrawn -/

theorem returnAllDrawn_ok {s : Store} {d : String} (hd : s.deckExists d = true)
    (hfk : s.fkDeckCard (deckTop s d) = true) :
    ReturnAllDrawn s d = (returnDrawnStore s d, .ok ()) := by
  unfold ReturnAllDrawn
  dsimp only
  have h1 := pushDeckCards_spec d (drawnPushes s d) s (deckTop s d) hd hfk
  unfold drawnPushes at h1
  rw [h1]
  dsimp only
  have h2 := commitTop_spec _ d _ (pushDeckCards_fk d (drawnPushes s d) s (deckTop s d) hfk)
  unfold drawnPushes at h2
  rw [h2]
  rfl

theorem pushedDeckRows_linked (d : String) :
    ∀ (codes : List String) (seq : Nat) (top : Option Nat) (rows : List DeckCardRow),
      Linked (fun r : DeckCardRow => r.id) (fun r => r.nextId) top rows →
      Linked (fun r : DeckCardRow => r.id) (fun r => r.nextId) (pushedTop seq top codes)
        ((pushedDeckRows seq d top codes).reverse ++ rows) := by
  intro codes
  induction codes with
  | nil =>
    intro seq top rows h
    simpa [pushedTop, pushedDeckRows] using h
  | cons c cs ih =>
    intro seq top rows h
    have h1 : Linked (fun r : DeckCardRow => r.id) (fun r => r.nextId) (some (seq + 1))
        ((⟨seq + 1, d, c, top⟩ : DeckCardRow) :: rows) := ⟨rfl, h⟩
    have := ih (seq + 1) (some (seq + 1)) _ h1
    simpa [pushedTop, pushedDeckRows] using this

/-- Pushing codes on a well-formed deck list leaves a well-formed list: the pushed rows,
last pushed first, in front of the old rows. -/
theorem pushed_deckAt {s s' : Store} {d : String} {rows : List DeckCardRow}
    (codes : List String) (hat : DeckAt s d rows)
    (hseq : ∀ r ∈ s.deckCards, r.id ≤ s.seqDeckCard)
    (hdecks : s'.decks = s.decks.map (fun r =>
      if r.deckId = d ∧ pushedTop s.seqDeckCard (deckTop s d) codes ≠ none
      then { r with topCardId := pushedTop s.seqDeckCard (deckTop s d) codes } else r))
    (hcards : s'.deckCards =
      s.deckCards ++ pushedDeckRows s.seqDeckCard d (deckTop s d) codes) :
    DeckAt s' d ((pushedDeckRows s.seqDeckCard d (deckTop s d) codes).reverse ++ rows) := by
  obtain ⟨dk, hdk, hl⟩ := hat.deck
  have hdt : deckTop s d = dk.topCardId := by
    unfold deckTop
    rw [hdk]
    rfl
  have hdd : dk.deckId = d := by simpa using List.find?_some hdk
  refine ⟨?_, ?_, ?_⟩
  · rw [hcards, List.map_append, List.nodup_append]
    refine ⟨hat.ids, ?_, ?_⟩
    · have hsub : ∀ (cs : List String) (seq : Nat) (top : Option Nat),
          ((pushedDeckRows seq d top cs).map (fun r => r.id)).Nodup := by
        intro cs
        induction cs with
        | nil => intro seq top; simp [pushedDeckRows]
        | cons c cs ih =>
          intro seq top
          simp only [pushedDeckRows, List.map_cons, List.nodup_cons]
          refine ⟨?_, ih _ _⟩
          intro hm
          obtain ⟨r, hr, hid⟩ := List.mem_map.1 hm
          have := (pushedDeckRows_mem r hr).1
          omega
      exact hsub _ _ _
    · intro i hi hi'
      obtain ⟨r, hr, rfl⟩ := List.mem_map.1 hi
      obtain ⟨r', hr', hid⟩ := List.mem_map.1 hi'
      have := hseq r hr
      have := (pushedDeckRows_mem r' hr').1
      omega
  · by_cases hn : pushedTop s.seqDeckCard (deckTop s d) codes = none
    · refine ⟨dk, ?_, ?_⟩
      · show s'.decks.find? (fun r => r.deckId = d) = some dk
        rw [hdecks]
        have : (s.decks.map (fun r =>
            if r.deckId = d ∧ pushedTop s.seqDeckCard (deckTop s d) codes ≠ none
            then { r with topCardId := pushedTop s.seqDeckCard (deckTop s d) codes }
            else r)) = s.decks := by
          conv_rhs => rw [← List.map_id s.decks]
          apply List.map_congr_left
          intro r _
          simp [hn]
        rw [this]
        exact hdk
      · have := pushedDeckRows_linked d codes s.seqDeckCard (deckTop s d) rows (hdt ▸ hl)
        rw [hn] at this
        have hnil : codes = [] := by
          by_contra hne
          rw [pushedTop_cases, if_neg hne] at hn
          cases hn
        subst hnil
        simpa [pushedDeckRows] using hl
    · refine ⟨{ dk with topCardId := pushedTop s.seqDeckCard (deckTop s d) codes }, ?_, ?_⟩
      · show s'.decks.find? (fun r => r.deckId = d) = _
        rw [hdecks]
        have := findDeck_map (s := s) (d := d) (fun r =>
            if r.deckId = d ∧ pushedTop s.seqDeckCard (deckTop s d) codes ≠ none
            then { r with topCardId := pushedTop s.seqDeckCard (deckTop s d) codes }
            else r)
          (fun r => by dsimp only; split_ifs <;> rfl)
        rw [this, hdk]
        simp [hdd, hn]
      · exact pushedDeckRows_linked d codes s.seqDeckCard (deckTop s d) rows (hdt ▸ hl)
  · rw [hcards, List.filter_append]
    have hall : (pushedDeckRows s.seqDeckCard d (deckTop s d) codes).filter
        (fun r => r.deckId = d) = pushedDeckRows s.seqDeckCard d (deckTop s d) codes :=
      List.filter_eq_self.2 (fun r hr => by simpa using (pushedDeckRows_mem r hr).2.2)
    rw [hall]
    exact ((List.reverse_perm _).append hat.perm).trans List.perm_append_comm

theorem length_flatMap_replicate (n : DeckEntryRow → Nat) (es : List DeckEntryRow) :
    (es.flatMap (fun e => List.replicate (n e) e.code)).length = (es.map n).sum := by
  induction es with
  | nil => rfl
  | cons a es ih => simp [ih]

theorem sum_map_filter_pos (es : List DeckEntryRow) :
    ((es.filter (fun e => decide (e.total - e.inDeck - e.inPile > 0))).map
      (fun e => (e.total - e.inDeck - e.inPile).toNat)).sum =
    (es.map (fun e => (e.total - e.inDeck - e.inPile).toNat)).sum := by
  induction es with
  | nil => rfl
  | cons a es ih =>
    by_cases h : a.total - a.inDeck - a.inPile > 0
    · simp only [List.filter_cons, h, decide_True, if_true, List.map_cons, List.sum_cons, ih]
    · have h0 : (a.total - a.inDeck - a.inPile).toNat = 0 := by omega
      simp only [List.filter_cons, h, decide_False, Bool.false_eq_true, if_false, ih,
        List.map_cons, List.sum_cons, h0, zero_add]

theorem drawnPushes_length (s : Store) (d : String) :
    (drawnPushes s d).length = outstandingUnits s d := by
  unfold drawnPushes outstandingUnits
  rw [length_flatMap_replicate (fun e => (e.total - e.inDeck - e.inPile).toNat),
    List.map_reverse, List.sum_reverse, sum_map_filter_pos]

theorem sum_count_codes (es : List DeckEntryRow) (hnd : (es.map (fun e => e.code)).Nodup) :
    ∀ (drawn : List String), (∀ c ∈ drawn, c ∈ es.map (fun e => e.code)) →
      (es.map (fun e => drawn.count e.code)).sum = drawn.length := by
  intro drawn
  induction drawn with
  | nil =>
    intro _
    simp
  | cons c cs ih =>
    intro hmem
    have hone : (es.map (fun e => if c = e.code then 1 else 0)).sum = 1 := by
      have hc := hmem c (List.mem_cons_self _ _)
      clear ih hmem
      induction es with
      | nil => simp at hc
      | cons a es ih2 =>
        simp only [List.map_cons, List.nodup_cons] at hnd
        simp only [List.map_cons, List.mem_cons] at hc
        by_cases hca : c = a.code
        · have hz : (es.map (fun e => if c = e.code then 1 else 0)).sum = 0 := by
            apply List.sum_eq_zero
            intro x hx
            obtain ⟨e, he, rfl⟩ := List.mem_map.1 hx
            have : c ≠ e.code := by
              intro h
              exact hnd.1 (hca ▸ h ▸ List.mem_map_of_mem (fun e => e.code) he)
            simp [this]
          simp only [List.map_cons, List.sum_cons, hca, if_true]
          rw [← hca, hz]
        · rcases hc with h | h
          · exact absurd h hca
          · simp [hca, ih2 hnd.2 h]
    have hsplit : (es.map (fun e => (c :: cs).count e.code)) =
        es.map (fun e => cs.count e.code + if c = e.code then 1 else 0) := by
      apply List.map_congr_left
      intro e _
      simp [List.count_cons]
    rw [hsplit, List.sum_map_add, ih (fun x hx => hmem x (List.mem_cons_of_mem _ hx)), hone]
    rfl

theorem returnAllDrawn_general {s : Store} {d : String} {rows : List DeckCardRow}
    (hat : DeckAt s d rows) (hseq : ∀ r ∈ s.deckCards, r.id ≤ s.seqDeckCard)
    (hone : (s.decks.map (fun r => r.deckId)).count d = 1) :
    ReturnAllDrawn s d = (returnDrawnStore s d, .ok ()) ∧
      DeckAt (returnDrawnStore s d) d
        ((pushedDeckRows s.seqDeckCard d (deckTop s d) (drawnPushes s d)).reverse ++ rows) ∧
      CardsInDeck (returnDrawnStore s d) d = CardsInDeck s d + outstandingUnits s d := by
  obtain ⟨dk, hdk, _⟩ := hat.deck
  have hok := returnAllDrawn_ok (deckExists_of_find hdk) (deckTop_fk hat)
  have hat' : DeckAt (returnDrawnStore s d) d
      ((pushedDeckRows s.seqDeckCard d (deckTop s d) (drawnPushes s d)).reverse ++ rows) :=
    pushed_deckAt (drawnPushes s d) hat hseq rfl rfl
  refine ⟨hok, hat', ?_⟩
  have hone' : ((returnDrawnStore s d).decks.map (fun r => r.deckId)).count d = 1 := by
    have : (returnDrawnStore s d).decks.map (fun r => r.deckId) =
        s.decks.map (fun r => r.deckId) := by
      show List.map _ (List.map _ s.decks) = _
      rw [List.map_map]
      apply List.map_congr_left
      intro r _
      simp only [Function.comp]
      split_ifs <;> rfl
    rw [this]
    exact hone
  rw [cardsInDeck_of_deckAt hat' hone', cardsInDeck_of_deckAt hat hone]
  have := congrArg List.length
    (pushedDeckRows_codes s.seqDeckCard d (deckTop s d) (drawnPushes s d))
  simp only [List.length_map] at this
  rw [List.length_append, List.length_reverse, this, drawnPushes_length]
  omega

/-- C13. On a deck whose well-formed list is `L`, in a table whose ids are below the id
sequence: `ReturnAllDrawn` succeeds, afterwards every ledger row of the deck has
`inDeck = total - inPile`, the deck list is `L` with as many cards in front as units were
outstanding, and `CardsInDeck` has grown by that number.  If moreover the ledger has one row
per code of `L` and nothing is outstanding, then for every `k` the calls `DrawCards(deck, k)`
and `ReturnAllDrawn(deck)` bring `CardsInDeck` back to `|L|` and every ledger row back to its
values before the draw. -/
theorem returnAllDrawn_restores (s : Store) (d : String) (L : List String)
    (hcids : (s.deckCards.map (fun r => r.id)).Nodup)
    (hseq : ∀ r ∈ s.deckCards, r.id ≤ s.seqDeckCard)
    (hone : (s.decks.map (fun r => r.deckId)).count d = 1)
    (hL : deckList s d = some L) :
    ((ReturnAllDrawn s d).2 = .ok () ∧
      (∀ e ∈ (ReturnAllDrawn s d).1.entries, e.deckId = d → e.inDeck = e.total - e.inPile) ∧
      (∃ X, deckList (ReturnAllDrawn s d).1 d = some (X ++ L) ∧
        X.length = outstandingUnits s d) ∧
      CardsInDeck (ReturnAllDrawn s d).1 d = CardsInDeck s d + outstandingUnits s d) ∧
    (∀ k : Int,
      (s.entries.map (fun e => (e.deckId, e.code))).Nodup →
      (∀ c ∈ L, ∃ e ∈ s.entries, e.deckId = d ∧ e.code = c) →
      (∀ e ∈ s.entries, e.deckId = d → e.total = e.inDeck + e.inPile) →
      (ReturnAllDrawn (DrawCards s d k).1 d).2 = .ok () ∧
        CardsInDeck (ReturnAllDrawn (DrawCards s d k).1 d).1 d = L.length ∧
        (ReturnAllDrawn (DrawCards s d k).1 d).1.entries = s.entries) := by
  obtain ⟨rows, hr, rfl⟩ := deckList_eq_some.1 hL
  have hat := (deckAt_iff hcids).1 hr
  constructor
  · obtain ⟨hok, hat', hcnt⟩ := returnAllDrawn_general hat hseq hone
    rw [hok]
    refine ⟨rfl, ?_, ?_, hcnt⟩
    · intro e' he' hd
      obtain ⟨e, _, rfl⟩ := List.mem_map.1 he'
      by_cases hk : e.deckId = d
      · simp [hk]
      · rw [if_neg hk] at hd
        exact absurd hd hk
    · refine ⟨((pushedDeckRows s.seqDeckCard d (deckTop s d) (drawnPushes s d)).reverse).map
        (fun r => r.code), ?_, ?_⟩
      · show deckList (returnDrawnStore s d) d = _
        rw [deckList_eq_some]
        exact ⟨_, (deckAt_iff hat'.ids).2 hat', by simp⟩
      · rw [List.length_map, List.length_reverse]
        have := congrArg List.length
          (pushedDeckRows_codes s.seqDeckCard d (deckTop s d) (drawnPushes s d))
        simp only [List.length_map] at this
        rw [this, drawnPushes_length]
  · intro k hkeys hent hout
    obtain ⟨s1, h1, hat1, hfr⟩ := drawCards_effect hat k
    rw [h1]
    dsimp only
    have hseq1 : ∀ r ∈ s1.deckCards, r.id ≤ s1.seqDeckCard := by
      intro r hr1
      have hm : r.id ∈ s.deckCards.map (fun r => r.id) :=
        hfr.cardIds.subset (List.mem_map_of_mem (fun r => r.id) hr1)
      obtain ⟨r0, hr0, hid⟩ := List.mem_map.1 hm
      rw [hfr.seqDeckCard, ← hid]
      exact hseq r0 hr0
    have hone1 : (s1.decks.map (fun r => r.deckId)).count d = 1 := by
      rw [hfr.deckIds]
      exact hone
    obtain ⟨hok, _, hcnt⟩ := returnAllDrawn_general hat1 hseq1 hone1
    rw [hok]
    dsimp only
    generalize hdr : (rows.take (min k.toNat rows.length)).map (fun r => r.code) = drawn
      at hfr
    have hdlen : drawn.length = min k.toNat rows.length := by
      rw [← hdr]
      simp
    have hdsub : ∀ c ∈ drawn, c ∈ rows.map (fun r => r.code) := by
      intro c hc
      rw [← hdr] at hc
      obtain ⟨r, hr', rfl⟩ := List.mem_map.1 hc
      exact List.mem_map_of_mem _ (List.mem_of_mem_take hr')
    refine ⟨rfl, ?_, ?_⟩
    · rw [hcnt, cardsInDeck_of_deckAt hat1 hone1]
      -- the units outstanding after the draw are the cards drawn
      have hou : outstandingUnits s1 d = drawn.length := by
        unfold outstandingUnits
        rw [hfr.entries]
        have hflt : (s.entries.map (fun e => if e.deckId = d
            then { e with inDeck := e.inDeck - drawn.count e.code } else e)).filter
            (fun e => e.deckId = d) =
            (s.entries.filter (fun e => e.deckId = d)).map
              (fun e => { e with inDeck := e.inDeck - drawn.count e.code }) := by
          generalize s.entries = es
          induction es with
          | nil => rfl
          | cons a es ih =>
            by_cases ha : a.deckId = d
            · simp [List.filter_cons, ha, ih]
            · simp [List.filter_cons, ha, ih]
        rw [hflt, List.map_map]
        have hval : List.map ((fun e : DeckEntryRow => (e.total - e.inDeck - e.inPile).toNat) ∘
            (fun e => { e with inDeck := e.inDeck - drawn.count e.code }))
            (s.entries.filter (fun e => e.deckId = d)) =
            (s.entries.filter (fun e => e.deckId = d)).map (fun e => drawn.count e.code) := by
          apply List.map_congr_left
          intro e he
          obtain ⟨hm, hd⟩ := List.mem_filter.1 he
          have := hout e hm (by simpa using hd)
          simp only [Function.comp]
          omega
        rw [hval]
        apply sum_count_codes
        · have h1 : ((s.entries.filter (fun e => e.deckId = d)).map
              (fun e => (e.deckId, e.code))).Nodup :=
            hkeys.sublist ((List.filter_sublist _).map _)
          refine List.Nodup.of_map (fun c => (d, c)) ?_
          rw [List.map_map]
          have h3 : List.map ((fun c => (d, c)) ∘ fun e : DeckEntryRow => e.code)
              (s.entries.filter (fun e => e.deckId = d)) =
              List.map (fun e : DeckEntryRow => (e.deckId, e.code))
                (s.entries.filter (fun e => e.deckId = d)) := by
            apply List.map_congr_left
            intro x hx
            have := (List.mem_filter.1 hx).2
            simp only [decide_eq_true_eq] at this
            simp [this]
          rw [h3]
          exact h1
        · intro c hc
          obtain ⟨e, he, hd, hcode⟩ := hent c (hdsub c hc)
          exact List.mem_map.2 ⟨e, List.mem_filter.2 ⟨he, by simpa using hd⟩, hcode⟩
      rw [hou, hdlen, List.length_drop, List.length_map]
      omega
    · show (s1.entries.map _) = s.entries
      rw [hfr.entries, List.map_map]
      conv_rhs => rw [← List.map_id s.entries]
      apply List.map_congr_left
      intro e he
      by_cases hd : e.deckId = d
      · have := hout e he hd
        cases e
        simp only at hd this
        subst hd
        simp
        omega
      · simp [hd]

theorem returnAllDrawn_restores_witness :
    ((ReturnAllDrawn drawWitnessStore "d").2 = .ok () ∧
      (∀ e ∈ (ReturnAllDrawn drawWitnessStore "d").1.entries,
        e.deckId = "d" → e.inDeck = e.total - e.inPile) ∧
      (∃ X, deckList (ReturnAllDrawn drawWitnessStore "d").1 "d" =
          some (X ++ ["AS", "KD", "AS"]) ∧
        X.length = outstandingUnits drawWitnessStore "d") ∧
      CardsInDeck (ReturnAllDrawn drawWitnessStore "d").1 "d" =
        CardsInDeck drawWitnessStore "d" + outstandingUnits drawWitnessStore "d") ∧
    ((ReturnAllDrawn (DrawCards drawWitnessStore "d" 2).1 "d").2 = .ok () ∧
      CardsInDeck (ReturnAllDrawn (DrawCards drawWitnessStore "d" 2).1 "d").1 "d" =
        (["AS", "KD", "AS"] : List String).length ∧
      (ReturnAllDrawn (DrawCards drawWitnessStore "d" 2).1 "d").1.entries =
        drawWitnessStore.entries) :=
  ⟨(returnAllDrawn_restores drawWitnessStore "d" ["AS", "KD", "AS"]
      (by decide) (by decide) (by decide) (by decide)).1,
    (returnAllDrawn_restores drawWitnessStore "d" ["AS", "KD", "AS"]
      (by decide) (by decide) (by decide) (by decide)).2 2
      (by decide) (by decide) (by decide)⟩

/-! ## Shuffling is a permutation -/

theorem perm_set_get {α : Type} :
    ∀ (l : List α) (n : Nat) (a b : α), l[n]? = some b → (a :: l).Perm (b :: l.set n a) := by
  intro l
  induction l with
  | nil =>
    intro n a b h
    simp at h
  | cons x l ih =>
    intro n a b h
    cases n with
    | zero =>
      simp only [List.getElem?_cons_zero, Option.some.injEq] at h
      subst h
      exact List.Perm.swap _ _ _
    | succ n =>
      simp only [List.getElem?_cons_succ] at h
      have h1 := ih n a b h
      simp only [List.set_cons_succ]
      exact ((List.Perm.swap x a l).trans (h1.cons x)).trans (List.Perm.swap b x _)

theorem swapAt_perm {α : Type} (xs : List α) (i j : Nat) : (swapAt xs i j).Perm xs := by
  unfold swapAt
  cases hi : xs[i]? with
  | none => exact List.Perm.refl _
  | some a =>
    cases hj : xs[j]? with
    | none => exact List.Perm.refl _
    | some b =>
      dsimp only
      have h1 := perm_set_get xs i b a hi
      have hj' : (xs.set i b)[j]? = some b := by
        rw [List.getElem?_set]
        by_cases hij : i = j
        · have hlt : i < xs.length := by
            by_contra hge
            rw [List.getElem?_eq_none (by omega)] at hi
            cases hi
          rw [if_pos hij, if_pos hlt]
        · rw [if_neg hij, hj]
      have h2 := perm_set_get (xs.set i b) j a b hj'
      exact ((h1.trans h2).cons_inv).symm

theorem shuffleFrom_perm {α : Type} (rnd : Nat → Nat) :
    ∀ (n : Nat) (xs : List α), (shuffleFrom rnd n xs).Perm xs := by
  intro n
  induction n with
  | zero =>
    intro xs
    exact List.Perm.refl _
  | succ n ih =>
    intro xs
    exact (ih _).trans (swapAt_perm xs _ _)

theorem shuffle_perm {α : Type} (rnd : Nat → Nat) (xs : List α) :
    (shuffle rnd xs).Perm xs :=
  shuffleFrom_perm rnd _ xs

/-! ## Rewriting the links of a list of rows -/

theorem nextIn_not_mem : ∀ (ids : List Nat) (i : Nat), i ∉ ids → nextIn ids i = none := by
  intro ids
  induction ids with
  | nil => intro i _; rfl
  | cons a rest ih =>
    intro i hi
    cases rest with
    | nil => rfl
    | cons b rest =>
      simp only [List.mem_cons, not_or] at hi
      simp only [nextIn, hi.1, if_false]
      exact ih i (by simp [hi.2.1, hi.2.2])

theorem nextIn_cons_ne (a : Nat) (rest : List Nat) {i : Nat} (h : i ≠ a) :
    nextIn (a :: rest) i = nextIn rest i := by
  cases rest with
  | nil => rfl
  | cons b rest => simp [nextIn, h]

theorem nextIn_head (a : Nat) (rest : List Nat) : nextIn (a :: rest) a = rest.head? := by
  cases rest with
  | nil => rfl
  | cons b rest => simp [nextIn]

theorem nextIn_getLast : ∀ (ids : List Nat), ids.Nodup → ∀ i, ids.getLast? = some i →
    nextIn ids i = none := by
  intro ids
  induction ids with
  | nil => intro _ i h; simp at h
  | cons a rest ih =>
    intro hnd i h
    cases rest with
    | nil => rfl
    | cons b rest =>
      simp only [List.nodup_cons] at hnd
      have hl : (b :: rest).getLast? = some i := by
        simpa [List.getLast?_cons_cons] using h
      have hmem : i ∈ b :: rest := List.mem_of_getLast?_eq_some hl
      have hne : i ≠ a := fun h' => hnd.1 (h' ▸ hmem)
      rw [nextIn_cons_ne a _ hne]
      exact ih (List.nodup_cons.2 hnd.2) i hl

section Relink

variable {α : Type} {key : α → Nat} {nxt : α → Option Nat} {setNxt : α → Option Nat → α}

theorem linkRows_eq (hk : ∀ a v, key (setNxt a v) = key a) :
    ∀ (ids : List Nat), ids.Nodup → ∀ (tbl : List α),
      linkRows key setNxt tbl ids =
        tbl.map (fun r =>
          if key r ∈ ids.dropLast then setNxt r (nextIn ids (key r)) else r) := by
  intro ids
  induction ids with
  | nil =>
    intro _ tbl
    simp [linkRows]
  | cons i rest ih =>
    intro hnd tbl
    cases rest with
    | nil => simp [linkRows]
    | cons j rest =>
      simp only [List.nodup_cons] at hnd
      have hnd' : (j :: rest).Nodup := List.nodup_cons.2 hnd.2
      simp only [linkRows]
      rw [ih hnd', List.map_map]
      apply List.map_congr_left
      intro r _
      simp only [Function.comp, List.dropLast_cons₂, List.mem_cons]
      by_cases hri : key r = i
      · have hni : i ∉ (j :: rest).dropLast :=
          fun h => hnd.1 (List.dropLast_subset _ h)
        simp [hri, hk, hni, nextIn]
      · have : nextIn (i :: j :: rest) (key r) = nextIn (j :: rest) (key r) :=
          nextIn_cons_ne i _ hri
        simp [hri, this]

theorem relinked_linked (hk : ∀ a v, key (setNxt a v) = key a)
    (hn : ∀ a v, nxt (setNxt a v) = v) :
    ∀ (cards : List α), (cards.map key).Nodup →
      Linked key nxt ((cards.head?).map key)
        (cards.map (fun r => setNxt r (nextIn (cards.map key) (key r)))) := by
  intro cards
  induction cards with
  | nil =>
    intro _
    rfl
  | cons a rest ih =>
    intro hnd
    simp only [List.map_cons, List.nodup_cons] at hnd
    refine ⟨by simp [hk], ?_⟩
    have h1 : nxt (setNxt a (nextIn (key a :: rest.map key) (key a))) =
        (rest.head?).map key := by
      rw [hn, nextIn_head]
      cases rest <;> rfl
    have h2 : rest.map (fun r => setNxt r (nextIn ((a :: rest).map key) (key r))) =
        rest.map (fun r => setNxt r (nextIn (rest.map key) (key r))) := by
      apply List.map_congr_left
      intro r hr
      have hne : key r ≠ key a := fun h => hnd.1 (h ▸ List.mem_map_of_mem key hr)
      simp only [List.map_cons]
      rw [nextIn_cons_ne _ _ hne]
    show Linked key nxt (nxt (setNxt a _)) (List.map _ rest)
    rw [h2]
    have h3 : nxt (setNxt a (nextIn (List.map key (a :: rest)) (key a))) =
        (rest.head?).map key := h1
    rw [h3]
    exact ih hnd.2

end Relink

/-! ## ShuffleDeck -/

theorem deckCardExists_map {s : Store} (g : DeckCardRow → DeckCardRow)
    (hg : ∀ r, (g r).id = r.id) (i : Nat) :
    ({ s with deckCards := s.deckCards.map g } : Store).deckCardExists i =
      s.deckCardExists i := by
  simp only [Store.deckCardExists, List.any_map]
  congr 1
  funext r
  simp [hg]

theorem linkRows_ids {α : Type} (key : α → Nat) (setNxt : α → Option Nat → α)
    (hk : ∀ a v, key (setNxt a v) = key a) :
    ∀ (ids : List Nat) (tbl : List α), (linkRows key setNxt tbl ids).map key = tbl.map key := by
  intro ids
  induction ids with
  | nil => intro tbl; rfl
  | cons i rest ih =>
    intro tbl
    cases rest with
    | nil => rfl
    | cons j rest =>
      simp only [linkRows]
      rw [ih, List.map_map]
      apply List.map_congr_left
      intro r _
      simp only [Function.comp]
      split_ifs
      · exact hk r _
      · rfl

theorem linkCards_eq :
    ∀ (ids : List Nat) (s : Store), (∀ i ∈ ids, s.deckCardExists i = true) →
      linkCards s ids =
        .ok { s with deckCards :=
          (linkRows (fun r : DeckCardRow => r.id) (fun r v => { r with nextId := v })
            s.deckCards ids) } := by
  intro ids
  induction ids with
  | nil =>
    intro s _
    rfl
  | cons i rest ih =>
    intro s hex
    cases rest with
    | nil => rfl
    | cons j rest =>
      have hj : s.deckCardExists j = true :=
        hex j (List.mem_cons_of_mem _ (List.mem_cons_self _ _))
      have h1 : setDeckCardNext s i (some j) =
          .ok { s with deckCards :=
            (s.deckCards.map (fun r => if r.id = i then { r with nextId := some j } else r)) } := by
        unfold setDeckCardNext
        have : s.fkDeckCard (some j) = true := hj
        rw [this]
        simp
      simp only [linkCards, h1]
      rw [ih]
      · rfl
      · intro k hk
        rw [deckCardExists_map _ (fun r => by split_ifs <;> rfl)]
        exact hex k (List.mem_cons_of_mem _ hk)

theorem relink_table {ids : List Nat} (hnd : ids.Nodup) {l : Nat}
    (hl : ids.getLast? = some l) (tbl : List DeckCardRow) :
    (linkRows (fun r : DeckCardRow => r.id) (fun r v => { r with nextId := v }) tbl ids).map
        (fun r => if r.id = l then { r with nextId := none } else r) =
      tbl.map (fun r => if r.id ∈ ids then { r with nextId := nextIn ids r.id } else r) := by
  have hsplit : ids.dropLast ++ [l] = ids := List.dropLast_append_getLast? l hl
  have hnl : l ∉ ids.dropLast := by
    intro h
    rw [← hsplit, List.nodup_append] at hnd
    exact hnd.2.2 h (List.mem_singleton_self l)
  rw [@linkRows_eq DeckCardRow (fun r => r.id) (fun r v => { r with nextId := v })
    (fun _ _ => rfl) ids hnd, List.map_map]
  apply List.map_congr_left
  intro r _
  simp only [Function.comp]
  by_cases h1 : r.id ∈ ids.dropLast
  · have hne : r.id ≠ l := fun h => hnl (h ▸ h1)
    have hin : r.id ∈ ids := List.dropLast_subset _ h1
    rw [if_pos h1, if_pos hin, if_neg (by exact hne)]
  · by_cases h2 : r.id = l
    · have hin : r.id ∈ ids := by
        rw [← hsplit, h2]
        simp
      have hz : nextIn ids r.id = none := by
        rw [h2]
        exact nextIn_getLast ids hnd l hl
      rw [if_neg h1, if_pos h2, if_pos hin, hz]
    · have hin : r.id ∉ ids := by
        rw [← hsplit]
        simp [h1, h2]
      rw [if_neg h1, if_neg h2, if_neg hin]

theorem shuffleDeck_ok {s : Store} {d : String} {rows : List DeckCardRow}
    (hat : DeckAt s d rows) (hne : rows ≠ []) (rnd : Nat → Nat) :
    ShuffleDeck s d rnd =
      (shuffledStore s d (shuffle rnd (s.deckCards.filter (fun r => r.deckId = d))),
        .ok ((shuffle rnd (s.deckCards.filter (fun r => r.deckId = d))).map
          (fun r => r.code))) := by
  obtain ⟨dk, hdk, _⟩ := hat.deck
  have hperm := shuffle_perm rnd (s.deckCards.filter (fun r => r.deckId = d))
  generalize hc : shuffle rnd (s.deckCards.filter (fun r => r.deckId = d)) = cards at hperm
  have hmem : ∀ c ∈ cards, c ∈ s.deckCards := fun c hcm =>
    (List.mem_filter.1 (hperm.subset hcm)).1
  have hcne : cards ≠ [] := by
    intro h
    rw [h] at hperm
    have h0 := (hat.perm.trans hperm.symm).length_eq
    simp only [List.length_nil] at h0
    exact hne (List.length_eq_zero.1 h0)
  have hids : (cards.map (fun c => c.id)).Nodup :=
    (hperm.map (fun c : DeckCardRow => c.id)).nodup_iff.2
      (hat.ids.sublist ((List.filter_sublist _).map _))
  obtain ⟨last, hlast⟩ : ∃ last, cards.getLast? = some last := by
    cases h : cards.getLast? with
    | none => exact absurd (List.getLast?_eq_none_iff.1 h) hcne
    | some l => exact ⟨l, rfl⟩
  have hdecks : ¬ (s.decks.filter (fun r => r.deckId = d)).length = 0 := by
    intro h
    have hm : dk ∈ s.decks.filter (fun r => r.deckId = d) :=
      List.mem_filter.2 ⟨List.mem_of_find?_eq_some hdk, by simpa using List.find?_some hdk⟩
    rw [List.length_eq_zero.1 h] at hm
    cases hm
  unfold ShuffleDeck
  rw [if_neg hdecks]
  dsimp only
  rw [hc, hlast]
  dsimp only
  rw [linkCards_eq _ s (by
    intro i hi
    obtain ⟨c, hcm, rfl⟩ := List.mem_map.1 hi
    exact deckCardExists_of_mem (hmem c hcm))]
  dsimp only
  have h2 : ∀ (t : Store), setDeckCardNext t last.id none =
      .ok { t with deckCards :=
        (t.deckCards.map (fun r => if r.id = last.id then { r with nextId := none } else r)) } := by
    intro t
    unfold setDeckCardNext
    simp [Store.fkDeckCard]
  rw [h2]
  dsimp only
  have hlast' : (cards.map (fun c => c.id)).getLast? = some last.id := by
    rw [List.getLast?_map, hlast]
    rfl
  rw [relink_table hids hlast']
  have h3 : ∀ (t : Store), (∀ c ∈ cards, t.deckCardExists c.id = true) →
      setTopCardShuffled t d ((cards.head?).map (fun r => r.id)) =
      .ok { t with decks := (t.decks.map (fun r =>
        if r.deckId = d
        then { r with topCardId := (cards.head?).map (fun r => r.id), shuffled := true }
        else r)) } := by
    intro t ht
    unfold setTopCardShuffled
    have : t.fkDeckCard ((cards.head?).map (fun r => r.id)) = true := by
      cases hh : cards.head? with
      | none => rfl
      | some c0 => exact ht c0 (List.mem_of_mem_head? hh)
    rw [this]
    simp
  rw [h3 _ (by
    intro c hcm
    rw [deckCardExists_map _ (fun r => by split_ifs <;> rfl)]
    exact deckCardExists_of_mem (hmem c hcm))]
  rfl

theorem shuffledStore_deckAt {s : Store} {d : String} {rows : List DeckCardRow}
    (hat : DeckAt s d rows) {cards : List DeckCardRow}
    (hperm : cards.Perm (s.deckCards.filter (fun r => r.deckId = d))) :
    DeckAt (shuffledStore s d cards) d
      (cards.map (fun r => { r with nextId := nextIn (cards.map (fun c => c.id)) r.id })) := by
  obtain ⟨dk, hdk, _⟩ := hat.deck
  have hdd : dk.deckId = d := by simpa using List.find?_some hdk
  have hids : (cards.map (fun c => c.id)).Nodup :=
    (hperm.map (fun c : DeckCardRow => c.id)).nodup_iff.2
      (hat.ids.sublist ((List.filter_sublist _).map _))
  refine ⟨?_, ?_, ?_⟩
  · have : (shuffledStore s d cards).deckCards.map (fun r => r.id) =
        s.deckCards.map (fun r => r.id) := by
      show List.map _ (List.map _ s.deckCards) = _
      rw [List.map_map]
      apply List.map_congr_left
      intro r _
      simp only [Function.comp]
      split_ifs <;> rfl
    rw [this]
    exact hat.ids
  · refine ⟨{ dk with topCardId := (cards.head?).map (fun c => c.id), shuffled := true },
      ?_, ?_⟩
    · have := findDeck_map (s := s) (d := d) (fun r =>
          if r.deckId = d
          then { r with topCardId := (cards.head?).map (fun c => c.id), shuffled := true }
          else r)
        (fun r => by dsimp only; split_ifs <;> rfl)
      show (List.map _ s.decks).find? (fun r : DeckRow => r.deckId = d) = _
      rw [this, hdk]
      simp [hdd]
    · exact @relinked_linked DeckCardRow (fun r => r.id) (fun r => r.nextId)
        (fun r v => { r with nextId := v }) (fun _ _ => rfl) (fun _ _ => rfl) cards hids
  · show (List.map _ cards).Perm (List.filter _ (List.map _ s.deckCards))
    rw [List.filter_map]
    have hf : (s.deckCards.filter ((fun r : DeckCardRow => decide (r.deckId = d)) ∘
        (fun r => if r.id ∈ cards.map (fun c => c.id)
          then { r with nextId := nextIn (cards.map (fun c => c.id)) r.id } else r))) =
        s.deckCards.filter (fun r => r.deckId = d) := by
      apply List.filter_congr
      intro r _
      simp only [Function.comp]
      split_ifs <;> rfl
    rw [hf]
    have hm : cards.map (fun r => { r with nextId := nextIn (cards.map (fun c => c.id)) r.id }) =
        cards.map (fun r => if r.id ∈ cards.map (fun c => c.id)
          then { r with nextId := nextIn (cards.map (fun c => c.id)) r.id } else r) := by
      apply List.map_congr_left
      intro r hr
      rw [if_pos (List.mem_map_of_mem (fun c => c.id) hr)]
    rw [hm]
    exact hperm.map _

/-- C14. In a table with unique ids: on a deck id that is no deck `ShuffleDeck` returns the
deck-not-found error and changes nothing; on a deck whose well-formed list read head to tail
is `L` it returns a permutation `R` of `L` of the same length, the deck list read from
`topCardId` afterwards is exactly `R`, the ledger is unchanged, for non-empty `L` the
`shuffled` flag of the deck is set, and for empty `L` the result is empty and the store is
unchanged. -/
theorem shuffleDeck_permutes (s : Store) (d : String) (rnd : Nat → Nat)
    (hcids : (s.deckCards.map (fun r => r.id)).Nodup) :
    (findDeck s d = none → ShuffleDeck s d rnd = (s, .error .deckNotFound)) ∧
    (∀ L, deckList s d = some L →
      ∃ R, (ShuffleDeck s d rnd).2 = .ok R ∧ R.Perm L ∧ R.length = L.length ∧
        deckList (ShuffleDeck s d rnd).1 d = some R ∧
        (ShuffleDeck s d rnd).1.entries = s.entries ∧
        (L ≠ [] →
          (findDeck (ShuffleDeck s d rnd).1 d).map (fun r => r.shuffled) = some true) ∧
        (L = [] → R = [] ∧ (ShuffleDeck s d rnd).1 = s)) := by
  constructor
  · intro hnone
    have h0 : (s.decks.filter (fun r => r.deckId = d)).length = 0 := by
      rw [List.length_eq_zero, List.filter_eq_nil_iff]
      intro r hr
      have := List.find?_eq_none.1 hnone r hr
      simpa using this
    unfold ShuffleDeck
    rw [if_pos h0]
  · intro L hL
    obtain ⟨rows, hr, rfl⟩ := deckList_eq_some.1 hL
    have hat := (deckAt_iff hcids).1 hr
    by_cases hne : rows = []
    · subst hne
      have hflt : s.deckCards.filter (fun r => r.deckId = d) = [] :=
        List.Perm.eq_nil (hat.perm.symm)
      obtain ⟨dk, hdk, _⟩ := hat.deck
      have hdecks : ¬ (s.decks.filter (fun r => r.deckId = d)).length = 0 := by
        intro h
        have hm : dk ∈ s.decks.filter (fun r => r.deckId = d) :=
          List.mem_filter.2
            ⟨List.mem_of_find?_eq_some hdk, by simpa using List.find?_some hdk⟩
        rw [List.length_eq_zero.1 h] at hm
        cases hm
      have hres : ShuffleDeck s d rnd = (s, .ok []) := by
        unfold ShuffleDeck
        rw [if_neg hdecks, hflt]
        rfl
      rw [hres]
      exact ⟨[], rfl, List.Perm.refl _, rfl, hL, rfl, fun h => absurd rfl h,
        fun _ => ⟨rfl, rfl⟩⟩
    · have hperm := shuffle_perm rnd (s.deckCards.filter (fun r => r.deckId = d))
      have hat' := shuffledStore_deckAt hat hperm
      rw [shuffleDeck_ok hat hne rnd]
      refine ⟨_, rfl, ?_, ?_, ?_, rfl, ?_, ?_⟩
      · exact ((hperm.trans hat.perm.symm).map (fun r => r.code))
      · simp only [List.length_map]
        exact (hperm.trans hat.perm.symm).length_eq
      · show deckList (shuffledStore s d _) d = _
        rw [deckList_eq_some]
        refine ⟨_, (deckAt_iff hat'.ids).2 hat', ?_⟩
        rw [List.map_map]
        rfl
      · intro _
        obtain ⟨dk, hdk, _⟩ := hat.deck
        have hdd : dk.deckId = d := by simpa using List.find?_some hdk
        have := findDeck_map (s := s) (d := d) (fun r =>
            if r.deckId = d
            then { r with
              topCardId := ((shuffle rnd (s.deckCards.filter
                (fun r => r.deckId = d))).head?).map (fun c => c.id),
              shuffled := true }
            else r)
          (fun r => by dsimp only; split_ifs <;> rfl)
        show ((List.map _ s.decks).find? (fun r : DeckRow => r.deckId = d)).map _ = _
        rw [this, hdk]
        simp [hdd]
      · intro h
        simp only [List.map_eq_nil_iff] at h
        exact absurd h hne

theorem shuffleDeck_permutes_witness :
    (findDeck drawWitnessStore "d" = none →
      ShuffleDeck drawWitnessStore "d" (fun i => i + 1) =
        (drawWitnessStore, .error .deckNotFound)) ∧
    (∀ L, deckList drawWitnessStore "d" = some L →
      ∃ R, (ShuffleDeck drawWitnessStore "d" (fun i => i + 1)).2 = .ok R ∧ R.Perm L ∧
        R.length = L.length ∧
        deckList (ShuffleDeck drawWitnessStore "d" (fun i => i + 1)).1 "d" = some R ∧
        (ShuffleDeck drawWitnessStore "d" (fun i => i + 1)).1.entries =
          drawWitnessStore.entries ∧
        (L ≠ [] →
          (findDeck (ShuffleDeck drawWitnessStore "d" (fun i => i + 1)).1 "d").map
            (fun r => r.shuffled) = some true) ∧
        (L = [] → R = [] ∧
          (ShuffleDeck drawWitnessStore "d" (fun i => i + 1)).1 = drawWitnessStore)) :=
  shuffleDeck_permutes drawWitnessStore "d" (fun i => i + 1) (by decide)

/-! ## ShuffleAllPiles -/

theorem swapAt_map {α β : Type} (f : α → β) (xs : List α) (i j : Nat) :
    swapAt (xs.map f) i j = (swapAt xs i j).map f := by
  unfold swapAt
  simp only [List.getElem?_map]
  cases xs[i]? with
  | none => rfl
  | some a =>
    cases xs[j]? with
    | none => rfl
    | some b => simp [List.map_set]

theorem shuffleFrom_map {α β : Type} (f : α → β) (rnd : Nat → Nat) :
    ∀ (n : Nat) (xs : List α), shuffleFrom rnd n (xs.map f) = (shuffleFrom rnd n xs).map f := by
  intro n
  induction n with
  | zero => intro xs; rfl
  | succ n ih =>
    intro xs
    simp only [shuffleFrom]
    rw [swapAt_map, ih]

theorem shuffle_map {α β : Type} (f : α → β) (rnd : Nat → Nat) (xs : List α) :
    shuffle rnd (xs.map f) = (shuffle rnd xs).map f := by
  unfold shuffle
  rw [List.length_map, shuffleFrom_map]

theorem pileCardExists_map {s : Store} (g : PileCardRow → PileCardRow)
    (hg : ∀ r, (g r).id = r.id) (i : Nat) :
    ({ s with pileCards := s.pileCards.map g } : Store).pileCardExists i =
      s.pileCardExists i := by
  simp only [Store.pileCardExists, List.any_map]
  congr 1
  funext r
  simp [hg]

theorem linkPileCards_eq :
    ∀ (ids : List Nat) (s : Store), (∀ i ∈ ids, s.pileCardExists i = true) →
      linkPileCards s ids =
        .ok { s with pileCards :=
          (linkRows (fun r : PileCardRow => r.id) (fun r v => { r with nextCardId := v })
            s.pileCards ids) } := by
  intro ids
  induction ids with
  | nil =>
    intro s _
    rfl
  | cons i rest ih =>
    intro s hex
    cases rest with
    | nil => rfl
    | cons j rest =>
      have hj : s.pileCardExists j = true :=
        hex j (List.mem_cons_of_mem _ (List.mem_cons_self _ _))
      have h1 : setPileCardNext s i (some j) =
          .ok { s with pileCards :=
            (s.pileCards.map (fun r =>
              if r.id = i then { r with nextCardId := some j } else r)) } := by
        unfold setPileCardNext
        have : s.fkPileCard (some j) = true := hj
        rw [this]
        simp
      simp only [linkPileCards, h1]
      rw [ih]
      · rfl
      · intro k hk
        rw [pileCardExists_map _ (fun r => by split_ifs <;> rfl)]
        exact hex k (List.mem_cons_of_mem _ hk)

theorem shuffledPileRows_perm (rnd : Nat → Nat) (s : Store) (p : Nat) :
    (shuffledPileRows rnd s p).Perm (s.pileCards.filter (fun c => c.pileId = p)) :=
  (shuffle_perm rnd _).trans (List.perm_insertionSort _ _)

theorem SamePiles.piles_refl (s : Store) : SamePiles s s := ⟨rfl, rfl, rfl, rfl, rfl⟩

theorem SamePiles.piles_trans {a b c : Store} (h1 : SamePiles a b) (h2 : SamePiles b c) :
    SamePiles a c :=
  ⟨h2.rows.trans h1.rows, h2.piles.trans h1.piles, h2.entries.trans h1.entries,
    h2.decks.trans h1.decks, h2.deckCards.trans h1.deckCards⟩

theorem SamePiles.piles_ids {s s' : Store} (h : SamePiles s s') :
    s'.pileCards.map (fun r => r.id) = s.pileCards.map (fun r => r.id) := by
  have := congrArg (List.map (fun k : Nat × Nat × String => k.1)) h.rows
  simpa [List.map_map, Function.comp] using this

theorem SamePiles.piles_codes {s s' : Store} (h : SamePiles s s') (q : Nat) :
    (s'.pileCards.filter (fun r => r.pileId = q)).map (fun r => r.code) =
      (s.pileCards.filter (fun r => r.pileId = q)).map (fun r => r.code) := by
  have key : ∀ (T : List PileCardRow),
      (T.filter (fun r => r.pileId = q)).map (fun r => r.code) =
        ((T.map (fun r => (r.id, r.pileId, r.code))).filter
          (fun k : Nat × Nat × String => decide (k.2.1 = q))).map (fun k => k.2.2) := by
    intro T
    rw [List.filter_map, List.map_map]
    rfl
  rw [key, key, h.rows]

theorem shuffleStep_same (rnd : Nat → Nat → Nat) (s : Store) (p : PileRow) :
    SamePiles s (shuffleStep rnd s p) := by
  refine ⟨?_, rfl, rfl, rfl, rfl⟩
  show List.map _ (List.map _ s.pileCards) = _
  rw [List.map_map]
  apply List.map_congr_left
  intro r _
  simp only [Function.comp]
  split_ifs <;> rfl

theorem filter_map_of_fix {α : Type} (g : α → α) (P : α → Bool) (T : List α)
    (hP : ∀ a ∈ T, P (g a) = P a) (hfix : ∀ a ∈ T, P a = true → g a = a) :
    (T.map g).filter P = T.filter P := by
  induction T with
  | nil => rfl
  | cons a T ih =>
    have ih' := ih (fun x hx => hP x (List.mem_cons_of_mem _ hx))
      (fun x hx => hfix x (List.mem_cons_of_mem _ hx))
    simp only [List.map_cons, List.filter_cons, hP a (List.mem_cons_self _ _), ih']
    cases h : P a with
    | false => rfl
    | true => simp [hfix a (List.mem_cons_self _ _) h]

theorem shuffleStep_other (rnd : Nat → Nat → Nat) (s : Store) (p : PileRow) {q : Nat}
    (hq : p.id ≠ q) :
    (shuffleStep rnd s p).pileCards.filter (fun r => r.pileId = q) =
      s.pileCards.filter (fun r => r.pileId = q) := by
  show List.filter _ (List.map _ s.pileCards) = _
  apply filter_map_of_fix
  · intro a _
    split_ifs <;> rfl
  · intro a _ ha
    simp only [decide_eq_true_eq] at ha
    rw [if_neg (fun h => hq (h.symm.trans ha))]

theorem shuffledPileRows_ids (rnd : Nat → Nat) {s : Store}
    (hids : (s.pileCards.map (fun c => c.id)).Nodup) (p : Nat) :
    ((shuffledPileRows rnd s p).map (fun c => c.id)).Nodup :=
  ((shuffledPileRows_perm rnd s p).map (fun c : PileCardRow => c.id)).nodup_iff.2
    (hids.sublist ((List.filter_sublist _).map _))

theorem shuffledPileRows_mem (rnd : Nat → Nat) {s : Store}
    (hids : (s.pileCards.map (fun c => c.id)).Nodup) (p : Nat) {r : PileCardRow}
    (hr : r ∈ s.pileCards) :
    r.id ∈ (shuffledPileRows rnd s p).map (fun c => c.id) ↔ r.pileId = p := by
  constructor
  · intro h
    obtain ⟨c, hc, hid⟩ := List.mem_map.1 h
    have hc' := List.mem_filter.1 ((shuffledPileRows_perm rnd s p).subset hc)
    have : c = r := eq_of_key hids hc'.1 hr hid
    rw [← this]
    simpa using hc'.2
  · intro h
    exact List.mem_map_of_mem (fun c => c.id)
      ((shuffledPileRows_perm rnd s p).symm.subset (List.mem_filter.2 ⟨hr, by simpa using h⟩))

theorem shuffle_link_eq (rnd : Nat → Nat → Nat) {s : Store}
    (hids : (s.pileCards.map (fun c => c.id)).Nodup) (p : PileRow) :
    linkPileCards (clearPileLinks s p.id)
        (shuffle (rnd p.id) (((s.pileCards.filter (fun c => c.pileId = p.id)).insertionSort
          (fun a b => a.id ≤ b.id)).map (fun c => c.id))) =
      .ok (shuffleStep rnd s p) := by
  rw [shuffle_map]
  have hcards : shuffle (rnd p.id) ((s.pileCards.filter (fun c => c.pileId = p.id)).insertionSort
      (fun a b => a.id ≤ b.id)) = shuffledPileRows (rnd p.id) s p.id := rfl
  rw [hcards]
  have hnd := shuffledPileRows_ids (rnd p.id) hids p.id
  rw [linkPileCards_eq _ _ (by
    intro i hi
    obtain ⟨c, hc, rfl⟩ := List.mem_map.1 hi
    have hc' := (List.mem_filter.1 ((shuffledPileRows_perm (rnd p.id) s p.id).subset hc)).1
    show (clearPileLinks s p.id).pileCards.any (fun r => r.id = c.id) = true
    rw [List.any_eq_true]
    refine ⟨_, List.mem_map_of_mem _ hc', ?_⟩
    split_ifs <;> simp)]
  rw [@linkRows_eq PileCardRow (fun r => r.id) (fun r v => { r with nextCardId := v })
    (fun _ _ => rfl) _ hnd]
  unfold shuffleStep clearPileLinks
  simp only [List.map_map]
  congr 2
  apply List.map_congr_left
  intro r hr
  simp only [Function.comp]
  generalize hI : (shuffledPileRows (rnd p.id) s p.id).map (fun c => c.id) = ids at hnd
  have hmem : r.id ∈ ids ↔ r.pileId = p.id := by
    rw [← hI]
    exact shuffledPileRows_mem (rnd p.id) hids p.id hr
  by_cases hp : r.pileId = p.id
  · rw [if_pos hp, if_pos hp]
    have hin : r.id ∈ ids := hmem.2 hp
    by_cases hd : r.id ∈ ids.dropLast
    · rw [if_pos hd]
    · rw [if_neg hd]
      have hlast : ids.getLast? = some r.id := by
        cases hl : ids.getLast? with
        | none =>
          rw [List.getLast?_eq_none_iff] at hl
          rw [hl] at hin
          cases hin
        | some l =>
          have hsplit : ids.dropLast ++ [l] = ids := List.dropLast_append_getLast? l hl
          rw [← hsplit, List.mem_append, List.mem_singleton] at hin
          rcases hin with h | h
          · exact absurd h hd
          · rw [h]
      rw [nextIn_getLast ids hnd r.id hlast]
  · rw [if_neg hp, if_neg hp]
    have hout : r.id ∉ ids := fun h => hp (hmem.1 h)
    rw [if_neg (fun h => hout (List.dropLast_subset _ h))]

theorem shuffleStep_empty (rnd : Nat → Nat → Nat) (s : Store) (p : PileRow)
    (h : s.pileCards.filter (fun c => c.pileId = p.id) = []) : shuffleStep rnd s p = s := by
  unfold shuffleStep
  have : s.pileCards.map (fun r =>
      if r.pileId = p.id
      then { r with nextCardId :=
        (nextIn ((shuffledPileRows (rnd p.id) s p.id).map (fun c => c.id)) r.id) }
      else r) = s.pileCards := by
    conv_rhs => rw [← List.map_id s.pileCards]
    apply List.map_congr_left
    intro r hr
    have hne : ¬ r.pileId = p.id := by
      intro hp
      have : r ∈ s.pileCards.filter (fun c => c.pileId = p.id) :=
        List.mem_filter.2 ⟨hr, by simpa using hp⟩
      rw [h] at this
      cases this
    rw [if_neg hne]
    rfl
  rw [this]

theorem shuffleStep_linked (rnd : Nat → Nat → Nat) {s : Store}
    (hids : (s.pileCards.map (fun c => c.id)).Nodup) (p : PileRow) :
    ∃ top rows, Linked (fun c : PileCardRow => c.id) (fun c => c.nextCardId) top rows ∧
      rows.Perm ((shuffleStep rnd s p).pileCards.filter (fun c => c.pileId = p.id)) := by
  have hnd := shuffledPileRows_ids (rnd p.id) hids p.id
  refine ⟨_, _, @relinked_linked PileCardRow (fun r => r.id) (fun r => r.nextCardId)
    (fun r v => { r with nextCardId := v }) (fun _ _ => rfl) (fun _ _ => rfl)
    (shuffledPileRows (rnd p.id) s p.id) hnd, ?_⟩
  show (List.map _ _).Perm (List.filter _ (List.map _ s.pileCards))
  rw [List.filter_map]
  have hf : (s.pileCards.filter ((fun c : PileCardRow => decide (c.pileId = p.id)) ∘
      (fun r => if r.pileId = p.id
        then { r with nextCardId :=
          (nextIn ((shuffledPileRows (rnd p.id) s p.id).map (fun c => c.id)) r.id) }
        else r))) = s.pileCards.filter (fun c => c.pileId = p.id) := by
    apply List.filter_congr
    intro r _
    simp only [Function.comp]
    split_ifs <;> rfl
  rw [hf]
  have hm : (shuffledPileRows (rnd p.id) s p.id).map (fun r => { r with nextCardId :=
        (nextIn ((shuffledPileRows (rnd p.id) s p.id).map (fun c => c.id)) r.id) }) =
      (shuffledPileRows (rnd p.id) s p.id).map (fun r => if r.pileId = p.id
        then { r with nextCardId :=
          (nextIn ((shuffledPileRows (rnd p.id) s p.id).map (fun c => c.id)) r.id) }
        else r) := by
    apply List.map_congr_left
    intro r hr
    have := (List.mem_filter.1 ((shuffledPileRows_perm (rnd p.id) s p.id).subset hr)).2
    simp only [decide_eq_true_eq] at this
    rw [if_pos this]
  rw [hm]
  exact (shuffledPileRows_perm (rnd p.id) s p.id).map _

theorem foldl_shuffleStep_same (rnd : Nat → Nat → Nat) :
    ∀ (ps : List PileRow) (s : Store), SamePiles s (ps.foldl (shuffleStep rnd) s) := by
  intro ps
  induction ps with
  | nil => intro s; exact SamePiles.piles_refl s
  | cons p ps ih =>
    intro s
    exact (shuffleStep_same rnd s p).piles_trans (ih _)

theorem foldl_shuffleStep_other (rnd : Nat → Nat → Nat) (q : Nat) :
    ∀ (ps : List PileRow) (s : Store), (∀ p ∈ ps, p.id ≠ q) →
      (ps.foldl (shuffleStep rnd) s).pileCards.filter (fun r => r.pileId = q) =
        s.pileCards.filter (fun r => r.pileId = q) := by
  intro ps
  induction ps with
  | nil => intro s _; rfl
  | cons p ps ih =>
    intro s h
    simp only [List.foldl_cons]
    rw [ih _ (fun x hx => h x (List.mem_cons_of_mem _ hx)),
      shuffleStep_other rnd s p (h p (List.mem_cons_self _ _))]

theorem foldl_shuffleStep_linked (rnd : Nat → Nat → Nat) (p : PileRow) :
    ∀ (ps : List PileRow) (s : Store), (s.pileCards.map (fun c => c.id)).Nodup →
      p ∈ ps → (ps.map (fun q => q.id)).Nodup →
      ∃ top rows, Linked (fun c : PileCardRow => c.id) (fun c => c.nextCardId) top rows ∧
        rows.Perm ((ps.foldl (shuffleStep rnd) s).pileCards.filter
          (fun c => c.pileId = p.id)) := by
  intro ps
  induction ps with
  | nil =>
    intro s _ hp
    cases hp
  | cons q ps ih =>
    intro s hids hp hnd
    simp only [List.map_cons, List.nodup_cons] at hnd
    simp only [List.foldl_cons]
    have hids1 : ((shuffleStep rnd s q).pileCards.map (fun c => c.id)).Nodup := by
      rw [(shuffleStep_same rnd s q).piles_ids]
      exact hids
    by_cases hq : q.id = p.id
    · obtain ⟨top, rows, hl, hperm⟩ := shuffleStep_linked rnd hids q
      refine ⟨top, rows, hl, ?_⟩
      rw [foldl_shuffleStep_other rnd p.id ps _ (by
        intro x hx hxid
        exact hnd.1 (List.mem_map.2 ⟨x, hx, hxid.trans hq.symm⟩))]
      rw [← hq]
      exact hperm
    · rcases List.mem_cons.1 hp with h | h
      · exact absurd (h ▸ rfl) hq
      · exact ih _ hids1 h hnd.2

theorem shufflePiles_eq (rnd : Nat → Nat → Nat) :
    ∀ (ps : List PileRow) (s : Store) (results : List (String × Nat)),
      (s.pileCards.map (fun c => c.id)).Nodup →
      shufflePiles rnd s results ps =
        .ok (ps.foldl (shuffleStep rnd) s,
          results ++ ps.map (fun p =>
            (p.name, (s.pileCards.filter (fun c => c.pileId = p.id)).length))) := by
  intro ps
  induction ps with
  | nil =>
    intro s results _
    simp [shufflePiles]
  | cons p ps ih =>
    intro s results hids
    have hlen : (((s.pileCards.filter (fun c => c.pileId = p.id)).insertionSort
        (fun a b => a.id ≤ b.id)).map (fun c => c.id)).length =
        (s.pileCards.filter (fun c => c.pileId = p.id)).length := by
      rw [List.length_map, List.length_insertionSort]
    simp only [shufflePiles, List.foldl_cons, List.map_cons]
    by_cases h0 : (s.pileCards.filter (fun c => c.pileId = p.id)).length = 0
    · rw [if_pos (hlen.trans h0), ih s _ hids,
        shuffleStep_empty rnd s p (List.length_eq_zero.1 h0), h0]
      simp
    · rw [if_neg (fun h => h0 (hlen.symm.trans h)), shuffle_link_eq rnd hids p]
      dsimp only
      have hsame := shuffleStep_same rnd s p
      rw [ih _ _ (by rw [hsame.piles_ids]; exact hids)]
      have hcnt : ∀ q : PileRow,
          ((shuffleStep rnd s p).pileCards.filter (fun c => c.pileId = q.id)).length =
            (s.pileCards.filter (fun c => c.pileId = q.id)).length := by
        intro q
        have := congrArg List.length (hsame.piles_codes q.id)
        simpa using this
      have hsl : (shuffle (rnd p.id) (((s.pileCards.filter
          (fun c => c.pileId = p.id)).insertionSort (fun a b => a.id ≤ b.id)).map
          (fun c => c.id))).length =
          (s.pileCards.filter (fun c => c.pileId = p.id)).length := by
        rw [(shuffle_perm _ _).length_eq, hlen]
      simp only [hcnt, hsl, List.append_assoc, List.singleton_append]

/-- C15. In a store whose `PileCard` ids, `Pile` ids and pile names per deck are unique, for
every pile `(deck, name)` whose `n` rows hold the codes `M`: `ShuffleAllPiles(deck)` succeeds,
the result lists `n` for `name` and nothing else for it, `GetPileCards` on the pile
afterwards succeeds for every head it may pick and returns `n` codes that are a permutation
of `M`, and the ledger is unchanged. -/
theorem shuffleAllPiles_keeps_cards (s : Store) (d name : String) (rnd : Nat → Nat → Nat)
    (p : PileRow)
    (hids : (s.pileCards.map (fun c => c.id)).Nodup)
    (hpids : (s.piles.map (fun q => q.id)).Nodup)
    (hpn : (s.piles.map (fun q => (q.deckId, q.name))).Nodup)
    (hp : findPile s d name = some p) :
    ∃ res, (ShuffleAllPiles s d rnd).2 = .ok res ∧
      (name, (s.pileCards.filter (fun c => c.pileId = p.id)).length) ∈ res ∧
      (∀ k, (name, k) ∈ res →
        k = (s.pileCards.filter (fun c => c.pileId = p.id)).length) ∧
      (∀ choice, ∃ codes,
        GetPileCards (ShuffleAllPiles s d rnd).1 d name choice = .ok codes ∧
        codes.Perm ((s.pileCards.filter (fun c => c.pileId = p.id)).map (fun c => c.code)) ∧
        codes.length = (s.pileCards.filter (fun c => c.pileId = p.id)).length) ∧
      (ShuffleAllPiles s d rnd).1.entries = s.entries := by
  have hpm : p ∈ s.piles := List.mem_of_find?_eq_some hp
  have hpk : p.deckId = d ∧ p.name = name := by simpa using List.find?_some hp
  have hpf : p ∈ s.piles.filter (fun q => q.deckId = d) :=
    List.mem_filter.2 ⟨hpm, by simpa using hpk.1⟩
  have hres : ShuffleAllPiles s d rnd =
      ((s.piles.filter (fun q => q.deckId = d)).foldl (shuffleStep rnd) s,
        .ok ((s.piles.filter (fun q => q.deckId = d)).map (fun q =>
          (q.name, (s.pileCards.filter (fun c => c.pileId = q.id)).length)))) := by
    unfold ShuffleAllPiles
    rw [shufflePiles_eq rnd _ s [] hids]
    rfl
  rw [hres]
  have hsame := foldl_shuffleStep_same rnd (s.piles.filter (fun q => q.deckId = d)) s
  refine ⟨_, rfl, ?_, ?_, ?_, hsame.entries⟩
  · exact List.mem_map.2 ⟨p, hpf, by rw [hpk.2]⟩
  · intro k hk
    obtain ⟨q, hq, heq⟩ := List.mem_map.1 hk
    simp only [Prod.mk.injEq] at heq
    have hqm := List.mem_filter.1 hq
    have hqd : q.deckId = d := by simpa using hqm.2
    have : q = p := List.inj_on_of_nodup_map hpn hqm.1 hpm (by
      simp [hqd, hpk.1, heq.1, hpk.2])
    rw [← heq.2, this]
  · intro choice
    obtain ⟨top, rows, hl, hperm⟩ := foldl_shuffleStep_linked rnd p
      (s.piles.filter (fun q => q.deckId = d)) s hids hpf
      (hpids.sublist ((List.filter_sublist _).map _))
    have hp' : findPile ((s.piles.filter (fun q => q.deckId = d)).foldl (shuffleStep rnd) s)
        d name = some p := by
      unfold findPile
      rw [hsame.piles]
      exact hp
    have hids' : (((s.piles.filter (fun q => q.deckId = d)).foldl (shuffleStep rnd)
        s).pileCards.map (fun c => c.id)).Nodup := by
      rw [hsame.piles_ids]
      exact hids
    refine ⟨rows.map (fun c => c.code), getPileCards_of_rows hp' hids' hl hperm choice, ?_, ?_⟩
    · rw [← hsame.piles_codes p.id]
      exact hperm.map _
    · have := (hperm.map (fun c : PileCardRow => c.code)).length_eq
      rw [hsame.piles_codes p.id] at this
      simpa using this

theorem shuffleAllPiles_keeps_cards_witness :
    ∃ res, (ShuffleAllPiles pileDrawStore "d" (fun _ i => i + 1)).2 = .ok res ∧
      ("discard", (pileDrawStore.pileCards.filter (fun c => c.pileId = 1)).length) ∈ res ∧
      (∀ k, ("discard", k) ∈ res →
        k = (pileDrawStore.pileCards.filter (fun c => c.pileId = 1)).length) ∧
      (∀ choice, ∃ codes,
        GetPileCards (ShuffleAllPiles pileDrawStore "d" (fun _ i => i + 1)).1 "d" "discard"
          choice = .ok codes ∧
        codes.Perm ((pileDrawStore.pileCards.filter (fun c => c.pileId = 1)).map
          (fun c => c.code)) ∧
        codes.length = (pileDrawStore.pileCards.filter (fun c => c.pileId = 1)).length) ∧
      (ShuffleAllPiles pileDrawStore "d" (fun _ i => i + 1)).1.entries =
        pileDrawStore.entries :=
  shuffleAllPiles_keeps_cards pileDrawStore "d" "discard" (fun _ i => i + 1) ⟨1, "d", "discard"⟩
    (by decide) (by decide) (by decide) (by decide)

/-! ## UpdatePileOrder, GetPileCards and DrawCards on unusual inputs -/

/-- C16, evaluated. The pile `"discard"` of `dupPileStore` reads `AS, AS`; `UpdatePileOrder`
with the codes `AS, AS`, a permutation of that sequence, succeeds, but it looks both codes up
by code, meets the same row twice and links that row to itself: `GetPileCards` afterwards
returns the single code `AS`, whichever head it picks, while the pile still has two rows. -/
theorem updatePileOrder_duplicate_codes :
    GetPileCards dupPileStore "d" "discard" 0 = .ok ["AS", "AS"] ∧
      (UpdatePileOrder dupPileStore "d" "discard" ["AS", "AS"]).2 = .ok () ∧
      (UpdatePileOrder dupPileStore "d" "discard" ["AS", "AS"]).1.pileCards =
        [⟨1, 1, "AS", some 1⟩, ⟨2, 1, "AS", none⟩] ∧
      GetPileCards (UpdatePileOrder dupPileStore "d" "discard" ["AS", "AS"]).1
        "d" "discard" 0 = .ok ["AS"] ∧
      GetPileCards (UpdatePileOrder dupPileStore "d" "discard" ["AS", "AS"]).1
        "d" "discard" 1 = .ok ["AS"] ∧
      CardsInPile (UpdatePileOrder dupPileStore "d" "discard" ["AS", "AS"]).1
        "d" "discard" = 2 := by
  decide

/-- C17, evaluated. In `pileWitnessStore` the row of `AS` points to the row of `KD`;
`UpdatePileOrder` with the codes `AS, XX` fails on `XX`, which is not in the pile, and the
store it leaves has every `nextCardId` of the pile set to NULL: the statements it issued
before the failure were not undone. -/
theorem updatePileOrder_error_keeps_writes :
    pileWitnessStore.pileCards = [⟨1, 1, "KD", none⟩, ⟨2, 1, "AS", some 1⟩] ∧
      (UpdatePileOrder pileWitnessStore "d" "discard" ["AS", "XX"]).2 = .error .noRows ∧
      (UpdatePileOrder pileWitnessStore "d" "discard" ["AS", "XX"]).1.pileCards =
        [⟨1, 1, "KD", none⟩, ⟨2, 1, "AS", none⟩] := by
  decide

/-- C18, evaluated. The pile `"discard"` of `twoHeadStore` has two rows and none is
referenced by a `nextCardId`, so two ids are unreferenced; `GetPileCards` returns no error:
it starts at whichever of the two its map iteration meets first and returns the one code
reachable from there, `KD` or `AS`. -/
theorem getPileCards_two_heads :
    (twoHeadStore.pileCards.filter (fun c => c.pileId = 1)).map (fun c => c.nextCardId) =
        [none, none] ∧
      UpdatePileOrder pileWitnessStore "d" "discard" [] = (twoHeadStore, .ok ()) ∧
      GetPileCards twoHeadStore "d" "discard" 0 = .ok ["KD"] ∧
      GetPileCards twoHeadStore "d" "discard" 1 = .ok ["AS"] := by
  decide

/-- C19, evaluated. `drawWitnessStore` has no deck `"nodeck"`; `DrawCards("nodeck", 1)`
returns the empty code list and the count 0 without an error, and leaves the store as it
was. -/
theorem drawCards_unknown_deck :
    drawWitnessStore.deckExists "nodeck" = false ∧
      DrawCards drawWitnessStore "nodeck" 1 = (drawWitnessStore, .ok ([], 0)) := by
  decide

/-! ## Isolation between decks -/

theorem PileSide.pside_refl (s : Store) : PileSide s s := ⟨rfl, rfl, rfl, rfl⟩

theorem PileSide.pside_trans {a b c : Store} (h1 : PileSide a b) (h2 : PileSide b c) :
    PileSide a c :=
  ⟨h2.piles.trans h1.piles, h2.pileCards.trans h1.pileCards, h2.seqPile.trans h1.seqPile,
    h2.seqPileCard.trans h1.seqPileCard⟩

theorem IsoDeck.ideck_refl (A : String) (s : Store) : IsoDeck A s s :=
  ⟨fun _ _ => rfl, fun _ _ => rfl, fun _ _ => rfl⟩

theorem IsoDeck.ideck_trans {A : String} {a b c : Store} (h1 : IsoDeck A a b)
    (h2 : IsoDeck A b c) : IsoDeck A a c :=
  ⟨fun B hB => (h2.decks B hB).trans (h1.decks B hB),
    fun B hB => (h2.deckCards B hB).trans (h1.deckCards B hB),
    fun B hB => (h2.entries B hB).trans (h1.entries B hB)⟩

theorem IsoPile.ipile_refl (A : String) (s : Store) : IsoPile A s s :=
  ⟨fun _ _ => rfl, fun _ _ => rfl⟩

theorem IsoPile.ipile_trans {A : String} {a b c : Store} (h1 : IsoPile A a b)
    (h2 : IsoPile A b c) : IsoPile A a c :=
  ⟨fun B hB => (h2.piles B hB).trans (h1.piles B hB),
    fun B hB => (h2.pileCards B hB).trans (h1.pileCards B hB)⟩

theorem IsoDeck.of_deckSide {A : String} {s s' : Store} (h : DeckSide s s') :
    IsoDeck A s s' :=
  ⟨fun _ _ => by rw [h.decks], fun _ _ => by rw [h.deckCards], fun _ _ => by rw [h.entries]⟩

theorem IsoPile.of_pileSide {A : String} {s s' : Store} (h : PileSide s s') :
    IsoPile A s s' := by
  refine ⟨fun _ _ => by rw [h.piles], fun B _ => ?_⟩
  have : ownedBy s' B = ownedBy s B := by
    funext c
    unfold ownedBy
    rw [h.piles]
  rw [this, h.pileCards]

theorem PilePtr.pptr_congr {s s' : Store} {p : Nat} {top : Option Nat} (h : PilePtr s p top)
    (hc : s'.pileCards = s.pileCards) (hs : s'.seqPileCard = s.seqPileCard) :
    PilePtr s' p top := by
  unfold PilePtr
  rw [hc, hs]
  exact h

theorem PileSound.psound_congr {s s' : Store} (h : PileSound s) (f : PileSide s s') :
    PileSound s' := by
  refine ⟨?_, ?_, ?_, ?_, ?_⟩
  · rw [f.piles]
    exact h.pileDeck
  · rw [f.piles, f.seqPile]
    exact h.pileSeq
  · rw [f.pileCards]
    exact h.cardPile
  · rw [f.pileCards, f.seqPileCard]
    exact h.cardSeq
  · rw [f.pileCards]
    intro c hc
    exact (h.nextOwn c hc).pptr_congr f.pileCards f.seqPileCard

/-- The view of a deck is what `IsoDeck` and `IsoPile` keep. -/
theorem viewOf_eq {A B : String} {s s' : Store} (hB : B ≠ A) (hd : IsoDeck A s s')
    (hp : IsoPile A s s') : viewOf s' B = viewOf s B := by
  unfold viewOf
  rw [hd.decks B hB, hd.deckCards B hB, hd.entries B hB, hp.piles B hB, hp.pileCards B hB]

theorem cardsInDeck_of_view {B : String} {s s' : Store} (h : viewOf s' B = viewOf s B) :
    CardsInDeck s' B = CardsInDeck s B := by
  have h1 : s'.decks.filter (fun r => r.deckId = B) = s.decks.filter (fun r => r.deckId = B) :=
    congrArg DeckView.decks h
  have h2 : s'.deckCards.filter (fun r => r.deckId = B) =
      s.deckCards.filter (fun r => r.deckId = B) := congrArg DeckView.deckCards h
  unfold CardsInDeck
  rw [h1, h2]

theorem filter_append_of_not {α : Type} (P : α → Bool) (T N : List α)
    (h : ∀ n ∈ N, P n = false) : (T ++ N).filter P = T.filter P := by
  rw [List.filter_append]
  have : N.filter P = [] := by
    rw [List.filter_eq_nil_iff]
    intro n hn
    simp [h n hn]
  rw [this, List.append_nil]

theorem filter_filter_of_imp {α : Type} (P R : α → Bool) (T : List α)
    (h : ∀ r ∈ T, P r = true → R r = true) : (T.filter R).filter P = T.filter P := by
  induction T with
  | nil => rfl
  | cons a T ih =>
    have ih' := ih (fun r hr => h r (List.mem_cons_of_mem _ hr))
    cases hP : P a with
    | false =>
      cases hR : R a with
      | false => simp [List.filter_cons, hP, hR, ih']
      | true => simp [List.filter_cons, hP, hR, ih']
    | true =>
      have hR := h a (List.mem_cons_self _ _) hP
      simp [List.filter_cons, hP, hR, ih']

/-- Rewriting rows so that the rows of other decks stay as they are. -/
theorem filter_map_other {α : Type} (dk : α → String) (A : String) (g : α → α)
    (hd : ∀ a, dk (g a) = dk a) (hfix : ∀ a, dk a ≠ A → g a = a) (T : List α) (B : String)
    (hB : B ≠ A) :
    (T.map g).filter (fun a => decide (dk a = B)) = T.filter (fun a => decide (dk a = B)) := by
  apply filter_map_of_fix
  · intro a _
    rw [hd]
  · intro a _ ha
    simp only [decide_eq_true_eq] at ha
    exact hfix a (ha ▸ hB)

/-! ### Statements on the deck tables and the ledger -/

theorem updateEntry_iso (s : Store) (A c : String) (guard : DeckEntryRow → Bool)
    (f : DeckEntryRow → DeckEntryRow) (hf : ∀ e, (f e).deckId = e.deckId) :
    IsoDeck A s (updateEntry s A c guard f) ∧ PileSide s (updateEntry s A c guard f) := by
  refine ⟨⟨fun _ _ => rfl, fun _ _ => rfl, fun B hB => ?_⟩, ⟨rfl, rfl, rfl, rfl⟩⟩
  exact filter_map_other (fun e : DeckEntryRow => e.deckId) A _
    (fun e => by dsimp only; split_ifs <;> first | exact hf e | rfl)
    (fun e he => by
      rw [if_neg (fun h => he h.1)]) s.entries B hB

theorem setTopCard_iso {s s1 : Store} {A : String} {top : Option Nat}
    (h : setTopCard s A top = .ok s1) : IsoDeck A s s1 ∧ PileSide s s1 := by
  rw [setTopCard_ok h]
  refine ⟨⟨fun B hB => ?_, fun _ _ => rfl, fun _ _ => rfl⟩, ⟨rfl, rfl, rfl, rfl⟩⟩
  exact filter_map_other (fun r : DeckRow => r.deckId) A _
    (fun r => by dsimp only; split_ifs <;> rfl)
    (fun r hr => by
      rw [if_neg hr]) s.decks B hB

theorem setTopCardShuffled_iso {s s1 : Store} {A : String} {top : Option Nat}
    (h : setTopCardShuffled s A top = .ok s1) : IsoDeck A s s1 ∧ PileSide s s1 := by
  rw [setTopCardShuffled_ok h]
  refine ⟨⟨fun B hB => ?_, fun _ _ => rfl, fun _ _ => rfl⟩, ⟨rfl, rfl, rfl, rfl⟩⟩
  exact filter_map_other (fun r : DeckRow => r.deckId) A _
    (fun r => by dsimp only; split_ifs <;> rfl)
    (fun r hr => by
      rw [if_neg hr]) s.decks B hB

theorem insertDeckCard_iso {s s1 : Store} {A c : String} {next : Option Nat} {i : Nat}
    (h : insertDeckCard s A c next = .ok (s1, i)) : IsoDeck A s s1 ∧ PileSide s s1 := by
  obtain ⟨_, _, rfl⟩ := insertDeckCard_ok h
  refine ⟨⟨fun _ _ => rfl, fun B hB => ?_, fun _ _ => rfl⟩, ⟨rfl, rfl, rfl, rfl⟩⟩
  apply filter_append_of_not
  intro n hn
  rw [List.mem_singleton.1 hn]
  simpa using fun h : A = B => hB h.symm

theorem setDeckCardNext_iso {s s1 : Store} {A : String} {i : Nat} {next : Option Nat}
    (hrow : ∀ r ∈ s.deckCards, r.id = i → r.deckId = A)
    (h : setDeckCardNext s i next = .ok s1) : IsoDeck A s s1 ∧ PileSide s s1 := by
  rw [setDeckCardNext_ok h]
  refine ⟨⟨fun _ _ => rfl, fun B hB => ?_, fun _ _ => rfl⟩, ⟨rfl, rfl, rfl, rfl⟩⟩
  show List.filter _ (List.map _ s.deckCards) = _
  apply filter_map_of_fix
  · intro r _
    split_ifs <;> rfl
  · intro r hm hr
    simp only [decide_eq_true_eq] at hr
    by_cases hi : r.id = i
    · exact absurd ((hrow r hm hi).symm.trans hr) (fun h => hB h.symm)
    · rw [if_neg hi]

theorem deleteDeckCard_iso {s : Store} (hs : Sound s) {A : String} {r : DeckCardRow}
    (hr : r ∈ s.deckCards) (hrd : r.deckId = A) :
    IsoDeck A s (deleteDeckCard s r.id) ∧ PileSide s (deleteDeckCard s r.id) := by
  refine ⟨⟨fun B hB => ?_, fun B hB => ?_, fun _ _ => rfl⟩, ⟨rfl, rfl, rfl, rfl⟩⟩
  · show List.filter _ (List.map _ s.decks) = _
    apply filter_map_of_fix
    · intro dk _
      split_ifs <;> rfl
    · intro dk hdk hd
      simp only [decide_eq_true_eq] at hd
      by_cases ht : dk.topCardId = some r.id
      · have := (hs.topOwn dk hdk r.id ht).2 r hr rfl
        exact absurd (hrd.symm.trans (this.trans hd)) (fun h => hB h.symm)
      · rw [if_neg ht]
  · show List.filter _ (List.map _ (List.filter _ s.deckCards)) = _
    rw [filter_map_of_fix]
    · apply filter_filter_of_imp
      intro b hb hd
      simp only [decide_eq_true_eq] at hd
      simp only [ne_eq, decide_not, Bool.not_eq_true', decide_eq_false_iff_not]
      intro hid
      have := hs.idDeck b hb r hr hid
      exact hB (hd.symm.trans (this.trans hrd))
    · intro b _
      split_ifs <;> rfl
    · intro b hb hd
      simp only [decide_eq_true_eq] at hd
      have hbm : b ∈ s.deckCards := (List.mem_filter.1 hb).1
      by_cases hn : b.nextId = some r.id
      · have := (hs.nextOwn b hbm r.id hn).2 r hr rfl
        exact absurd (hrd.symm.trans (this.trans hd)) (fun h => hB h.symm)
      · rw [if_neg hn]

theorem DeckOp.dop_refl (A : String) (s : Store) : DeckOp A s s :=
  ⟨IsoDeck.ideck_refl A s, PileSide.pside_refl s⟩

theorem DeckOp.dop_trans {A : String} {a b c : Store} (h1 : DeckOp A a b)
    (h2 : DeckOp A b c) : DeckOp A a c :=
  ⟨h1.iso.ideck_trans h2.iso, h1.side.pside_trans h2.side⟩

theorem DeckOp.of_pair {A : String} {s s' : Store} (h : IsoDeck A s s' ∧ PileSide s s') :
    DeckOp A s s' := ⟨h.1, h.2⟩

theorem drawStep_sound {s s2 : Store} (hs : Sound s) {A : String} {r : DeckCardRow}
    (hr : r ∈ s.deckCards) (hrd : r.deckId = A)
    (h2 : setTopCard (updateEntry s A r.code (fun _ => true)
      (fun e => { e with inDeck := e.inDeck - 1 })) A r.nextId = .ok s2) :
    Sound s2 ∧ r ∈ s2.deckCards := by
  have hs1 : Sound (updateEntry s A r.code (fun _ => true)
      (fun e => { e with inDeck := e.inDeck - 1 })) :=
    hs.sound_updateEntry A r.code _ _ (fun e => ⟨rfl, rfl⟩)
  have hs2 : Sound s2 := hs1.sound_setTopCard
    (by
      have := hs.nextOwn r hr
      rw [hrd] at this
      exact this.ptr_congr rfl rfl) h2
  refine ⟨hs2, ?_⟩
  rw [setTopCard_ok h2]
  exact hr

theorem drawLoop_iso (A : String) :
    ∀ (n : Nat) (s : Store) (remaining : Int) (codes : List String)
      (s' : Store) (res : List String × Int),
      Sound s → drawLoop n s A remaining codes = .ok (s', res) → DeckOp A s s' := by
  intro n
  induction n with
  | zero =>
    intro s remaining codes s' res _ hok
    simp only [drawLoop, Except.ok.injEq, Prod.mk.injEq] at hok
    rw [← hok.1]
    exact DeckOp.dop_refl A s
  | succ n ih =>
    intro s remaining codes s' res hs hok
    unfold drawLoop at hok
    cases ht : topCard s A with
    | none =>
      simp only [ht, Except.ok.injEq, Prod.mk.injEq] at hok
      rw [← hok.1]
      exact DeckOp.dop_refl A s
    | some r =>
      simp only [ht] at hok
      obtain ⟨hr, hrd⟩ := topCard_own hs ht
      cases h2 : setTopCard (updateEntry s A r.code (fun _ => true)
          (fun e => { e with inDeck := e.inDeck - 1 })) A r.nextId with
      | error e => simp [h2] at hok
      | ok s2 =>
        simp only [h2] at hok
        obtain ⟨hs2, hr2⟩ := drawStep_sound hs hr hrd h2
        have f1 := DeckOp.of_pair (updateEntry_iso s A r.code (fun _ => true)
          (fun e => { e with inDeck := e.inDeck - 1 }) (fun _ => rfl))
        have f2 := DeckOp.of_pair (setTopCard_iso h2)
        have f3 := DeckOp.of_pair (deleteDeckCard_iso hs2 hr2 hrd)
        exact ((f1.dop_trans f2).dop_trans f3).dop_trans
          (ih _ _ _ s' res (hs2.sound_deleteDeckCard r.id) hok)

theorem atomically_rel {α : Type} {R : Store → Store → Prop} {s : Store}
    {body : Except DBError (Store × α)} (hrefl : R s s)
    (hb : ∀ s' a, body = .ok (s', a) → R s s') : R s (atomically s body).1 := by
  cases body with
  | error e => exact hrefl
  | ok r =>
    obtain ⟨s', a⟩ := r
    exact hb s' a rfl

theorem drawCards_iso {s : Store} (hs : Sound s) (A : String) (amount : Int) :
    DeckOp A s (DrawCards s A amount).1 := by
  unfold DrawCards
  dsimp only
  split_ifs <;>
    first
    | exact DeckOp.dop_refl A s
    | exact atomically_rel (DeckOp.dop_refl A s)
        (fun s' a hb => drawLoop_iso A _ _ _ _ s' a hs hb)

/-! ### Statements on the pile tables -/

theorem ownedBy_false {s : Store} (h : PileSound s) {A B : String} {p : Nat}
    (hp : PileOf s A p) (hB : B ≠ A) {c : PileCardRow} (hc : c.pileId = p) :
    ownedBy s B c = false := by
  obtain ⟨pr, hpr, hid, hd⟩ := hp
  rw [Bool.eq_false_iff]
  intro hown
  simp only [ownedBy, List.any_eq_true, decide_eq_true_eq] at hown
  obtain ⟨q, hq, hqid, hqd⟩ := hown
  have := h.pileDeck pr hpr q hq (by rw [hid, hqid, hc])
  exact hB (hqd.symm.trans (this.symm.trans hd))

theorem PilePtr.pptr_none (s : Store) (p : Nat) : PilePtr s p none := by
  intro i hi
  cases hi

theorem PilePtr.pptr_of_sub {s s' : Store} {p : Nat} {top : Option Nat} (h : PilePtr s p top)
    (hs : s.seqPileCard ≤ s'.seqPileCard)
    (hc : ∀ c' ∈ s'.pileCards, c'.id ≤ s.seqPileCard →
      ∃ c ∈ s.pileCards, c'.id = c.id ∧ c'.pileId = c.pileId) : PilePtr s' p top := by
  intro i hi
  obtain ⟨h1, h2⟩ := h i hi
  refine ⟨le_trans h1 hs, ?_⟩
  intro c' hc' hid
  obtain ⟨c, hm, e1, e2⟩ := hc c' hc' (hid ▸ h1)
  rw [e2]
  exact h2 c hm (e1 ▸ hid)

theorem PilePtr.of_row {s : Store} (h : PileSound s) {c : PileCardRow}
    (hc : c ∈ s.pileCards) : PilePtr s c.pileId (some c.id) := by
  intro i hi
  cases hi
  exact ⟨h.cardSeq c hc, fun c' hc' hid => h.cardPile c' hc' c hc hid⟩

/-- Rewriting or removing `PileCard` rows keeps the pile tables sound when every row left
comes from an old row of the same id and pile and points into that pile. -/
theorem PileSound.psound_of_cards {s s' : Store} (h : PileSound s)
    (hc : ∀ c' ∈ s'.pileCards, ∃ c ∈ s.pileCards,
      c'.id = c.id ∧ c'.pileId = c.pileId ∧ PilePtr s c.pileId c'.nextCardId)
    (hp : s'.piles = s.piles) (hs : s'.seqPile = s.seqPile)
    (hq : s'.seqPileCard = s.seqPileCard) : PileSound s' := by
  have hsub : ∀ c' ∈ s'.pileCards, c'.id ≤ s.seqPileCard →
      ∃ c ∈ s.pileCards, c'.id = c.id ∧ c'.pileId = c.pileId := by
    intro c' hc' _
    obtain ⟨c, hm, e1, e2, _⟩ := hc c' hc'
    exact ⟨c, hm, e1, e2⟩
  refine ⟨?_, ?_, ?_, ?_, ?_⟩
  · rw [hp]
    exact h.pileDeck
  · rw [hp, hs]
    exact h.pileSeq
  · intro a' ha' b' hb' hid
    obtain ⟨a, ha, a1, a2, _⟩ := hc a' ha'
    obtain ⟨b, hb, b1, b2, _⟩ := hc b' hb'
    rw [a2, b2]
    exact h.cardPile a ha b hb (by rw [← a1, ← b1]; exact hid)
  · intro c' hc'
    obtain ⟨c, hm, e1, _, _⟩ := hc c' hc'
    rw [hq, e1]
    exact h.cardSeq c hm
  · intro c' hc'
    obtain ⟨c, hm, _, e2, e3⟩ := hc c' hc'
    rw [e2]
    exact e3.pptr_of_sub (le_of_eq hq.symm) hsub

theorem IsoPile.ipile_of_cards {A : String} {s s' : Store} (hp : s'.piles = s.piles)
    (hc : ∀ B, B ≠ A →
      s'.pileCards.filter (ownedBy s B) = s.pileCards.filter (ownedBy s B)) :
    IsoPile A s s' := by
  refine ⟨fun _ _ => by rw [hp], fun B hB => ?_⟩
  have : ownedBy s' B = ownedBy s B := by
    funext c
    unfold ownedBy
    rw [hp]
  rw [this]
  exact hc B hB

theorem setPileCardNext_ok {s s1 : Store} {i : Nat} {next : Option Nat}
    (h : setPileCardNext s i next = .ok s1) :
    s1 = { s with pileCards :=
      (s.pileCards.map (fun r => if r.id = i then { r with nextCardId := next } else r)) } := by
  unfold setPileCardNext at h
  split_ifs at h
  exact (Except.ok.inj h).symm

theorem insertPileCard_ok {s s1 : Store} {p : Nat} {c : String} {next : Option Nat} {i : Nat}
    (h : insertPileCard s p c next = .ok (s1, i)) :
    i = s.seqPileCard + 1 ∧
      s1 = { s with pileCards := s.pileCards ++ [⟨s.seqPileCard + 1, p, c, next⟩],
                    seqPileCard := s.seqPileCard + 1 } := by
  unfold insertPileCard at h
  split_ifs at h
  have := Except.ok.inj h
  simp only [Prod.mk.injEq] at this
  exact ⟨this.2.symm, this.1.symm⟩

theorem setPileCardNext_pop {s s1 : Store} {A : String} {p i : Nat} {next : Option Nat}
    (h : PileSound s) (hp : PileOf s A p)
    (hrow : ∀ c ∈ s.pileCards, c.id = i → c.pileId = p) (hn : PilePtr s p next)
    (hok : setPileCardNext s i next = .ok s1) : PileOp A s s1 := by
  rw [setPileCardNext_ok hok]
  refine ⟨IsoPile.ipile_of_cards rfl (fun B hB => ?_), ⟨rfl, rfl, rfl, rfl⟩,
    h.psound_of_cards ?_ rfl rfl rfl, fun _ hq => hq⟩
  · show List.filter _ (List.map _ s.pileCards) = _
    apply filter_map_of_fix
    · intro c _
      split_ifs <;> rfl
    · intro c hc hown
      by_cases hi : c.id = i
      · rw [ownedBy_false h hp hB (hrow c hc hi)] at hown
        cases hown
      · rw [if_neg hi]
  · intro c' hc'
    obtain ⟨c, hc, rfl⟩ := List.mem_map.1 hc'
    refine ⟨c, hc, ?_⟩
    by_cases hi : c.id = i
    · rw [if_pos hi]
      refine ⟨rfl, rfl, ?_⟩
      rw [hrow c hc hi]
      exact hn
    · rw [if_neg hi]
      exact ⟨rfl, rfl, h.nextOwn c hc⟩

theorem setPileCardNext_rowOf {s s1 : Store} {i : Nat} {next : Option Nat} {p j : Nat}
    (hr : RowOf s p j) (hok : setPileCardNext s i next = .ok s1) : RowOf s1 p j := by
  rw [setPileCardNext_ok hok]
  obtain ⟨c, hc, e1, e2⟩ := hr
  refine ⟨_, List.mem_map.2 ⟨c, hc, rfl⟩, ?_⟩
  split_ifs <;> exact ⟨e1, e2⟩

theorem clearPileLinks_pop {s : Store} {A : String} {p : Nat} (h : PileSound s)
    (hp : PileOf s A p) : PileOp A s (clearPileLinks s p) := by
  refine ⟨IsoPile.ipile_of_cards rfl (fun B hB => ?_), ⟨rfl, rfl, rfl, rfl⟩,
    h.psound_of_cards ?_ rfl rfl rfl, fun _ hq => hq⟩
  · show List.filter _ (List.map _ s.pileCards) = _
    apply filter_map_of_fix
    · intro c _
      split_ifs <;> rfl
    · intro c hc hown
      by_cases hi : c.pileId = p
      · rw [ownedBy_false h hp hB hi] at hown
        cases hown
      · rw [if_neg hi]
  · intro c' hc'
    obtain ⟨c, hc, rfl⟩ := List.mem_map.1 hc'
    refine ⟨c, hc, ?_⟩
    by_cases hi : c.pileId = p
    · rw [if_pos hi]
      exact ⟨rfl, rfl, PilePtr.pptr_none s _⟩
    · rw [if_neg hi]
      exact ⟨rfl, rfl, h.nextOwn c hc⟩

theorem deletePileCard_pop {s : Store} {A : String} {p i : Nat} (h : PileSound s)
    (hp : PileOf s A p) (hr : RowOf s p i) : PileOp A s (deletePileCard s i) := by
  obtain ⟨r, hrm, hri, hrp⟩ := hr
  refine ⟨IsoPile.ipile_of_cards rfl (fun B hB => ?_), ⟨rfl, rfl, rfl, rfl⟩,
    h.psound_of_cards ?_ rfl rfl rfl, fun _ hq => hq⟩
  · show List.filter _ (List.map _ (List.filter _ s.pileCards)) = _
    rw [filter_map_of_fix]
    · apply filter_filter_of_imp
      intro c hc hown
      simp only [ne_eq, decide_not, Bool.not_eq_true', decide_eq_false_iff_not]
      intro hid
      have hcp : c.pileId = p := (h.cardPile c hc r hrm (hid.trans hri.symm)).trans hrp
      rw [ownedBy_false h hp hB hcp] at hown
      cases hown
    · intro c _
      split_ifs <;> rfl
    · intro c hc hown
      have hcm : c ∈ s.pileCards := (List.mem_filter.1 hc).1
      by_cases hn : c.nextCardId = some i
      · have hcp : c.pileId = p := ((h.nextOwn c hcm i hn).2 r hrm hri).symm.trans hrp
        rw [ownedBy_false h hp hB hcp] at hown
        cases hown
      · rw [if_neg hn]
  · intro c' hc'
    obtain ⟨c, hc, rfl⟩ := List.mem_map.1 hc'
    have hcm : c ∈ s.pileCards := (List.mem_filter.1 hc).1
    refine ⟨c, hcm, ?_⟩
    by_cases hn : c.nextCardId = some i
    · rw [if_pos hn]
      exact ⟨rfl, rfl, PilePtr.pptr_none s _⟩
    · rw [if_neg hn]
      exact ⟨rfl, rfl, h.nextOwn c hcm⟩

theorem deletePileCardsOf_pop {s : Store} {A : String} {p : Nat} (h : PileSound s)
    (hp : PileOf s A p) : PileOp A s (deletePileCardsOf s p) := by
  refine ⟨IsoPile.ipile_of_cards rfl (fun B hB => ?_), ⟨rfl, rfl, rfl, rfl⟩,
    h.psound_of_cards ?_ rfl rfl rfl, fun _ hq => hq⟩
  · show List.filter _ (List.map _ (List.filter _ s.pileCards)) = _
    rw [filter_map_of_fix]
    · apply filter_filter_of_imp
      intro c hc hown
      simp only [ne_eq, decide_not, Bool.not_eq_true', decide_eq_false_iff_not]
      intro hcp
      rw [ownedBy_false h hp hB hcp] at hown
      cases hown
    · intro c _
      split
      · rfl
      · split_ifs <;> rfl
    · intro c hc hown
      have hcm : c ∈ s.pileCards := (List.mem_filter.1 hc).1
      split
      · rfl
      · rename_i j hn
        rw [if_neg]
        intro hany
        simp only [List.any_eq_true, decide_eq_true_eq] at hany
        obtain ⟨r, hrm, hrp, hrj⟩ := hany
        have hcp : c.pileId = p := ((h.nextOwn c hcm j hn).2 r hrm hrj).symm.trans hrp
        rw [ownedBy_false h hp hB hcp] at hown
        cases hown
  · intro c' hc'
    obtain ⟨c, hc, rfl⟩ := List.mem_map.1 hc'
    have hcm : c ∈ s.pileCards := (List.mem_filter.1 hc).1
    refine ⟨c, hcm, ?_⟩
    split
    · rename_i hn
      refine ⟨rfl, rfl, ?_⟩
      rw [hn]
      exact PilePtr.pptr_none s _
    · split_ifs
      · exact ⟨rfl, rfl, PilePtr.pptr_none s _⟩
      · exact ⟨rfl, rfl, h.nextOwn c hcm⟩

theorem insertPileCard_pop {s s1 : Store} {A : String} {p : Nat} {c : String}
    {next : Option Nat} {i : Nat} (h : PileSound s) (hp : PileOf s A p)
    (hn : PilePtr s p next) (hok : insertPileCard s p c next = .ok (s1, i)) :
    PileOp A s s1 ∧ PilePtr s1 p (some i) := by
  obtain ⟨rfl, rfl⟩ := insertPileCard_ok hok
  have hsub : ∀ c' ∈ s.pileCards ++ [(⟨s.seqPileCard + 1, p, c, next⟩ : PileCardRow)],
      c'.id ≤ s.seqPileCard → ∃ c0 ∈ s.pileCards, c'.id = c0.id ∧ c'.pileId = c0.pileId := by
    intro c' hc' hle
    rcases List.mem_append.1 hc' with hm | hm
    · exact ⟨c', hm, rfl, rfl⟩
    · rw [List.mem_singleton] at hm
      subst hm
      exact absurd hle (Nat.not_succ_le_self _)
  refine ⟨⟨IsoPile.ipile_of_cards rfl (fun B hB => ?_), ⟨rfl, rfl, rfl, rfl⟩,
    ⟨h.pileDeck, h.pileSeq, ?_, ?_, ?_⟩, fun _ hq => hq⟩, ?_⟩
  · exact filter_append_of_not _ _ _ (fun n hm => by
      rw [List.mem_singleton] at hm
      subst hm
      exact ownedBy_false h hp hB rfl)
  · intro a ha b hb hid
    rcases List.mem_append.1 ha with ha | ha <;> rcases List.mem_append.1 hb with hb | hb
    · exact h.cardPile a ha b hb hid
    · rw [List.mem_singleton] at hb
      subst hb
      have := h.cardSeq a ha
      dsimp only at hid
      omega
    · rw [List.mem_singleton] at ha
      subst ha
      have := h.cardSeq b hb
      dsimp only at hid
      omega
    · rw [List.mem_singleton] at ha hb
      rw [ha, hb]
  · intro a ha
    rcases List.mem_append.1 ha with ha | ha
    · exact Nat.le_succ_of_le (h.cardSeq a ha)
    · rw [List.mem_singleton] at ha
      subst ha
      exact le_refl _
  · intro a ha
    rcases List.mem_append.1 ha with ha | ha
    · exact (h.nextOwn a ha).pptr_of_sub (Nat.le_succ _) hsub
    · rw [List.mem_singleton] at ha
      subst ha
      exact hn.pptr_of_sub (Nat.le_succ _) hsub
  · intro j hj
    cases hj
    refine ⟨le_refl _, ?_⟩
    intro a ha hid
    rcases List.mem_append.1 ha with ha | ha
    · have := h.cardSeq a ha
      omega
    · rw [List.mem_singleton] at ha
      rw [ha]

theorem insertPile_pop {s s1 : Store} {A name : String} {i : Nat} (h : PileSound s)
    (hok : insertPile s A name = .ok (s1, i)) : PileOp A s s1 ∧ PileOf s1 A i := by
  unfold insertPile at hok
  split_ifs at hok
  have hk := Except.ok.inj hok
  simp only [Prod.mk.injEq] at hk
  obtain ⟨rfl, rfl⟩ := hk
  refine ⟨⟨⟨fun B hB => ?_, fun B hB => ?_⟩, ⟨rfl, rfl, rfl, rfl⟩,
    ⟨?_, ?_, h.cardPile, h.cardSeq, fun c hc => (h.nextOwn c hc).pptr_congr rfl rfl⟩, ?_⟩, ?_⟩
  · exact filter_append_of_not _ _ _ (fun n hm => by
      rw [List.mem_singleton] at hm
      subst hm
      simpa using fun e => hB e.symm)
  · have : ∀ s' : Store, s'.piles = s.piles ++ [⟨s.seqPile + 1, A, name⟩] →
        ownedBy s' B = ownedBy s B := by
      intro s' hs'
      funext c
      simp [ownedBy, hs', List.any_append, Ne.symm hB]
    rw [this _ rfl]
  · intro a ha b hb hid
    rcases List.mem_append.1 ha with ha | ha <;> rcases List.mem_append.1 hb with hb | hb
    · exact h.pileDeck a ha b hb hid
    · rw [List.mem_singleton] at hb
      subst hb
      have := h.pileSeq a ha
      dsimp only at hid
      omega
    · rw [List.mem_singleton] at ha
      subst ha
      have := h.pileSeq b hb
      dsimp only at hid
      omega
    · rw [List.mem_singleton] at ha hb
      rw [ha, hb]
  · intro a ha
    rcases List.mem_append.1 ha with ha | ha
    · exact Nat.le_succ_of_le (h.pileSeq a ha)
    · rw [List.mem_singleton] at ha
      subst ha
      exact le_refl _
  · intro q ⟨pr, hpr, e1, e2⟩
    exact ⟨pr, List.mem_append_left _ hpr, e1, e2⟩
  · exact ⟨⟨s.seqPile + 1, A, name⟩, List.mem_append_right _ (List.mem_singleton.2 rfl),
      rfl, rfl⟩

/-! ### Operations that write the deck tables only -/

theorem pushDeckCards_iso (A : String) :
    ∀ (codes : List String) (s : Store) (top : Option Nat) (s1 : Store) (top1 : Option Nat),
      pushDeckCards s A top codes = .ok (s1, top1) → DeckOp A s s1 := by
  intro codes
  induction codes with
  | nil =>
    intro s top s1 top1 hok
    simp only [pushDeckCards, Except.ok.injEq, Prod.mk.injEq] at hok
    rw [← hok.1]
    exact DeckOp.dop_refl A s
  | cons c cs ih =>
    intro s top s1 top1 hok
    simp only [pushDeckCards] at hok
    cases h1 : insertDeckCard s A c top with
    | error e => simp [h1] at hok
    | ok r =>
      obtain ⟨s2, i⟩ := r
      simp only [h1] at hok
      exact (DeckOp.of_pair (insertDeckCard_iso h1)).dop_trans (ih s2 (some i) s1 top1 hok)

theorem commitTop_iso {s s1 : Store} {A : String} {top : Option Nat}
    (hok : commitTop s A top = .ok s1) : DeckOp A s s1 := by
  cases top with
  | none =>
    simp only [commitTop, Except.ok.injEq] at hok
    rw [← hok]
    exact DeckOp.dop_refl A s
  | some i => exact DeckOp.of_pair (setTopCard_iso hok)

theorem returnSpecificDrawn_iso (s : Store) (A code : String) :
    DeckOp A s (ReturnSpecificDrawn s A code).1 := by
  unfold ReturnSpecificDrawn
  refine atomically_rel (DeckOp.dop_refl A s) ?_
  intro s' a hb
  cases hf : findEntry s A code with
  | none => simp [hf] at hb
  | some e =>
    simp only [hf] at hb
    split_ifs at hb
    cases h1 : insertDeckCard s A code (deckTop s A) with
    | error err => simp [h1] at hb
    | ok r =>
      obtain ⟨s1, i⟩ := r
      simp only [h1] at hb
      cases h2 : setTopCard s1 A (some i) with
      | error err => simp [h2] at hb
      | ok s2 =>
        simp only [h2, Except.ok.injEq, Prod.mk.injEq] at hb
        rw [← hb.1]
        exact ((DeckOp.of_pair (insertDeckCard_iso h1)).dop_trans
          (DeckOp.of_pair (setTopCard_iso h2))).dop_trans
          (DeckOp.of_pair (updateEntry_iso s2 A code (fun _ => true)
            (fun e => { e with inDeck := e.inDeck + 1 }) (fun _ => rfl)))

theorem returnAllDrawn_iso (s : Store) (A : String) :
    DeckOp A s (ReturnAllDrawn s A).1 := by
  unfold ReturnAllDrawn
  refine atomically_rel (DeckOp.dop_refl A s) ?_
  intro s' a hb
  dsimp only at hb
  generalize ((s.entries.filter (fun e => e.deckId = A)).filter
      (fun e => decide (e.total - e.inDeck - e.inPile > 0))).reverse.flatMap
      (fun e => List.replicate (e.total - e.inDeck - e.inPile).toNat e.code) = pushes at hb
  cases h1 : pushDeckCards s A (deckTop s A) pushes with
  | error err => simp [h1] at hb
  | ok r =>
    obtain ⟨s1, top⟩ := r
    simp only [h1] at hb
    cases h2 : commitTop s1 A top with
    | error err => simp [h2] at hb
    | ok s2 =>
      simp only [h2, Except.ok.injEq, Prod.mk.injEq] at hb
      rw [← hb.1]
      refine ((pushDeckCards_iso A pushes s _ s1 top h1).dop_trans (commitTop_iso h2)).dop_trans
        ⟨⟨fun _ _ => rfl, fun _ _ => rfl, fun B hB => ?_⟩, ⟨rfl, rfl, rfl, rfl⟩⟩
      exact filter_map_other (fun e : DeckEntryRow => e.deckId) A _
        (fun e => by dsimp only; split_ifs <;> rfl)
        (fun e he => by
          rw [if_neg he]) s2.entries B hB

theorem OwnIds.own_same {s s' : Store} {A : String} {ids : List Nat} (h : OwnIds s A ids)
    (f : SameCards s s') : OwnIds s' A ids := by
  intro i hi r' hr' hid
  have hm : (r'.id, r'.deckId, r'.code) ∈ s'.deckCards.map (fun r => (r.id, r.deckId, r.code)) :=
    List.mem_map.2 ⟨r', hr', rfl⟩
  rw [f.rows] at hm
  obtain ⟨r, hr, he⟩ := List.mem_map.1 hm
  simp only [Prod.mk.injEq] at he
  rw [← he.2.1]
  exact h i hi r hr (he.1.trans hid)

theorem linkCards_iso (A : String) :
    ∀ (ids : List Nat) (s s1 : Store), OwnIds s A ids →
      linkCards s ids = .ok s1 → DeckOp A s s1 ∧ SameCards s s1 := by
  intro ids
  induction ids with
  | nil =>
    intro s s1 _ hok
    simp only [linkCards, Except.ok.injEq] at hok
    rw [← hok]
    exact ⟨DeckOp.dop_refl A s, SameCards.same_refl s⟩
  | cons i rest ih =>
    intro s s1 hown hok
    cases rest with
    | nil =>
      simp only [linkCards, Except.ok.injEq] at hok
      rw [← hok]
      exact ⟨DeckOp.dop_refl A s, SameCards.same_refl s⟩
    | cons j rest =>
      simp only [linkCards] at hok
      cases h1 : setDeckCardNext s i (some j) with
      | error e => simp [h1] at hok
      | ok s2 =>
        simp only [h1] at hok
        have hsame := setDeckCardNext_same h1
        have hown2 : OwnIds s2 A (j :: rest) :=
          OwnIds.own_same (fun k hk => hown k (List.mem_cons_of_mem _ hk)) hsame
        obtain ⟨f2, g2⟩ := ih s2 s1 hown2 hok
        exact ⟨(DeckOp.of_pair (setDeckCardNext_iso
          (hown i (List.mem_cons_self _ _)) h1)).dop_trans f2, hsame.same_trans g2⟩

theorem shuffleDeck_iso {s : Store} (hs : Sound s) (A : String) (rnd : Nat → Nat) :
    DeckOp A s (ShuffleDeck s A rnd).1 := by
  unfold ShuffleDeck
  split_ifs
  · exact DeckOp.dop_refl A s
  · dsimp only
    have hsub : ∀ r ∈ shuffle rnd (s.deckCards.filter (fun r => r.deckId = A)),
        r ∈ s.deckCards ∧ r.deckId = A := by
      intro r hr
      have := shuffle_subset rnd _ r hr
      simpa using this
    have hown : OwnIds s A ((shuffle rnd (s.deckCards.filter
        (fun r => r.deckId = A))).map (fun r => r.id)) := by
      intro i hi r hr hid
      obtain ⟨r0, hr0, rfl⟩ := List.mem_map.1 hi
      exact (hs.idDeck r hr r0 (hsub r0 hr0).1 hid).trans (hsub r0 hr0).2
    cases hl : (shuffle rnd (s.deckCards.filter (fun r => r.deckId = A))).getLast? with
    | none => exact DeckOp.dop_refl A s
    | some last =>
      dsimp only
      refine atomically_rel (DeckOp.dop_refl A s) ?_
      intro s' a hb
      cases h1 : linkCards s ((shuffle rnd (s.deckCards.filter
          (fun r => r.deckId = A))).map (fun r => r.id)) with
      | error e => simp [h1] at hb
      | ok s1 =>
        simp only [h1] at hb
        cases h2 : setDeckCardNext s1 last.id none with
        | error e => simp [h2] at hb
        | ok s2 =>
          simp only [h2] at hb
          cases h3 : setTopCardShuffled s2 A ((shuffle rnd (s.deckCards.filter
              (fun r => r.deckId = A))).head?.map (fun r => r.id)) with
          | error e => simp [h3] at hb
          | ok s3 =>
            simp only [h3, Except.ok.injEq, Prod.mk.injEq] at hb
            rw [← hb.1]
            obtain ⟨f1, g1⟩ := linkCards_iso A _ s s1 hown h1
            have hlast : last ∈ shuffle rnd (s.deckCards.filter (fun r => r.deckId = A)) :=
              List.mem_of_getLast?_eq_some hl
            have hown1 := OwnIds.own_same hown g1
            exact (f1.dop_trans (DeckOp.of_pair (setDeckCardNext_iso
              (hown1 last.id (List.mem_map.2 ⟨last, hlast, rfl⟩)) h2))).dop_trans
              (DeckOp.of_pair (setTopCardShuffled_iso h3))

theorem chainRows_deck (seq : Nat) (d : String) (cards : List String) :
    ∀ r ∈ chainRows seq d cards, r.deckId = d := by
  intro r hr
  have hm : (r.deckId, r.code) ∈ (chainRows seq d cards).map (fun r => (r.deckId, r.code)) :=
    List.mem_map.2 ⟨r, hr, rfl⟩
  rw [chainRows_kinds] at hm
  obtain ⟨c, _, hc⟩ := List.mem_map.1 hm
  simp only [Prod.mk.injEq] at hc
  exact hc.1.symm

/-- Creating a deck is an operation on the new deck. -/
theorem insertDeck_iso {s : Store} (hs : Sound s) (rand : Nat → Nat → Nat)
    (cards : List String) :
    DeckOp (tokenLoop s rand 30 0) s (InsertDeck s rand cards).1 := by
  by_cases htok : tokenLoop s rand 30 0 = ""
  · unfold InsertDeck
    rw [if_pos htok]
    exact DeckOp.dop_refl _ s
  · rw [insertDeck_store s rand cards hs.cardSeq hs.entryDeck htok]
    refine ⟨⟨fun B hB => ?_, fun B hB => ?_, fun B hB => ?_⟩, ⟨rfl, rfl, rfl, rfl⟩⟩
    · apply filter_append_of_not
      intro n hn
      rw [List.mem_singleton.1 hn]
      simpa using fun h => hB h.symm
    · apply filter_append_of_not
      intro n hn
      rw [decide_eq_false_iff_not, chainRows_deck _ _ _ n hn]
      exact fun h => hB h.symm
    · apply filter_append_of_not
      intro n hn
      obtain ⟨c, _, rfl⟩ := List.mem_map.1 hn
      simpa using fun h => hB h.symm

/-! ### Operations that write the pile tables -/

theorem Kept.kept_refl {s : Store} (h : PileSound s) (A : String) : Kept A s s :=
  ⟨IsoDeck.ideck_refl A s, IsoPile.ipile_refl A s, h, fun _ hq => hq⟩

theorem Kept.kept_trans {A : String} {a b c : Store} (h1 : Kept A a b) (h2 : Kept A b c) :
    Kept A a c :=
  ⟨h1.deck.ideck_trans h2.deck, h1.pile.ipile_trans h2.pile, h2.psound,
    fun p hp => h2.pileOf p (h1.pileOf p hp)⟩

theorem Kept.of_deckOp {A : String} {s s' : Store} (h : PileSound s) (f : DeckOp A s s') :
    Kept A s s' := by
  refine ⟨f.iso, IsoPile.of_pileSide f.side, h.psound_congr f.side, ?_⟩
  intro p hp
  unfold PileOf
  rw [f.side.piles]
  exact hp

theorem Kept.of_pileOp {A : String} {s s' : Store} (f : PileOp A s s') : Kept A s s' :=
  ⟨IsoDeck.of_deckSide f.side, f.iso, f.psound, f.pileOf⟩

theorem pileOf_find {s : Store} {A name : String} {p : PileRow}
    (h : findPile s A name = some p) : PileOf s A p.id :=
  ⟨p, (findPile_key h).1, rfl, (findPile_key h).2.1⟩

theorem rowOf_mem {s : Store} {c : PileCardRow} (h : c ∈ s.pileCards) :
    RowOf s c.pileId c.id := ⟨c, h, rfl, rfl⟩

theorem relinkPrev_kept {s s1 : Store} {A : String} {p i : Nat} {nextId : Option Nat}
    (h : PileSound s) (hp : PileOf s A p) (hn : PilePtr s p nextId)
    (s0 : Store) (hpc : s0.pileCards = s.pileCards)
    (hok : relinkPrev s (pilePrev s0 p i) nextId = .ok s1) :
    PileOp A s s1 ∧ ∀ j, RowOf s p j → RowOf s1 p j := by
  cases hprev : pilePrev s0 p i with
  | none =>
    rw [hprev] at hok
    simp only [relinkPrev, Except.ok.injEq] at hok
    rw [← hok]
    exact ⟨⟨IsoPile.ipile_refl A s, DeckSide.side_refl s, h, fun _ hq => hq⟩, fun _ hj => hj⟩
  | some pr =>
    rw [hprev] at hok
    simp only [relinkPrev] at hok
    have hm : pr ∈ s.pileCards := by
      rw [← hpc]
      exact List.mem_of_find?_eq_some hprev
    have hpp : pr.pileId = p := by
      have := List.find?_some hprev
      simp only [decide_eq_true_eq] at this
      exact this.1
    refine ⟨setPileCardNext_pop h hp ?_ hn hok, fun j hj => setPileCardNext_rowOf hj hok⟩
    intro c hc hid
    exact (h.cardPile c hc pr hm hid).trans hpp

theorem PileOp.pop_refl {s : Store} (h : PileSound s) (A : String) : PileOp A s s :=
  ⟨IsoPile.ipile_refl A s, DeckSide.side_refl s, h, fun _ hq => hq⟩

theorem PileOp.pop_trans {A : String} {a b c : Store} (h1 : PileOp A a b)
    (h2 : PileOp A b c) : PileOp A a c :=
  ⟨h1.iso.ipile_trans h2.iso, h1.side.side_trans h2.side, h2.psound,
    fun p hp => h2.pileOf p (h1.pileOf p hp)⟩

theorem clearPileLinks_rowOf {s : Store} {p q j : Nat} (hr : RowOf s q j) :
    RowOf (clearPileLinks s p) q j := by
  obtain ⟨c, hc, e1, e2⟩ := hr
  refine ⟨_, List.mem_map.2 ⟨c, hc, rfl⟩, ?_⟩
  split_ifs <;> exact ⟨e1, e2⟩

theorem PilePtr.of_rowOf {s : Store} (h : PileSound s) {p i : Nat} (hr : RowOf s p i) :
    PilePtr s p (some i) := by
  obtain ⟨c, hc, rfl, rfl⟩ := hr
  exact PilePtr.of_row h hc

theorem rowOf_pile {s : Store} (h : PileSound s) {p i : Nat} (hr : RowOf s p i) :
    ∀ c ∈ s.pileCards, c.id = i → c.pileId = p := by
  obtain ⟨r, hrm, hri, hrp⟩ := hr
  intro c hc hid
  exact (h.cardPile c hc r hrm (hid.trans hri.symm)).trans hrp

theorem unlinkPileCard_kept {s s1 : Store} {A : String} {p cardId : Nat} {code : String}
    {nextId : Option Nat} (h : PileSound s) (hp : PileOf s A p) (hr : RowOf s p cardId)
    (hn : PilePtr s p nextId)
    (hok : unlinkPileCard s A (pilePrev s p cardId) cardId code nextId = .ok s1) :
    Kept A s s1 := by
  unfold unlinkPileCard at hok
  cases h1 : relinkPrev s (pilePrev s p cardId) nextId with
  | error e => simp [h1] at hok
  | ok s2 =>
    simp only [h1, Except.ok.injEq] at hok
    rw [← hok]
    obtain ⟨f1, g1⟩ := relinkPrev_kept h hp hn s rfl h1
    have f2 := deletePileCard_pop f1.psound (f1.pileOf p hp) (g1 cardId hr)
    exact (Kept.of_pileOp (f1.pop_trans f2)).kept_trans
      (Kept.of_deckOp f2.psound (DeckOp.of_pair (updateEntry_iso _ A code _ _ (fun _ => rfl))))

theorem selectPileCard_row {s : Store} (h : PileSound s) {p : Nat} {method : String}
    {pick cardId : Nat} {code : String} {nextId : Option Nat}
    (hok : selectPileCard s p method pick = .ok (cardId, code, nextId)) :
    RowOf s p cardId ∧ PilePtr s p nextId := by
  unfold selectPileCard at hok
  split_ifs at hok
  · cases hh : pileHead s p with
    | none => simp [hh] at hok
    | some c =>
      simp only [hh, Except.ok.injEq, Prod.mk.injEq] at hok
      obtain ⟨rfl, _, rfl⟩ := hok
      have hm : c ∈ s.pileCards := List.mem_of_find?_eq_some hh
      have hpp : c.pileId = p := by
        have := List.find?_some hh
        simp only [decide_eq_true_eq] at this
        exact this.1
      exact ⟨⟨c, hm, rfl, hpp⟩, hpp ▸ h.nextOwn c hm⟩
  · cases hh : s.pileCards.find? (fun c => c.pileId = p ∧ c.nextCardId = none) with
    | none =>
      rw [hh] at hok
      cases hok
    | some c =>
      simp only [hh, Except.ok.injEq, Prod.mk.injEq] at hok
      obtain ⟨rfl, _, rfl⟩ := hok
      have hm : c ∈ s.pileCards := List.mem_of_find?_eq_some hh
      have hpp : c.pileId = p := by
        have := List.find?_some hh
        simp only [decide_eq_true_eq] at this
        exact this.1
      exact ⟨⟨c, hm, rfl, hpp⟩, PilePtr.pptr_none s p⟩
  · cases hh : (s.pileCards.filter (fun c => c.pileId = p))[pick %
        (s.pileCards.filter (fun c => c.pileId = p)).length]? with
    | none => simp [hh] at hok
    | some c =>
      simp only [hh, Except.ok.injEq, Prod.mk.injEq] at hok
      obtain ⟨rfl, _, rfl⟩ := hok
      have hmf := List.getElem?_mem hh
      have hm : c ∈ s.pileCards := (List.mem_filter.1 hmf).1
      have hpp : c.pileId = p := by
        simpa using (List.mem_filter.1 hmf).2
      exact ⟨⟨c, hm, rfl, hpp⟩, hpp ▸ h.nextOwn c hm⟩

theorem drawFromPile_kept {s : Store} (h : PileSound s) (A name method : String)
    (pick : Nat) : Kept A s (DrawFromPile s A name method pick).1 := by
  unfold DrawFromPile
  cases hf : findPile s A name with
  | none => exact Kept.kept_refl h A
  | some p =>
    dsimp only
    cases hsel : selectPileCard s p.id method pick with
    | error e => exact Kept.kept_refl h A
    | ok r =>
      obtain ⟨cardId, code, nextId⟩ := r
      dsimp only
      obtain ⟨hr, hn⟩ := selectPileCard_row h hsel
      refine atomically_rel (Kept.kept_refl h A) ?_
      intro s' a hb
      cases h1 : unlinkPileCard s A (pilePrev s p.id cardId) cardId code nextId with
      | error e => simp [h1] at hb
      | ok s1 =>
        simp only [h1, Except.ok.injEq, Prod.mk.injEq] at hb
        rw [← hb.1]
        exact unlinkPileCard_kept h (pileOf_find hf) hr hn h1

theorem find_code_row {s : Store} {p : Nat} {code : String} {c : PileCardRow}
    (h : s.pileCards.find? (fun c => c.pileId = p ∧ c.code = code) = some c) :
    c ∈ s.pileCards ∧ c.pileId = p := by
  refine ⟨List.mem_of_find?_eq_some h, ?_⟩
  have := List.find?_some h
  simp only [decide_eq_true_eq] at this
  exact this.1

theorem drawSpecificFromPile_kept {s : Store} (h : PileSound s) (A name code : String) :
    Kept A s (DrawSpecificFromPile s A name code).1 := by
  unfold DrawSpecificFromPile
  cases hf : findPile s A name with
  | none => exact Kept.kept_refl h A
  | some p =>
    dsimp only
    cases hc : s.pileCards.find? (fun c => c.pileId = p.id ∧ c.code = code) with
    | none => exact Kept.kept_refl h A
    | some c =>
      dsimp only
      obtain ⟨hm, hpp⟩ := find_code_row hc
      refine atomically_rel (Kept.kept_refl h A) ?_
      intro s' a hb
      cases h1 : unlinkPileCard s A (pilePrev s p.id c.id) c.id code c.nextCardId with
      | error e => simp [h1] at hb
      | ok s1 =>
        simp only [h1, Except.ok.injEq, Prod.mk.injEq] at hb
        rw [← hb.1]
        exact unlinkPileCard_kept h (pileOf_find hf) ⟨c, hm, rfl, hpp⟩
          (hpp ▸ h.nextOwn c hm) h1

theorem returnSpecificFromPile_kept {s : Store} (h : PileSound s) (A name code : String) :
    Kept A s (ReturnSpecificFromPile s A name code).1 := by
  unfold ReturnSpecificFromPile
  cases hf : findPile s A name with
  | none => exact Kept.kept_refl h A
  | some p =>
    dsimp only
    cases hc : s.pileCards.find? (fun c => c.pileId = p.id ∧ c.code = code) with
    | none => exact Kept.kept_refl h A
    | some c =>
      dsimp only
      obtain ⟨hm, hpp⟩ := find_code_row hc
      refine atomically_rel (Kept.kept_refl h A) ?_
      intro s' a hb
      cases h1 : relinkPrev s (pilePrev s p.id c.id) c.nextCardId with
      | error e => simp [h1] at hb
      | ok s1 =>
        simp only [h1] at hb
        split_ifs at hb
        obtain ⟨f1, g1⟩ := relinkPrev_kept h (pileOf_find hf) (hpp ▸ h.nextOwn c hm) s rfl h1
        have f2 := deletePileCard_pop f1.psound (f1.pileOf p.id (pileOf_find hf))
          (g1 c.id ⟨c, hm, rfl, hpp⟩)
        have f3 := DeckOp.of_pair (updateEntry_iso (deletePileCard s1 c.id) A code
          (fun (e : DeckEntryRow) => decide (e.inPile > 0))
          (fun e => { e with inPile := e.inPile - 1, inDeck := e.inDeck + 1 }) (fun _ => rfl))
        generalize updateEntry (deletePileCard s1 c.id) A code
          (fun (e : DeckEntryRow) => decide (e.inPile > 0))
          (fun e => { e with inPile := e.inPile - 1, inDeck := e.inDeck + 1 }) = s3 at hb f3
        cases h4 : insertDeckCard s3 A code (deckTop s3 A) with
        | error e => simp [h4] at hb
        | ok r =>
          obtain ⟨s4, i⟩ := r
          simp only [h4] at hb
          cases h5 : setTopCard s4 A (some i) with
          | error e => simp [h5] at hb
          | ok s5 =>
            simp only [h5, Except.ok.injEq, Prod.mk.injEq] at hb
            rw [← hb.1]
            exact (Kept.of_pileOp (f1.pop_trans f2)).kept_trans
              (Kept.of_deckOp f2.psound ((f3.dop_trans
                (DeckOp.of_pair (insertDeckCard_iso h4))).dop_trans
                (DeckOp.of_pair (setTopCard_iso h5))))

theorem moveCounts_iso (A : String) (codes : List String) :
    ∀ (keys : List String) (s s1 : Store),
      moveCounts s A codes keys = .ok s1 → DeckOp A s s1 := by
  intro keys
  induction keys with
  | nil =>
    intro s s1 hok
    simp only [moveCounts, Except.ok.injEq] at hok
    rw [← hok]
    exact DeckOp.dop_refl A s
  | cons c cs ih =>
    intro s s1 hok
    simp only [moveCounts] at hok
    split_ifs at hok
    have f2 := ih _ s1 hok
    refine DeckOp.dop_trans (DeckOp.of_pair (updateEntry_iso s A c _ _ ?_)) f2
    intro e
    rfl

theorem checkCodes_iso (A : String) :
    ∀ (codes : List String) (s s1 : Store), checkCodes s A codes = .ok s1 → DeckOp A s s1 := by
  intro codes
  induction codes with
  | nil =>
    intro s s1 hok
    simp only [checkCodes, Except.ok.injEq] at hok
    rw [← hok]
    exact DeckOp.dop_refl A s
  | cons c cs ih =>
    intro s s1 hok
    simp only [checkCodes] at hok
    cases hf : findEntry s A c with
    | none => simp [hf] at hok
    | some e =>
      simp only [hf] at hok
      split_ifs at hok
      have f2 := ih _ s1 hok
      refine DeckOp.dop_trans (DeckOp.of_pair (updateEntry_iso s A c _ _ ?_)) f2
      intro e
      rfl

theorem pushPileCards_pop (A : String) (p : Nat) :
    ∀ (codes : List String) (s : Store) (top : Option Nat) (s1 : Store),
      PileSound s → PileOf s A p → PilePtr s p top →
      pushPileCards s p top codes = .ok s1 → PileOp A s s1 := by
  intro codes
  induction codes with
  | nil =>
    intro s top s1 h _ _ hok
    simp only [pushPileCards, Except.ok.injEq] at hok
    rw [← hok]
    exact PileOp.pop_refl h A
  | cons c cs ih =>
    intro s top s1 h hp hn hok
    simp only [pushPileCards] at hok
    cases h1 : insertPileCard s p c top with
    | error e => simp [h1] at hok
    | ok r =>
      obtain ⟨s2, i⟩ := r
      simp only [h1] at hok
      obtain ⟨f1, g1⟩ := insertPileCard_pop h hp hn h1
      exact f1.pop_trans (ih s2 (some i) s1 f1.psound (f1.pileOf p hp) g1 hok)

theorem pileIdFor_pop {s s2 : Store} {A name : String} {pid : Nat} (h : PileSound s)
    (hok : pileIdFor s A name = .ok (s2, pid)) : PileOp A s s2 ∧ PileOf s2 A pid := by
  unfold pileIdFor at hok
  cases hf : findPile s A name with
  | some p =>
    simp only [hf, Except.ok.injEq, Prod.mk.injEq] at hok
    obtain ⟨rfl, rfl⟩ := hok
    exact ⟨PileOp.pop_refl h A, pileOf_find hf⟩
  | none =>
    simp only [hf] at hok
    exact insertPile_pop h hok

theorem pileHead_ptr {s : Store} (h : PileSound s) (p : Nat) :
    PilePtr s p ((pileHead s p).map (fun c => c.id)) := by
  cases hh : pileHead s p with
  | none => exact PilePtr.pptr_none s p
  | some c =>
    have hm : c ∈ s.pileCards := List.mem_of_find?_eq_some hh
    have hpp : c.pileId = p := by
      have := List.find?_some hh
      simp only [decide_eq_true_eq] at this
      exact this.1
    exact hpp ▸ PilePtr.of_row h hm

theorem insertIntoPile_kept {s : Store} (h : PileSound s) (name A : String)
    (codes : List String) : Kept A s (InsertIntoPile s name A codes).1 := by
  unfold InsertIntoPile
  cases htx : insertIntoPileTx s name A codes with
  | error e => exact Kept.kept_refl h A
  | ok s' =>
    dsimp only
    unfold insertIntoPileTx at htx
    cases h1 : checkCodes s A codes with
    | error e => simp [h1] at htx
    | ok s1 =>
      simp only [h1] at htx
      cases h2 : pileIdFor s1 A name with
      | error e => simp [h2] at htx
      | ok r =>
        obtain ⟨s2, pid⟩ := r
        simp only [h2] at htx
        have k1 := Kept.of_deckOp h (checkCodes_iso A codes s s1 h1)
        obtain ⟨f2, g2⟩ := pileIdFor_pop k1.psound h2
        exact k1.kept_trans (Kept.of_pileOp (f2.pop_trans
          (pushPileCards_pop A pid codes s2 _ s' f2.psound g2 (pileHead_ptr f2.psound pid) htx)))

theorem returnAllFromPile_kept {s : Store} (h : PileSound s) (A name : String) :
    Kept A s (ReturnAllFromPile s A name).1 := by
  unfold ReturnAllFromPile
  cases hf : findPile s A name with
  | none => exact Kept.kept_refl h A
  | some p =>
    dsimp only
    refine atomically_rel (Kept.kept_refl h A) ?_
    intro s' a hb
    generalize pileCodesById s p.id = codes at hb
    cases h1 : moveCounts s A codes codes.dedup with
    | error e => simp [h1] at hb
    | ok s1 =>
      simp only [h1] at hb
      have k1 := Kept.of_deckOp h (moveCounts_iso A codes _ s s1 h1)
      have f2 := deletePileCardsOf_pop k1.psound (k1.pileOf p.id (pileOf_find hf))
      generalize deletePileCardsOf s1 p.id = s2 at hb f2
      cases h3 : pushDeckCards s2 A (deckTop s2 A) codes.reverse with
      | error e => simp [h3] at hb
      | ok r =>
        obtain ⟨s3, top⟩ := r
        simp only [h3] at hb
        cases h4 : commitTop s3 A top with
        | error e => simp [h4] at hb
        | ok s4 =>
          simp only [h4, Except.ok.injEq, Prod.mk.injEq] at hb
          rw [← hb.1]
          exact (k1.kept_trans (Kept.of_pileOp f2)).kept_trans
            (Kept.of_deckOp f2.psound
              ((pushDeckCards_iso A _ s2 _ s3 top h3).dop_trans (commitTop_iso h4)))

theorem linkPileCards_pop (A : String) (p : Nat) :
    ∀ (ids : List Nat) (s s1 : Store), PileSound s → PileOf s A p →
      (∀ i ∈ ids, RowOf s p i) → linkPileCards s ids = .ok s1 → PileOp A s s1 := by
  intro ids
  induction ids with
  | nil =>
    intro s s1 h _ _ hok
    simp only [linkPileCards, Except.ok.injEq] at hok
    rw [← hok]
    exact PileOp.pop_refl h A
  | cons i rest ih =>
    intro s s1 h hp hrows hok
    cases rest with
    | nil =>
      simp only [linkPileCards, Except.ok.injEq] at hok
      rw [← hok]
      exact PileOp.pop_refl h A
    | cons j rest =>
      simp only [linkPileCards] at hok
      cases h1 : setPileCardNext s i (some j) with
      | error e => simp [h1] at hok
      | ok s2 =>
        simp only [h1] at hok
        have hi := hrows i (List.mem_cons_self _ _)
        have hj := hrows j (List.mem_cons_of_mem _ (List.mem_cons_self _ _))
        have f1 := setPileCardNext_pop h hp (rowOf_pile h hi) (PilePtr.of_rowOf h hj) h1
        exact f1.pop_trans (ih s2 s1 f1.psound (f1.pileOf p hp)
          (fun k hk => setPileCardNext_rowOf (hrows k (List.mem_cons_of_mem _ hk)) h1) hok)

theorem shufflePiles_pop (A : String) (rnd : Nat → Nat → Nat) :
    ∀ (ps : List PileRow) (s : Store) (res : List (String × Nat)) (s1 : Store)
      (out : List (String × Nat)), PileSound s → (∀ p ∈ ps, PileOf s A p.id) →
      shufflePiles rnd s res ps = .ok (s1, out) → PileOp A s s1 := by
  intro ps
  induction ps with
  | nil =>
    intro s res s1 out h _ hok
    simp only [shufflePiles, Except.ok.injEq, Prod.mk.injEq] at hok
    rw [← hok.1]
    exact PileOp.pop_refl h A
  | cons p ps ih =>
    intro s res s1 out h hps hok
    simp only [shufflePiles] at hok
    split_ifs at hok with hlen
    · exact ih s _ s1 out h (fun q hq => hps q (List.mem_cons_of_mem _ hq)) hok
    · have hp := hps p (List.mem_cons_self _ _)
      have f1 := clearPileLinks_pop h hp
      have hrows : ∀ i ∈ shuffle (rnd p.id)
          (((s.pileCards.filter (fun c => c.pileId = p.id)).insertionSort
            (fun a b => a.id ≤ b.id)).map (fun c => c.id)),
          RowOf (clearPileLinks s p.id) p.id i := by
        intro i hi
        have h1 := shuffle_subset (rnd p.id) _ i hi
        obtain ⟨c, hc, rfl⟩ := List.mem_map.1 h1
        have h2 : c ∈ s.pileCards.filter (fun c => c.pileId = p.id) :=
          (List.perm_insertionSort _ _).mem_iff.1 hc
        have h3 := List.mem_filter.1 h2
        exact clearPileLinks_rowOf ⟨c, h3.1, rfl, by simpa using h3.2⟩
      cases h2 : linkPileCards (clearPileLinks s p.id) (shuffle (rnd p.id)
          (((s.pileCards.filter (fun c => c.pileId = p.id)).insertionSort
            (fun a b => a.id ≤ b.id)).map (fun c => c.id))) with
      | error e => simp [h2] at hok
      | ok s2 =>
        simp only [h2] at hok
        have f2 := linkPileCards_pop A p.id _ _ s2 f1.psound (f1.pileOf _ hp) hrows h2
        have f12 := f1.pop_trans f2
        exact f12.pop_trans (ih s2 _ s1 out f12.psound
          (fun q hq => f12.pileOf _ (hps q (List.mem_cons_of_mem _ hq))) hok)

theorem shuffleAllPiles_kept {s : Store} (h : PileSound s) (A : String)
    (rnd : Nat → Nat → Nat) : Kept A s (ShuffleAllPiles s A rnd).1 := by
  unfold ShuffleAllPiles
  refine atomically_rel (Kept.kept_refl h A) ?_
  intro s' a hb
  refine Kept.of_pileOp (shufflePiles_pop A rnd _ s [] s' a h ?_ hb)
  intro p hp
  have := List.mem_filter.1 hp
  exact ⟨p, this.1, rfl, by simpa using this.2⟩

theorem orderLoop_pop (A : String) (p : Nat) :
    ∀ (codes : List String) (s : Store) (prev : Option Nat), PileSound s → PileOf s A p →
      (∀ pr, prev = some pr → RowOf s p pr) → PileOp A s (orderLoop p s prev codes).1 := by
  intro codes
  induction codes with
  | nil =>
    intro s prev h _ _
    exact PileOp.pop_refl h A
  | cons code rest ih =>
    intro s prev h hp hprev
    simp only [orderLoop]
    cases hc : s.pileCards.find? (fun c => c.pileId = p ∧ c.code = code) with
    | none => exact PileOp.pop_refl h A
    | some c =>
      dsimp only
      obtain ⟨hm, hpp⟩ := find_code_row hc
      have hrc : RowOf s p c.id := ⟨c, hm, rfl, hpp⟩
      cases prev with
      | none =>
        dsimp only
        exact ih s (some c.id) h hp (fun pr e => by cases e; exact hrc)
      | some pr =>
        dsimp only
        cases h1 : setPileCardNext s pr (some c.id) with
        | error e => exact PileOp.pop_refl h A
        | ok s1 =>
          dsimp only
          have f1 := setPileCardNext_pop h hp (rowOf_pile h (hprev pr rfl))
            (PilePtr.of_rowOf h hrc) h1
          exact f1.pop_trans (ih s1 (some c.id) f1.psound (f1.pileOf p hp)
            (fun q e => by cases e; exact setPileCardNext_rowOf hrc h1))

theorem updatePileOrder_kept {s : Store} (h : PileSound s) (A name : String)
    (codes : List String) : Kept A s (UpdatePileOrder s A name codes).1 := by
  unfold UpdatePileOrder
  cases hf : findPile s A name with
  | none => exact Kept.kept_refl h A
  | some p =>
    dsimp only
    have f1 := clearPileLinks_pop h (pileOf_find hf)
    exact Kept.of_pileOp (f1.pop_trans (orderLoop_pop A p.id codes _ none f1.psound
      (f1.pileOf _ (pileOf_find hf)) (fun pr e => by cases e)))

/-! ### Isolation of every operation -/

theorem pileSound_empty : PileSound Store.empty := by
  refine ⟨?_, ?_, ?_, ?_, ?_⟩ <;> intro x hx <;> cases hx

theorem call_kept {s : Store} (hs : Sound s) (hp : PileSound s) (A : String) (c : Call) :
    Kept A s (c.run s A) := by
  cases c with
  | drawCards amount => exact Kept.of_deckOp hp (drawCards_iso hs A amount)
  | shuffleDeck rnd => exact Kept.of_deckOp hp (shuffleDeck_iso hs A rnd)
  | shuffleAllPiles rnd => exact shuffleAllPiles_kept hp A rnd
  | updatePileOrder name codes => exact updatePileOrder_kept hp A name codes
  | insertIntoPile name codes => exact insertIntoPile_kept hp name A codes
  | drawFromPile name method pick => exact drawFromPile_kept hp A name method pick
  | drawSpecificFromPile name code => exact drawSpecificFromPile_kept hp A name code
  | returnSpecificDrawn code => exact Kept.of_deckOp hp (returnSpecificDrawn_iso s A code)
  | returnAllDrawn => exact Kept.of_deckOp hp (returnAllDrawn_iso s A)
  | returnSpecificFromPile name code => exact returnSpecificFromPile_kept hp A name code
  | returnAllFromPile name => exact returnAllFromPile_kept hp A name

theorem call_reachable {s : Store} (h : Reachable s) (A : String) (c : Call) :
    Reachable (c.run s A) := by
  cases c with
  | drawCards amount => exact Reachable.drawCards s A amount h
  | shuffleDeck rnd => exact Reachable.shuffleDeck s A rnd h
  | shuffleAllPiles rnd => exact Reachable.shuffleAllPiles s A rnd h
  | updatePileOrder name codes => exact Reachable.updatePileOrder s A name codes h
  | insertIntoPile name codes => exact Reachable.insertIntoPile s name A codes h
  | drawFromPile name method pick => exact Reachable.drawFromPile s A name method pick h
  | drawSpecificFromPile name code => exact Reachable.drawSpecificFromPile s A name code h
  | returnSpecificDrawn code => exact Reachable.returnSpecificDrawn s A code h
  | returnAllDrawn => exact Reachable.returnAllDrawn s A h
  | returnSpecificFromPile name code => exact Reachable.returnSpecificFromPile s A name code h
  | returnAllFromPile name => exact Reachable.returnAllFromPile s A name h

/-- The pile tables of every store the engine can reach are sound. -/
theorem reachable_psound {s : Store} (h : Reachable s) : PileSound s := by
  induction h with
  | empty => exact pileSound_empty
  | insertDeck s rand cards hr ih =>
    exact (Kept.of_deckOp ih (insertDeck_iso (reachable_inv hr).sound rand cards)).psound
  | drawCards s d amount hr ih =>
    exact (call_kept (reachable_inv hr).sound ih d (.drawCards amount)).psound
  | shuffleDeck s d rnd hr ih =>
    exact (call_kept (reachable_inv hr).sound ih d (.shuffleDeck rnd)).psound
  | shuffleAllPiles s d rnd hr ih =>
    exact (call_kept (reachable_inv hr).sound ih d (.shuffleAllPiles rnd)).psound
  | updatePileOrder s d name codes hr ih =>
    exact (call_kept (reachable_inv hr).sound ih d (.updatePileOrder name codes)).psound
  | insertIntoPile s name d codes hr ih =>
    exact (call_kept (reachable_inv hr).sound ih d (.insertIntoPile name codes)).psound
  | drawFromPile s d name method pick hr ih =>
    exact (call_kept (reachable_inv hr).sound ih d (.drawFromPile name method pick)).psound
  | drawSpecificFromPile s d name code hr ih =>
    exact (call_kept (reachable_inv hr).sound ih d (.drawSpecificFromPile name code)).psound
  | returnSpecificDrawn s d code hr ih =>
    exact (call_kept (reachable_inv hr).sound ih d (.returnSpecificDrawn code)).psound
  | returnAllDrawn s d hr ih =>
    exact (call_kept (reachable_inv hr).sound ih d .returnAllDrawn).psound
  | returnSpecificFromPile s d name code hr ih =>
    exact (call_kept (reachable_inv hr).sound ih d (.returnSpecificFromPile name code)).psound
  | returnAllFromPile s d name hr ih =>
    exact (call_kept (reachable_inv hr).sound ih d (.returnAllFromPile name)).psound

theorem call_view {s : Store} (h : Reachable s) {A B : String} (hAB : A ≠ B) (c : Call) :
    viewOf (c.run s A) B = viewOf s B := by
  have k := call_kept (reachable_inv h).sound (reachable_psound h) A c
  exact viewOf_eq (fun e => hAB e.symm) k.deck k.pile

theorem runAll_view (B : String) :
    ∀ (calls : List (String × Call)) (s : Store), Reachable s →
      (∀ x ∈ calls, x.1 ≠ B) → viewOf (runAll s calls) B = viewOf s B := by
  intro calls
  induction calls with
  | nil =>
    intro s _ _
    rfl
  | cons x rest ih =>
    intro s h hx
    show viewOf (runAll (x.2.run s x.1) rest) B = _
    rw [ih _ (call_reachable h x.1 x.2) (fun y hy => hx y (List.mem_cons_of_mem _ hy))]
    exact call_view h (hx x (List.mem_cons_self _ _)) x.2

/-- The count `CardsInPile` reads only the view of the deck. -/
theorem cardsInPile_view (s : Store) (B name : String) :
    CardsInPile s B name =
      (((viewOf s B).piles.filter (fun p => p.name = name)).map
        (fun p => ((viewOf s B).pileCards.filter (fun c => c.pileId = p.id)).length)).sum := by
  unfold CardsInPile viewOf
  dsimp only
  have h1 : s.piles.filter (fun p => decide (p.deckId = B ∧ p.name = name)) =
      (s.piles.filter (fun p => p.deckId = B)).filter (fun p => p.name = name) := by
    rw [List.filter_filter]
    congr 1
    funext p
    simp only [Bool.decide_and, Bool.and_comm]
  rw [h1]
  congr 1
  apply List.map_congr_left
  intro p hp
  have hp1 := List.mem_filter.1 (List.mem_filter.1 hp).1
  rw [filter_filter_of_imp]
  intro c _ hc
  simp only [decide_eq_true_eq] at hc
  simp only [ownedBy, List.any_eq_true, decide_eq_true_eq]
  exact ⟨p, hp1.1, hc.symm, by simpa using hp1.2⟩

/-- C20. Isolation.  In every store the engine can reach, a call of any engine operation on
a deck `A`, whether it succeeds or fails, leaves everything the store holds for another
deck `B` as it was: the `Deck` row of `B` with `topCardId` and `shuffled`, its `DeckCard`
rows with their links and in their order, its piles, the `PileCard` rows of its piles with
their links, and its `DeckEntry` rows; `CardsInDeck(B)` and `CardsInPile(B, name)` keep
their values.  The same holds of any sequence of calls on decks other than `B`, hence
`CardsInDeck(B)` never exceeds a bound it met before them. -/
theorem isolation_between_decks (s : Store) (B : String) (hs : Reachable s) :
    (∀ (A : String) (c : Call), A ≠ B →
      viewOf (c.run s A) B = viewOf s B ∧
        CardsInDeck (c.run s A) B = CardsInDeck s B ∧
        ∀ name, CardsInPile (c.run s A) B name = CardsInPile s B name) ∧
    (∀ calls : List (String × Call), (∀ x ∈ calls, x.1 ≠ B) →
      viewOf (runAll s calls) B = viewOf s B ∧
        ∀ n, CardsInDeck s B ≤ n → CardsInDeck (runAll s calls) B ≤ n) := by
  constructor
  · intro A c hAB
    have hv := call_view hs hAB c
    refine ⟨hv, cardsInDeck_of_view hv, fun name => ?_⟩
    rw [cardsInPile_view, cardsInPile_view, hv]
  · intro calls hc
    have hv := runAll_view B calls s hs hc
    refine ⟨hv, fun n hn => ?_⟩
    rw [cardsInDeck_of_view hv]
    exact hn

theorem isolation_between_decks_witness :
    viewOf twoDeckStore "bcdefghijklm" =
        { decks := [⟨"bcdefghijklm", some 4, false⟩],
          deckCards := [⟨4, "bcdefghijklm", "3C", none⟩],
          piles := [⟨1, "bcdefghijklm", "discard"⟩],
          pileCards := [⟨1, 1, "2C", none⟩],
          entries := [⟨"bcdefghijklm", "2C", 1, 0, 1⟩, ⟨"bcdefghijklm", "3C", 1, 1, 0⟩] } ∧
      (runAll twoDeckStore otherDeckCalls).seqDeckCard = 5 ∧
      viewOf (runAll twoDeckStore otherDeckCalls) "bcdefghijklm" =
        viewOf twoDeckStore "bcdefghijklm" ∧
      ∀ n, CardsInDeck twoDeckStore "bcdefghijklm" ≤ n →
        CardsInDeck (runAll twoDeckStore otherDeckCalls) "bcdefghijklm" ≤ n :=
  ⟨by decide, by decide,
    (isolation_between_decks twoDeckStore "bcdefghijklm"
      (Reachable.insertIntoPile _ _ _ _
        (Reachable.drawCards _ _ _
          (Reachable.insertDeck _ _ _ (Reachable.insertDeck _ _ _ Reachable.empty))))).2
      otherDeckCalls (by decide)⟩

/-! ## Deck tokens -/

theorem randomBase62_length (n : Nat) (bytes : Nat → Nat) :
    (randomBase62 n bytes).length = n := by
  show ((List.range n).map _).length = n
  rw [List.length_map, List.length_range]

theorem base62_length : base62.length = 62 := by decide

theorem randomBase62_chars (n : Nat) (bytes : Nat → Nat) :
    ∀ c ∈ (randomBase62 n bytes).toList, c ∈ base62 := by
  intro c hc
  have hc' : c ∈ (List.range n).map
      (fun i => base62.getD ((bytes i % 256) % base62.length) 'a') := hc
  obtain ⟨i, _, rfl⟩ := List.mem_map.1 hc'
  have hlt : (bytes i % 256) % base62.length < base62.length :=
    Nat.mod_lt _ (by rw [base62_length]; decide)
  rw [List.getD_eq_getElem _ _ hlt]
  exact List.getElem_mem _

theorem randomBase62_ne_empty (bytes : Nat → Nat) : randomBase62 12 bytes ≠ "" := by
  intro h
  have := randomBase62_length 12 bytes
  rw [h] at this
  cases this

/-- The loop over the candidates either finds every candidate taken and yields the empty
string, or yields the first candidate that is no deck id. -/
theorem tokenLoop_cases (s : Store) (rand : Nat → Nat → Nat) :
    ∀ (fuel tries : Nat),
      (tokenLoop s rand fuel tries = "" ∧
        ∀ t, tries ≤ t → t < tries + fuel →
          s.deckExists (randomBase62 12 (rand t)) = true) ∨
      (∃ t, tries ≤ t ∧ t < tries + fuel ∧
        tokenLoop s rand fuel tries = randomBase62 12 (rand t) ∧
        s.deckExists (randomBase62 12 (rand t)) = false ∧
        ∀ t', tries ≤ t' → t' < t → s.deckExists (randomBase62 12 (rand t')) = true) := by
  intro fuel
  induction fuel with
  | zero =>
    intro tries
    left
    refine ⟨rfl, ?_⟩
    intro t h1 h2
    omega
  | succ n ih =>
    intro tries
    simp only [tokenLoop]
    split_ifs with hc
    · right
      refine ⟨tries, le_refl _, by omega, rfl, ?_, ?_⟩
      · simp only [List.length_eq_zero, List.filter_eq_nil_iff, decide_eq_true_eq] at hc
        simp only [Store.deckExists, List.any_eq_false, decide_eq_true_eq]
        exact hc
      · intro t' h1 h2
        omega
    · have hex : s.deckExists (randomBase62 12 (rand tries)) = true := by
        simp only [List.length_eq_zero, List.filter_eq_nil_iff, decide_eq_true_eq,
          not_forall, not_not] at hc
        obtain ⟨r, hr, hrd⟩ := hc
        simp only [Store.deckExists, List.any_eq_true, decide_eq_true_eq]
        exact ⟨r, hr, hrd⟩
      rcases ih (tries + 1) with ⟨h1, h2⟩ | ⟨t, h1, h2, h3, h4, h5⟩
      · left
        refine ⟨h1, ?_⟩
        intro t ht1 ht2
        by_cases he : t = tries
        · rw [he]
          exact hex
        · exact h2 t (by omega) (by omega)
      · right
        refine ⟨t, by omega, by omega, h3, h4, ?_⟩
        intro t' ht1 ht2
        by_cases he : t' = tries
        · rw [he]
          exact hex
        · exact h5 t' (by omega) ht2

theorem insertDeckTx_token {s s' : Store} {tok a : String} {cards : List String}
    (h : insertDeckTx s tok cards = .ok (s', a)) : a = tok := by
  unfold insertDeckTx at h
  cases h1 : insertDeckRow s tok with
  | error e => simp [h1] at h
  | ok s1 =>
    simp only [h1] at h
    cases h2 : insertCards s1 tok cards with
    | error e => simp [h2] at h
    | ok r =>
      obtain ⟨s2, ids⟩ := r
      simp only [h2] at h
      cases h3 : linkCards s2 ids with
      | error e => simp [h3] at h
      | ok s3 =>
        simp only [h3] at h
        cases h4 : commitTop s3 tok ids.head? with
        | error e => simp [h4] at h
        | ok s4 =>
          simp only [h4] at h
          cases h5 : insertEntries s4 tok cards cards.dedup with
          | error e => simp [h5] at h
          | ok s5 =>
            simp only [h5, Except.ok.injEq, Prod.mk.injEq] at h
            exact h.2.symm

theorem insertDeck_result {s : Store} {rand : Nat → Nat → Nat} {cards : List String}
    {tok : String} (hok : (InsertDeck s rand cards).2 = .ok tok) :
    tokenLoop s rand 30 0 ≠ "" ∧ tok = tokenLoop s rand 30 0 := by
  have hne := insertDeck_ok hok
  refine ⟨hne, ?_⟩
  unfold InsertDeck at hok
  rw [if_neg hne] at hok
  cases hb : insertDeckTx s (tokenLoop s rand 30 0) cards with
  | error e => simp [atomically, hb] at hok
  | ok r =>
    obtain ⟨s', a⟩ := r
    simp only [atomically, hb, Except.ok.injEq] at hok
    rw [← hok]
    exact insertDeckTx_token hb

/-- C22. A deck id returned by `InsertDeck` has exactly 12 characters, each from the
62-character alphabet `base62` (letters and digits; the index `byte % 62` is always in
range), and is the id of no deck of the store; it is the first of at most 30 candidates
that collides with no deck id.  When all 30 candidates collide, `InsertDeck` fails and
leaves the store as it was: no `Deck`, `DeckCard` or `DeckEntry` row is created. -/
theorem insertDeck_token (s : Store) (rand : Nat → Nat → Nat) (cards : List String) :
    (∀ tok, (InsertDeck s rand cards).2 = .ok tok →
      tok.length = 12 ∧ (∀ c ∈ tok.toList, c ∈ base62) ∧ (∀ r ∈ s.decks, r.deckId ≠ tok) ∧
      ∃ t, t < 30 ∧ tok = randomBase62 12 (rand t) ∧
        ∀ t', t' < t → s.deckExists (randomBase62 12 (rand t')) = true) ∧
    ((∀ t, t < 30 → s.deckExists (randomBase62 12 (rand t)) = true) →
      InsertDeck s rand cards = (s, .error .idExhausted)) ∧
    (base62.length = 62 ∧ base62.Nodup ∧ base62.all Char.isAlphanum = true ∧
      ∀ b : Nat, (b % 256) % base62.length < base62.length) := by
  refine ⟨?_, ?_, base62_length, by decide, by decide, ?_⟩
  · intro tok hok
    obtain ⟨hne, rfl⟩ := insertDeck_result hok
    rcases tokenLoop_cases s rand 30 0 with ⟨h1, _⟩ | ⟨t, _, h2, h3, h4, h5⟩
    · exact absurd h1 hne
    · rw [h3]
      refine ⟨randomBase62_length 12 _, randomBase62_chars 12 _, ?_,
        t, by omega, rfl, fun t' ht' => h5 t' (Nat.zero_le _) ht'⟩
      intro r hr heq
      simp only [Store.deckExists, List.any_eq_false, decide_eq_true_eq] at h4
      exact h4 r hr heq
  · intro hall
    rcases tokenLoop_cases s rand 30 0 with ⟨h1, _⟩ | ⟨t, _, h2, _, h4, _⟩
    · unfold InsertDeck
      rw [if_pos h1]
    · rw [hall t (by omega)] at h4
      cases h4
  · intro b
    exact Nat.mod_lt _ (by rw [base62_length]; decide)

theorem insertDeck_token_witness :
    (InsertDeck drawWitnessStore (fun t i => t + i) ["AS"]).2 = .ok "abcdefghijkl" ∧
      InsertDeck (InsertDeck Store.empty (fun _ i => i) ["AS"]).1 (fun _ i => i) ["KD"] =
        ((InsertDeck Store.empty (fun _ i => i) ["AS"]).1, .error .idExhausted) ∧
      "abcdefghijkl".length = 12 ∧ (∀ c ∈ "abcdefghijkl".toList, c ∈ base62) ∧
      (∀ r ∈ drawWitnessStore.decks, r.deckId ≠ "abcdefghijkl") ∧
      ∃ t, t < 30 ∧ "abcdefghijkl" = randomBase62 12 ((fun t i => t + i) t) ∧
        ∀ t', t' < t →
          drawWitnessStore.deckExists (randomBase62 12 ((fun t i => t + i) t')) = true :=
  ⟨by decide, by decide,
    (insertDeck_token drawWitnessStore (fun t i => t + i) ["AS"]).1 "abcdefghijkl"
      (by decide)⟩

/-! ## Card codes of `models/card.go`

A Go string is a sequence of bytes; `len` counts bytes and `code[i]` is a byte.  The model
takes a string as the list of its bytes. -/

theorem mapGet_rune_high (m : List (String × String))
    (hm : ∀ kv ∈ m, ∀ z ∈ goBytes kv.1, z < 128) (b : Nat) (hb : ¬ b < 128) :
    mapGet m (runeString b) = none := by
  unfold mapGet runeString
  rw [if_neg hb, Option.map_eq_none', List.find?_eq_none]
  intro kv hkv
  simp only [decide_eq_true_eq]
  intro heq
  have := hm kv hkv (192 + b / 64) (by rw [heq]; exact List.mem_cons_self _ _)
  omega

theorem values_ascii : ∀ kv ∈ values, ∀ z ∈ goBytes kv.1, z < 128 := by decide

theorem suits_ascii : ∀ kv ∈ suits, ∀ z ∈ goBytes kv.1, z < 128 := by decide

theorem values_low :
    ∀ b, b < 128 → ((mapGet values (runeString b)).isSome = true ↔ b ∈ rankBytes) := by
  decide

theorem suits_low :
    ∀ b, b < 128 → ((mapGet suits (runeString b)).isSome = true ↔ b ∈ suitBytes) := by
  decide

theorem values_key (b : Nat) :
    (mapGet values (runeString b)).isSome = true ↔ b ∈ rankBytes := by
  by_cases hb : b < 128
  · exact values_low b hb
  · rw [mapGet_rune_high values values_ascii b hb]
    constructor
    · intro h
      cases h
    · intro h
      have : ∀ x ∈ rankBytes, x < 128 := by decide
      exact absurd (this b h) hb

theorem suits_key (b : Nat) :
    (mapGet suits (runeString b)).isSome = true ↔ b ∈ suitBytes := by
  by_cases hb : b < 128
  · exact suits_low b hb
  · rw [mapGet_rune_high suits suits_ascii b hb]
    constructor
    · intro h
      cases h
    · intro h
      have : ∀ x ∈ suitBytes, x < 128 := by decide
      exact absurd (this b h) hb

theorem codeValid_two {a b : Nat} (h : CodeValid [a, b] = true) :
    a ∈ rankBytes ∧ b ∈ suitBytes ++ ['R'.toNat, 'B'.toNat] := by
  unfold CodeValid at h
  simp only [List.length_cons, List.length_nil, Nat.reduceAdd, if_true] at h
  have ha0 : [a, b].getD 0 0 = a := rfl
  have hb0 : [a, b].getD 1 0 = b := rfl
  rw [ha0, hb0] at h
  split_ifs at h with h1 h2
  · have hsome : (mapGet values (runeString a)).isSome = true := by
      cases hm : mapGet values (runeString a) with
      | none => simp [hm] at h1
      | some v => rfl
    refine ⟨(values_key a).1 hsome, ?_⟩
    simp only [Bool.or_eq_true, decide_eq_true_eq] at h
    rcases h with h | h
    · rw [h]
      decide
    · rw [h]
      decide
  · have hsome : (mapGet values (runeString a)).isSome = true := by
      cases hm : mapGet values (runeString a) with
      | none => simp [hm] at h1
      | some v => rfl
    exact ⟨(values_key a).1 hsome, List.mem_append_left _ ((suits_key b).1 h)⟩

theorem codeValid_three {a b c : Nat} (h : CodeValid [a, b, c] = true) :
    a = '1'.toNat ∧ b = '0'.toNat ∧ c ∈ suitBytes := by
  unfold CodeValid at h
  simp only [List.length_cons, List.length_nil, Nat.reduceAdd, Nat.reduceEqDiff,
    if_false, if_true] at h
  have hc0 : [a, b, c].getD 2 0 = c := rfl
  have ht : List.take 2 [a, b, c] = [a, b] := rfl
  have h10 : goBytes "10" = ['1'.toNat, '0'.toNat] := by decide
  rw [hc0, ht, h10] at h
  split_ifs at h with h1
  simp only [List.cons.injEq, and_true] at h1
  refine ⟨h1.1, h1.2, (suits_key c).1 ?_⟩
  cases hm : mapGet suits (runeString c) with
  | none => simp [hm] at h
  | some v => rfl

theorem codeValid_pairs :
    ∀ a ∈ rankBytes, ∀ b ∈ suitBytes ++ ['R'.toNat, 'B'.toNat],
      CodeValid [a, b] = true → [a, b] ∈ validCodes.map goBytes := by
  decide

theorem codeValid_tens :
    ∀ c ∈ suitBytes, ['1'.toNat, '0'.toNat, c] ∈ validCodes.map goBytes := by
  decide

theorem codeValid_listed : ∀ code ∈ validCodes.map goBytes, CodeValid code = true := by
  decide

/-- C24. `CodeValid` is true of exactly the 54 codes `validCodes`: a rank among
`A, 2, ..., 9, J, Q, K` followed by a suit among `S, H, D, C`, `10` followed by a suit, and
the jokers `ZR` and `ZB`; of every other string it is false, in particular of the empty
string, of one-character strings, of lower-case codes, of `Z` followed by a suit, of a rank
followed by `R` or `B`, and of three-character strings that do not start with `10`. -/
theorem codeValid_exactly (code : List Nat) :
    (CodeValid code = true ↔ code ∈ validCodes.map goBytes) ∧
      validCodes.length = 54 ∧ (validCodes.map goBytes).Nodup ∧
      CodeValid (goBytes "") = false ∧ CodeValid (goBytes "A") = false ∧
      CodeValid (goBytes "as") = false ∧ CodeValid (goBytes "ZS") = false ∧
      CodeValid (goBytes "AR") = false ∧ CodeValid (goBytes "KB") = false ∧
      CodeValid (goBytes "11S") = false ∧ CodeValid (goBytes "1SS") = false ∧
      CodeValid (goBytes "10R") = false ∧ CodeValid (goBytes "10SS") = false := by
  refine ⟨⟨?_, codeValid_listed code⟩, by decide, by decide, by decide, by decide,
    by decide, by decide, by decide, by decide, by decide, by decide, by decide, by decide⟩
  intro h
  match code, h with
  | [], h => simp [CodeValid] at h
  | [a], h => simp [CodeValid] at h
  | [a, b], h =>
    obtain ⟨ha, hb⟩ := codeValid_two h
    exact codeValid_pairs a ha b hb h
  | [a, b, c], h =>
    obtain ⟨rfl, rfl, hc⟩ := codeValid_three h
    exact codeValid_tens c hc
  | a :: b :: c :: d :: rest, h => simp [CodeValid] at h

theorem getValue_listed :
    ∀ c ∈ validCodes.map goBytes, GetValue id id c = .ok (rankName (rankOf c)) := by
  decide

theorem getSuit_listed :
    ∀ c ∈ validCodes.map goBytes,
      (c ≠ goBytes "ZR" → c ≠ goBytes "ZB" → GetSuit id id c = .ok (suitName c)) ∧
      (c = goBytes "ZR" ∨ c = goBytes "ZB" →
        GetSuit id id c = .error (.couleurInvalide (c.drop 1))) := by
  decide

/-- C25. With `c = ToUpper(TrimSpace(s))`, `GetValue(s)` returns an error exactly when
`CodeValid(c)` is false; otherwise it returns the name of the rank of `c`, the first two
characters of a three-character code and the first character otherwise: `1` for `A`, the
same digits for `2` to `10`, `VALET`, `REINE`, `ROI` for `J`, `Q`, `K` and `JOKER` for
`Z`. -/
theorem getValue_rank_name (toUpper trimSpace : List Nat → List Nat) (s : List Nat) :
    ((∃ e, GetValue toUpper trimSpace s = .error e) ↔
        CodeValid (toUpper (trimSpace s)) = false) ∧
      (CodeValid (toUpper (trimSpace s)) = true →
        GetValue toUpper trimSpace s = .ok (rankName (rankOf (toUpper (trimSpace s))))) ∧
      rankName (goBytes "A") = "1" ∧ rankName (goBytes "2") = "2" ∧
      rankName (goBytes "9") = "9" ∧ rankName (goBytes "10") = "10" ∧
      rankName (goBytes "J") = "VALET" ∧ rankName (goBytes "Q") = "REINE" ∧
      rankName (goBytes "K") = "ROI" ∧ rankName (goBytes "Z") = "JOKER" := by
  have hcore : GetValue toUpper trimSpace s = GetValue id id (toUpper (trimSpace s)) := rfl
  have hval : CodeValid (toUpper (trimSpace s)) = true →
      GetValue toUpper trimSpace s = .ok (rankName (rankOf (toUpper (trimSpace s)))) := by
    intro h
    rw [hcore]
    exact getValue_listed _ ((codeValid_exactly _).1.1 h)
  refine ⟨⟨?_, ?_⟩, hval, by decide, by decide, by decide, by decide, by decide, by decide,
    by decide, by decide⟩
  · rintro ⟨e, he⟩
    cases hv : CodeValid (toUpper (trimSpace s)) with
    | false => rfl
    | true =>
      rw [hval hv] at he
      cases he
  · intro h
    refine ⟨.codeInvalide, ?_⟩
    unfold GetValue
    rw [h]
    rfl

theorem getValue_rank_name_witness :
    CodeValid (asciiUpper (asciiTrim (goBytes " 10h "))) = true ∧
      GetValue asciiUpper asciiTrim (goBytes " 10h ") =
        .ok (rankName (rankOf (asciiUpper (asciiTrim (goBytes " 10h "))))) ∧
      rankName (rankOf (asciiUpper (asciiTrim (goBytes " 10h ")))) = "10" ∧
      GetValue asciiUpper asciiTrim (goBytes "1h") = .error .codeInvalide :=
  ⟨by decide,
    (getValue_rank_name asciiUpper asciiTrim (goBytes " 10h ")).2.1 (by decide),
    by decide, by decide⟩

/-- C26. With `c = ToUpper(TrimSpace(s))`, `GetSuit(s)` succeeds exactly when
`CodeValid(c)` holds and `c` is not a joker, and then returns the name of the last
character of `c`: `PIQUE` for `S`, `COEUR` for `H`, `CARREAU` for `D`, `TREFLE` for `C`;
for the jokers `ZR` and `ZB` and for every invalid code it returns an error. -/
theorem getSuit_suit_name (toUpper trimSpace : List Nat → List Nat) (s : List Nat) :
    ((∃ v, GetSuit toUpper trimSpace s = .ok v) ↔
        (CodeValid (toUpper (trimSpace s)) = true ∧
          toUpper (trimSpace s) ≠ goBytes "ZR" ∧ toUpper (trimSpace s) ≠ goBytes "ZB")) ∧
      (∀ v, GetSuit toUpper trimSpace s = .ok v → v = suitName (toUpper (trimSpace s))) ∧
      (CodeValid (toUpper (trimSpace s)) = false ∨
          toUpper (trimSpace s) = goBytes "ZR" ∨ toUpper (trimSpace s) = goBytes "ZB" →
        ∃ e, GetSuit toUpper trimSpace s = .error e) ∧
      suitName (goBytes "AS") = "PIQUE" ∧ suitName (goBytes "10H") = "COEUR" ∧
      suitName (goBytes "KD") = "CARREAU" ∧ suitName (goBytes "2C") = "TREFLE" := by
  have hcore : GetSuit toUpper trimSpace s = GetSuit id id (toUpper (trimSpace s)) := rfl
  have hbad : CodeValid (toUpper (trimSpace s)) = false →
      GetSuit toUpper trimSpace s = .error .codeInvalide := by
    intro h
    unfold GetSuit
    rw [h]
    rfl
  have hjoker : toUpper (trimSpace s) = goBytes "ZR" ∨ toUpper (trimSpace s) = goBytes "ZB" →
      ∃ e, GetSuit toUpper trimSpace s = .error e := by
    intro h
    have hmem : toUpper (trimSpace s) ∈ validCodes.map goBytes := by
      rcases h with h | h <;> rw [h] <;> decide
    exact ⟨_, hcore.trans ((getSuit_listed _ hmem).2 h)⟩
  have hgood : CodeValid (toUpper (trimSpace s)) = true →
      toUpper (trimSpace s) ≠ goBytes "ZR" → toUpper (trimSpace s) ≠ goBytes "ZB" →
      GetSuit toUpper trimSpace s = .ok (suitName (toUpper (trimSpace s))) := by
    intro h h1 h2
    exact hcore.trans ((getSuit_listed _ ((codeValid_exactly _).1.1 h)).1 h1 h2)
  have hiff : (∃ v, GetSuit toUpper trimSpace s = .ok v) →
      (CodeValid (toUpper (trimSpace s)) = true ∧
        toUpper (trimSpace s) ≠ goBytes "ZR" ∧ toUpper (trimSpace s) ≠ goBytes "ZB") := by
    rintro ⟨v, hv⟩
    refine ⟨?_, ?_, ?_⟩
    · cases hc : CodeValid (toUpper (trimSpace s)) with
      | true => rfl
      | false =>
        rw [hbad hc] at hv
        cases hv
    · intro h
      obtain ⟨e, he⟩ := hjoker (Or.inl h)
      rw [he] at hv
      cases hv
    · intro h
      obtain ⟨e, he⟩ := hjoker (Or.inr h)
      rw [he] at hv
      cases hv
  refine ⟨⟨hiff, fun h => ⟨_, hgood h.1 h.2.1 h.2.2⟩⟩, ?_, ?_, by decide, by decide,
    by decide, by decide⟩
  · intro v hv
    obtain ⟨h0, h1, h2⟩ := hiff ⟨v, hv⟩
    rw [hgood h0 h1 h2] at hv
    exact (Except.ok.inj hv).symm
  · rintro (h | h)
    · exact ⟨_, hbad h⟩
    · exact hjoker h

theorem getSuit_suit_name_witness :
    GetSuit asciiUpper asciiTrim (goBytes "zr") = .error (.couleurInvalide (goBytes "R")) ∧
      GetSuit asciiUpper asciiTrim (goBytes " 10h ") = .ok "COEUR" ∧
      ∃ e, GetSuit asciiUpper asciiTrim (goBytes "ZB") = .error e :=
  ⟨by decide, by decide,
    (getSuit_suit_name asciiUpper asciiTrim (goBytes "ZB")).2.2.1 (Or.inr (Or.inr (by decide)))⟩

/-! ## NewMultiDeck -/

theorem length_flatMap_const {α : Type} (P : List α) :
    ∀ n : Nat, ((List.range n).flatMap (fun _ => P)).length = n * P.length := by
  intro n
  induction n with
  | zero => simp
  | succ n ih =>
    rw [List.range_succ, List.flatMap_append, List.length_append, ih]
    simp [Nat.succ_mul]

theorem count_flatMap_const (P : List String) (c : String) :
    ∀ n : Nat, ((List.range n).flatMap (fun _ => P)).count c = n * P.count c := by
  intro n
  induction n with
  | zero => simp
  | succ n ih =>
    rw [List.range_succ, List.flatMap_append, List.count_append, ih]
    simp [Nat.succ_mul]

theorem mem_flatMap_const {α : Type} (P : List α) (n : Nat) :
    ∀ c ∈ (List.range n).flatMap (fun _ => P), c ∈ P := by
  intro c hc
  obtain ⟨_, _, h⟩ := List.mem_flatMap.1 hc
  exact h

theorem packetCodes_valid :
    ∀ jokers : Bool, ∀ c ∈ packetCodes jokers, CodeValid (goBytes c) = true := by
  decide

theorem packetCodes_nodup : ∀ jokers : Bool, (packetCodes jokers).Nodup := by
  decide

theorem packetCodes_length :
    ∀ jokers : Bool, (packetCodes jokers).length = 52 + (if jokers then 2 else 0) := by
  decide

/-- C27. For every `number ≥ 0` and every `jokers`, the cards of
`NewMultiDeck(number, jokers)` are `number * (52 + (2 if jokers else 0))` codes, each of
them satisfies `CodeValid`, each of the 52 (54 with jokers) distinct codes of a packet
occurs exactly `number` times and no other code occurs, and `NPackets = number`; the
cards of `NewMultiDeck(1, false)` are 52 pairwise distinct codes. -/
theorem newMultiDeck_cards (number : Int) (jokers : Bool) (h : 0 ≤ number) :
    ((NewMultiDeck number jokers).Cards.length : Int) =
        number * (52 + (if jokers then 2 else 0)) ∧
      (∀ c ∈ (NewMultiDeck number jokers).Cards, CodeValid (goBytes c) = true) ∧
      (packetCodes jokers).Nodup ∧
      (packetCodes jokers).length = 52 + (if jokers then 2 else 0) ∧
      (∀ c ∈ packetCodes jokers, ((NewMultiDeck number jokers).Cards.count c : Int) = number) ∧
      (∀ c ∈ (NewMultiDeck number jokers).Cards, c ∈ packetCodes jokers) ∧
      (NewMultiDeck number jokers).NPackets = number ∧
      (NewMultiDeck 1 false).Cards.Nodup ∧ (NewMultiDeck 1 false).Cards.length = 52 := by
  have hn : ((number.toNat : Nat) : Int) = number := Int.toNat_of_nonneg h
  refine ⟨?_, ?_, packetCodes_nodup jokers, packetCodes_length jokers, ?_, ?_, rfl,
    by decide, by decide⟩
  · show ((((List.range number.toNat).flatMap (fun _ => packetCodes jokers)).length : Nat) :
      Int) = _
    rw [length_flatMap_const, packetCodes_length]
    push_cast
    rw [hn]
  · intro c hc
    exact packetCodes_valid jokers c (mem_flatMap_const _ _ c hc)
  · intro c hc
    show ((((List.range number.toNat).flatMap (fun _ => packetCodes jokers)).count c : Nat) :
      Int) = _
    rw [count_flatMap_const, List.count_eq_one_of_mem (packetCodes_nodup jokers) hc,
      Nat.mul_one, hn]
  · intro c hc
    exact mem_flatMap_const _ _ c hc

theorem newMultiDeck_cards_witness :
    ((NewMultiDeck 2 true).Cards.length : Int) = 2 * (52 + (if true then 2 else 0)) ∧
      (NewMultiDeck 2 true).Cards.length = 108 ∧
      (NewMultiDeck 2 true).Cards.count "10H" = 2 ∧
      (NewMultiDeck 2 true).Cards.count "ZR" = 2 ∧
      (NewMultiDeck 2 false).Cards.count "ZR" = 0 :=
  ⟨(newMultiDeck_cards 2 true (by decide)).1, by decide, by decide, by decide, by decide⟩

/-! ## The traversal of `GetPileCards` on arbitrary rows -/

theorem visited_length_le (cards : List PileCardRow) (visited : List Nat)
    (hnd : visited.Nodup) (hsub : ∀ v ∈ visited, v ∈ cards.map (fun c => c.id)) :
    visited.length ≤ cards.length := by
  have := (List.subperm_of_subset hnd hsub).length_le
  rwa [List.length_map] at this

theorem find_id_mem {cards : List PileCardRow} {i : Nat} {c : PileCardRow}
    (h : cards.find? (fun c => c.id = i) = some c) : i ∈ cards.map (fun c => c.id) := by
  have h1 : c ∈ cards := List.mem_of_find?_eq_some h
  have h2 : c.id = i := by simpa using List.find?_some h
  exact List.mem_map.2 ⟨c, h1, h2⟩

/-- With one unit of fuel per row not yet visited and one more, the traversal ends by
itself, and a sequence it returns is no longer than the table. -/
theorem walkPile_fuel (cards : List PileCardRow) :
    ∀ (fuel cur : Nat) (visited : List Nat) (codes : List String),
      visited.Nodup → (∀ v ∈ visited, v ∈ cards.map (fun c => c.id)) →
      codes.length = visited.length → cards.length + 1 ≤ fuel + visited.length →
      walkPile cards fuel cur visited codes ≠ .error .fuel ∧
        ∀ out, walkPile cards fuel cur visited codes = .ok out →
          out.length ≤ cards.length := by
  intro fuel
  induction fuel with
  | zero =>
    intro cur visited codes hnd hsub _ hle
    have := visited_length_le cards visited hnd hsub
    omega
  | succ n ih =>
    intro cur visited codes hnd hsub hlen hle
    simp only [walkPile]
    split_ifs with hv
    · exact ⟨by simp, by simp⟩
    · cases hf : cards.find? (fun c => c.id = cur) with
      | none => exact ⟨by simp, by simp⟩
      | some c =>
        have hnd' : (cur :: visited).Nodup := List.nodup_cons.2 ⟨hv, hnd⟩
        have hsub' : ∀ v ∈ cur :: visited, v ∈ cards.map (fun c => c.id) := by
          intro v hm
          rcases List.mem_cons.1 hm with rfl | hm
          · exact find_id_mem hf
          · exact hsub v hm
        have hbound := visited_length_le cards (cur :: visited) hnd' hsub'
        cases hn : c.nextCardId with
        | none =>
          simp only [hn]
          refine ⟨by simp, ?_⟩
          intro out hout
          simp only [Except.ok.injEq] at hout
          rw [← hout, List.length_append, hlen]
          simpa using hbound
        | some nx =>
          simp only [hn]
          exact ih nx (cur :: visited) (codes ++ [c.code]) hnd' hsub'
            (by simp [hlen]) (by simp only [List.length_cons]; omega)

/-- A traversal that returns a sequence followed links that never led to a visited id or
to an id without a row. -/
theorem walkPile_ok (cards : List PileCardRow) :
    ∀ (fuel cur : Nat) (visited : List Nat) (codes out : List String),
      walkPile cards fuel cur visited codes = .ok out →
      (∀ k i, nodeAt cards cur k = some i →
        i ∉ visited ∧ (cards.find? (fun c => c.id = i)).isSome = true) ∧
      (∀ j k i, j < k → nodeAt cards cur j = some i → nodeAt cards cur k ≠ some i) := by
  intro fuel
  induction fuel with
  | zero =>
    intro cur visited codes out h
    simp [walkPile] at h
  | succ n ih =>
    intro cur visited codes out h
    simp only [walkPile] at h
    split_ifs at h with hv
    cases hf : cards.find? (fun c => c.id = cur) with
    | none => simp [hf] at h
    | some c =>
      simp only [hf] at h
      cases hn : c.nextCardId with
      | none =>
        have hstep : stepId cards cur = none := by simp [stepId, hf, hn]
        have hnone : ∀ k, nodeAt cards cur (k + 1) = none := by
          intro k
          simp [nodeAt, hstep]
        constructor
        · intro k i hk
          cases k with
          | zero =>
            simp only [nodeAt, Option.some.injEq] at hk
            rw [← hk, hf]
            exact ⟨hv, rfl⟩
          | succ k =>
            rw [hnone] at hk
            cases hk
        · intro j k i hjk _ hk
          cases k with
          | zero => omega
          | succ k =>
            rw [hnone] at hk
            cases hk
      | some nx =>
        simp only [hn] at h
        have hstep : stepId cards cur = some nx := by simp [stepId, hf, hn]
        have hshift : ∀ k, nodeAt cards cur (k + 1) = nodeAt cards nx k := by
          intro k
          simp [nodeAt, hstep]
        obtain ⟨p1, p2⟩ := ih nx (cur :: visited) _ out h
        constructor
        · intro k i hk
          cases k with
          | zero =>
            simp only [nodeAt, Option.some.injEq] at hk
            rw [← hk, hf]
            exact ⟨hv, rfl⟩
          | succ k =>
            rw [hshift] at hk
            obtain ⟨q1, q2⟩ := p1 k i hk
            exact ⟨fun hm => q1 (List.mem_cons_of_mem _ hm), q2⟩
        · intro j k i hjk hj hk
          cases k with
          | zero => omega
          | succ k =>
            rw [hshift] at hk
            cases j with
            | zero =>
              simp only [nodeAt, Option.some.injEq] at hj
              exact (p1 k i hk).1 (hj ▸ List.mem_cons_self _ _)
            | succ j =>
              rw [hshift] at hj
              exact p2 j k i (by omega) hj hk

theorem getPileCards_fuel (s : Store) (d name : String) (choice : Nat) :
    GetPileCards s d name choice ≠ .error .fuel ∧
      ∀ out p, GetPileCards s d name choice = .ok out → findPile s d name = some p →
        out.length ≤ (s.pileCards.filter (fun c => c.pileId = p.id)).length := by
  unfold GetPileCards
  cases hf : findPile s d name with
  | none => exact ⟨by simp, by simp⟩
  | some p =>
    dsimp only
    split_ifs with hlen
    · refine ⟨by simp, ?_⟩
      intro out q hout hq
      simp only [Except.ok.injEq] at hout
      rw [← hout]
      exact Nat.zero_le _
    · cases hh : ((s.pileCards.filter (fun c => c.pileId = p.id)).filter
          (fun c => !((s.pileCards.filter (fun c => c.pileId = p.id)).any
            (fun c' => c'.nextCardId = some c.id))))[choice %
          ((s.pileCards.filter (fun c => c.pileId = p.id)).filter
            (fun c => !((s.pileCards.filter (fun c => c.pileId = p.id)).any
              (fun c' => c'.nextCardId = some c.id)))).length]? with
      | none => exact ⟨by simp, by simp⟩
      | some h =>
        dsimp only
        obtain ⟨h1, h2⟩ := walkPile_fuel (s.pileCards.filter (fun c => c.pileId = p.id))
          ((s.pileCards.filter (fun c => c.pileId = p.id)).length + 1) h.id [] []
          List.nodup_nil (fun v hv => by cases hv) rfl (by simp)
        refine ⟨h1, ?_⟩
        intro out q hout hq
        cases hq
        exact h2 out hout

/-- C29. For any rows of a pile, whatever their `nextCardId` values (cycles, dangling
pointers, several heads), the traversal of `GetPileCards` ends within (number of rows) + 1
iterations from any head: the fuel of the model is never exhausted.  A sequence it returns
is no longer than the number of rows, and it returns an error whenever the links followed
from the head come back to an id already met or lead to an id that is no row of the
pile.  So `GetPileCards` never runs out of fuel on any store and returns at most as many
codes as the pile has rows. -/
theorem walkPile_terminates (cards : List PileCardRow) (head : Nat) :
    walkPile cards (cards.length + 1) head [] [] ≠ .error .fuel ∧
      (∀ out, walkPile cards (cards.length + 1) head [] [] = .ok out →
        out.length ≤ cards.length) ∧
      ((∃ j k i, j < k ∧ nodeAt cards head j = some i ∧ nodeAt cards head k = some i) →
        ∃ e, walkPile cards (cards.length + 1) head [] [] = .error e) ∧
      ((∃ k i, nodeAt cards head k = some i ∧ cards.find? (fun c => c.id = i) = none) →
        ∃ e, walkPile cards (cards.length + 1) head [] [] = .error e) ∧
      (∀ (s : Store) (d name : String) (choice : Nat),
        GetPileCards s d name choice ≠ .error .fuel ∧
        ∀ out p, GetPileCards s d name choice = .ok out → findPile s d name = some p →
          out.length ≤ (s.pileCards.filter (fun c => c.pileId = p.id)).length) := by
  obtain ⟨h1, h2⟩ := walkPile_fuel cards (cards.length + 1) head [] []
    List.nodup_nil (fun v hv => by cases hv) rfl (by simp)
  refine ⟨h1, h2, ?_, ?_, getPileCards_fuel⟩
  · rintro ⟨j, k, i, hjk, hj, hk⟩
    cases hw : walkPile cards (cards.length + 1) head [] [] with
    | error e => exact ⟨e, rfl⟩
    | ok out => exact absurd hk ((walkPile_ok cards _ head [] [] out hw).2 j k i hjk hj)
  · rintro ⟨k, i, hk, hf⟩
    cases hw : walkPile cards (cards.length + 1) head [] [] with
    | error e => exact ⟨e, rfl⟩
    | ok out =>
      have := ((walkPile_ok cards _ head [] [] out hw).1 k i hk).2
      rw [hf] at this
      cases this

theorem walkPile_terminates_witness :
    walkPile cyclicRows (cyclicRows.length + 1) 1 [] [] = .error .circular ∧
      walkPile danglingRows (danglingRows.length + 1) 1 [] [] = .error .brokenList ∧
      nodeAt cyclicRows 1 1 = some 2 ∧ nodeAt cyclicRows 1 3 = some 2 ∧
      ∃ e, walkPile cyclicRows (cyclicRows.length + 1) 1 [] [] = .error e :=
  ⟨by decide, by decide, by decide, by decide,
    (walkPile_terminates cyclicRows 1).2.2.1 ⟨1, 3, 2, by decide, by decide, by decide⟩⟩

/-! ## The deferred rollback

Every operation that opens a transaction does it with `tx, err := db.Begin()` and defers
`func() { if err != nil { _ = tx.Rollback() } }()`.  The closure reads the variable `err`
declared by that statement; a statement `if err := ...; err != nil { return ... }` or a
`:=` inside a loop body or an `if` block declares another `err`. -/

theorem insertIntoPileClosure_resp (s : Store) (name d : String) (codes : List String) :
    (insertIntoPileClosure s name d codes).resp = insertIntoPileTx s name d codes ∧
      (insertIntoPileClosure s name d codes).err = none := by
  unfold insertIntoPileClosure insertIntoPileTx
  cases h1 : checkCodes s d codes with
  | error e => exact ⟨rfl, rfl⟩
  | ok s1 =>
    dsimp only
    cases h2 : pileIdFor s1 d name with
    | error e => exact ⟨rfl, rfl⟩
    | ok r =>
      obtain ⟨s2, pid⟩ := r
      dsimp only
      cases h3 : pushPileCards s2 pid ((pileHead s2 pid).map (fun c => c.id)) codes with
      | error e => exact ⟨rfl, rfl⟩
      | ok s3 => exact ⟨rfl, rfl⟩

/-- C28, evaluated.  In `pileWitnessStore` one more `AS` of deck `"d"` may enter a pile and
no `2C` may.  `InsertIntoPile("discard", "d", [AS, 2C])` increments `inPile` of `AS`, then
fails the availability check on `2C`; `ReturnSpecificDrawn("d", "2C")` fails because no `2C`
is drawn.  Both return their error with the variable `err` of the deferred function still
nil, so `tx.Rollback()` is not called and the transaction is left open; and no failing
`InsertIntoPile` ever has its transaction rolled back. -/
theorem failed_transaction_left_open :
    checkCodes pileWitnessStore "d" ["AS"] =
        .ok (updateEntry pileWitnessStore "d" "AS" (fun _ => true)
          (fun e => { e with inPile := e.inPile + 1 })) ∧
      (insertIntoPileClosure pileWitnessStore "discard" "d" ["AS", "2C"]).resp =
        .error .cardNotAvailable ∧
      (InsertIntoPile pileWitnessStore "discard" "d" ["AS", "2C"]).2 =
        .error .cardNotAvailable ∧
      deferredEnd (insertIntoPileClosure pileWitnessStore "discard" "d" ["AS", "2C"]) =
        .leftOpen ∧
      (returnSpecificDrawnClosure pileWitnessStore "d" "2C").resp = .error .notDrawn ∧
      (ReturnSpecificDrawn pileWitnessStore "d" "2C").2 = .error .notDrawn ∧
      deferredEnd (returnSpecificDrawnClosure pileWitnessStore "d" "2C") = .leftOpen ∧
      ∀ (s : Store) (name d : String) (codes : List String),
        deferredEnd (insertIntoPileClosure s name d codes) ≠ .rolledBack := by
  refine ⟨by decide, by decide, by decide, by decide, by decide, by decide, by decide, ?_⟩
  intro s name d codes
  unfold deferredEnd
  rw [(insertIntoPileClosure_resp s name d codes).2]
  cases (insertIntoPileClosure s name d codes).resp <;> simp

/-! ## The statements of a transaction

Every operation that takes a deck id runs a sequence of statements.  What each statement
keeps is proved once, and holds of every operation by induction over its statements. -/

theorem Steps.one {dt pt : Bool} {a b : Store} (h : Stmt dt pt a b) : Steps dt pt a b :=
  Steps.next h (Steps.done b)

theorem Steps.steps_trans {dt pt : Bool} {a b c : Store} (h1 : Steps dt pt a b)
    (h2 : Steps dt pt b c) : Steps dt pt a c := by
  induction h1 with
  | done s => exact h2
  | next hs _ ih => exact Steps.next hs (ih h2)

/-- What every statement keeps holds of a sequence of statements. -/
theorem Steps.keeps {dt pt : Bool} {P : Store → Prop}
    (hP : ∀ a b, Stmt dt pt a b → P a → P b) {s s' : Store} (h : Steps dt pt s s')
    (hs : P s) : P s' := by
  induction h with
  | done s => exact hs
  | next hst _ ih => exact ih (hP _ _ hst hs)

/-- A reflexive and transitive relation that holds of every statement holds of a sequence
of statements. -/
theorem Steps.relates {dt pt : Bool} {R : Store → Store → Prop} (hrefl : ∀ a, R a a)
    (htrans : ∀ a b c, R a b → R b c → R a c) (hR : ∀ a b, Stmt dt pt a b → R a b)
    {s s' : Store} (h : Steps dt pt s s') : R s s' := by
  induction h with
  | done s => exact hrefl s
  | next hst _ ih => exact htrans _ _ _ (hR _ _ hst) ih

/-! ### Every operation is a sequence of statements -/

theorem drawLoop_steps {pt : Bool} (d : String) :
    ∀ (n : Nat) (s : Store) (remaining : Int) (codes : List String)
      (s' : Store) (res : List String × Int),
      drawLoop n s d remaining codes = .ok (s', res) → Steps true pt s s' := by
  intro n
  induction n with
  | zero =>
    intro s remaining codes s' res hok
    simp only [drawLoop, Except.ok.injEq, Prod.mk.injEq] at hok
    rw [← hok.1]
    exact Steps.done s
  | succ n ih =>
    intro s remaining codes s' res hok
    unfold drawLoop at hok
    cases ht : topCard s d with
    | none =>
      simp only [ht, Except.ok.injEq, Prod.mk.injEq] at hok
      rw [← hok.1]
      exact Steps.done s
    | some r =>
      simp only [ht] at hok
      cases h2 : setTopCard (updateEntry s d r.code (fun _ => true)
          (fun e => { e with inDeck := e.inDeck - 1 })) d r.nextId with
      | error e => simp [h2] at hok
      | ok s2 =>
        simp only [h2] at hok
        refine Steps.next (Stmt.ledgerDeck s d r.code _ _ rfl ?_)
          (Steps.next (Stmt.setTopCard rfl h2)
            (Steps.next (Stmt.deleteDeckCard s2 r.id rfl) (ih _ _ _ s' res hok)))
        exact fun _ => ⟨rfl, rfl, rfl, rfl⟩

theorem drawCards_steps (s : Store) (d : String) (amount : Int) :
    Steps true false s (DrawCards s d amount).1 := by
  unfold DrawCards
  dsimp only
  split_ifs <;>
    first
    | exact Steps.done s
    | exact atomically_rel (Steps.done s) (fun s' a hb => drawLoop_steps d _ _ _ _ s' a hb)

theorem pushDeckCards_steps {pt : Bool} (d : String) :
    ∀ (codes : List String) (s : Store) (top : Option Nat) (s1 : Store) (top1 : Option Nat),
      pushDeckCards s d top codes = .ok (s1, top1) → Steps true pt s s1 := by
  intro codes
  induction codes with
  | nil =>
    intro s top s1 top1 hok
    simp only [pushDeckCards, Except.ok.injEq, Prod.mk.injEq] at hok
    rw [← hok.1]
    exact Steps.done s
  | cons c cs ih =>
    intro s top s1 top1 hok
    simp only [pushDeckCards] at hok
    cases h1 : insertDeckCard s d c top with
    | error e => simp [h1] at hok
    | ok r =>
      obtain ⟨s2, i⟩ := r
      simp only [h1] at hok
      exact Steps.next (Stmt.insertDeckCard rfl h1) (ih s2 (some i) s1 top1 hok)

theorem commitTop_steps {pt : Bool} {s s1 : Store} {d : String} {top : Option Nat}
    (hok : commitTop s d top = .ok s1) : Steps true pt s s1 := by
  cases top with
  | none =>
    simp only [commitTop, Except.ok.injEq] at hok
    rw [← hok]
    exact Steps.done s
  | some i => exact Steps.one (Stmt.setTopCard rfl hok)

theorem returnSpecificDrawn_steps (s : Store) (d code : String) :
    Steps true false s (ReturnSpecificDrawn s d code).1 := by
  unfold ReturnSpecificDrawn
  refine atomically_rel (Steps.done s) ?_
  intro s' a hb
  cases hf : findEntry s d code with
  | none => simp [hf] at hb
  | some e =>
    simp only [hf] at hb
    split_ifs at hb
    cases h1 : insertDeckCard s d code (deckTop s d) with
    | error err => simp [h1] at hb
    | ok r =>
      obtain ⟨s1, i⟩ := r
      simp only [h1] at hb
      cases h2 : setTopCard s1 d (some i) with
      | error err => simp [h2] at hb
      | ok s2 =>
        simp only [h2, Except.ok.injEq, Prod.mk.injEq] at hb
        rw [← hb.1]
        refine Steps.next (Stmt.insertDeckCard rfl h1)
          (Steps.next (Stmt.setTopCard rfl h2)
            (Steps.one (Stmt.ledgerDeck s2 d code _ _ rfl ?_)))
        exact fun _ => ⟨rfl, rfl, rfl, rfl⟩

theorem returnAllDrawn_steps (s : Store) (d : String) :
    Steps true false s (ReturnAllDrawn s d).1 := by
  unfold ReturnAllDrawn
  refine atomically_rel (Steps.done s) ?_
  intro s' a hb
  dsimp only at hb
  generalize ((s.entries.filter (fun e => e.deckId = d)).filter
      (fun e => decide (e.total - e.inDeck - e.inPile > 0))).reverse.flatMap
      (fun e => List.replicate (e.total - e.inDeck - e.inPile).toNat e.code) = pushes at hb
  cases h1 : pushDeckCards s d (deckTop s d) pushes with
  | error err => simp [h1] at hb
  | ok r =>
    obtain ⟨s1, top⟩ := r
    simp only [h1] at hb
    cases h2 : commitTop s1 d top with
    | error err => simp [h2] at hb
    | ok s2 =>
      simp only [h2, Except.ok.injEq, Prod.mk.injEq] at hb
      rw [← hb.1]
      exact ((pushDeckCards_steps d pushes s _ s1 top h1).steps_trans
        (commitTop_steps h2)).steps_trans (Steps.one (Stmt.resetInDeck s2 d rfl))

theorem linkCards_steps {pt : Bool} :
    ∀ (ids : List Nat) (s s1 : Store), linkCards s ids = .ok s1 → Steps true pt s s1 := by
  intro ids
  induction ids with
  | nil =>
    intro s s1 hok
    simp only [linkCards, Except.ok.injEq] at hok
    rw [← hok]
    exact Steps.done s
  | cons i rest ih =>
    intro s s1 hok
    cases rest with
    | nil =>
      simp only [linkCards, Except.ok.injEq] at hok
      rw [← hok]
      exact Steps.done s
    | cons j rest =>
      simp only [linkCards] at hok
      cases h1 : setDeckCardNext s i (some j) with
      | error e => simp [h1] at hok
      | ok s2 =>
        simp only [h1] at hok
        exact Steps.next (Stmt.setDeckCardNext rfl h1) (ih s2 s1 hok)

theorem shuffleDeck_steps (s : Store) (d : String) (rnd : Nat → Nat) :
    Steps true false s (ShuffleDeck s d rnd).1 := by
  unfold ShuffleDeck
  split_ifs
  · exact Steps.done s
  · dsimp only
    cases hl : (shuffle rnd (s.deckCards.filter (fun r => r.deckId = d))).getLast? with
    | none => exact Steps.done s
    | some last =>
      dsimp only
      refine atomically_rel (Steps.done s) ?_
      intro s' a hb
      cases h1 : linkCards s ((shuffle rnd (s.deckCards.filter
          (fun r => r.deckId = d))).map (fun r => r.id)) with
      | error e => simp [h1] at hb
      | ok s1 =>
        simp only [h1] at hb
        cases h2 : setDeckCardNext s1 last.id none with
        | error e => simp [h2] at hb
        | ok s2 =>
          simp only [h2] at hb
          cases h3 : setTopCardShuffled s2 d ((shuffle rnd (s.deckCards.filter
              (fun r => r.deckId = d))).head?.map (fun r => r.id)) with
          | error e => simp [h3] at hb
          | ok s3 =>
            simp only [h3, Except.ok.injEq, Prod.mk.injEq] at hb
            rw [← hb.1]
            exact (linkCards_steps _ s s1 h1).steps_trans
              (Steps.next (Stmt.setDeckCardNext rfl h2)
                (Steps.one (Stmt.setTopCardShuffled rfl h3)))

theorem checkCodes_steps {dt : Bool} (d : String) :
    ∀ (codes : List String) (s s1 : Store),
      checkCodes s d codes = .ok s1 → Steps dt true s s1 := by
  intro codes
  induction codes with
  | nil =>
    intro s s1 hok
    simp only [checkCodes, Except.ok.injEq] at hok
    rw [← hok]
    exact Steps.done s
  | cons c cs ih =>
    intro s s1 hok
    simp only [checkCodes] at hok
    cases hf : findEntry s d c with
    | none => simp [hf] at hok
    | some e =>
      simp only [hf] at hok
      split_ifs at hok
      have f2 := ih _ s1 hok
      refine Steps.next (Stmt.ledgerPile s d c _ _ rfl ?_) f2
      exact fun _ => ⟨rfl, rfl, rfl, rfl⟩

theorem pushPileCards_steps {dt : Bool} (p : Nat) :
    ∀ (codes : List String) (s : Store) (top : Option Nat) (s1 : Store),
      pushPileCards s p top codes = .ok s1 → Steps dt true s s1 := by
  intro codes
  induction codes with
  | nil =>
    intro s top s1 hok
    simp only [pushPileCards, Except.ok.injEq] at hok
    rw [← hok]
    exact Steps.done s
  | cons c cs ih =>
    intro s top s1 hok
    simp only [pushPileCards] at hok
    cases h1 : insertPileCard s p c top with
    | error e => simp [h1] at hok
    | ok r =>
      obtain ⟨s2, i⟩ := r
      simp only [h1] at hok
      exact Steps.next (Stmt.insertPileCard rfl h1) (ih s2 (some i) s1 hok)

theorem pileIdFor_steps {dt : Bool} {s s2 : Store} {d name : String} {pid : Nat}
    (hok : pileIdFor s d name = .ok (s2, pid)) : Steps dt true s s2 := by
  unfold pileIdFor at hok
  cases hf : findPile s d name with
  | some p =>
    simp only [hf, Except.ok.injEq, Prod.mk.injEq] at hok
    rw [← hok.1]
    exact Steps.done s
  | none =>
    simp only [hf] at hok
    exact Steps.one (Stmt.insertPile rfl hf hok)

theorem insertIntoPile_steps (s : Store) (name d : String) (codes : List String) :
    Steps false true s (InsertIntoPile s name d codes).1 := by
  unfold InsertIntoPile
  cases htx : insertIntoPileTx s name d codes with
  | error e => exact Steps.done s
  | ok s' =>
    dsimp only
    unfold insertIntoPileTx at htx
    cases h1 : checkCodes s d codes with
    | error e => simp [h1] at htx
    | ok s1 =>
      simp only [h1] at htx
      cases h2 : pileIdFor s1 d name with
      | error e => simp [h2] at htx
      | ok r =>
        obtain ⟨s2, pid⟩ := r
        simp only [h2] at htx
        exact ((checkCodes_steps d codes s s1 h1).steps_trans (pileIdFor_steps h2)).steps_trans
          (pushPileCards_steps pid codes s2 _ s' htx)

theorem relinkPrev_steps {dt pt : Bool} {s s1 : Store} {prev : Option PileCardRow}
    {nextId : Option Nat} (hok : relinkPrev s prev nextId = .ok s1) : Steps dt pt s s1 := by
  cases prev with
  | none =>
    simp only [relinkPrev, Except.ok.injEq] at hok
    rw [← hok]
    exact Steps.done s
  | some pr => exact Steps.one (Stmt.setPileCardNext hok)

theorem unlinkPileCard_steps {dt : Bool} {s s1 : Store} {d : String}
    {prev : Option PileCardRow} {cardId : Nat} {code : String} {nextId : Option Nat}
    (hok : unlinkPileCard s d prev cardId code nextId = .ok s1) : Steps dt true s s1 := by
  unfold unlinkPileCard at hok
  cases h1 : relinkPrev s prev nextId with
  | error e => simp [h1] at hok
  | ok s2 =>
    simp only [h1, Except.ok.injEq] at hok
    rw [← hok]
    refine (relinkPrev_steps h1).steps_trans
      (Steps.next (Stmt.deletePileCard s2 cardId rfl)
        (Steps.one (Stmt.ledgerPile _ d code _ _ rfl ?_)))
    exact fun _ => ⟨rfl, rfl, rfl, rfl⟩

theorem drawFromPile_steps (s : Store) (d name method : String) (pick : Nat) :
    Steps false true s (DrawFromPile s d name method pick).1 := by
  unfold DrawFromPile
  cases hf : findPile s d name with
  | none => exact Steps.done s
  | some p =>
    dsimp only
    cases hsel : selectPileCard s p.id method pick with
    | error e => exact Steps.done s
    | ok r =>
      obtain ⟨cardId, code, nextId⟩ := r
      dsimp only
      refine atomically_rel (Steps.done s) ?_
      intro s' a hb
      cases h1 : unlinkPileCard s d (pilePrev s p.id cardId) cardId code nextId with
      | error e => simp [h1] at hb
      | ok s1 =>
        simp only [h1, Except.ok.injEq, Prod.mk.injEq] at hb
        rw [← hb.1]
        exact unlinkPileCard_steps h1

theorem drawSpecificFromPile_steps (s : Store) (d name code : String) :
    Steps false true s (DrawSpecificFromPile s d name code).1 := by
  unfold DrawSpecificFromPile
  cases hf : findPile s d name with
  | none => exact Steps.done s
  | some p =>
    dsimp only
    cases hc : s.pileCards.find? (fun c => c.pileId = p.id ∧ c.code = code) with
    | none => exact Steps.done s
    | some c =>
      dsimp only
      refine atomically_rel (Steps.done s) ?_
      intro s' a hb
      cases h1 : unlinkPileCard s d (pilePrev s p.id c.id) c.id code c.nextCardId with
      | error e => simp [h1] at hb
      | ok s1 =>
        simp only [h1, Except.ok.injEq, Prod.mk.injEq] at hb
        rw [← hb.1]
        exact unlinkPileCard_steps h1

theorem returnSpecificFromPile_steps (s : Store) (d name code : String) :
    Steps true true s (ReturnSpecificFromPile s d name code).1 := by
  unfold ReturnSpecificFromPile
  cases hf : findPile s d name with
  | none => exact Steps.done s
  | some p =>
    dsimp only
    cases hc : s.pileCards.find? (fun c => c.pileId = p.id ∧ c.code = code) with
    | none => exact Steps.done s
    | some c =>
      dsimp only
      refine atomically_rel (Steps.done s) ?_
      intro s' a hb
      cases h1 : relinkPrev s (pilePrev s p.id c.id) c.nextCardId with
      | error e => simp [h1] at hb
      | ok s1 =>
        simp only [h1] at hb
        split_ifs at hb
        have f3 : Stmt true true (deletePileCard s1 c.id)
            (updateEntry (deletePileCard s1 c.id) d code
              (fun (e : DeckEntryRow) => decide (e.inPile > 0))
              (fun e => { e with inPile := e.inPile - 1, inDeck := e.inDeck + 1 })) :=
          Stmt.ledgerMove _ d code _ _ rfl rfl (fun _ => ⟨rfl, rfl, rfl⟩)
        generalize updateEntry (deletePileCard s1 c.id) d code
          (fun (e : DeckEntryRow) => decide (e.inPile > 0))
          (fun e => { e with inPile := e.inPile - 1, inDeck := e.inDeck + 1 }) = s3 at hb f3
        cases h4 : insertDeckCard s3 d code (deckTop s3 d) with
        | error e => simp [h4] at hb
        | ok r =>
          obtain ⟨s4, i⟩ := r
          simp only [h4] at hb
          cases h5 : setTopCard s4 d (some i) with
          | error e => simp [h5] at hb
          | ok s5 =>
            simp only [h5, Except.ok.injEq, Prod.mk.injEq] at hb
            rw [← hb.1]
            exact (relinkPrev_steps h1).steps_trans
              (Steps.next (Stmt.deletePileCard s1 c.id rfl)
                (Steps.next f3 (Steps.next (Stmt.insertDeckCard rfl h4)
                  (Steps.one (Stmt.setTopCard rfl h5)))))

theorem moveCounts_steps (d : String) (codes : List String) :
    ∀ (keys : List String) (s s1 : Store),
      moveCounts s d codes keys = .ok s1 → Steps true true s s1 := by
  intro keys
  induction keys with
  | nil =>
    intro s s1 hok
    simp only [moveCounts, Except.ok.injEq] at hok
    rw [← hok]
    exact Steps.done s
  | cons c cs ih =>
    intro s s1 hok
    simp only [moveCounts] at hok
    split_ifs at hok
    have f2 := ih _ s1 hok
    refine Steps.next (Stmt.ledgerMove s d c _ _ rfl rfl ?_) f2
    exact fun _ => ⟨rfl, rfl, rfl⟩

theorem returnAllFromPile_steps (s : Store) (d name : String) :
    Steps true true s (ReturnAllFromPile s d name).1 := by
  unfold ReturnAllFromPile
  cases hf : findPile s d name with
  | none => exact Steps.done s
  | some p =>
    dsimp only
    refine atomically_rel (Steps.done s) ?_
    intro s' a hb
    generalize pileCodesById s p.id = codes at hb
    cases h1 : moveCounts s d codes codes.dedup with
    | error e => simp [h1] at hb
    | ok s1 =>
      simp only [h1] at hb
      have f2 : Stmt true true s1 (deletePileCardsOf s1 p.id) :=
        Stmt.deletePileCardsOf s1 p.id rfl
      generalize deletePileCardsOf s1 p.id = s2 at hb f2
      cases h3 : pushDeckCards s2 d (deckTop s2 d) codes.reverse with
      | error e => simp [h3] at hb
      | ok r =>
        obtain ⟨s3, top⟩ := r
        simp only [h3] at hb
        cases h4 : commitTop s3 d top with
        | error e => simp [h4] at hb
        | ok s4 =>
          simp only [h4, Except.ok.injEq, Prod.mk.injEq] at hb
          rw [← hb.1]
          exact (moveCounts_steps d codes _ s s1 h1).steps_trans
            (Steps.next f2 ((pushDeckCards_steps d _ s2 _ s3 top h3).steps_trans
              (commitTop_steps h4)))

theorem linkPileCards_steps {dt pt : Bool} :
    ∀ (ids : List Nat) (s s1 : Store), linkPileCards s ids = .ok s1 → Steps dt pt s s1 := by
  intro ids
  induction ids with
  | nil =>
    intro s s1 hok
    simp only [linkPileCards, Except.ok.injEq] at hok
    rw [← hok]
    exact Steps.done s
  | cons i rest ih =>
    intro s s1 hok
    cases rest with
    | nil =>
      simp only [linkPileCards, Except.ok.injEq] at hok
      rw [← hok]
      exact Steps.done s
    | cons j rest =>
      simp only [linkPileCards] at hok
      cases h1 : setPileCardNext s i (some j) with
      | error e => simp [h1] at hok
      | ok s2 =>
        simp only [h1] at hok
        exact Steps.next (Stmt.setPileCardNext h1) (ih s2 s1 hok)

theorem shufflePiles_steps (rnd : Nat → Nat → Nat) :
    ∀ (ps : List PileRow) (s : Store) (res : List (String × Nat)) (s1 : Store)
      (out : List (String × Nat)),
      shufflePiles rnd s res ps = .ok (s1, out) → Steps false false s s1 := by
  intro ps
  induction ps with
  | nil =>
    intro s res s1 out hok
    simp only [shufflePiles, Except.ok.injEq, Prod.mk.injEq] at hok
    rw [← hok.1]
    exact Steps.done s
  | cons p ps ih =>
    intro s res s1 out hok
    simp only [shufflePiles] at hok
    split_ifs at hok with hlen
    · exact ih s _ s1 out hok
    · cases h2 : linkPileCards (clearPileLinks s p.id) (shuffle (rnd p.id)
          (((s.pileCards.filter (fun c => c.pileId = p.id)).insertionSort
            (fun a b => a.id ≤ b.id)).map (fun c => c.id))) with
      | error e => simp [h2] at hok
      | ok s2 =>
        simp only [h2] at hok
        exact Steps.next (Stmt.clearPileLinks s p.id)
          ((linkPileCards_steps _ _ s2 h2).steps_trans (ih s2 _ s1 out hok))

theorem shuffleAllPiles_steps (s : Store) (d : String) (rnd : Nat → Nat → Nat) :
    Steps false false s (ShuffleAllPiles s d rnd).1 := by
  unfold ShuffleAllPiles
  exact atomically_rel (Steps.done s) (fun s' a hb => shufflePiles_steps rnd _ s [] s' a hb)

theorem orderLoop_steps (p : Nat) :
    ∀ (codes : List String) (s : Store) (prev : Option Nat),
      Steps false false s (orderLoop p s prev codes).1 := by
  intro codes
  induction codes with
  | nil =>
    intro s prev
    exact Steps.done s
  | cons code rest ih =>
    intro s prev
    simp only [orderLoop]
    cases hc : s.pileCards.find? (fun c => c.pileId = p ∧ c.code = code) with
    | none => exact Steps.done s
    | some c =>
      dsimp only
      cases prev with
      | none =>
        dsimp only
        exact ih s (some c.id)
      | some pr =>
        dsimp only
        cases h1 : setPileCardNext s pr (some c.id) with
        | error e => exact Steps.done s
        | ok s1 =>
          dsimp only
          exact Steps.next (Stmt.setPileCardNext h1) (ih s1 (some c.id))

theorem updatePileOrder_steps (s : Store) (d name : String) (codes : List String) :
    Steps false false s (UpdatePileOrder s d name codes).1 := by
  unfold UpdatePileOrder
  cases hf : findPile s d name with
  | none => exact Steps.done s
  | some p =>
    dsimp only
    exact Steps.next (Stmt.clearPileLinks s p.id) (orderLoop_steps p.id codes _ none)

/-! ### What every statement keeps -/

theorem nodup_filter_map {α β : Type} (k : α → β) (g : α → α) (hk : ∀ r, k (g r) = k r)
    (P : α → Bool) (T : List α) (h : (T.map k).Nodup) :
    (((T.filter P).map g).map k).Nodup := by
  have : ((T.filter P).map g).map k = (T.filter P).map k := by
    rw [List.map_map]
    apply List.map_congr_left
    intro r _
    exact hk r
  rw [this]
  exact h.sublist (List.Sublist.map k (List.filter_sublist T))

theorem nodup_map_map {α β : Type} (k : α → β) (g : α → α) (hk : ∀ r, k (g r) = k r)
    (T : List α) (h : (T.map k).Nodup) : ((T.map g).map k).Nodup := by
  have : (T.map g).map k = T.map k := by
    rw [List.map_map]
    apply List.map_congr_left
    intro r _
    exact hk r
  rw [this]
  exact h

theorem nodup_snoc_fresh {α : Type} (k : α → Nat) (T : List α) (a : α) (seq : Nat)
    (h : (T.map k).Nodup) (hseq : ∀ r ∈ T, k r ≤ seq) (ha : k a = seq + 1) :
    ((T ++ [a]).map k).Nodup := by
  rw [List.map_append, List.nodup_append]
  refine ⟨h, by simp, ?_⟩
  intro x hx hy
  simp only [List.map_cons, List.map_nil, List.mem_singleton] at hy
  obtain ⟨r, hr, rfl⟩ := List.mem_map.1 hx
  have := hseq r hr
  omega

/-- The pile half of the schema carries over when the pile tables are the same and the
deck ids are the same. -/
theorem Schema.schema_deck {a b : Store} (h : Schema a) (hp : b.piles = a.piles)
    (hpc : b.pileCards = a.pileCards) (hsp : b.seqPile = a.seqPile)
    (hspc : b.seqPileCard = a.seqPileCard)
    (hdecks : b.decks.map (fun r => r.deckId) = a.decks.map (fun r => r.deckId))
    (hcards : (b.deckCards.map (fun r => r.id)).Nodup)
    (hseq : ∀ r ∈ b.deckCards, r.id ≤ b.seqDeckCard) : Schema b := by
  have hpe : ∀ i, b.pileExists i = a.pileExists i := by
    intro i
    unfold Store.pileExists
    rw [hp]
  refine ⟨hcards, hseq, ?_, ?_, ?_, ?_, ?_, ?_, ?_, ?_⟩
  · rw [hdecks]
    exact h.deckIds
  · rw [hp]
    exact h.pileIds
  · rw [hp, hsp]
    exact h.pileSeq
  · rw [hp]
    exact h.pileNames
  · rw [hp]
    intro p hm
    rw [deckExists_congr hdecks]
    exact h.pileFk p hm
  · rw [hpc]
    exact h.pileCardIds
  · rw [hpc, hspc]
    exact h.pileCardSeq
  · rw [hpc]
    intro c hc
    rw [hpe]
    exact h.pileCardFk c hc

/-- The deck half of the schema carries over when the deck tables are the same. -/
theorem Schema.schema_pile {a b : Store} (h : Schema a) (hd : b.decks = a.decks)
    (hdc : b.deckCards = a.deckCards) (hs : b.seqDeckCard = a.seqDeckCard)
    (h1 : (b.piles.map (fun p => p.id)).Nodup) (h2 : ∀ p ∈ b.piles, p.id ≤ b.seqPile)
    (h3 : (b.piles.map (fun p => (p.deckId, p.name))).Nodup)
    (h4 : ∀ p ∈ b.piles, a.deckExists p.deckId = true)
    (h5 : (b.pileCards.map (fun c => c.id)).Nodup)
    (h6 : ∀ c ∈ b.pileCards, c.id ≤ b.seqPileCard)
    (h7 : ∀ c ∈ b.pileCards, b.pileExists c.pileId = true) : Schema b := by
  refine ⟨?_, ?_, ?_, h1, h2, h3, ?_, h5, h6, h7⟩
  · rw [hdc]
    exact h.cardIds
  · rw [hdc, hs]
    exact h.cardSeq
  · rw [hd]
    exact h.deckIds
  · intro p hp
    rw [@deckExists_congr a b (by rw [hd]) p.deckId]
    exact h4 p hp

/-- The pile half of the schema when only `PileCard` rows are rewritten or removed. -/
theorem Schema.schema_pileCards {a b : Store} (h : Schema a) (hd : b.decks = a.decks)
    (hdc : b.deckCards = a.deckCards) (hs : b.seqDeckCard = a.seqDeckCard)
    (hp : b.piles = a.piles) (hsp : b.seqPile = a.seqPile)
    (hspc : b.seqPileCard = a.seqPileCard)
    (hids : (b.pileCards.map (fun c => c.id)).Nodup)
    (hsub : ∀ c' ∈ b.pileCards, ∃ c ∈ a.pileCards, c'.id = c.id ∧ c'.pileId = c.pileId) :
    Schema b := by
  have hpe : ∀ i, b.pileExists i = a.pileExists i := by
    intro i
    unfold Store.pileExists
    rw [hp]
  refine h.schema_pile hd hdc hs ?_ ?_ ?_ ?_ hids ?_ ?_
  · rw [hp]
    exact h.pileIds
  · rw [hp, hsp]
    exact h.pileSeq
  · rw [hp]
    exact h.pileNames
  · rw [hp]
    exact h.pileFk
  · intro c' hc'
    obtain ⟨c, hc, e1, _⟩ := hsub c' hc'
    rw [hspc, e1]
    exact h.pileCardSeq c hc
  · intro c' hc'
    obtain ⟨c, hc, _, e2⟩ := hsub c' hc'
    rw [hpe, e2]
    exact h.pileCardFk c hc

theorem deletePileCardsOf_key (s : Store) (p : Nat) (r : PileCardRow) :
    (match r.nextCardId with
      | none => r
      | some j =>
        if s.pileCards.any (fun r' => r'.pileId = p ∧ r'.id = j)
        then { r with nextCardId := none } else r).id = r.id ∧
    (match r.nextCardId with
      | none => r
      | some j =>
        if s.pileCards.any (fun r' => r'.pileId = p ∧ r'.id = j)
        then { r with nextCardId := none } else r).pileId = r.pileId ∧
    (match r.nextCardId with
      | none => r
      | some j =>
        if s.pileCards.any (fun r' => r'.pileId = p ∧ r'.id = j)
        then { r with nextCardId := none } else r).code = r.code := by
  cases r.nextCardId with
  | none => exact ⟨rfl, rfl, rfl⟩
  | some j =>
    dsimp only
    split_ifs <;> exact ⟨rfl, rfl, rfl⟩

theorem Stmt.deckIds_same {dt pt : Bool} {a b : Store} (h : Stmt dt pt a b) :
    b.decks.map (fun r => r.deckId) = a.decks.map (fun r => r.deckId) := by
  cases h with
  | ledgerDeck d c g f hd hf => rfl
  | ledgerPile d c g f hp hf => rfl
  | ledgerMove d c g f hd hp hf => rfl
  | resetInDeck d hd => rfl
  | setTopCard hd h =>
    rw [setTopCard_ok h]
    show (List.map _ a.decks).map _ = _
    rw [List.map_map]
    apply List.map_congr_left
    intro r _
    dsimp only [Function.comp]
    split_ifs <;> rfl
  | setTopCardShuffled hd h =>
    rw [setTopCardShuffled_ok h]
    show (List.map _ a.decks).map _ = _
    rw [List.map_map]
    apply List.map_congr_left
    intro r _
    dsimp only [Function.comp]
    split_ifs <;> rfl
  | setDeckCardNext hd h =>
    rw [setDeckCardNext_ok h]
  | insertDeckCard hd h =>
    obtain ⟨_, _, rfl⟩ := insertDeckCard_ok h
    rfl
  | deleteDeckCard i hd =>
    show (List.map _ a.decks).map _ = _
    rw [List.map_map]
    apply List.map_congr_left
    intro r _
    dsimp only [Function.comp]
    split_ifs <;> rfl
  | insertPile hp hnew h => rw [(insertPile_side h).decks]
  | insertPileCard hp h => rw [(insertPileCard_side h).decks]
  | deletePileCard i hp => rfl
  | deletePileCardsOf p hp => rfl
  | setPileCardNext h => rw [(setPileCardNext_side h).decks]
  | clearPileLinks p => rfl

theorem Stmt.schema_step {dt pt : Bool} {a b : Store} (h : Stmt dt pt a b) (hs : Schema a) :
    Schema b := by
  have hdecks := h.deckIds_same
  cases h with
  | ledgerDeck d c g f hd hf => exact hs.schema_deck rfl rfl rfl rfl rfl hs.cardIds hs.cardSeq
  | ledgerPile d c g f hp hf => exact hs.schema_deck rfl rfl rfl rfl rfl hs.cardIds hs.cardSeq
  | ledgerMove d c g f hd hp hf =>
    exact hs.schema_deck rfl rfl rfl rfl rfl hs.cardIds hs.cardSeq
  | resetInDeck d hd => exact hs.schema_deck rfl rfl rfl rfl rfl hs.cardIds hs.cardSeq
  | setTopCard hd h =>
    rw [setTopCard_ok h] at hdecks ⊢
    exact hs.schema_deck rfl rfl rfl rfl hdecks hs.cardIds hs.cardSeq
  | setTopCardShuffled hd h =>
    rw [setTopCardShuffled_ok h] at hdecks ⊢
    exact hs.schema_deck rfl rfl rfl rfl hdecks hs.cardIds hs.cardSeq
  | setDeckCardNext hd h =>
    rw [setDeckCardNext_ok h]
    refine hs.schema_deck rfl rfl rfl rfl rfl ?_ ?_
    · exact nodup_map_map (fun r : DeckCardRow => r.id) _
        (fun r => by dsimp only; split_ifs <;> rfl) _ hs.cardIds
    · intro r' hr'
      obtain ⟨r, hr, rfl⟩ := List.mem_map.1 hr'
      have := hs.cardSeq r hr
      split_ifs <;> exact this
  | insertDeckCard hd h =>
    obtain ⟨_, _, rfl⟩ := insertDeckCard_ok h
    refine hs.schema_deck rfl rfl rfl rfl rfl ?_ ?_
    · exact nodup_snoc_fresh (fun r : DeckCardRow => r.id) _ _ a.seqDeckCard hs.cardIds
        hs.cardSeq rfl
    · intro r hr
      rcases List.mem_append.1 hr with hm | hm
      · exact Nat.le_succ_of_le (hs.cardSeq r hm)
      · rw [List.mem_singleton.1 hm]
  | deleteDeckCard i hd =>
    refine hs.schema_deck rfl rfl rfl rfl hdecks ?_ ?_
    · exact nodup_filter_map (fun r : DeckCardRow => r.id) _
        (fun r => by dsimp only; split_ifs <;> rfl) _ _ hs.cardIds
    · intro r' hr'
      obtain ⟨r, hr, rfl⟩ := List.mem_map.1 hr'
      have := hs.cardSeq r (List.mem_filter.1 hr).1
      split_ifs <;> exact this
  | insertPile hp hnew h =>
    unfold DeckOfCards.insertPile at h
    split_ifs at h with hex
    have hk := Except.ok.inj h
    simp only [Prod.mk.injEq] at hk
    rw [← hk.1]
    refine hs.schema_pile rfl rfl rfl ?_ ?_ ?_ ?_ hs.pileCardIds hs.pileCardSeq ?_
    · exact nodup_snoc_fresh (fun p : PileRow => p.id) _ _ a.seqPile hs.pileIds hs.pileSeq rfl
    · intro p hm
      rcases List.mem_append.1 hm with hm | hm
      · exact Nat.le_succ_of_le (hs.pileSeq p hm)
      · rw [List.mem_singleton.1 hm]
    · show ((a.piles ++ [_]).map _).Nodup
      rw [List.map_append, List.nodup_append]
      refine ⟨hs.pileNames, by simp, ?_⟩
      intro x hx hy
      simp only [List.map_cons, List.map_nil, List.mem_singleton] at hy
      obtain ⟨p, hpm, rfl⟩ := List.mem_map.1 hx
      simp only [Prod.mk.injEq] at hy
      have := List.find?_eq_none.1 hnew p hpm
      simp only [decide_eq_true_eq] at this
      exact this hy
    · intro p hm
      rcases List.mem_append.1 hm with hm | hm
      · exact hs.pileFk p hm
      · rw [List.mem_singleton.1 hm]
        exact hex
    · intro c hc
      have := hs.pileCardFk c hc
      simp only [Store.pileExists, List.any_eq_true, decide_eq_true_eq] at this ⊢
      obtain ⟨p, hpm, hpid⟩ := this
      exact ⟨p, List.mem_append_left _ hpm, hpid⟩
  | insertPileCard hp h =>
    unfold DeckOfCards.insertPileCard at h
    split_ifs at h with hex
    have hk := Except.ok.inj h
    simp only [Prod.mk.injEq] at hk
    rw [← hk.1]
    simp only [Bool.and_eq_true] at hex
    refine hs.schema_pile rfl rfl rfl hs.pileIds hs.pileSeq hs.pileNames hs.pileFk ?_ ?_ ?_
    · exact nodup_snoc_fresh (fun c : PileCardRow => c.id) _ _ a.seqPileCard hs.pileCardIds
        hs.pileCardSeq rfl
    · intro c hm
      rcases List.mem_append.1 hm with hm | hm
      · exact Nat.le_succ_of_le (hs.pileCardSeq c hm)
      · rw [List.mem_singleton.1 hm]
    · intro c hm
      rcases List.mem_append.1 hm with hm | hm
      · exact hs.pileCardFk c hm
      · rw [List.mem_singleton.1 hm]
        exact hex.1
  | deletePileCard i hp =>
    refine hs.schema_pileCards rfl rfl rfl rfl rfl rfl ?_ ?_
    · exact nodup_filter_map (fun c : PileCardRow => c.id) _
        (fun r => by dsimp only; split_ifs <;> rfl) _ _ hs.pileCardIds
    · intro c' hc'
      obtain ⟨c, hc, rfl⟩ := List.mem_map.1 hc'
      refine ⟨c, (List.mem_filter.1 hc).1, ?_⟩
      split_ifs <;> exact ⟨rfl, rfl⟩
  | deletePileCardsOf p hp =>
    refine hs.schema_pileCards rfl rfl rfl rfl rfl rfl ?_ ?_
    · exact nodup_filter_map (fun c : PileCardRow => c.id) _
        (fun r => (deletePileCardsOf_key a p r).1) _ _ hs.pileCardIds
    · intro c' hc'
      obtain ⟨c, hc, rfl⟩ := List.mem_map.1 hc'
      exact ⟨c, (List.mem_filter.1 hc).1, (deletePileCardsOf_key a p c).1,
        (deletePileCardsOf_key a p c).2.1⟩
  | setPileCardNext h =>
    rw [setPileCardNext_ok h]
    refine hs.schema_pileCards rfl rfl rfl rfl rfl rfl ?_ ?_
    · exact nodup_map_map (fun c : PileCardRow => c.id) _
        (fun r => by dsimp only; split_ifs <;> rfl) _ hs.pileCardIds
    · intro c' hc'
      obtain ⟨c, hc, rfl⟩ := List.mem_map.1 hc'
      refine ⟨c, hc, ?_⟩
      split_ifs <;> exact ⟨rfl, rfl⟩
  | clearPileLinks p =>
    refine hs.schema_pileCards rfl rfl rfl rfl rfl rfl ?_ ?_
    · exact nodup_map_map (fun c : PileCardRow => c.id) _
        (fun r => by dsimp only; split_ifs <;> rfl) _ hs.pileCardIds
    · intro c' hc'
      obtain ⟨c, hc, rfl⟩ := List.mem_map.1 hc'
      refine ⟨c, hc, ?_⟩
      split_ifs <;> exact ⟨rfl, rfl⟩

theorem DeckFrame.dframe_refl (s : Store) : DeckFrame s s := ⟨rfl, rfl, rfl, rfl⟩

theorem DeckFrame.dframe_trans {a b c : Store} (h1 : DeckFrame a b) (h2 : DeckFrame b c) :
    DeckFrame a c :=
  ⟨h2.decks.trans h1.decks, h2.deckCards.trans h1.deckCards,
    h2.seqDeckCard.trans h1.seqDeckCard, h2.entries.trans h1.entries⟩

theorem PileFrame.pframe_refl (s : Store) : PileFrame s s := ⟨rfl, rfl, rfl, rfl, rfl⟩

theorem PileFrame.pframe_trans {a b c : Store} (h1 : PileFrame a b) (h2 : PileFrame b c) :
    PileFrame a c :=
  ⟨h2.piles.trans h1.piles, h2.pileCards.trans h1.pileCards, h2.seqPile.trans h1.seqPile,
    h2.seqPileCard.trans h1.seqPileCard, h2.entries.trans h1.entries⟩

theorem map_updateEntry_key {β : Type} (k : DeckEntryRow → β) (s : Store) (d c : String)
    (g : DeckEntryRow → Bool) (f : DeckEntryRow → DeckEntryRow) (hf : ∀ e, k (f e) = k e) :
    (updateEntry s d c g f).entries.map k = s.entries.map k := by
  show (List.map _ s.entries).map k = _
  rw [List.map_map]
  apply List.map_congr_left
  intro e _
  dsimp only [Function.comp]
  split_ifs
  · exact hf e
  · rfl

theorem map_setNext_key {β : Type} (k : PileCardRow → β) (T : List PileCardRow)
    (g : PileCardRow → PileCardRow) (hg : ∀ c, k (g c) = k c) : (T.map g).map k = T.map k := by
  rw [List.map_map]
  apply List.map_congr_left
  intro c _
  exact hg c

theorem Stmt.deck_frame {pt : Bool} {a b : Store} (h : Stmt false pt a b) :
    DeckFrame a b := by
  cases h with
  | ledgerDeck d c g f hd hf => cases hd
  | ledgerPile d c g f hp hf =>
    refine ⟨rfl, rfl, rfl, ?_⟩
    apply map_updateEntry_key
    intro e
    obtain ⟨h1, h2, h3, h4⟩ := hf e
    rw [h1, h2, h3, h4]
  | ledgerMove d c g f hd hp hf => cases hd
  | resetInDeck d hd => cases hd
  | setTopCard hd h => cases hd
  | setTopCardShuffled hd h => cases hd
  | setDeckCardNext hd h => cases hd
  | insertDeckCard hd h => cases hd
  | deleteDeckCard i hd => cases hd
  | insertPile hp hnew h =>
    have := insertPile_side h
    exact ⟨this.decks, this.deckCards, this.seqDeckCard, by rw [this.entries]⟩
  | insertPileCard hp h =>
    have := insertPileCard_side h
    exact ⟨this.decks, this.deckCards, this.seqDeckCard, by rw [this.entries]⟩
  | deletePileCard i hp => exact ⟨rfl, rfl, rfl, rfl⟩
  | deletePileCardsOf p hp => exact ⟨rfl, rfl, rfl, rfl⟩
  | setPileCardNext h =>
    have := setPileCardNext_side h
    exact ⟨this.decks, this.deckCards, this.seqDeckCard, by rw [this.entries]⟩
  | clearPileLinks p => exact ⟨rfl, rfl, rfl, rfl⟩

theorem Stmt.pile_frame {dt : Bool} {a b : Store} (h : Stmt dt false a b) :
    PileFrame a b := by
  cases h with
  | ledgerDeck d c g f hd hf =>
    refine ⟨rfl, rfl, rfl, rfl, ?_⟩
    apply map_updateEntry_key
    intro e
    obtain ⟨h1, h2, h3, h4⟩ := hf e
    rw [h1, h2, h3, h4]
  | ledgerPile d c g f hp hf => cases hp
  | ledgerMove d c g f hd hp hf => cases hp
  | resetInDeck d hd =>
    refine ⟨rfl, rfl, rfl, rfl, ?_⟩
    show (List.map _ a.entries).map _ = _
    rw [List.map_map]
    apply List.map_congr_left
    intro e _
    dsimp only [Function.comp]
    split_ifs <;> rfl
  | setTopCard hd h =>
    rw [setTopCard_ok h]
    exact ⟨rfl, rfl, rfl, rfl, rfl⟩
  | setTopCardShuffled hd h =>
    rw [setTopCardShuffled_ok h]
    exact ⟨rfl, rfl, rfl, rfl, rfl⟩
  | setDeckCardNext hd h =>
    rw [setDeckCardNext_ok h]
    exact ⟨rfl, rfl, rfl, rfl, rfl⟩
  | insertDeckCard hd h =>
    obtain ⟨_, _, rfl⟩ := insertDeckCard_ok h
    exact ⟨rfl, rfl, rfl, rfl, rfl⟩
  | deleteDeckCard i hd => exact ⟨rfl, rfl, rfl, rfl, rfl⟩
  | insertPile hp hnew h => cases hp
  | insertPileCard hp h => cases hp
  | deletePileCard i hp => cases hp
  | deletePileCardsOf p hp => cases hp
  | setPileCardNext h =>
    rw [setPileCardNext_ok h]
    refine ⟨rfl, ?_, rfl, rfl, rfl⟩
    exact map_setNext_key _ _ _ (fun c => by split_ifs <;> rfl)
  | clearPileLinks p =>
    refine ⟨rfl, ?_, rfl, rfl, rfl⟩
    exact map_setNext_key _ _ _ (fun c => by split_ifs <;> rfl)

theorem Steps.deck_frames {pt : Bool} {s s' : Store} (h : Steps false pt s s') :
    DeckFrame s s' :=
  Steps.relates DeckFrame.dframe_refl (fun _ _ _ => DeckFrame.dframe_trans)
    (fun _ _ => Stmt.deck_frame) h

theorem Steps.pile_frames {dt : Bool} {s s' : Store} (h : Steps dt false s s') :
    PileFrame s s' :=
  Steps.relates PileFrame.pframe_refl (fun _ _ _ => PileFrame.pframe_trans)
    (fun _ _ => Stmt.pile_frame) h

theorem Steps.schema_steps {dt pt : Bool} {s s' : Store} (h : Steps dt pt s s')
    (hs : Schema s) : Schema s' :=
  Steps.keeps (fun _ _ => Stmt.schema_step) h hs

theorem Steps.deckIds_steps {dt pt : Bool} {s s' : Store} (h : Steps dt pt s s') :
    s'.decks.map (fun r => r.deckId) = s.decks.map (fun r => r.deckId) :=
  Steps.relates (R := fun a b => b.decks.map (fun r => r.deckId) =
    a.decks.map (fun r => r.deckId)) (fun _ => rfl) (fun _ _ _ h1 h2 => h2.trans h1)
    (fun _ _ => Stmt.deckIds_same) h

theorem schema_empty : Schema Store.empty := by
  refine ⟨?_, ?_, ?_, ?_, ?_, ?_, ?_, ?_, ?_, ?_⟩ <;>
    first
    | exact List.nodup_nil
    | (intro x hx; cases hx)

theorem insertedStore_schema {s : Store} (hs : Schema s) (hsound : Sound s) {tok : String}
    (hfresh : s.deckExists tok = false) (cards : List String) :
    Schema (insertedStore s tok cards) := by
  have hex : ∀ d, s.deckExists d = true → (insertedStore s tok cards).deckExists d = true := by
    intro d hd
    simp only [Store.deckExists, List.any_eq_true, decide_eq_true_eq] at hd ⊢
    obtain ⟨r, hr, hrd⟩ := hd
    exact ⟨r, List.mem_append_left _ hr, hrd⟩
  refine ⟨insertedStore_ids s tok cards hs.cardIds hs.cardSeq,
    (insertedStore_sound hsound hfresh cards).cardSeq, ?_, hs.pileIds, hs.pileSeq,
    hs.pileNames, fun p hp => hex _ (hs.pileFk p hp), hs.pileCardIds, hs.pileCardSeq,
    hs.pileCardFk⟩
  show ((s.decks ++ [_]).map _).Nodup
  rw [List.map_append, List.nodup_append]
  refine ⟨hs.deckIds, by simp, ?_⟩
  intro x hx hy
  simp only [List.map_cons, List.map_nil, List.mem_singleton] at hy
  rw [hy] at hx
  have := (@deckExists_iff s tok).2 hx
  rw [hfresh] at this
  cases this

theorem Stmt.stmt_mono {dt pt dt' pt' : Bool} {a b : Store} (h : Stmt dt pt a b)
    (hd : dt = true → dt' = true) (hp : pt = true → pt' = true) : Stmt dt' pt' a b := by
  cases h with
  | ledgerDeck d c g f h1 hf => exact Stmt.ledgerDeck a d c g f (hd h1) hf
  | ledgerPile d c g f h1 hf => exact Stmt.ledgerPile a d c g f (hp h1) hf
  | ledgerMove d c g f h1 h2 hf => exact Stmt.ledgerMove a d c g f (hd h1) (hp h2) hf
  | resetInDeck d h1 => exact Stmt.resetInDeck a d (hd h1)
  | setTopCard h1 h => exact Stmt.setTopCard (hd h1) h
  | setTopCardShuffled h1 h => exact Stmt.setTopCardShuffled (hd h1) h
  | setDeckCardNext h1 h => exact Stmt.setDeckCardNext (hd h1) h
  | insertDeckCard h1 h => exact Stmt.insertDeckCard (hd h1) h
  | deleteDeckCard i h1 => exact Stmt.deleteDeckCard a i (hd h1)
  | insertPile h1 hnew h => exact Stmt.insertPile (hp h1) hnew h
  | insertPileCard h1 h => exact Stmt.insertPileCard (hp h1) h
  | deletePileCard i h1 => exact Stmt.deletePileCard a i (hp h1)
  | deletePileCardsOf p h1 => exact Stmt.deletePileCardsOf a p (hp h1)
  | setPileCardNext h => exact Stmt.setPileCardNext h
  | clearPileLinks p => exact Stmt.clearPileLinks a p

theorem Steps.steps_mono {dt pt dt' pt' : Bool} {s s' : Store} (h : Steps dt pt s s')
    (hd : dt = true → dt' = true) (hp : pt = true → pt' = true) : Steps dt' pt' s s' := by
  induction h with
  | done s => exact Steps.done s
  | next hst _ ih => exact Steps.next (hst.stmt_mono hd hp) ih

/-- Every operation that takes a deck id is a sequence of statements. -/
theorem call_steps (s : Store) (A : String) (c : Call) : Steps true true s (c.run s A) := by
  cases c with
  | drawCards amount =>
    exact (drawCards_steps s A amount).steps_mono (fun h => h) (fun h => by cases h)
  | shuffleDeck rnd =>
    exact (shuffleDeck_steps s A rnd).steps_mono (fun h => h) (fun h => by cases h)
  | shuffleAllPiles rnd =>
    exact (shuffleAllPiles_steps s A rnd).steps_mono (fun h => by cases h)
      (fun h => by cases h)
  | updatePileOrder name codes =>
    exact (updatePileOrder_steps s A name codes).steps_mono (fun h => by cases h)
      (fun h => by cases h)
  | insertIntoPile name codes =>
    exact (insertIntoPile_steps s name A codes).steps_mono (fun h => by cases h) (fun h => h)
  | drawFromPile name method pick =>
    exact (drawFromPile_steps s A name method pick).steps_mono (fun h => by cases h)
      (fun h => h)
  | drawSpecificFromPile name code =>
    exact (drawSpecificFromPile_steps s A name code).steps_mono (fun h => by cases h)
      (fun h => h)
  | returnSpecificDrawn code =>
    exact (returnSpecificDrawn_steps s A code).steps_mono (fun h => h) (fun h => by cases h)
  | returnAllDrawn =>
    exact (returnAllDrawn_steps s A).steps_mono (fun h => h) (fun h => by cases h)
  | returnSpecificFromPile name code => exact returnSpecificFromPile_steps s A name code
  | returnAllFromPile name => exact returnAllFromPile_steps s A name

/-- The schema holds of every store the engine can reach. -/
theorem reachable_schema {s : Store} (h : Reachable s) : Schema s := by
  induction h with
  | empty => exact schema_empty
  | insertDeck s rand cards hr ih =>
    by_cases htok : tokenLoop s rand 30 0 = ""
    · unfold InsertDeck
      rw [if_pos htok]
      exact ih
    · rw [insertDeck_store s rand cards (reachable_inv hr).sound.cardSeq
        (reachable_inv hr).sound.entryDeck htok]
      exact insertedStore_schema ih (reachable_inv hr).sound
        (tokenLoop_fresh s rand 30 0 htok) cards
  | drawCards s d amount hr ih => exact (call_steps s d (.drawCards amount)).schema_steps ih
  | shuffleDeck s d rnd hr ih => exact (call_steps s d (.shuffleDeck rnd)).schema_steps ih
  | shuffleAllPiles s d rnd hr ih =>
    exact (call_steps s d (.shuffleAllPiles rnd)).schema_steps ih
  | updatePileOrder s d name codes hr ih =>
    exact (call_steps s d (.updatePileOrder name codes)).schema_steps ih
  | insertIntoPile s name d codes hr ih =>
    exact (call_steps s d (.insertIntoPile name codes)).schema_steps ih
  | drawFromPile s d name method pick hr ih =>
    exact (call_steps s d (.drawFromPile name method pick)).schema_steps ih
  | drawSpecificFromPile s d name code hr ih =>
    exact (call_steps s d (.drawSpecificFromPile name code)).schema_steps ih
  | returnSpecificDrawn s d code hr ih =>
    exact (call_steps s d (.returnSpecificDrawn code)).schema_steps ih
  | returnAllDrawn s d hr ih => exact (call_steps s d .returnAllDrawn).schema_steps ih
  | returnSpecificFromPile s d name code hr ih =>
    exact (call_steps s d (.returnSpecificFromPile name code)).schema_steps ih
  | returnAllFromPile s d name hr ih =>
    exact (call_steps s d (.returnAllFromPile name)).schema_steps ih

/-! ## Integrity of the deck lists in reachable stores -/

theorem entry_of_same {d : String} {s s' : Store}
    (h : (s'.entries.filter (fun e => e.deckId = d)).map (fun e => (e.code, e.inDeck)) =
      (s.entries.filter (fun e => e.deckId = d)).map (fun e => (e.code, e.inDeck)))
    {e' : DeckEntryRow} (he' : e' ∈ s'.entries) (hd : e'.deckId = d) :
    ∃ e ∈ s.entries, e.deckId = d ∧ e.code = e'.code ∧ e.inDeck = e'.inDeck := by
  have hm : (e'.code, e'.inDeck) ∈
      (s'.entries.filter (fun e => e.deckId = d)).map (fun e => (e.code, e.inDeck)) :=
    List.mem_map.2 ⟨e', List.mem_filter.2 ⟨he', by simpa using hd⟩, rfl⟩
  rw [h] at hm
  obtain ⟨e, he, heq⟩ := List.mem_map.1 hm
  simp only [Prod.mk.injEq] at heq
  have := List.mem_filter.1 he
  exact ⟨e, this.1, by simpa using this.2, heq.1, heq.2⟩

theorem DeckOk.of_same {d : String} {s s' : Store} (h : DeckOk s d) (f : SameDeck d s s')
    (hids : (s'.deckCards.map (fun r => r.id)).Nodup) : DeckOk s' d := by
  obtain ⟨rows, hat, hled, hcov⟩ := h
  obtain ⟨dk, hdk, hl⟩ := hat.deck
  refine ⟨rows, ⟨hids, ⟨dk, by rw [f.deck]; exact hdk, hl⟩, by rw [f.cards]; exact hat.perm⟩,
    ?_, ?_⟩
  · intro e' he' hd
    obtain ⟨e, he, h1, h2, h3⟩ := entry_of_same f.entries he' hd
    rw [← h2, ← h3]
    exact hled e he h1
  · intro r hr
    obtain ⟨e, he, h1, h2⟩ := hcov r hr
    obtain ⟨e', he', h1', h2', _⟩ := entry_of_same f.entries.symm he h1
    exact ⟨e', he', h1', h2'.trans h2⟩

theorem SameDeck.of_iso {A d : String} {s s' : Store} (h : IsoDeck A s s') (hd : d ≠ A) :
    SameDeck d s s' := by
  refine ⟨?_, h.deckCards d hd, by rw [h.entries d hd]⟩
  unfold findDeck
  rw [← List.filter_head?, ← List.filter_head?, h.decks d hd]

theorem filter_map_of_key {α β γ : Type} (k : α → β) (P : β → Bool) (g : β → γ)
    (l l' : List α) (h : l'.map k = l.map k) :
    (l'.filter (fun a => P (k a))).map (fun a => g (k a)) =
      (l.filter (fun a => P (k a))).map (fun a => g (k a)) := by
  have key : ∀ m : List α, (m.filter (fun a => P (k a))).map (fun a => g (k a)) =
      ((m.map k).filter P).map g := by
    intro m
    induction m with
    | nil => rfl
    | cons a m ih =>
      simp only [List.filter_cons, List.map_cons]
      split_ifs
      · simp only [List.map_cons, ih]
      · exact ih
  rw [key, key, h]

theorem SameDeck.of_frame {s s' : Store} (h : DeckFrame s s') (d : String) :
    SameDeck d s s' := by
  refine ⟨by unfold findDeck; rw [h.decks], by rw [h.deckCards], ?_⟩
  exact filter_map_of_key (fun e : DeckEntryRow => (e.deckId, e.code, e.total, e.inDeck))
    (fun k => decide (k.1 = d)) (fun k => (k.2.1, k.2.2.2)) s.entries s'.entries h.entries

theorem count_one_of_nodup {s : Store} (hs : Schema s) {dk : DeckRow} (h : dk ∈ s.decks) :
    (s.decks.map (fun r => r.deckId)).count dk.deckId = 1 :=
  List.count_eq_one_of_mem hs.deckIds (List.mem_map.2 ⟨dk, h, rfl⟩)

/-! ### The operated deck after each operation on the deck tables -/

theorem drawCards_deckOk {s : Store} {A : String} (h : DeckOk s A) (amount : Int) :
    DeckOk (DrawCards s A amount).1 A := by
  obtain ⟨rows, hat, hled, hcov⟩ := h
  obtain ⟨s', hres, hat', hfr⟩ := drawCards_effect hat amount
  rw [hres]
  refine ⟨_, hat', ?_, ?_⟩
  · intro e' he' hd
    have hm : e' ∈ s.entries.map (fun e => if e.deckId = A then
        { e with inDeck := e.inDeck -
          ((rows.take (min amount.toNat rows.length)).map (fun r => r.code)).count e.code }
        else e) := by
      rw [← hfr.entries]
      exact he'
    obtain ⟨e, he, rfl⟩ := List.mem_map.1 hm
    have hdA : e.deckId = A := by
      by_cases hx : e.deckId = A
      · exact hx
      · rw [if_neg hx] at hd
        exact hd
    rw [if_pos hdA]
    have hc := hled e he hdA
    have hsplit : (rows.map (fun r => r.code)).count e.code =
        ((rows.take (min amount.toNat rows.length)).map (fun r => r.code)).count e.code +
        ((rows.drop (min amount.toNat rows.length)).map (fun r => r.code)).count e.code := by
      rw [← List.count_append, ← List.map_append, List.take_append_drop]
    show (((rows.drop (min amount.toNat rows.length)).map (fun r => r.code)).count e.code :
      Int) = e.inDeck - _
    rw [hsplit] at hc
    push_cast at hc
    omega
  · intro r hr
    obtain ⟨e, he, h1, h2⟩ := hcov r (List.mem_of_mem_drop hr)
    have hx : ∃ e' ∈ s'.entries, e'.deckId = A ∧ e'.code = r.code := by
      rw [hfr.entries]
      refine ⟨_, List.mem_map.2 ⟨e, he, rfl⟩, ?_⟩
      rw [if_pos h1]
      exact ⟨h1, h2⟩
    exact hx

theorem shuffleDeck_deckOk {s : Store} {A : String} (h : DeckOk s A) (rnd : Nat → Nat) :
    DeckOk (ShuffleDeck s A rnd).1 A := by
  obtain ⟨rows, hat, hled, hcov⟩ := h
  by_cases hne : rows = []
  · subst hne
    have hflt : s.deckCards.filter (fun r => r.deckId = A) = [] :=
      List.Perm.eq_nil (hat.perm.symm)
    have hres : (ShuffleDeck s A rnd).1 = s := by
      unfold ShuffleDeck
      split_ifs
      · rfl
      · rw [hflt]
        rfl
    rw [hres]
    exact ⟨[], hat, hled, hcov⟩
  · have hperm := shuffle_perm rnd (s.deckCards.filter (fun r => r.deckId = A))
    have hat' := shuffledStore_deckAt hat hperm
    rw [shuffleDeck_ok hat hne rnd]
    generalize shuffle rnd (s.deckCards.filter (fun r => r.deckId = A)) = cards
      at hperm hat' ⊢
    have hcodes : (cards.map (fun r : DeckCardRow =>
        { r with nextId := nextIn (cards.map (fun c : DeckCardRow => c.id)) r.id })).map
        (fun r => r.code) = cards.map (fun r => r.code) := by
      rw [List.map_map]
      rfl
    have hp : (cards.map (fun r => r.code)).Perm (rows.map (fun r => r.code)) :=
      (hperm.trans hat.perm.symm).map _
    refine ⟨_, hat', ?_, ?_⟩
    · intro e he hd
      rw [hcodes, hp.count_eq]
      exact hled e he hd
    · intro r hr
      have hm : r.code ∈ rows.map (fun r => r.code) := by
        rw [← hp.mem_iff, ← hcodes]
        exact List.mem_map.2 ⟨r, hr, rfl⟩
      obtain ⟨r0, hr0, hc0⟩ := List.mem_map.1 hm
      obtain ⟨e, he, h1, h2⟩ := hcov r0 hr0
      exact ⟨e, he, h1, h2.trans hc0⟩

theorem returnSpecificDrawn_deckOk {s : Store} (hs : Sound s) {A : String} (h : DeckOk s A)
    (code : String) : DeckOk (ReturnSpecificDrawn s A code).1 A := by
  obtain ⟨rows, hat, hled, hcov⟩ := h
  cases hf : findEntry s A code with
  | none =>
    have : (ReturnSpecificDrawn s A code).1 = s := by
      unfold ReturnSpecificDrawn
      rw [hf]
      rfl
    rw [this]
    exact ⟨rows, hat, hled, hcov⟩
  | some e0 =>
    by_cases hout : e0.total - e0.inDeck - e0.inPile ≤ 0
    · have : (ReturnSpecificDrawn s A code).1 = s := by
        unfold ReturnSpecificDrawn
        rw [hf]
        dsimp only
        rw [if_pos hout]
        rfl
      rw [this]
      exact ⟨rows, hat, hled, hcov⟩
    · rw [returnSpecificDrawn_ok hat hf hout]
      have he0 : e0 ∈ s.entries ∧ e0.deckId = A ∧ e0.code = code :=
        ⟨List.mem_of_find?_eq_some hf, findEntry_key hf⟩
      refine ⟨_, returnedStore_deckAt hat hs.cardSeq code, ?_, ?_⟩
      · intro e' he' hd
        obtain ⟨e, he, rfl⟩ := List.mem_map.1 he'
        by_cases hk : e.deckId = A ∧ e.code = code
        · rw [if_pos hk]
          have := hled e he hk.1
          simp only [List.map_cons, hk.2, List.count_cons_self]
          rw [hk.2] at this
          push_cast
          omega
        · rw [if_neg hk] at hd ⊢
          have hne : code ≠ e.code := fun hh => hk ⟨hd, hh.symm⟩
          simp only [List.map_cons]
          rw [List.count_cons_of_ne hne.symm]
          exact hled e he hd
      · intro r hr
        have hex : ∀ e ∈ s.entries, e.deckId = A →
            ∃ e' ∈ (returnedStore s A code).entries, e'.deckId = A ∧ e'.code = e.code := by
          intro e he hd
          refine ⟨_, List.mem_map.2 ⟨e, he, rfl⟩, ?_⟩
          split_ifs <;> exact ⟨hd, rfl⟩
        rcases List.mem_cons.1 hr with rfl | hr
        · obtain ⟨e', he', h1, h2⟩ := hex e0 he0.1 he0.2.1
          exact ⟨e', he', h1, h2.trans he0.2.2⟩
        · obtain ⟨e, he, h1, h2⟩ := hcov r hr
          obtain ⟨e', he', h1', h2'⟩ := hex e he h1
          exact ⟨e', he', h1', h2'.trans h2⟩

theorem count_pushes_eq {s : Store} (hs : Sound s) (hc : Conserved s) (d : String)
    {e : DeckEntryRow} (he : e ∈ s.entries) (hd : e.deckId = d) :
    (((drawnPushes s d).count e.code : Nat) : Int) = e.total - e.inDeck - e.inPile := by
  have hb := hc e he
  have hle := count_pushes_le hs hc d he hd
  unfold drawnPushes
  have hsubl : (((s.entries.filter (fun e => e.deckId = d)).filter
      (fun e => decide (e.total - e.inDeck - e.inPile > 0))).reverse).Perm
      ((s.entries.filter (fun e => e.deckId = d)).filter
        (fun e => decide (e.total - e.inDeck - e.inPile > 0))) := List.reverse_perm _
  by_cases hpos : e.total - e.inDeck - e.inPile > 0
  · have hin : e ∈ ((s.entries.filter (fun e => e.deckId = d)).filter
        (fun e => decide (e.total - e.inDeck - e.inPile > 0))).reverse :=
      hsubl.symm.subset (List.mem_filter.2
        ⟨List.mem_filter.2 ⟨he, by simpa using hd⟩, by simpa using hpos⟩)
    have hge : (e.total - e.inDeck - e.inPile).toNat ≤
        ((((s.entries.filter (fun e => e.deckId = d)).filter
          (fun e => decide (e.total - e.inDeck - e.inPile > 0))).reverse.flatMap
        (fun e => List.replicate (e.total - e.inDeck - e.inPile).toNat e.code)).count
          e.code) := by
      have hsub : (List.replicate (e.total - e.inDeck - e.inPile).toNat e.code).Sublist
          ((((s.entries.filter (fun e => e.deckId = d)).filter
            (fun e => decide (e.total - e.inDeck - e.inPile > 0))).reverse.flatMap
          (fun e => List.replicate (e.total - e.inDeck - e.inPile).toNat e.code))) := by
        obtain ⟨l1, l2, hl⟩ := List.append_of_mem hin
        rw [hl, List.flatMap_append, List.flatMap_cons]
        exact (List.sublist_append_left _ _).trans (List.sublist_append_right _ _)
      have := hsub.count_le e.code
      rwa [List.count_replicate_self] at this
    omega
  · omega

theorem findDeck_count {s : Store} (hs : Schema s) {d : String} {dk : DeckRow}
    (h : findDeck s d = some dk) : (s.decks.map (fun r => r.deckId)).count d = 1 := by
  have hm : dk ∈ s.decks := List.mem_of_find?_eq_some h
  have hd : dk.deckId = d := by simpa using List.find?_some h
  rw [← hd]
  exact count_one_of_nodup hs hm

theorem returnAllDrawn_deckOk {s : Store} (hsch : Schema s) (hs : Sound s) (hc : Conserved s)
    {A : String} (h : DeckOk s A) : DeckOk (ReturnAllDrawn s A).1 A := by
  obtain ⟨rows, hat, hled, hcov⟩ := h
  obtain ⟨dk, hdk, -⟩ := hat.deck
  obtain ⟨hres, hat', -⟩ := returnAllDrawn_general hat hs.cardSeq (findDeck_count hsch hdk)
  rw [hres]
  refine ⟨_, hat', ?_, ?_⟩
  · intro e' he' hd
    obtain ⟨e, he, rfl⟩ := List.mem_map.1 he'
    have hdA : e.deckId = A := by
      by_cases hx : e.deckId = A
      · exact hx
      · rw [if_neg hx] at hd
        exact hd
    rw [if_pos hdA]
    have h1 := hled e he hdA
    have h2 := count_pushes_eq hs hc A he hdA
    rw [List.map_append, List.map_reverse, pushedDeckRows_codes, List.count_append,
      List.count_reverse]
    show _ = e.total - e.inPile
    push_cast
    omega
  · intro r hr
    have hex : ∀ e ∈ s.entries, e.deckId = A →
        ∃ e' ∈ (returnDrawnStore s A).entries, e'.deckId = A ∧ e'.code = e.code := by
      intro e he hd
      refine ⟨_, List.mem_map.2 ⟨e, he, rfl⟩, ?_⟩
      rw [if_pos hd]
      exact ⟨hd, rfl⟩
    rcases List.mem_append.1 hr with hr | hr
    · have hm : r.code ∈ drawnPushes s A := by
        have hx : r.code ∈ (pushedDeckRows s.seqDeckCard A (deckTop s A)
            (drawnPushes s A)).map (fun r => r.code) :=
          List.mem_map.2 ⟨r, List.mem_reverse.1 hr, rfl⟩
        rwa [pushedDeckRows_codes] at hx
      unfold drawnPushes at hm
      obtain ⟨e, he, hrep⟩ := List.mem_flatMap.1 hm
      have hcode : r.code = e.code := (List.mem_replicate.1 hrep).2
      have he2 := List.mem_filter.1 (List.mem_filter.1 (List.mem_reverse.1 he)).1
      obtain ⟨e', he', h1', h2'⟩ := hex e he2.1 (by simpa using he2.2)
      exact ⟨e', he', h1', h2'.trans hcode.symm⟩
    · obtain ⟨e, he, h1, h2⟩ := hcov r hr
      obtain ⟨e', he', h1', h2'⟩ := hex e he h1
      exact ⟨e', he', h1', h2'.trans h2⟩

/-! ### Pushing codes on the operated deck -/

theorem pushed_deckOk {s s' : Store} {A : String} (codes : List String) (h : DeckOk s A)
    (hseq : ∀ r ∈ s.deckCards, r.id ≤ s.seqDeckCard)
    (hdecks : s'.decks = s.decks.map (fun r =>
      if r.deckId = A ∧ pushedTop s.seqDeckCard (deckTop s A) codes ≠ none
      then { r with topCardId := pushedTop s.seqDeckCard (deckTop s A) codes } else r))
    (hcards : s'.deckCards =
      s.deckCards ++ pushedDeckRows s.seqDeckCard A (deckTop s A) codes)
    (hent : ∀ e' ∈ s'.entries, e'.deckId = A → ∃ e ∈ s.entries, e.deckId = A ∧
      e.code = e'.code ∧ e'.inDeck = e.inDeck + (codes.count e.code : Int))
    (hback : ∀ e ∈ s.entries, e.deckId = A → ∃ e' ∈ s'.entries, e'.deckId = A ∧
      e'.code = e.code)
    (hex : ∀ c ∈ codes, ∃ e ∈ s.entries, e.deckId = A ∧ e.code = c) : DeckOk s' A := by
  obtain ⟨rows, hat, hled, hcov⟩ := h
  refine ⟨_, pushed_deckAt codes hat hseq hdecks hcards, ?_, ?_⟩
  · intro e' he' hd
    obtain ⟨e, he, h1, h2, h3⟩ := hent e' he' hd
    have hc := hled e he h1
    rw [List.map_append, List.map_reverse, pushedDeckRows_codes, List.count_append,
      List.count_reverse, ← h2, h3]
    push_cast
    omega
  · intro r hr
    rcases List.mem_append.1 hr with hr | hr
    · have hx : r.code ∈ (pushedDeckRows s.seqDeckCard A (deckTop s A) codes).map
          (fun r => r.code) := List.mem_map.2 ⟨r, List.mem_reverse.1 hr, rfl⟩
      rw [pushedDeckRows_codes] at hx
      obtain ⟨e, he, h1, h2⟩ := hex _ hx
      obtain ⟨e', he', h1', h2'⟩ := hback e he h1
      exact ⟨e', he', h1', h2'.trans h2⟩
    · obtain ⟨e, he, h1, h2⟩ := hcov r hr
      obtain ⟨e', he', h1', h2'⟩ := hback e he h1
      exact ⟨e', he', h1', h2'.trans h2⟩

theorem deckTop_congr {a b : Store} (h : b.decks = a.decks) (d : String) :
    deckTop b d = deckTop a d := by
  unfold deckTop findDeck
  rw [h]

theorem affected_entry {s : Store} {d c : String} {guard : DeckEntryRow → Bool}
    (h : entriesAffected s d c guard ≠ 0) :
    ∃ e ∈ s.entries, e.deckId = d ∧ e.code = c ∧ guard e = true := by
  unfold entriesAffected at h
  obtain ⟨e, he⟩ := List.exists_mem_of_length_pos (Nat.pos_of_ne_zero h)
  obtain ⟨hm, hp⟩ := List.mem_filter.1 he
  exact ⟨e, hm, by simpa using hp⟩

theorem returnSpecificFromPile_deckOk {s : Store} (hs : Sound s) {A : String}
    (h : DeckOk s A) (name code : String) :
    DeckOk (ReturnSpecificFromPile s A name code).1 A := by
  unfold ReturnSpecificFromPile
  cases hf : findPile s A name with
  | none => exact h
  | some p =>
    dsimp only
    cases hc : s.pileCards.find? (fun c => c.pileId = p.id ∧ c.code = code) with
    | none => exact h
    | some c =>
      dsimp only
      refine atomically_rel (R := fun _ s' => DeckOk s' A) h ?_
      intro s' a hb
      cases h1 : relinkPrev s (pilePrev s p.id c.id) c.nextCardId with
      | error e => simp [h1] at hb
      | ok s1 =>
        simp only [h1] at hb
        split_ifs at hb with haff
        have hside := relinkPrev_side h1
        have hk : ((deletePileCard s1 c.id).entries.map (fun e => (e.deckId, e.code))).Nodup := by
          show (s1.entries.map (fun e => (e.deckId, e.code))).Nodup
          rw [hside.entries]
          exact hs.keys
        have hg := guard_of_affected hk haff
        obtain ⟨e0, he0, hd0, hc0, -⟩ := affected_entry haff
        have he0s : e0 ∈ s.entries := by
          have : e0 ∈ s1.entries := he0
          rwa [hside.entries] at this
        have e1 : (updateEntry (deletePileCard s1 c.id) A code
            (fun (e : DeckEntryRow) => decide (e.inPile > 0))
            (fun e => { e with inPile := e.inPile - 1, inDeck := e.inDeck + 1 })).decks =
            s.decks := hside.decks
        have e2 : (updateEntry (deletePileCard s1 c.id) A code
            (fun (e : DeckEntryRow) => decide (e.inPile > 0))
            (fun e => { e with inPile := e.inPile - 1, inDeck := e.inDeck + 1 })).deckCards =
            s.deckCards := hside.deckCards
        have e3 : (updateEntry (deletePileCard s1 c.id) A code
            (fun (e : DeckEntryRow) => decide (e.inPile > 0))
            (fun e => { e with inPile := e.inPile - 1, inDeck := e.inDeck + 1 })).seqDeckCard =
            s.seqDeckCard := hside.seqDeckCard
        have e4 : (updateEntry (deletePileCard s1 c.id) A code
            (fun (e : DeckEntryRow) => decide (e.inPile > 0))
            (fun e => { e with inPile := e.inPile - 1, inDeck := e.inDeck + 1 })).entries =
            s.entries.map (fun e => if e.deckId = A ∧ e.code = code ∧
              decide (e.inPile > 0) = true
              then { e with inPile := e.inPile - 1, inDeck := e.inDeck + 1 } else e) := by
          show List.map _ s1.entries = _
          rw [hside.entries]
        have hg' : ∀ e ∈ s.entries, e.deckId = A → e.code = code →
            decide (e.inPile > 0) = true := by
          intro e he
          have : e ∈ (deletePileCard s1 c.id).entries := by
            show e ∈ s1.entries
            rw [hside.entries]
            exact he
          exact hg e this
        generalize updateEntry (deletePileCard s1 c.id) A code
          (fun (e : DeckEntryRow) => decide (e.inPile > 0))
          (fun e => { e with inPile := e.inPile - 1, inDeck := e.inDeck + 1 }) = s3
          at hb e1 e2 e3 e4
        cases h4 : insertDeckCard s3 A code (deckTop s3 A) with
        | error e => simp [h4] at hb
        | ok r =>
          obtain ⟨s4, i⟩ := r
          simp only [h4] at hb
          cases h5 : setTopCard s4 A (some i) with
          | error e => simp [h5] at hb
          | ok s5 =>
            simp only [h5, Except.ok.injEq, Prod.mk.injEq] at hb
            rw [← hb.1]
            unfold insertDeckCard at h4
            split_ifs at h4
            simp only [Except.ok.injEq, Prod.mk.injEq] at h4
            obtain ⟨h4s, h4i⟩ := h4
            unfold setTopCard at h5
            split_ifs at h5
            simp only [Except.ok.injEq] at h5
            refine pushed_deckOk [code] h hs.cardSeq ?_ ?_ ?_ ?_ ?_
            · rw [← h5, ← h4s, ← h4i]
              show s3.decks.map _ = _
              rw [e1, e3]
              apply List.map_congr_left
              intro r _
              simp [pushedTop]
            · rw [← h5, ← h4s]
              show s3.deckCards ++ _ = _
              rw [e2, e3, deckTop_congr e1]
              rfl
            · intro e' he' hd
              rw [← h5, ← h4s] at he'
              have he3 : e' ∈ s3.entries := he'
              rw [e4] at he3
              obtain ⟨e, he, rfl⟩ := List.mem_map.1 he3
              by_cases hk2 : e.deckId = A ∧ e.code = code
              · have hgg := hg' e he hk2.1 hk2.2
                rw [if_pos ⟨hk2.1, hk2.2, hgg⟩] at hd ⊢
                refine ⟨e, he, hk2.1, rfl, ?_⟩
                rw [hk2.2]
                simp
              · have hn : ¬ (e.deckId = A ∧ e.code = code ∧ decide (e.inPile > 0) = true) :=
                  fun hh => hk2 ⟨hh.1, hh.2.1⟩
                rw [if_neg hn] at hd ⊢
                refine ⟨e, he, hd, rfl, ?_⟩
                have hne : e.code ≠ code := fun hh => hk2 ⟨hd, hh⟩
                simp [List.count_cons_of_ne hne]
            · intro e he hd
              have hx : ∃ e' ∈ s3.entries, e'.deckId = A ∧ e'.code = e.code := by
                rw [e4]
                refine ⟨_, List.mem_map.2 ⟨e, he, rfl⟩, ?_⟩
                split_ifs <;> exact ⟨hd, rfl⟩
              rw [← h5, ← h4s]
              exact hx
            · intro c' hc'
              rw [List.mem_singleton.1 hc']
              exact ⟨e0, he0s, hd0, hc0⟩

theorem moveCounts_ok_guard (d : String) (codes : List String) :
    ∀ (keys : List String) (s s1 : Store), keys.Nodup →
      (s.entries.map (fun e => (e.deckId, e.code))).Nodup →
      moveCounts s d codes keys = .ok s1 →
      (∀ c ∈ keys, ∃ e ∈ s.entries, e.deckId = d ∧ e.code = c) ∧
      (∀ e ∈ s.entries, e.deckId = d → e.code ∈ keys →
        (codes.count e.code : Int) ≤ e.inPile) := by
  intro keys
  induction keys with
  | nil =>
    intro s s1 _ _ _
    exact ⟨fun c hc => absurd hc (List.not_mem_nil c),
      fun e _ _ hc => absurd hc (List.not_mem_nil _)⟩
  | cons c cs ih =>
    intro s s1 hnd hk hok
    simp only [moveCounts] at hok
    split_ifs at hok with haff
    have hg := guard_of_affected hk haff
    obtain ⟨e0, he0, hd0, hc0, -⟩ := affected_entry haff
    have hk2 : ((updateEntry s d c (fun e => decide (e.inPile ≥ (codes.count c : Int)))
        (fun e => { e with inPile := e.inPile - (codes.count c : Int),
                           inDeck := e.inDeck + (codes.count c : Int) })).entries.map
        (fun e => (e.deckId, e.code))).Nodup := by
      have hm := map_updateEntry_key (fun e : DeckEntryRow => (e.deckId, e.code)) s d c
        (fun e => decide (e.inPile ≥ (codes.count c : Int)))
        (fun e => { e with inPile := e.inPile - (codes.count c : Int),
                           inDeck := e.inDeck + (codes.count c : Int) }) (fun _ => rfl)
      rw [hm]
      exact hk
    obtain ⟨ih1, ih2⟩ := ih _ s1 (List.nodup_cons.1 hnd).2 hk2 hok
    have hnc : c ∉ cs := (List.nodup_cons.1 hnd).1
    have hback : ∀ e2 ∈ (updateEntry s d c
        (fun e => decide (e.inPile ≥ (codes.count c : Int)))
        (fun e => { e with inPile := e.inPile - (codes.count c : Int),
                           inDeck := e.inDeck + (codes.count c : Int) })).entries,
        e2.code ∈ cs → e2 ∈ s.entries := by
      intro e2 he2 hcs
      obtain ⟨e, he, rfl⟩ := List.mem_map.1 he2
      by_cases hcond : e.deckId = d ∧ e.code = c ∧
          decide (e.inPile ≥ (codes.count c : Int)) = true
      · rw [if_pos hcond] at hcs
        exact absurd (hcond.2.1 ▸ hcs) hnc
      · rw [if_neg hcond]
        exact he
    constructor
    · intro c' hc'
      rcases List.mem_cons.1 hc' with rfl | hc'
      · exact ⟨e0, he0, hd0, hc0⟩
      · obtain ⟨e2, he2, h1, h2⟩ := ih1 c' hc'
        exact ⟨e2, hback e2 he2 (h2 ▸ hc'), h1, h2⟩
    · intro e he hd hc'
      rcases List.mem_cons.1 hc' with hcc | hc'
      · have := hg e he hd hcc
        simp only [ge_iff_le, decide_eq_true_eq] at this
        rw [hcc]
        exact this
      · have hne : e.code ≠ c := fun hh => hnc (hh ▸ hc')
        have hmem : e ∈ (updateEntry s d c
            (fun e => decide (e.inPile ≥ (codes.count c : Int)))
            (fun e => { e with inPile := e.inPile - (codes.count c : Int),
                               inDeck := e.inDeck + (codes.count c : Int) })).entries := by
          refine List.mem_map.2 ⟨e, he, ?_⟩
          rw [if_neg (fun hh => hne hh.2.1)]
        exact ih2 e hmem hd hc'

theorem returnAllFromPile_deckOk {s : Store} (hs : Sound s) (hcv : Conserved s) {A : String}
    (h : DeckOk s A) (name : String) : DeckOk (ReturnAllFromPile s A name).1 A := by
  cases hf : findPile s A name with
  | none =>
    have : (ReturnAllFromPile s A name).1 = s := by
      unfold ReturnAllFromPile
      rw [hf]
    rw [this]
    exact h
  | some p =>
    cases h1 : moveCounts s A (pileCodesById s p.id) (pileCodesById s p.id).dedup with
    | error e =>
      have : (ReturnAllFromPile s A name).1 = s := by
        unfold ReturnAllFromPile
        rw [hf]
        dsimp only
        rw [h1]
        rfl
      rw [this]
      exact h
    | ok s1 =>
      obtain ⟨g1, g2⟩ := moveCounts_ok_guard A _ _ s s1 (List.nodup_dedup _) hs.keys h1
      have hex : ∀ c ∈ pileCodesById s p.id, ∃ e ∈ s.entries, e.deckId = A ∧ e.code = c :=
        fun c hc => g1 c (List.mem_dedup.2 hc)
      have hcnt : ∀ e ∈ s.entries, e.deckId = A →
          ((pileCodesById s p.id).count e.code : Int) ≤ e.inPile := by
        intro e he hd
        by_cases hm : e.code ∈ pileCodesById s p.id
        · exact g2 e he hd (List.mem_dedup.2 hm)
        · rw [List.count_eq_zero_of_not_mem hm]
          exact (hcv e he).2.1
      obtain ⟨rows, hat, hled, hcov⟩ := h
      rw [returnAllFromPile_ok hf (deckExists_of_find hat.deck.choose_spec.1) (deckTop_fk hat)
        hex hcnt]
      refine pushed_deckOk (pileCodesById s p.id).reverse ⟨rows, hat, hled, hcov⟩ hs.cardSeq
        rfl rfl ?_ ?_ ?_
      · intro e' he' hd
        obtain ⟨e, he, rfl⟩ := List.mem_map.1 he'
        have hdA : e.deckId = A := by
          by_cases hx : e.deckId = A
          · exact hx
          · rw [if_neg hx] at hd
            exact hd
        rw [if_pos hdA]
        exact ⟨e, he, hdA, rfl, by rw [List.count_reverse]⟩
      · intro e he hd
        refine ⟨_, List.mem_map.2 ⟨e, he, rfl⟩, ?_⟩
        rw [if_pos hd]
        exact ⟨hd, rfl⟩
      · intro c hc
        exact hex c (List.mem_reverse.1 hc)

/-! ### Every deck list of a reachable store agrees with its ledger -/

theorem call_deckOk {s : Store} (hr : Reachable s) {A : String} (h : DeckOk s A) (c : Call) :
    DeckOk (c.run s A) A := by
  have hinv := reachable_inv hr
  have hsch := reachable_schema hr
  have hframe : ∀ (pt : Bool) (s' : Store), Steps false pt s s' → Schema s' → DeckOk s' A :=
    fun _ s' hst hs' => h.of_same (SameDeck.of_frame hst.deck_frames A) hs'.cardIds
  have hres := reachable_schema (call_reachable hr A c)
  cases c with
  | drawCards amount => exact drawCards_deckOk h amount
  | shuffleDeck rnd => exact shuffleDeck_deckOk h rnd
  | shuffleAllPiles rnd => exact hframe _ _ (shuffleAllPiles_steps s A rnd) hres
  | updatePileOrder name codes =>
    exact hframe _ _ (updatePileOrder_steps s A name codes) hres
  | insertIntoPile name codes => exact hframe _ _ (insertIntoPile_steps s name A codes) hres
  | drawFromPile name method pick =>
    exact hframe _ _ (drawFromPile_steps s A name method pick) hres
  | drawSpecificFromPile name code =>
    exact hframe _ _ (drawSpecificFromPile_steps s A name code) hres
  | returnSpecificDrawn code => exact returnSpecificDrawn_deckOk hinv.sound h code
  | returnAllDrawn => exact returnAllDrawn_deckOk hsch hinv.sound hinv.conserved h
  | returnSpecificFromPile name code => exact returnSpecificFromPile_deckOk hinv.sound h name code
  | returnAllFromPile name => exact returnAllFromPile_deckOk hinv.sound hinv.conserved h name

theorem call_decksOk {s : Store} (hr : Reachable s) (h : ∀ dk ∈ s.decks, DeckOk s dk.deckId)
    (A : String) (c : Call) : ∀ dk ∈ (c.run s A).decks, DeckOk (c.run s A) dk.deckId := by
  intro dk' hdk'
  have hm : dk'.deckId ∈ (c.run s A).decks.map (fun r => r.deckId) :=
    List.mem_map.2 ⟨dk', hdk', rfl⟩
  rw [(call_steps s A c).deckIds_steps] at hm
  obtain ⟨dk, hdk, hid⟩ := List.mem_map.1 hm
  have hok : DeckOk s dk'.deckId := by
    have := h dk hdk
    rwa [hid] at this
  by_cases hA : dk'.deckId = A
  · rw [hA] at hok ⊢
    exact call_deckOk hr hok c
  · exact hok.of_same
      (SameDeck.of_iso (call_kept (reachable_inv hr).sound (reachable_psound hr) A c).deck hA)
      (reachable_schema (call_reachable hr A c)).cardIds

theorem insertDeck_decksOk {s : Store} (hr : Reachable s)
    (h : ∀ dk ∈ s.decks, DeckOk s dk.deckId) (rand : Nat → Nat → Nat) (cards : List String) :
    ∀ dk ∈ (InsertDeck s rand cards).1.decks, DeckOk (InsertDeck s rand cards).1 dk.deckId := by
  have hinv := reachable_inv hr
  have hsch := reachable_schema hr
  by_cases htok : tokenLoop s rand 30 0 = ""
  · have : (InsertDeck s rand cards).1 = s := by
      unfold InsertDeck
      rw [if_pos htok]
    rw [this]
    exact h
  · have hiso := insertDeck_iso hinv.sound rand cards
    have hfresh := tokenLoop_fresh s rand 30 0 htok
    rw [insertDeck_store s rand cards hinv.sound.cardSeq hinv.sound.entryDeck htok] at hiso ⊢
    generalize tokenLoop s rand 30 0 = tok at hiso hfresh ⊢
    have hids := insertedStore_ids s tok cards hsch.cardIds hsch.cardSeq
    intro dk hdk
    rcases List.mem_append.1 hdk with hold | hnew
    · have hne : dk.deckId ≠ tok := by
        intro hh
        have hex : s.deckExists tok = true :=
          deckExists_iff.2 (List.mem_map.2 ⟨dk, hold, hh⟩)
        rw [hfresh] at hex
        cases hex
      exact (h dk hold).of_same (SameDeck.of_iso hiso.iso hne) hids
    · rw [List.mem_singleton.1 hnew]
      refine ⟨_, insertedStore_deckAt s tok cards hsch.cardIds hsch.cardSeq
        hinv.sound.cardDeck hfresh, ?_, ?_⟩
      · intro e he hd
        rcases List.mem_append.1 he with he | he
        · have := hinv.sound.entryDeck e he
          rw [hd, hfresh] at this
          cases this
        · obtain ⟨c, -, rfl⟩ := List.mem_map.1 he
          rw [chainRows_codes]
      · intro r hr'
        have hm : r.code ∈ (chainRows s.seqDeckCard tok cards).map (fun r => r.code) :=
          List.mem_map.2 ⟨r, hr', rfl⟩
        rw [chainRows_codes] at hm
        exact ⟨⟨tok, r.code, cards.count r.code, cards.count r.code, 0⟩,
          List.mem_append_right _ (List.mem_map.2 ⟨r.code, List.mem_dedup.2 hm, rfl⟩),
          rfl, rfl⟩

theorem reachable_decksOk {s : Store} (h : Reachable s) :
    ∀ dk ∈ s.decks, DeckOk s dk.deckId := by
  induction h with
  | empty => exact fun dk hdk => absurd hdk (List.not_mem_nil dk)
  | insertDeck s rand cards hr ih => exact insertDeck_decksOk hr ih rand cards
  | drawCards s d amount hr ih => exact call_decksOk hr ih d (.drawCards amount)
  | shuffleDeck s d rnd hr ih => exact call_decksOk hr ih d (.shuffleDeck rnd)
  | shuffleAllPiles s d rnd hr ih => exact call_decksOk hr ih d (.shuffleAllPiles rnd)
  | updatePileOrder s d name codes hr ih =>
    exact call_decksOk hr ih d (.updatePileOrder name codes)
  | insertIntoPile s name d codes hr ih =>
    exact call_decksOk hr ih d (.insertIntoPile name codes)
  | drawFromPile s d name method pick hr ih =>
    exact call_decksOk hr ih d (.drawFromPile name method pick)
  | drawSpecificFromPile s d name code hr ih =>
    exact call_decksOk hr ih d (.drawSpecificFromPile name code)
  | returnSpecificDrawn s d code hr ih =>
    exact call_decksOk hr ih d (.returnSpecificDrawn code)
  | returnAllDrawn s d hr ih => exact call_decksOk hr ih d .returnAllDrawn
  | returnSpecificFromPile s d name code hr ih =>
    exact call_decksOk hr ih d (.returnSpecificFromPile name code)
  | returnAllFromPile s d name hr ih =>
    exact call_decksOk hr ih d (.returnAllFromPile name)

/-! ### The shape of a well-formed list -/

theorem linked_shape {α : Type} {key : α → Nat} {nxt : α → Option Nat} {rows : List α}
    {top : Option Nat} (hl : Linked key nxt top rows) (hnd : (rows.map key).Nodup) :
    (top = none ↔ rows = []) ∧
    (∀ r ∈ rows, nxt r = none ↔ rows.getLast? = some r) ∧
    (∀ r ∈ rows, (∀ r' ∈ rows, nxt r' ≠ some (key r)) ↔ rows.head? = some r) := by
  refine ⟨?_, ?_, ?_⟩
  · cases rows with
    | nil => exact ⟨fun _ => rfl, fun _ => hl⟩
    | cons a as =>
      constructor
      · intro h
        have := hl.1
        rw [h] at this
        cases this
      · intro h
        cases h
  · intro r hr
    constructor
    · intro hn
      obtain ⟨pre, hpre⟩ := linked_next_none_last hl hr hn
      rw [hpre]
      exact List.getLast?_concat pre
    · intro hlast
      obtain ⟨pre, hpre⟩ := List.getLast?_eq_some_iff.1 hlast
      rw [hpre] at hl
      exact linked_last_next hl
  · intro r hr
    constructor
    · intro hun
      rcases linked_pred hl hr with h | ⟨c', hc', h⟩
      · cases rows with
        | nil => cases hr
        | cons a as =>
          have h1 := hl.1
          rw [h] at h1
          have hk : key r = key a := Option.some.inj h1
          have : r = a := List.inj_on_of_nodup_map hnd hr (List.mem_cons_self _ _) hk
          rw [this]
          rfl
      · exact absurd h (hun c' hc')
    · intro hh
      cases rows with
      | nil => cases hr
      | cons a as =>
        have : a = r := Option.some.inj hh
        rw [← this]
        exact linked_head_unref hl hnd

theorem sum_cast_counts (es : List DeckEntryRow) (f : DeckEntryRow → Nat)
    (h : ∀ e ∈ es, ((f e : Nat) : Int) = e.inDeck) :
    (es.map (fun e => e.inDeck)).sum = (((es.map f).sum : Nat) : Int) := by
  induction es with
  | nil => rfl
  | cons a as ih =>
    simp only [List.map_cons, List.sum_cons]
    rw [ih (fun e he => h e (List.mem_cons_of_mem _ he)), ← h a (List.mem_cons_self _ _)]
    push_cast
    rfl

theorem findDeck_of_mem {s : Store} (hs : Schema s) {dk : DeckRow} (h : dk ∈ s.decks) :
    findDeck s dk.deckId = some dk := by
  cases hf : findDeck s dk.deckId with
  | none =>
    have := List.find?_eq_none.1 hf dk h
    simp at this
  | some dk' =>
    have hm : dk' ∈ s.decks := List.mem_of_find?_eq_some hf
    have hd : dk'.deckId = dk.deckId := by simpa using List.find?_some hf
    rw [List.inj_on_of_nodup_map hs.deckIds hm h hd]

theorem deckOk_sum {s : Store} (hs : Sound s) {d : String} {rows : List DeckCardRow}
    (hled : ∀ e ∈ s.entries, e.deckId = d →
      ((rows.map (fun r => r.code)).count e.code : Int) = e.inDeck)
    (hcov : ∀ r ∈ rows, ∃ e ∈ s.entries, e.deckId = d ∧ e.code = r.code) :
    ((s.entries.filter (fun e => e.deckId = d)).map (fun e => e.inDeck)).sum =
      (rows.length : Int) := by
  have hnd : ((s.entries.filter (fun e => e.deckId = d)).map (fun e => e.code)).Nodup := by
    have h1 : ((s.entries.filter (fun e => e.deckId = d)).map
        (fun e => (e.deckId, e.code))).Nodup :=
      List.Nodup.sublist ((List.filter_sublist _).map _) hs.keys
    refine (List.nodup_map_iff_inj_on (h1.of_map _)).2 ?_
    intro a ha b hb hab
    have ha' := List.mem_filter.1 ha
    have hb' := List.mem_filter.1 hb
    have hda : a.deckId = d := by simpa using ha'.2
    have hdb : b.deckId = d := by simpa using hb'.2
    exact entry_unique hs.keys ha'.1 hb'.1 (hda.trans hdb.symm) hab
  rw [sum_cast_counts _ (fun e => (rows.map (fun r => r.code)).count e.code)
    (fun e he => hled e (List.mem_filter.1 he).1 (by simpa using (List.mem_filter.1 he).2))]
  rw [sum_count_codes _ hnd (rows.map (fun r => r.code)) ?_, List.length_map]
  intro c hc
  obtain ⟨r, hr, rfl⟩ := List.mem_map.1 hc
  obtain ⟨e, he, h1, h2⟩ := hcov r hr
  exact List.mem_map.2 ⟨e, List.mem_filter.2 ⟨he, by simpa using h1⟩, h2⟩

/-- C21. Deck list integrity.  In every store reached from the fresh database by any
finite sequence of engine operations, for every `Deck` row: following `nextId` from its
`topCardId` reads a list `rows` (`deckRows`) that is linked from `topCardId` to NULL, visits
every `DeckCard` row of the deck exactly once (a permutation of the deck's rows with
pairwise distinct ids, hence no cycle); `topCardId` is NULL exactly when the deck has no
rows; the rows with `nextId` NULL are exactly the last one (one tail); the rows that no row
of the list points to are exactly the first one (one head); and the length of the list is
`CardsInDeck` and the sum of `inDeck` over the ledger rows of the deck. -/
theorem deck_list_integrity (s : Store) (h : Reachable s) :
    ∀ dk ∈ s.decks, ∃ rows : List DeckCardRow,
      findDeck s dk.deckId = some dk ∧
      deckRows s dk.deckId = some rows ∧
      Linked (fun r : DeckCardRow => r.id) (fun r => r.nextId) dk.topCardId rows ∧
      rows.Perm (s.deckCards.filter (fun r => r.deckId = dk.deckId)) ∧
      (rows.map (fun r => r.id)).Nodup ∧
      (dk.topCardId = none ↔ s.deckCards.filter (fun r => r.deckId = dk.deckId) = []) ∧
      (∀ r ∈ rows, r.nextId = none ↔ rows.getLast? = some r) ∧
      (∀ r ∈ rows, (∀ r' ∈ rows, r'.nextId ≠ some r.id) ↔ rows.head? = some r) ∧
      CardsInDeck s dk.deckId = rows.length ∧
      ((s.entries.filter (fun e => e.deckId = dk.deckId)).map (fun e => e.inDeck)).sum =
        (rows.length : Int) := by
  intro dk hdk
  have hsch := reachable_schema h
  obtain ⟨rows, hat, hled, hcov⟩ := reachable_decksOk h dk hdk
  have hfind := findDeck_of_mem hsch hdk
  obtain ⟨dk', hdk', hl⟩ := hat.deck
  rw [hfind] at hdk'
  cases hdk'
  have hnd := deckAt_nodup hat
  obtain ⟨s1, s2, s3⟩ := linked_shape hl hnd
  refine ⟨rows, hfind, (deckAt_iff hat.ids).2 hat, hl, hat.perm, hnd, ?_, s2, s3,
    cardsInDeck_of_deckAt hat (count_one_of_nodup hsch hdk),
    deckOk_sum (reachable_inv h).sound hled hcov⟩
  rw [s1]
  constructor
  · intro hr
    rw [hr] at hat
    exact List.Perm.eq_nil hat.perm.symm
  · intro hr
    have := hat.perm
    rw [hr] at this
    exact List.Perm.eq_nil this

theorem deck_list_integrity_witness :
    Reachable playedStore ∧
    ∀ dk ∈ playedStore.decks, ∃ rows : List DeckCardRow,
      findDeck playedStore dk.deckId = some dk ∧
      deckRows playedStore dk.deckId = some rows ∧
      Linked (fun r : DeckCardRow => r.id) (fun r => r.nextId) dk.topCardId rows ∧
      rows.Perm (playedStore.deckCards.filter (fun r => r.deckId = dk.deckId)) ∧
      (rows.map (fun r => r.id)).Nodup ∧
      (dk.topCardId = none ↔
        playedStore.deckCards.filter (fun r => r.deckId = dk.deckId) = []) ∧
      (∀ r ∈ rows, r.nextId = none ↔ rows.getLast? = some r) ∧
      (∀ r ∈ rows, (∀ r' ∈ rows, r'.nextId ≠ some r.id) ↔ rows.head? = some r) ∧
      CardsInDeck playedStore dk.deckId = rows.length ∧
      ((playedStore.entries.filter (fun e => e.deckId = dk.deckId)).map
        (fun e => e.inDeck)).sum = (rows.length : Int) :=
  ⟨Reachable.insertIntoPile _ _ _ _ (Reachable.drawCards _ _ _
      (Reachable.insertDeck _ _ _ Reachable.empty)),
    deck_list_integrity playedStore
      (Reachable.insertIntoPile _ _ _ _ (Reachable.drawCards _ _ _
        (Reachable.insertDeck _ _ _ Reachable.empty)))⟩

/-! ## The pile ledger

The codes held by the piles of a deck, and their agreement with `inPile`. -/

theorem pileCodes_of_keys {s s' : Store} (T : List PileCardRow) (hp : s'.piles = s.piles)
    (hc : s'.pileCards.map (fun c => (c.pileId, c.code)) =
      T.map (fun c => (c.pileId, c.code))) (d : String) :
    pileCodes s' d = (T.filter (ownedBy s d)).map (fun r => r.code) := by
  have h := filter_map_of_key (fun c : PileCardRow => (c.pileId, c.code))
    (fun k => s.piles.any (fun p => p.id = k.1 ∧ p.deckId = d)) (fun k => k.2)
    T s'.pileCards hc
  unfold pileCodes
  have : ownedBy s' d = ownedBy s d := by
    funext c
    unfold ownedBy
    rw [hp]
  rw [this]
  exact h

theorem pileCodes_of_frame {s s' : Store} (hp : s'.piles = s.piles)
    (hc : s'.pileCards.map (fun c => (c.id, c.pileId, c.code)) =
      s.pileCards.map (fun c => (c.id, c.pileId, c.code))) (d : String) :
    pileCodes s' d = pileCodes s d := by
  refine pileCodes_of_keys s.pileCards hp ?_ d
  have h := congrArg (List.map (fun k : Nat × Nat × String => k.2)) hc
  simpa only [List.map_map] using h

theorem PileLedger.ledger_of_frame {s s' : Store} (h : PileLedger s) (f : PileFrame s s') :
    PileLedger s' := by
  intro e' he'
  have hm : (e'.deckId, e'.code, e'.total, e'.inPile) ∈
      s'.entries.map (fun e => (e.deckId, e.code, e.total, e.inPile)) :=
    List.mem_map.2 ⟨e', he', rfl⟩
  rw [f.entries] at hm
  obtain ⟨e, he, hk⟩ := List.mem_map.1 hm
  simp only [Prod.mk.injEq] at hk
  rw [pileCodes_of_frame f.piles f.pileCards, ← hk.1, ← hk.2.1, ← hk.2.2.2]
  exact h e he

theorem PileLedger.of_kept {A : String} {s s' : Store} (h : PileLedger s) (k : Kept A s s')
    {e' : DeckEntryRow} (he' : e' ∈ s'.entries) (hd : e'.deckId ≠ A) :
    ((pileCodes s' e'.deckId).count e'.code : Int) = e'.inPile := by
  have hm : e' ∈ s'.entries.filter (fun e => e.deckId = e'.deckId) :=
    List.mem_filter.2 ⟨he', by simp⟩
  rw [k.deck.entries _ hd] at hm
  unfold pileCodes
  rw [k.pile.pileCards _ hd]
  exact h e' (List.mem_filter.1 hm).1

theorem count_filter_split {α β : Type} [DecidableEq β] (g : α → β) (P Q : α → Bool) (x : β) :
    ∀ l : List α, (∀ r ∈ l, Q r = true → P r = true) →
      ((l.filter P).map g).count x =
        (((l.filter (fun r => !Q r)).filter P).map g).count x +
          ((l.filter Q).map g).count x := by
  intro l
  induction l with
  | nil => intro _; rfl
  | cons a l ih =>
    intro h
    have ih' := ih (fun r hr => h r (List.mem_cons_of_mem _ hr))
    cases hQ : Q a with
    | true =>
      have hP : P a = true := h a (List.mem_cons_self _ _) hQ
      simp only [List.filter_cons, hQ, hP, Bool.not_true, if_true, List.map_cons,
        List.count_cons, ih', Bool.false_eq_true, if_false]
      omega
    | false =>
      cases hP : P a with
      | true =>
        simp only [List.filter_cons, hQ, hP, Bool.not_false, if_true, List.map_cons,
          List.count_cons, ih', Bool.false_eq_true, if_false]
        omega
      | false =>
        simp only [List.filter_cons, hQ, hP, Bool.not_false, if_true, ih',
          Bool.false_eq_true, if_false]

theorem ownedBy_of_pile {s : Store} {A : String} {p : PileRow} (hp : p ∈ s.piles)
    (hA : p.deckId = A) {c : PileCardRow} (hc : c.pileId = p.id) : ownedBy s A c = true := by
  simp only [ownedBy, List.any_eq_true, decide_eq_true_eq]
  exact ⟨p, hp, hc.symm, hA⟩

theorem relinkPrev_frame {s s1 : Store} {prev : Option PileCardRow} {nextId : Option Nat}
    (h : relinkPrev s prev nextId = .ok s1) : PileFrame s s1 :=
  (@relinkPrev_steps false false s s1 prev nextId h).pile_frames

theorem deleted_keys {s s1 : Store} (f : PileFrame s s1) (i : Nat) :
    (deletePileCard s1 i).pileCards.map (fun c => (c.pileId, c.code)) =
      (s.pileCards.filter (fun r => r.id ≠ i)).map (fun c => (c.pileId, c.code)) := by
  have h1 : (deletePileCard s1 i).pileCards.map (fun c => (c.pileId, c.code)) =
      (s1.pileCards.filter (fun r => r.id ≠ i)).map (fun c => (c.pileId, c.code)) := by
    show (List.map _ (List.filter _ s1.pileCards)).map _ = _
    rw [List.map_map]
    apply List.map_congr_left
    intro c _
    dsimp only [Function.comp]
    split_ifs <;> rfl
  rw [h1]
  exact filter_map_of_key (fun c : PileCardRow => (c.id, c.pileId, c.code))
    (fun k => decide (k.1 ≠ i)) (fun k => (k.2.1, k.2.2)) s.pileCards s1.pileCards f.pileCards

theorem filter_id_singleton {T : List PileCardRow}
    (hids : (T.map (fun c => c.id)).Nodup) {c : PileCardRow} (hc : c ∈ T) :
    T.filter (fun r => decide (r.id = c.id)) = [c] := by
  apply filter_eq_singleton (nodup_of_map_nodup hids) hc
  intro x hx
  simp only [decide_eq_true_eq]
  constructor
  · intro h
    exact List.inj_on_of_nodup_map hids hx hc h
  · intro h
    rw [h]

/-- The codes in the piles of deck `A` after the row `c` of one of its piles is deleted. -/
theorem unlinked_pileCodes {s s1 s' : Store} {A : String} {p : PileRow} {c : PileCardRow}
    (hids : (s.pileCards.map (fun c => c.id)).Nodup) (hp : p ∈ s.piles) (hA : p.deckId = A)
    (hc : c ∈ s.pileCards) (hcp : c.pileId = p.id) (f : PileFrame s s1)
    (hpiles : s'.piles = s.piles) (hcards : s'.pileCards = (deletePileCard s1 c.id).pileCards)
    (x : String) :
    (pileCodes s' A).count x + (if c.code = x then 1 else 0) = (pileCodes s A).count x := by
  have hk : s'.pileCards.map (fun c => (c.pileId, c.code)) =
      (s.pileCards.filter (fun r => r.id ≠ c.id)).map (fun c => (c.pileId, c.code)) := by
    rw [hcards]
    exact deleted_keys f c.id
  rw [pileCodes_of_keys _ hpiles hk A]
  unfold pileCodes
  have hsplit := count_filter_split (fun r : PileCardRow => r.code) (ownedBy s A)
    (fun r => decide (r.id = c.id)) x s.pileCards (by
      intro r hr hq
      simp only [decide_eq_true_eq] at hq
      have : r = c := List.inj_on_of_nodup_map hids hr hc hq
      rw [this]
      exact ownedBy_of_pile hp hA hcp)
  rw [hsplit, filter_id_singleton hids hc]
  have hflt : s.pileCards.filter (fun r => decide (r.id ≠ c.id)) =
      s.pileCards.filter (fun r => !decide (r.id = c.id)) := by
    congr 1
    funext r
    simp
  rw [hflt]
  simp only [List.map_cons, List.map_nil, List.count_cons, List.count_nil, beq_iff_eq]
  omega

theorem unlinked_ledgerAt {s s1 s' : Store} {A : String} {p : PileRow} {c : PileCardRow}
    (hids : (s.pileCards.map (fun c => c.id)).Nodup) (hL : PileLedger s)
    (hp : p ∈ s.piles) (hA : p.deckId = A) (hc : c ∈ s.pileCards) (hcp : c.pileId = p.id)
    (f : PileFrame s s1) (g : DeckEntryRow → DeckEntryRow)
    (hg : ∀ e, (g e).deckId = e.deckId ∧ (g e).code = e.code ∧ (g e).inPile = e.inPile - 1)
    (hpiles : s'.piles = s.piles) (hcards : s'.pileCards = (deletePileCard s1 c.id).pileCards)
    (hent : s'.entries = s.entries.map (fun e =>
      if e.deckId = A ∧ e.code = c.code ∧ decide (e.inPile > 0) = true then g e else e)) :
    ∀ e' ∈ s'.entries, e'.deckId = A →
      ((pileCodes s' A).count e'.code : Int) = e'.inPile := by
  intro e' he' hd
  rw [hent] at he'
  obtain ⟨e, he, rfl⟩ := List.mem_map.1 he'
  have hdA : e.deckId = A := by
    by_cases hx : e.deckId = A
    · exact hx
    · rw [if_neg (fun hh => hx hh.1)] at hd
      exact hd
  have hcount := hL e he
  rw [hdA] at hcount
  by_cases hk : e.code = c.code
  · have hu := unlinked_pileCodes hids hp hA hc hcp f hpiles hcards c.code
    rw [if_pos rfl] at hu
    rw [hk] at hcount
    have hpos : e.inPile > 0 := by omega
    rw [if_pos ⟨hdA, hk, by simpa using hpos⟩, (hg e).2.1, (hg e).2.2, hk]
    omega
  · have hu := unlinked_pileCodes hids hp hA hc hcp f hpiles hcards e.code
    rw [if_neg (fun hh => hk hh.symm)] at hu
    rw [if_neg (fun hh => hk hh.2.1)]
    omega

theorem selectPileCard_mem {s : Store} {p : Nat} {method : String} {pick cardId : Nat}
    {code : String} {nextId : Option Nat}
    (hok : selectPileCard s p method pick = .ok (cardId, code, nextId)) :
    ∃ c ∈ s.pileCards, c.pileId = p ∧ c.id = cardId ∧ c.code = code := by
  unfold selectPileCard at hok
  split_ifs at hok
  · cases hh : pileHead s p with
    | none => simp [hh] at hok
    | some c =>
      simp only [hh, Except.ok.injEq, Prod.mk.injEq] at hok
      have hm : c ∈ s.pileCards := List.mem_of_find?_eq_some hh
      have hpp := List.find?_some hh
      simp only [decide_eq_true_eq] at hpp
      exact ⟨c, hm, hpp.1, hok.1, hok.2.1⟩
  · split at hok
    · cases hok
    · rename_i c hh
      simp only [Except.ok.injEq, Prod.mk.injEq] at hok
      have hm : c ∈ s.pileCards := List.mem_of_find?_eq_some hh
      have hpp := List.find?_some hh
      simp only [Bool.and_eq_true, decide_eq_true_eq] at hpp
      exact ⟨c, hm, hpp.1, hok.1, hok.2.1⟩
  · cases hh : (s.pileCards.filter (fun c => c.pileId = p))[pick %
        (s.pileCards.filter (fun c => c.pileId = p)).length]? with
    | none => simp [hh] at hok
    | some c =>
      simp only [hh, Except.ok.injEq, Prod.mk.injEq] at hok
      have hm := List.mem_filter.1 (List.getElem?_mem hh)
      exact ⟨c, hm.1, by simpa using hm.2, hok.1, hok.2.1⟩

theorem unlinkPileCard_ledgerAt {s s' : Store} {A : String} {p : PileRow} {c : PileCardRow}
    (hids : (s.pileCards.map (fun c => c.id)).Nodup) (hL : PileLedger s)
    (hp : p ∈ s.piles) (hA : p.deckId = A) (hc : c ∈ s.pileCards) (hcp : c.pileId = p.id)
    {prev : Option PileCardRow} {nextId : Option Nat}
    (hok : unlinkPileCard s A prev c.id c.code nextId = .ok s') :
    ∀ e' ∈ s'.entries, e'.deckId = A →
      ((pileCodes s' A).count e'.code : Int) = e'.inPile := by
  unfold unlinkPileCard at hok
  cases h1 : relinkPrev s prev nextId with
  | error e => simp [h1] at hok
  | ok s1 =>
    simp only [h1, Except.ok.injEq] at hok
    rw [← hok]
    refine unlinked_ledgerAt hids hL hp hA hc hcp (relinkPrev_frame h1)
      (fun e => { e with inPile := e.inPile - 1 }) (fun _ => ⟨rfl, rfl, rfl⟩)
      (relinkPrev_frame h1).piles rfl ?_
    show List.map _ s1.entries = _
    rw [(relinkPrev_side h1).entries]

theorem PileLedger.at_deck {s : Store} (h : PileLedger s) (A : String) :
    ∀ e' ∈ s.entries, e'.deckId = A → ((pileCodes s A).count e'.code : Int) = e'.inPile := by
  intro e' he' hd
  rw [← hd]
  exact h e' he'

theorem drawFromPile_ledgerAt {s : Store} (hids : (s.pileCards.map (fun c => c.id)).Nodup)
    (hL : PileLedger s) (A name method : String) (pick : Nat) :
    ∀ e' ∈ (DrawFromPile s A name method pick).1.entries, e'.deckId = A →
      ((pileCodes (DrawFromPile s A name method pick).1 A).count e'.code : Int) =
        e'.inPile := by
  unfold DrawFromPile
  cases hf : findPile s A name with
  | none => exact hL.at_deck A
  | some p =>
    dsimp only
    cases hsel : selectPileCard s p.id method pick with
    | error e => exact hL.at_deck A
    | ok r =>
      obtain ⟨cardId, code, nextId⟩ := r
      dsimp only
      obtain ⟨c, hc, hcp, rfl, rfl⟩ := selectPileCard_mem hsel
      refine atomically_rel (R := fun _ s' => ∀ e' ∈ s'.entries, e'.deckId = A →
        ((pileCodes s' A).count e'.code : Int) = e'.inPile) (hL.at_deck A) ?_
      intro s' a hb
      cases h1 : unlinkPileCard s A (pilePrev s p.id c.id) c.id c.code nextId with
      | error e => simp [h1] at hb
      | ok s1 =>
        simp only [h1, Except.ok.injEq, Prod.mk.injEq] at hb
        rw [← hb.1]
        exact unlinkPileCard_ledgerAt hids hL (findPile_key hf).1 (findPile_key hf).2.1 hc hcp h1

theorem find_code_eq {s : Store} {p : Nat} {code : String} {c : PileCardRow}
    (h : s.pileCards.find? (fun c => c.pileId = p ∧ c.code = code) = some c) :
    c.code = code := by
  have := List.find?_some h
  simp only [decide_eq_true_eq] at this
  exact this.2

theorem drawSpecificFromPile_ledgerAt {s : Store}
    (hids : (s.pileCards.map (fun c => c.id)).Nodup) (hL : PileLedger s)
    (A name code : String) :
    ∀ e' ∈ (DrawSpecificFromPile s A name code).1.entries, e'.deckId = A →
      ((pileCodes (DrawSpecificFromPile s A name code).1 A).count e'.code : Int) =
        e'.inPile := by
  unfold DrawSpecificFromPile
  cases hf : findPile s A name with
  | none => exact hL.at_deck A
  | some p =>
    dsimp only
    cases hc : s.pileCards.find? (fun c => c.pileId = p.id ∧ c.code = code) with
    | none => exact hL.at_deck A
    | some c =>
      dsimp only
      have hcode := find_code_eq hc
      obtain ⟨hcm, hcp⟩ := find_code_row hc
      refine atomically_rel (R := fun _ s' => ∀ e' ∈ s'.entries, e'.deckId = A →
        ((pileCodes s' A).count e'.code : Int) = e'.inPile) (hL.at_deck A) ?_
      intro s' a hb
      rw [← hcode] at hb
      cases h1 : unlinkPileCard s A (pilePrev s p.id c.id) c.id c.code c.nextCardId with
      | error e => simp [h1] at hb
      | ok s1 =>
        simp only [h1, Except.ok.injEq, Prod.mk.injEq] at hb
        rw [← hb.1]
        exact unlinkPileCard_ledgerAt hids hL (findPile_key hf).1 (findPile_key hf).2.1 hcm hcp h1

theorem returnSpecificFromPile_ledgerAt {s : Store}
    (hids : (s.pileCards.map (fun c => c.id)).Nodup) (hL : PileLedger s)
    (A name code : String) :
    ∀ e' ∈ (ReturnSpecificFromPile s A name code).1.entries, e'.deckId = A →
      ((pileCodes (ReturnSpecificFromPile s A name code).1 A).count e'.code : Int) =
        e'.inPile := by
  unfold ReturnSpecificFromPile
  cases hf : findPile s A name with
  | none => exact hL.at_deck A
  | some p =>
    dsimp only
    cases hc : s.pileCards.find? (fun c => c.pileId = p.id ∧ c.code = code) with
    | none => exact hL.at_deck A
    | some c =>
      dsimp only
      have hcode := find_code_eq hc
      obtain ⟨hcm, hcp⟩ := find_code_row hc
      refine atomically_rel (R := fun _ s' => ∀ e' ∈ s'.entries, e'.deckId = A →
        ((pileCodes s' A).count e'.code : Int) = e'.inPile) (hL.at_deck A) ?_
      intro s' a hb
      rw [← hcode] at hb
      cases h1 : relinkPrev s (pilePrev s p.id c.id) c.nextCardId with
      | error e => simp [h1] at hb
      | ok s1 =>
        simp only [h1] at hb
        split_ifs at hb with haff
        cases h4 : insertDeckCard (updateEntry (deletePileCard s1 c.id) A c.code
            (fun (e : DeckEntryRow) => decide (e.inPile > 0))
            (fun e => { e with inPile := e.inPile - 1, inDeck := e.inDeck + 1 })) A c.code
            (deckTop (updateEntry (deletePileCard s1 c.id) A c.code
              (fun (e : DeckEntryRow) => decide (e.inPile > 0))
              (fun e => { e with inPile := e.inPile - 1, inDeck := e.inDeck + 1 })) A) with
        | error e => simp [h4] at hb
        | ok r =>
          obtain ⟨s4, i⟩ := r
          simp only [h4] at hb
          cases h5 : setTopCard s4 A (some i) with
          | error e => simp [h5] at hb
          | ok s5 =>
            simp only [h5, Except.ok.injEq, Prod.mk.injEq] at hb
            rw [← hb.1]
            unfold insertDeckCard at h4
            split_ifs at h4
            simp only [Except.ok.injEq, Prod.mk.injEq] at h4
            obtain ⟨h4s, -⟩ := h4
            unfold setTopCard at h5
            split_ifs at h5
            simp only [Except.ok.injEq] at h5
            refine unlinked_ledgerAt hids hL (findPile_key hf).1 (findPile_key hf).2.1 hcm hcp
              (relinkPrev_frame h1)
              (fun e => { e with inPile := e.inPile - 1, inDeck := e.inDeck + 1 })
              (fun _ => ⟨rfl, rfl, rfl⟩) ?_ ?_ ?_
            · rw [← h5, ← h4s]
              exact (relinkPrev_frame h1).piles
            · rw [← h5, ← h4s]
              rfl
            · rw [← h5, ← h4s]
              show List.map _ s1.entries = _
              rw [(relinkPrev_side h1).entries]

theorem pushPileCards_keys (p : Nat) :
    ∀ (codes : List String) (s : Store) (top : Option Nat) (s' : Store),
      pushPileCards s p top codes = .ok s' →
      s'.piles = s.piles ∧ s'.entries = s.entries ∧
        s'.pileCards.map (fun c => (c.pileId, c.code)) =
          s.pileCards.map (fun c => (c.pileId, c.code)) ++ codes.map (fun c => (p, c)) := by
  intro codes
  induction codes with
  | nil =>
    intro s top s' hok
    simp only [pushPileCards, Except.ok.injEq] at hok
    rw [← hok]
    simp
  | cons c cs ih =>
    intro s top s' hok
    simp only [pushPileCards] at hok
    cases h1 : insertPileCard s p c top with
    | error e => simp [h1] at hok
    | ok r =>
      obtain ⟨s2, i⟩ := r
      simp only [h1] at hok
      obtain ⟨-, rfl⟩ := insertPileCard_ok h1
      obtain ⟨e1, e2, e3⟩ := ih _ _ s' hok
      refine ⟨e1, e2, ?_⟩
      rw [e3]
      simp

theorem checkCodes_ok {s s1 : Store} {d : String} {codes : List String}
    (h : checkCodes s d codes = .ok s1) :
    s1 = { s with entries := ledgerAfterInsert s.entries d codes } := by
  by_cases hav : Available s d codes
  · rw [(checkCodes_spec d codes s).1 hav] at h
    exact (Except.ok.inj h).symm
  · obtain ⟨err, herr⟩ := (checkCodes_spec d codes s).2 hav
    rw [herr] at h
    cases h

theorem ownedBy_new_pile {s : Store} (hs : Schema s) (d name : String) (A : String)
    {r : PileCardRow} (hr : r ∈ s.pileCards) (s2 : Store)
    (h2 : s2.piles = s.piles ++ [⟨s.seqPile + 1, d, name⟩]) :
    ownedBy s2 A r = ownedBy s A r := by
  have hex := hs.pileCardFk r hr
  simp only [Store.pileExists, List.any_eq_true, decide_eq_true_eq] at hex
  obtain ⟨q, hq, hqid⟩ := hex
  have hle := hs.pileSeq q hq
  have hne : ¬ (s.seqPile + 1 = r.pileId) := by omega
  simp [ownedBy, h2, List.any_append, hne]

theorem insertIntoPile_ledgerAt {s : Store} (hs : Schema s) (hL : PileLedger s)
    (name A : String) (codes : List String) :
    ∀ e' ∈ (InsertIntoPile s name A codes).1.entries, e'.deckId = A →
      ((pileCodes (InsertIntoPile s name A codes).1 A).count e'.code : Int) = e'.inPile := by
  unfold InsertIntoPile
  cases htx : insertIntoPileTx s name A codes with
  | error e => exact hL.at_deck A
  | ok s' =>
    dsimp only
    unfold insertIntoPileTx at htx
    cases h1 : checkCodes s A codes with
    | error e => simp [h1] at htx
    | ok s1 =>
      simp only [h1] at htx
      cases h2 : pileIdFor s1 A name with
      | error e => simp [h2] at htx
      | ok r =>
        obtain ⟨s2, pid⟩ := r
        simp only [h2] at htx
        have hs1 := checkCodes_ok h1
        obtain ⟨e1, e2, e3⟩ := pushPileCards_keys pid codes s2 _ s' htx
        have hown : ∀ r ∈ s.pileCards, ownedBy s2 A r = ownedBy s A r := by
          intro r hr
          rcases (pileIdFor_ok h2).2 with ⟨p, -, h3, -⟩ | ⟨-, -, -, h3⟩
          · rw [h3, hs1]
            rfl
          · exact ownedBy_new_pile hs A name A hr s2 (by rw [h3, hs1])
        have hpid : ∀ r : PileCardRow, r.pileId = pid → ownedBy s2 A r = true := by
          intro r hr
          rcases (pileIdFor_ok h2).2 with ⟨q, hq, h3, h4⟩ | ⟨-, -, h4, h3⟩
          · rw [h3]
            exact ownedBy_of_pile (findPile_key hq).1 (findPile_key hq).2.1 (hr.trans h4)
          · rw [h3]
            exact ownedBy_of_pile (p := ⟨s1.seqPile + 1, A, name⟩)
              (List.mem_append_right _ (List.mem_singleton.2 rfl)) rfl (hr.trans h4)
        have hk : s'.pileCards.map (fun c => (c.pileId, c.code)) =
            (s.pileCards ++ codes.map (fun c => (⟨0, pid, c, none⟩ : PileCardRow))).map
              (fun c => (c.pileId, c.code)) := by
          rw [e3, List.map_append, List.map_map]
          have : s2.pileCards = s.pileCards := by
            rcases (pileIdFor_ok h2).2 with ⟨p, -, h3, -⟩ | ⟨-, -, -, h3⟩ <;> rw [h3, hs1]
          rw [this]
          rfl
        have hcodes : ∀ x, (pileCodes s' A).count x = (pileCodes s A).count x + codes.count x := by
          intro x
          rw [pileCodes_of_keys _ e1 hk A, List.filter_append, List.map_append,
            List.count_append]
          congr 1
          · unfold pileCodes
            congr 2
            apply List.filter_congr
            exact hown
          · rw [List.filter_eq_self.2 (fun r hr => by
              obtain ⟨c, -, rfl⟩ := List.mem_map.1 hr
              exact hpid _ rfl), List.map_map]
            show (List.map (fun c : String => c) codes).count x = _
            rw [List.map_id']
        intro e' he' hd
        rw [e2] at he'
        have he1 : e' ∈ s1.entries := by
          rcases (pileIdFor_ok h2).2 with ⟨p, -, h3, -⟩ | ⟨-, -, -, h3⟩
          · rw [h3] at he'
            exact he'
          · rw [h3] at he'
            exact he'
        rw [hs1] at he1
        obtain ⟨e, he, rfl⟩ := List.mem_map.1 he1
        have hdA : e.deckId = A := by
          by_cases hx : e.deckId = A
          · exact hx
          · rw [if_neg hx] at hd
            exact hd
        rw [if_pos hdA, hcodes]
        have := hL e he
        rw [hdA] at this
        show _ = e.inPile + (codes.count e.code : Int)
        push_cast
        omega

theorem returnAllFromPile_cases {s : Store} (hr : Reachable s) (A name : String) :
    (ReturnAllFromPile s A name).1 = s ∨
      ∃ p, findPile s A name = some p ∧
        (ReturnAllFromPile s A name).1 = returnAllStore s A p.id := by
  have hinv := reachable_inv hr
  cases hf : findPile s A name with
  | none =>
    left
    unfold ReturnAllFromPile
    rw [hf]
  | some p =>
    cases h1 : moveCounts s A (pileCodesById s p.id) (pileCodesById s p.id).dedup with
    | error e =>
      left
      unfold ReturnAllFromPile
      rw [hf]
      dsimp only
      rw [h1]
      rfl
    | ok s1 =>
      right
      obtain ⟨g1, g2⟩ := moveCounts_ok_guard A _ _ s s1 (List.nodup_dedup _) hinv.sound.keys h1
      have hex : ∀ c ∈ pileCodesById s p.id, ∃ e ∈ s.entries, e.deckId = A ∧ e.code = c :=
        fun c hc => g1 c (List.mem_dedup.2 hc)
      have hcnt : ∀ e ∈ s.entries, e.deckId = A →
          ((pileCodesById s p.id).count e.code : Int) ≤ e.inPile := by
        intro e he hd
        by_cases hm : e.code ∈ pileCodesById s p.id
        · exact g2 e he hd (List.mem_dedup.2 hm)
        · rw [List.count_eq_zero_of_not_mem hm]
          exact (hinv.conserved e he).2.1
      have hd : s.deckExists A = true := by
        have := (reachable_schema hr).pileFk p (findPile_key hf).1
        rwa [(findPile_key hf).2.1] at this
      obtain ⟨dk, hdk, hdA⟩ := List.mem_map.1 (deckExists_iff.1 hd)
      obtain ⟨rows, hat, -, -⟩ := reachable_decksOk hr dk hdk
      rw [hdA] at hat
      exact ⟨p, rfl, by rw [returnAllFromPile_ok hf hd (deckTop_fk hat) hex hcnt]⟩

theorem returnAllFromPile_ledgerAt {s : Store} (hr : Reachable s) (hL : PileLedger s)
    (A name : String) :
    ∀ e' ∈ (ReturnAllFromPile s A name).1.entries, e'.deckId = A →
      ((pileCodes (ReturnAllFromPile s A name).1 A).count e'.code : Int) = e'.inPile := by
  rcases returnAllFromPile_cases hr A name with h | ⟨p, hf, h⟩
  · rw [h]
    exact hL.at_deck A
  · rw [h]
    have hk : (returnAllStore s A p.id).pileCards.map (fun c => (c.pileId, c.code)) =
        (s.pileCards.filter (fun r => r.pileId ≠ p.id)).map
          (fun c => (c.pileId, c.code)) := by
      show (List.map _ (List.filter _ s.pileCards)).map _ = _
      rw [List.map_map]
      apply List.map_congr_left
      intro c _
      have hkey := deletePileCardsOf_key s p.id c
      dsimp only [Function.comp]
      rw [hkey.2.1, hkey.2.2]
    have hcodes : ∀ x, (pileCodes (returnAllStore s A p.id) A).count x +
        (pileCodesById s p.id).count x = (pileCodes s A).count x := by
      intro x
      rw [@pileCodes_of_keys s (returnAllStore s A p.id) _ rfl hk A]
      unfold pileCodes
      have hsplit := count_filter_split (fun r : PileCardRow => r.code) (ownedBy s A)
        (fun r => decide (r.pileId = p.id)) x s.pileCards (by
          intro r _ hq
          simp only [decide_eq_true_eq] at hq
          exact ownedBy_of_pile (findPile_key hf).1 (findPile_key hf).2.1 hq)
      have hflt : s.pileCards.filter (fun r => decide (r.pileId ≠ p.id)) =
          s.pileCards.filter (fun r => !decide (r.pileId = p.id)) := by
        congr 1
        funext r
        simp
      have hperm : (pileCodesById s p.id).Perm
          ((s.pileCards.filter (fun r => decide (r.pileId = p.id))).map (fun r => r.code)) :=
        (List.perm_insertionSort _ _).map _
      rw [hsplit, hflt, hperm.count_eq]
    intro e' he' hd
    obtain ⟨e, he, rfl⟩ := List.mem_map.1 he'
    have hdA : e.deckId = A := by
      by_cases hx : e.deckId = A
      · exact hx
      · rw [if_neg hx] at hd
        exact hd
    rw [if_pos hdA]
    have h1 := hL e he
    rw [hdA] at h1
    have h2 := hcodes e.code
    show ((pileCodes (returnAllStore s A p.id) A).count e.code : Int) =
      e.inPile - ((pileCodesById s p.id).count e.code : Int)
    omega

theorem call_pileLedger {s : Store} (hr : Reachable s) (hL : PileLedger s) (A : String)
    (c : Call) : PileLedger (c.run s A) := by
  have hsch := reachable_schema hr
  have hkept := call_kept (reachable_inv hr).sound (reachable_psound hr) A c
  have hsplit : (∀ e' ∈ (c.run s A).entries, e'.deckId = A →
      ((pileCodes (c.run s A) A).count e'.code : Int) = e'.inPile) → PileLedger (c.run s A) := by
    intro h e' he'
    by_cases hd : e'.deckId = A
    · rw [hd]
      exact h e' he' hd
    · exact hL.of_kept hkept he' hd
  cases c with
  | drawCards amount => exact hL.ledger_of_frame (drawCards_steps s A amount).pile_frames
  | shuffleDeck rnd => exact hL.ledger_of_frame (shuffleDeck_steps s A rnd).pile_frames
  | shuffleAllPiles rnd => exact hL.ledger_of_frame (shuffleAllPiles_steps s A rnd).pile_frames
  | updatePileOrder name codes =>
    exact hL.ledger_of_frame (updatePileOrder_steps s A name codes).pile_frames
  | insertIntoPile name codes => exact hsplit (insertIntoPile_ledgerAt hsch hL name A codes)
  | drawFromPile name method pick =>
    exact hsplit (drawFromPile_ledgerAt hsch.pileCardIds hL A name method pick)
  | drawSpecificFromPile name code =>
    exact hsplit (drawSpecificFromPile_ledgerAt hsch.pileCardIds hL A name code)
  | returnSpecificDrawn code =>
    exact hL.ledger_of_frame (returnSpecificDrawn_steps s A code).pile_frames
  | returnAllDrawn => exact hL.ledger_of_frame (returnAllDrawn_steps s A).pile_frames
  | returnSpecificFromPile name code =>
    exact hsplit (returnSpecificFromPile_ledgerAt hsch.pileCardIds hL A name code)
  | returnAllFromPile name => exact hsplit (returnAllFromPile_ledgerAt hr hL A name)

theorem insertDeck_pileLedger {s : Store} (hr : Reachable s) (hL : PileLedger s)
    (rand : Nat → Nat → Nat) (cards : List String) :
    PileLedger (InsertDeck s rand cards).1 := by
  have hinv := reachable_inv hr
  have hsch := reachable_schema hr
  by_cases htok : tokenLoop s rand 30 0 = ""
  · have : (InsertDeck s rand cards).1 = s := by
      unfold InsertDeck
      rw [if_pos htok]
    rw [this]
    exact hL
  · have hfresh := tokenLoop_fresh s rand 30 0 htok
    rw [insertDeck_store s rand cards hinv.sound.cardSeq hinv.sound.entryDeck htok]
    generalize tokenLoop s rand 30 0 = tok at hfresh
    have hsame : ∀ d, pileCodes (insertedStore s tok cards) d = pileCodes s d :=
      fun d => pileCodes_of_frame rfl rfl d
    intro e he
    rw [hsame]
    rcases List.mem_append.1 he with he | he
    · exact hL e he
    · obtain ⟨c, -, rfl⟩ := List.mem_map.1 he
      have hnil : pileCodes s tok = [] := by
        unfold pileCodes
        rw [List.map_eq_nil_iff, List.filter_eq_nil_iff]
        intro r _ hown
        simp only [ownedBy, List.any_eq_true, decide_eq_true_eq] at hown
        obtain ⟨p, hp, -, hpd⟩ := hown
        have := hsch.pileFk p hp
        rw [hpd, hfresh] at this
        cases this
      show ((pileCodes s tok).count c : Int) = 0
      rw [hnil]
      rfl

theorem reachable_pileLedger {s : Store} (h : Reachable s) : PileLedger s := by
  induction h with
  | empty => exact fun e he => absurd he (List.not_mem_nil e)
  | insertDeck s rand cards hr ih => exact insertDeck_pileLedger hr ih rand cards
  | drawCards s d amount hr ih => exact call_pileLedger hr ih d (.drawCards amount)
  | shuffleDeck s d rnd hr ih => exact call_pileLedger hr ih d (.shuffleDeck rnd)
  | shuffleAllPiles s d rnd hr ih => exact call_pileLedger hr ih d (.shuffleAllPiles rnd)
  | updatePileOrder s d name codes hr ih =>
    exact call_pileLedger hr ih d (.updatePileOrder name codes)
  | insertIntoPile s name d codes hr ih =>
    exact call_pileLedger hr ih d (.insertIntoPile name codes)
  | drawFromPile s d name method pick hr ih =>
    exact call_pileLedger hr ih d (.drawFromPile name method pick)
  | drawSpecificFromPile s d name code hr ih =>
    exact call_pileLedger hr ih d (.drawSpecificFromPile name code)
  | returnSpecificDrawn s d code hr ih =>
    exact call_pileLedger hr ih d (.returnSpecificDrawn code)
  | returnAllDrawn s d hr ih => exact call_pileLedger hr ih d .returnAllDrawn
  | returnSpecificFromPile s d name code hr ih =>
    exact call_pileLedger hr ih d (.returnSpecificFromPile name code)
  | returnAllFromPile s d name hr ih =>
    exact call_pileLedger hr ih d (.returnAllFromPile name)

/-! ## Pile lists

Whether the rows of a pile form a list depends on those rows alone once pointers stay
inside their pile. -/

theorem Chained.of_filter {s s' : Store} {p : Nat} (h : Chained s p)
    (hf : s'.pileCards.filter (fun c => c.pileId = p) =
      s.pileCards.filter (fun c => c.pileId = p)) : Chained s' p := by
  obtain ⟨top, rows, hl, hp⟩ := h
  exact ⟨top, rows, hl, by rw [hf]; exact hp⟩

theorem pileHead_of_chain {s : Store} (hs : PileSound s)
    (hids : (s.pileCards.map (fun c => c.id)).Nodup) {p : Nat} {top : Option Nat}
    {rows : List PileCardRow}
    (hl : Linked (fun c : PileCardRow => c.id) (fun c => c.nextCardId) top rows)
    (hperm : rows.Perm (s.pileCards.filter (fun c => c.pileId = p))) :
    pileHead s p = rows.head? := by
  have hmem : ∀ x, x ∈ rows ↔ (x ∈ s.pileCards ∧ x.pileId = p) := by
    intro x
    rw [hperm.mem_iff, List.mem_filter]
    simp
  have hnd : (rows.map (fun c => c.id)).Nodup :=
    (hperm.map _).nodup_iff.2 (List.Nodup.sublist ((List.filter_sublist _).map _) hids)
  cases rows with
  | nil =>
    unfold pileHead
    show _ = none
    rw [List.find?_eq_none]
    intro x hx hpred
    simp only [Bool.not_eq_true, decide_eq_true_eq] at hpred
    exact absurd ((hmem x).2 ⟨hx, hpred.1⟩) (List.not_mem_nil x)
  | cons h rest =>
    have hh := (hmem h).1 (List.mem_cons_self _ _)
    have hunref : ∀ c' ∈ s.pileCards, c'.nextCardId ≠ some h.id := by
      intro c' hc' hn
      have hown := (hs.nextOwn c' hc' h.id hn).2 h hh.1 rfl
      have hc'r : c' ∈ h :: rest := (hmem c').2 ⟨hc', hown.symm.trans hh.2⟩
      exact linked_head_unref hl hnd c' hc'r hn
    cases hf : pileHead s p with
    | none =>
      unfold pileHead at hf
      have := List.find?_eq_none.1 hf h hh.1
      simp only [Bool.not_eq_true, decide_eq_true_eq, not_and, List.any_eq_false,
        Bool.not_eq_false] at this
      obtain ⟨c', hc', hn⟩ := (by simpa using this hh.2 : ∃ c' ∈ s.pileCards,
        c'.nextCardId = some h.id)
      exact absurd hn (hunref c' hc')
    | some x =>
      have hx : x ∈ s.pileCards := List.mem_of_find?_eq_some hf
      have hpred := List.find?_some hf
      simp only [Bool.not_eq_true, decide_eq_true_eq, List.any_eq_false] at hpred
      have hxr : x ∈ h :: rest := (hmem x).2 ⟨hx, hpred.1⟩
      rcases linked_pred hl hxr with ht | ⟨c', hc', hn⟩
      · have h1 := hl.1
        rw [ht] at h1
        have hk : x.id = h.id := Option.some.inj h1
        have : x = h := List.inj_on_of_nodup_map hids hx hh.1 hk
        rw [this]
        rfl
      · have := hpred.2 c' ((hmem c').1 hc').1
        simp only [decide_eq_false_iff_not] at this
        exact absurd hn this

theorem pileAt_of_chain {s : Store} (hs : PileSound s)
    (hids : (s.pileCards.map (fun c => c.id)).Nodup) {p : Nat} (h : Chained s p) :
    ∃ rows, PileAt s p rows := by
  obtain ⟨top, rows, hl, hperm⟩ := h
  refine ⟨rows, hids, ?_, hperm⟩
  rw [pileHead_of_chain hs hids hl hperm, ← linked_top hl]
  exact hl

theorem chained_of_pileAt {s : Store} {p : Nat} {rows : List PileCardRow}
    (h : PileAt s p rows) : Chained s p :=
  ⟨_, rows, h.linked, h.perm⟩

/-! ### Statements on one pile leave the rows of the other piles as they were -/

theorem setPileCardNext_others {s s1 : Store} {P i : Nat} {next : Option Nat}
    (hrow : ∀ c ∈ s.pileCards, c.id = i → c.pileId = P) {q : Nat} (hq : q ≠ P)
    (hok : setPileCardNext s i next = .ok s1) :
    s1.pileCards.filter (fun c => c.pileId = q) =
      s.pileCards.filter (fun c => c.pileId = q) := by
  rw [setPileCardNext_ok hok]
  show List.filter _ (List.map _ s.pileCards) = _
  apply filter_map_of_fix
  · intro c _
    split_ifs <;> rfl
  · intro c hc hp
    simp only [decide_eq_true_eq] at hp
    by_cases hi : c.id = i
    · exact absurd (hp.symm.trans (hrow c hc hi)) hq
    · rw [if_neg hi]

theorem relinkPrev_others {s s1 : Store} (hs : PileSound s) {P i : Nat}
    {nextId : Option Nat} {q : Nat} (hq : q ≠ P)
    (hok : relinkPrev s (pilePrev s P i) nextId = .ok s1) :
    s1.pileCards.filter (fun c => c.pileId = q) =
      s.pileCards.filter (fun c => c.pileId = q) := by
  cases hprev : pilePrev s P i with
  | none =>
    rw [hprev] at hok
    simp only [relinkPrev, Except.ok.injEq] at hok
    rw [← hok]
  | some pr =>
    rw [hprev] at hok
    have hm : pr ∈ s.pileCards := List.mem_of_find?_eq_some hprev
    have hpp := List.find?_some hprev
    simp only [decide_eq_true_eq] at hpp
    exact setPileCardNext_others
      (fun c hc hi => (hs.cardPile c hc pr hm hi).trans hpp.1) hq hok

theorem deletePileCard_others {s : Store} (hs : PileSound s) {P i : Nat} (hr : RowOf s P i)
    {q : Nat} (hq : q ≠ P) :
    (deletePileCard s i).pileCards.filter (fun c => c.pileId = q) =
      s.pileCards.filter (fun c => c.pileId = q) := by
  obtain ⟨r, hrm, hri, hrp⟩ := hr
  show List.filter _ (List.map _ (List.filter _ s.pileCards)) = _
  rw [filter_map_of_fix]
  · apply filter_filter_of_imp
    intro c hc hp
    simp only [decide_eq_true_eq] at hp
    simp only [ne_eq, decide_not, Bool.not_eq_true', decide_eq_false_iff_not]
    intro hid
    exact hq (hp.symm.trans ((hs.cardPile c hc r hrm (hid.trans hri.symm)).trans hrp))
  · intro c _
    split_ifs <;> rfl
  · intro c hc hp
    simp only [decide_eq_true_eq] at hp
    have hcm : c ∈ s.pileCards := (List.mem_filter.1 hc).1
    by_cases hn : c.nextCardId = some i
    · have hcp : c.pileId = P := ((hs.nextOwn c hcm i hn).2 r hrm hri).symm.trans hrp
      exact absurd (hp.symm.trans hcp) hq
    · rw [if_neg hn]

theorem deletePileCardsOf_others {s : Store} (hs : PileSound s) (P : Nat) {q : Nat}
    (hq : q ≠ P) :
    (deletePileCardsOf s P).pileCards.filter (fun c => c.pileId = q) =
      s.pileCards.filter (fun c => c.pileId = q) := by
  show List.filter _ (List.map _ (List.filter _ s.pileCards)) = _
  rw [filter_map_of_fix]
  · apply filter_filter_of_imp
    intro c _ hp
    simp only [decide_eq_true_eq] at hp
    simp only [ne_eq, decide_not, Bool.not_eq_true', decide_eq_false_iff_not]
    intro hcp
    exact hq (hp.symm.trans hcp)
  · intro c _
    have hk := deletePileCardsOf_key s P c
    rw [hk.2.1]
  · intro c hc hp
    simp only [decide_eq_true_eq] at hp
    have hcm : c ∈ s.pileCards := (List.mem_filter.1 hc).1
    split
    · rfl
    · rename_i j hn
      rw [if_neg]
      intro hany
      simp only [List.any_eq_true, decide_eq_true_eq] at hany
      obtain ⟨r, hrm, hrp, hrj⟩ := hany
      have hcp : c.pileId = P := ((hs.nextOwn c hcm j hn).2 r hrm hrj).symm.trans hrp
      exact hq (hp.symm.trans hcp)

/-- After the row `c` of the list `pre ++ c :: post` of pile `P` is unlinked and deleted,
every pile that was a list is a list. -/
theorem unlinked_chained {s s1 s' : Store} (hs : PileSound s) {P : PileRow}
    (hP : P ∈ s.piles) {pre post : List PileCardRow} {c : PileCardRow}
    (hat : PileAt s P.id (pre ++ c :: post))
    (h1 : relinkPrev s (pilePrev s P.id c.id) c.nextCardId = .ok s1)
    (hcards : s'.pileCards = (deletePileCard s1 c.id).pileCards)
    {q : Nat} (hq : Chained s q) : Chained s' q := by
  have hcm : c ∈ s.pileCards ∧ c.pileId = P.id :=
    (pileAt_mem hat c).1 (List.mem_append_right _ (List.mem_cons_self _ _))
  by_cases hqP : q = P.id
  · obtain ⟨s2, hu, hun⟩ := unlink_any (d := P.deckId) hat.ids hat.linked hat.perm
    unfold unlinkPileCard at hu
    rw [h1] at hu
    simp only [Except.ok.injEq] at hu
    obtain ⟨top', rows', hl', hp', -⟩ := hun.rows
    refine ⟨top', rows', hl', ?_⟩
    rw [hqP, hcards]
    rw [← hu] at hp'
    exact hp'
  · have hpof : PileOf s P.deckId P.id := ⟨P, hP, rfl, rfl⟩
    have hptr : PilePtr s P.id c.nextCardId := by
      have := hs.nextOwn c hcm.1
      rwa [hcm.2] at this
    obtain ⟨f1, g1⟩ := relinkPrev_kept hs hpof hptr s rfl h1
    have hrow : RowOf s1 P.id c.id := g1 c.id ⟨c, hcm.1, rfl, hcm.2⟩
    refine hq.of_filter ?_
    rw [hcards, deletePileCard_others f1.psound hrow hqP, relinkPrev_others hs hqP h1]

theorem drawFromPile_chained {s : Store} (hs : PileSound s)
    (hids : (s.pileCards.map (fun c => c.id)).Nodup)
    (hall : ∀ p ∈ s.piles, Chained s p.id) (A name method : String) (pick : Nat) :
    ∀ p ∈ (DrawFromPile s A name method pick).1.piles,
      Chained (DrawFromPile s A name method pick).1 p.id := by
  unfold DrawFromPile
  cases hf : findPile s A name with
  | none => exact hall
  | some P =>
    dsimp only
    cases hsel : selectPileCard s P.id method pick with
    | error e => exact hall
    | ok r =>
      obtain ⟨cardId, code, nextId⟩ := r
      dsimp only
      have hP := (findPile_key hf).1
      obtain ⟨rows, hat⟩ := pileAt_of_chain hs hids (hall P hP)
      obtain ⟨pre, c, post, rfl, rfl, rfl, rfl, -, -⟩ := selectPileCard_spec hat hsel
      refine atomically_rel (R := fun _ s' => ∀ p ∈ s'.piles, Chained s' p.id) hall ?_
      intro s' a hb
      cases hu : unlinkPileCard s A (pilePrev s P.id c.id) c.id c.code c.nextCardId with
      | error e => simp [hu] at hb
      | ok s2 =>
        simp only [hu, Except.ok.injEq, Prod.mk.injEq] at hb
        rw [← hb.1]
        unfold unlinkPileCard at hu
        cases h1 : relinkPrev s (pilePrev s P.id c.id) c.nextCardId with
        | error e => simp [h1] at hu
        | ok s1 =>
          simp only [h1, Except.ok.injEq] at hu
          rw [← hu]
          intro p hp
          have hp' : p ∈ s.piles := by
            have : p ∈ s1.piles := hp
            rwa [(relinkPrev_frame h1).piles] at this
          exact unlinked_chained hs hP hat h1 rfl (hall p hp')

theorem drawSpecificFromPile_chained {s : Store} (hs : PileSound s)
    (hids : (s.pileCards.map (fun c => c.id)).Nodup)
    (hall : ∀ p ∈ s.piles, Chained s p.id) (A name code : String) :
    ∀ p ∈ (DrawSpecificFromPile s A name code).1.piles,
      Chained (DrawSpecificFromPile s A name code).1 p.id := by
  unfold DrawSpecificFromPile
  cases hf : findPile s A name with
  | none => exact hall
  | some P =>
    dsimp only
    cases hc : s.pileCards.find? (fun c => c.pileId = P.id ∧ c.code = code) with
    | none => exact hall
    | some c =>
      dsimp only
      have hP := (findPile_key hf).1
      obtain ⟨rows, hat⟩ := pileAt_of_chain hs hids (hall P hP)
      obtain ⟨pre, post, rfl⟩ := List.append_of_mem ((pileAt_mem hat c).2 (find_code_row hc))
      refine atomically_rel (R := fun _ s' => ∀ p ∈ s'.piles, Chained s' p.id) hall ?_
      intro s' a hb
      cases hu : unlinkPileCard s A (pilePrev s P.id c.id) c.id code c.nextCardId with
      | error e => simp [hu] at hb
      | ok s2 =>
        simp only [hu, Except.ok.injEq, Prod.mk.injEq] at hb
        rw [← hb.1]
        unfold unlinkPileCard at hu
        cases h1 : relinkPrev s (pilePrev s P.id c.id) c.nextCardId with
        | error e => simp [h1] at hu
        | ok s1 =>
          simp only [h1, Except.ok.injEq] at hu
          rw [← hu]
          intro p hp
          have hp' : p ∈ s.piles := by
            have : p ∈ s1.piles := hp
            rwa [(relinkPrev_frame h1).piles] at this
          exact unlinked_chained hs hP hat h1 rfl (hall p hp')

theorem returnSpecificFromPile_chained {s : Store} (hs : PileSound s)
    (hids : (s.pileCards.map (fun c => c.id)).Nodup)
    (hall : ∀ p ∈ s.piles, Chained s p.id) (A name code : String) :
    ∀ p ∈ (ReturnSpecificFromPile s A name code).1.piles,
      Chained (ReturnSpecificFromPile s A name code).1 p.id := by
  unfold ReturnSpecificFromPile
  cases hf : findPile s A name with
  | none => exact hall
  | some P =>
    dsimp only
    cases hc : s.pileCards.find? (fun c => c.pileId = P.id ∧ c.code = code) with
    | none => exact hall
    | some c =>
      dsimp only
      have hP := (findPile_key hf).1
      obtain ⟨rows, hat⟩ := pileAt_of_chain hs hids (hall P hP)
      obtain ⟨pre, post, rfl⟩ := List.append_of_mem ((pileAt_mem hat c).2 (find_code_row hc))
      refine atomically_rel (R := fun _ s' => ∀ p ∈ s'.piles, Chained s' p.id) hall ?_
      intro s' a hb
      cases h1 : relinkPrev s (pilePrev s P.id c.id) c.nextCardId with
      | error e => simp [h1] at hb
      | ok s1 =>
        simp only [h1] at hb
        split_ifs at hb with haff
        cases h4 : insertDeckCard (updateEntry (deletePileCard s1 c.id) A code
            (fun (e : DeckEntryRow) => decide (e.inPile > 0))
            (fun e => { e with inPile := e.inPile - 1, inDeck := e.inDeck + 1 })) A code
            (deckTop (updateEntry (deletePileCard s1 c.id) A code
              (fun (e : DeckEntryRow) => decide (e.inPile > 0))
              (fun e => { e with inPile := e.inPile - 1, inDeck := e.inDeck + 1 })) A) with
        | error e => simp [h4] at hb
        | ok r =>
          obtain ⟨s4, i⟩ := r
          simp only [h4] at hb
          cases h5 : setTopCard s4 A (some i) with
          | error e => simp [h5] at hb
          | ok s5 =>
            simp only [h5, Except.ok.injEq, Prod.mk.injEq] at hb
            rw [← hb.1]
            unfold insertDeckCard at h4
            split_ifs at h4
            simp only [Except.ok.injEq, Prod.mk.injEq] at h4
            obtain ⟨h4s, -⟩ := h4
            unfold setTopCard at h5
            split_ifs at h5
            simp only [Except.ok.injEq] at h5
            intro p hp
            have hp' : p ∈ s.piles := by
              rw [← h5, ← h4s] at hp
              have : p ∈ s1.piles := hp
              rwa [(relinkPrev_frame h1).piles] at this
            refine unlinked_chained hs hP hat h1 ?_ (hall p hp')
            rw [← h5, ← h4s]
            rfl

theorem returnAllFromPile_chained {s : Store} (hr : Reachable s)
    (hall : ∀ p ∈ s.piles, Chained s p.id) (A name : String) :
    ∀ p ∈ (ReturnAllFromPile s A name).1.piles,
      Chained (ReturnAllFromPile s A name).1 p.id := by
  rcases returnAllFromPile_cases hr A name with h | ⟨P, hf, h⟩
  · rw [h]
    exact hall
  · rw [h]
    intro p hp
    by_cases hq : p.id = P.id
    · refine ⟨none, [], rfl, ?_⟩
      rw [hq]
      show List.Perm [] ((deletePileCardsOf s P.id).pileCards.filter _)
      rw [deletePileCardsOf_filter]
    · exact (hall p hp).of_filter (deletePileCardsOf_others (reachable_psound hr) P.id hq)

theorem insertIntoPile_chained {s : Store} (hs : PileSound s) (hsch : Schema s)
    (hall : ∀ p ∈ s.piles, Chained s p.id) (name A : String) (codes : List String) :
    ∀ p ∈ (InsertIntoPile s name A codes).1.piles,
      Chained (InsertIntoPile s name A codes).1 p.id := by
  unfold InsertIntoPile
  cases htx : insertIntoPileTx s name A codes with
  | error e => exact hall
  | ok s' =>
    dsimp only
    unfold insertIntoPileTx at htx
    cases h1 : checkCodes s A codes with
    | error e => simp [h1] at htx
    | ok s1 =>
      simp only [h1] at htx
      cases h2 : pileIdFor s1 A name with
      | error e => simp [h2] at htx
      | ok r =>
        obtain ⟨s2, pid⟩ := r
        simp only [h2] at htx
        have hs1 := checkCodes_ok h1
        obtain ⟨hex, hcase⟩ := pileIdFor_ok h2
        have hcards : s2.pileCards = s.pileCards := by
          rcases hcase with ⟨P, -, h3, -⟩ | ⟨-, -, -, h3⟩ <;> rw [h3, hs1]
        have hseq : s2.seqPileCard = s.seqPileCard := by
          rcases hcase with ⟨P, -, h3, -⟩ | ⟨-, -, -, h3⟩ <;> rw [h3, hs1]
        have hhead : pileHead s2 pid = pileHead s pid := by
          unfold pileHead
          rw [hcards]
        have hold : ∀ p ∈ s2.piles, p.id ≠ pid → p ∈ s.piles := by
          intro p hp hne
          rcases hcase with ⟨P, -, h3, -⟩ | ⟨-, -, h4, h3⟩
          · rw [h3, hs1] at hp
            exact hp
          · rw [h3, hs1] at hp
            rcases List.mem_append.1 hp with hp | hp
            · exact hp
            · rw [List.mem_singleton.1 hp] at hne
              rw [h4, hs1] at hne
              exact absurd rfl hne
        have hchain : Chained s pid := by
          rcases hcase with ⟨P, hf, -, h4⟩ | ⟨-, -, h4, -⟩
          · have hP : P ∈ s.piles := by
              have := (findPile_key hf).1
              rw [hs1] at this
              exact this
            rw [h4]
            exact hall P hP
          · refine ⟨none, [], rfl, ?_⟩
            have : s.pileCards.filter (fun c => c.pileId = pid) = [] := by
              rw [List.filter_eq_nil_iff]
              intro c hc hp
              simp only [decide_eq_true_eq] at hp
              have hfk := hsch.pileCardFk c hc
              simp only [Store.pileExists, List.any_eq_true, decide_eq_true_eq] at hfk
              obtain ⟨q, hq, hqid⟩ := hfk
              have hle := hsch.pileSeq q hq
              rw [hs1] at h4
              have : pid = s.seqPile + 1 := h4
              omega
            rw [this]
        obtain ⟨rows, hat⟩ := pileAt_of_chain hs hsch.pileCardIds hchain
        have hPL : PileLinked s2 pid ((pileHead s2 pid).map (fun c => c.id)) rows := by
          refine ⟨by rw [hcards]; exact hat.ids, ?_, by rw [hhead]; exact hat.linked,
            by rw [hcards]; exact hat.perm⟩
          rw [hcards, hseq]
          exact hsch.pileCardSeq
        obtain ⟨s'', top', rows', hpush, hPL', -, hfr⟩ :=
          pushPileCards_spec pid codes s2 _ rows hPL hex
        rw [hpush] at htx
        cases htx
        intro p hp
        rw [hfr.piles] at hp
        by_cases hq : p.id = pid
        · rw [hq]
          exact ⟨top', rows', hPL'.linked, hPL'.perm⟩
        · refine (hall p (hold p hp hq)).of_filter ?_
          rw [hfr.others p.id hq, hcards]

theorem shuffleAllPiles_chained {s : Store} (hsch : Schema s)
    (hall : ∀ p ∈ s.piles, Chained s p.id) (A : String) (rnd : Nat → Nat → Nat) :
    ∀ p ∈ (ShuffleAllPiles s A rnd).1.piles, Chained (ShuffleAllPiles s A rnd).1 p.id := by
  have hres : (ShuffleAllPiles s A rnd).1 =
      (s.piles.filter (fun q => q.deckId = A)).foldl (shuffleStep rnd) s := by
    unfold ShuffleAllPiles
    rw [shufflePiles_eq rnd _ s [] hsch.pileCardIds]
    rfl
  rw [hres]
  have hsame := foldl_shuffleStep_same rnd (s.piles.filter (fun q => q.deckId = A)) s
  intro p hp
  rw [hsame.piles] at hp
  by_cases hd : p.deckId = A
  · exact foldl_shuffleStep_linked rnd p (s.piles.filter (fun q => q.deckId = A)) s
      hsch.pileCardIds (List.mem_filter.2 ⟨hp, by simpa using hd⟩)
      (hsch.pileIds.sublist ((List.filter_sublist _).map _))
  · refine (hall p hp).of_filter (foldl_shuffleStep_other rnd p.id _ s ?_)
    intro x hx hid
    have hxm := List.mem_filter.1 hx
    have : x = p := List.inj_on_of_nodup_map hsch.pileIds hxm.1 hp hid
    rw [this] at hxm
    exact hd (by simpa using hxm.2)

/-! ### Counting the rows of the piles of a deck -/

theorem count_map_filter_len {α β : Type} [DecidableEq β] (g : α → β) (F : α → Bool) (x : β) :
    ∀ T : List α, ((T.filter F).map g).count x =
      (T.filter (fun r => F r && decide (g r = x))).length := by
  intro T
  induction T with
  | nil => rfl
  | cons a T ih =>
    cases hF : F a with
    | false => simp only [List.filter_cons, hF, Bool.false_and, Bool.false_eq_true, if_false, ih]
    | true =>
      by_cases hx : g a = x
      · simp [List.filter_cons, hF, hx, ih]
      · simp [List.filter_cons, hF, hx, ih, List.count_cons]

theorem piles_sum_count (T : List PileCardRow) (c : String) :
    ∀ P : List PileRow, (P.map (fun p => p.id)).Nodup →
      (P.map (fun p => (T.filter (fun r => r.pileId = p.id ∧ r.code = c)).length)).sum =
        ((T.filter (fun r => P.any (fun p => p.id = r.pileId))).map
          (fun r => r.code)).count c := by
  intro P
  induction P with
  | nil =>
    intro _
    simp
  | cons p P ih =>
    intro hnd
    simp only [List.map_cons, List.nodup_cons] at hnd
    have hsplit := count_filter_split (fun r : PileCardRow => r.code)
      (fun r => (p :: P).any (fun q => q.id = r.pileId)) (fun r => decide (r.pileId = p.id)) c T
      (by
        intro r _ hq
        simp only [decide_eq_true_eq] at hq
        simp [hq])
    have hrest : (T.filter (fun r => !decide (r.pileId = p.id))).filter
        (fun r => (p :: P).any (fun q => q.id = r.pileId)) =
        T.filter (fun r => P.any (fun q => q.id = r.pileId)) := by
      have h1 : (T.filter (fun r => !decide (r.pileId = p.id))).filter
          (fun r => (p :: P).any (fun q => q.id = r.pileId)) =
          (T.filter (fun r => !decide (r.pileId = p.id))).filter
            (fun r => P.any (fun q => q.id = r.pileId)) := by
        apply List.filter_congr
        intro r hr
        have hne := (List.mem_filter.1 hr).2
        simp only [Bool.not_eq_true', decide_eq_false_iff_not] at hne
        have : ¬ p.id = r.pileId := fun h => hne h.symm
        simp [this]
      rw [h1]
      apply filter_filter_of_imp
      intro r _ hany
      simp only [List.any_eq_true, decide_eq_true_eq] at hany
      obtain ⟨q, hq, hqid⟩ := hany
      simp only [Bool.not_eq_true', decide_eq_false_iff_not]
      intro hr
      exact hnd.1 (List.mem_map.2 ⟨q, hq, hqid.trans hr⟩)
    rw [hsplit, hrest, ← ih hnd.2, List.map_cons, List.sum_cons, count_map_filter_len]
    have : T.filter (fun r => decide (r.pileId = p.id) && decide (r.code = c)) =
        T.filter (fun r => decide (r.pileId = p.id ∧ r.code = c)) := by
      congr 1
      funext r
      simp
    rw [this]
    omega

theorem pile_sum_eq_count {s : Store} (hs : Schema s) (d c : String) :
    ((s.piles.filter (fun p => p.deckId = d)).map (fun p =>
      (s.pileCards.filter (fun r => r.pileId = p.id ∧ r.code = c)).length)).sum =
      (pileCodes s d).count c := by
  rw [piles_sum_count s.pileCards c _ (hs.pileIds.sublist ((List.filter_sublist _).map _))]
  unfold pileCodes
  congr 3
  funext r
  unfold ownedBy
  rw [List.any_filter]
  congr 1
  funext p
  simp [Bool.and_comm]

theorem findPile_of_mem {s : Store} (hs : Schema s) {p : PileRow} (h : p ∈ s.piles) :
    findPile s p.deckId p.name = some p := by
  cases hf : findPile s p.deckId p.name with
  | none =>
    have := List.find?_eq_none.1 hf p h
    simp at this
  | some q =>
    obtain ⟨hm, hd, hn⟩ := findPile_key hf
    rw [List.inj_on_of_nodup_map hs.pileNames hm h (by simp [hd, hn])]

theorem cardsInPile_of_mem {s : Store} (hs : Schema s) {p : PileRow} (h : p ∈ s.piles)
    {rows : List PileCardRow} (hat : PileAt s p.id rows) :
    CardsInPile s p.deckId p.name = rows.length := by
  rw [cardsInPile_of_singleton (piles_filter_singleton hs.pileNames (findPile_of_mem hs h)),
    hat.perm.length_eq]

theorem chained_of_side {s s' : Store} (f : PileSide s s')
    (hall : ∀ p ∈ s.piles, Chained s p.id) : ∀ p ∈ s'.piles, Chained s' p.id := by
  intro p hp
  rw [f.piles] at hp
  exact (hall p hp).of_filter (by rw [f.pileCards])

theorem call_chained {s : Store} (hr : Reachable s) (hall : ∀ p ∈ s.piles, Chained s p.id)
    (A : String) (c : Call) (hc : ∀ name codes, c ≠ Call.updatePileOrder name codes) :
    ∀ p ∈ (c.run s A).piles, Chained (c.run s A) p.id := by
  have hs := (reachable_inv hr).sound
  have hps := reachable_psound hr
  have hsch := reachable_schema hr
  cases c with
  | drawCards amount => exact chained_of_side (drawCards_iso hs A amount).side hall
  | shuffleDeck rnd => exact chained_of_side (shuffleDeck_iso hs A rnd).side hall
  | shuffleAllPiles rnd => exact shuffleAllPiles_chained hsch hall A rnd
  | updatePileOrder name codes => exact absurd rfl (hc name codes)
  | insertIntoPile name codes => exact insertIntoPile_chained hps hsch hall name A codes
  | drawFromPile name method pick =>
    exact drawFromPile_chained hps hsch.pileCardIds hall A name method pick
  | drawSpecificFromPile name code =>
    exact drawSpecificFromPile_chained hps hsch.pileCardIds hall A name code
  | returnSpecificDrawn code => exact chained_of_side (returnSpecificDrawn_iso s A code).side hall
  | returnAllDrawn => exact chained_of_side (returnAllDrawn_iso s A).side hall
  | returnSpecificFromPile name code =>
    exact returnSpecificFromPile_chained hps hsch.pileCardIds hall A name code
  | returnAllFromPile name => exact returnAllFromPile_chained hr hall A name

theorem pileAt_head_unref {s : Store} (hs : PileSound s) {p : Nat} {rows : List PileCardRow}
    (hat : PileAt s p rows) :
    ∀ r ∈ rows, (∀ r' ∈ s.pileCards, r'.nextCardId ≠ some r.id) ↔ rows.head? = some r := by
  obtain ⟨-, -, s3⟩ := linked_shape hat.linked (pileAt_rows_nodup hat)
  intro r hr
  constructor
  · intro hun
    exact (s3 r hr).1 (fun r' hr' => hun r' ((pileAt_mem hat r').1 hr').1)
  · intro hh r' hr' hn
    have hrm := (pileAt_mem hat r).1 hr
    have hown := (hs.nextOwn r' hr' r.id hn).2 r hrm.1 rfl
    exact (s3 r hr).2 hh r' ((pileAt_mem hat r').2 ⟨hr', hown.symm.trans hrm.2⟩) hn

/-- C30. Pile list integrity.  Let `s` be a store of the engine (reached from the fresh
database by engine operations) in which every pile's rows form a single list, and let any
operation other than `UpdatePileOrder` be called on it for a deck `A`: in particular each of
`InsertIntoPile`, `DrawFromPile`, `DrawSpecificFromPile`, `ReturnSpecificFromPile`,
`ReturnAllFromPile` and `ShuffleAllPiles`, whether the call succeeds or fails (a failed call
commits nothing).  In the store
it leaves, every pile's rows again form a single list: reading from the head visits every
row of the pile exactly once, the rows with `nextCardId` NULL are exactly the last one, the
rows that no `nextCardId` of the table refers to are exactly the first one (so a pile without
rows has neither), the length of the list is `CardsInPile`, and for every ledger row the
number of rows with its code summed over the piles of its deck is its `inPile`. -/
theorem pile_list_integrity (s : Store) (h : Reachable s) (hp : PilesListed s) (A : String)
    (c : Call) (hc : ∀ name codes, c ≠ Call.updatePileOrder name codes) :
    PilesListed (c.run s A) ∧
    (∀ p ∈ (c.run s A).piles, ∃ rows : List PileCardRow,
      pileRows (c.run s A) p.id = some rows ∧
      rows.Perm ((c.run s A).pileCards.filter (fun r => r.pileId = p.id)) ∧
      (rows.map (fun r => r.id)).Nodup ∧
      (∀ r ∈ rows, r.nextCardId = none ↔ rows.getLast? = some r) ∧
      (∀ r ∈ rows, (∀ r' ∈ (c.run s A).pileCards, r'.nextCardId ≠ some r.id) ↔
        rows.head? = some r) ∧
      CardsInPile (c.run s A) p.deckId p.name = rows.length) ∧
    (∀ e ∈ (c.run s A).entries,
      ((((c.run s A).piles.filter (fun p => p.deckId = e.deckId)).map (fun p =>
        ((c.run s A).pileCards.filter
          (fun r => r.pileId = p.id ∧ r.code = e.code)).length)).sum : Int) = e.inPile) := by
  have hr' := call_reachable h A c
  have hsch := reachable_schema h
  have hsch' := reachable_schema hr'
  have hps' := reachable_psound hr'
  have hall : ∀ p ∈ s.piles, Chained s p.id := by
    intro p hpm
    obtain ⟨rows, hrows⟩ := Option.isSome_iff_exists.1 (hp p hpm)
    exact chained_of_pileAt ((pileAt_iff hsch.pileCardIds).1 hrows)
  have hall' := call_chained h hall A c hc
  have hrows : ∀ p ∈ (c.run s A).piles, ∃ rows : List PileCardRow,
      pileRows (c.run s A) p.id = some rows ∧ PileAt (c.run s A) p.id rows := by
    intro p hpm
    obtain ⟨rows, hat⟩ := pileAt_of_chain hps' hsch'.pileCardIds (hall' p hpm)
    exact ⟨rows, (pileAt_iff hsch'.pileCardIds).2 hat, hat⟩
  refine ⟨?_, ?_, ?_⟩
  · intro p hpm
    obtain ⟨rows, h1, -⟩ := hrows p hpm
    rw [h1]
    rfl
  · intro p hpm
    obtain ⟨rows, h1, hat⟩ := hrows p hpm
    obtain ⟨-, s2, -⟩ := linked_shape hat.linked (pileAt_rows_nodup hat)
    exact ⟨rows, h1, hat.perm, pileAt_rows_nodup hat, s2, pileAt_head_unref hps' hat,
      cardsInPile_of_mem hsch' hpm hat⟩
  · intro e he
    rw [pile_sum_eq_count hsch']
    exact reachable_pileLedger hr' e he

theorem pile_list_integrity_witness :
    (Reachable playedStore ∧ PilesListed playedStore ∧
      ∀ name codes, Call.drawFromPile "discard" "top" 0 ≠ Call.updatePileOrder name codes) ∧
    PilesListed ((Call.drawFromPile "discard" "top" 0).run playedStore "abcdefghijkl") ∧
    (∀ p ∈ ((Call.drawFromPile "discard" "top" 0).run playedStore "abcdefghijkl").piles,
      ∃ rows : List PileCardRow,
      pileRows ((Call.drawFromPile "discard" "top" 0).run playedStore "abcdefghijkl") p.id =
        some rows ∧
      rows.Perm (((Call.drawFromPile "discard" "top" 0).run playedStore
        "abcdefghijkl").pileCards.filter (fun r => r.pileId = p.id)) ∧
      (rows.map (fun r => r.id)).Nodup ∧
      (∀ r ∈ rows, r.nextCardId = none ↔ rows.getLast? = some r) ∧
      (∀ r ∈ rows, (∀ r' ∈ ((Call.drawFromPile "discard" "top" 0).run playedStore
          "abcdefghijkl").pileCards, r'.nextCardId ≠ some r.id) ↔ rows.head? = some r) ∧
      CardsInPile ((Call.drawFromPile "discard" "top" 0).run playedStore "abcdefghijkl")
        p.deckId p.name = rows.length) ∧
    (∀ e ∈ ((Call.drawFromPile "discard" "top" 0).run playedStore "abcdefghijkl").entries,
      (((((Call.drawFromPile "discard" "top" 0).run playedStore "abcdefghijkl").piles.filter
          (fun p => p.deckId = e.deckId)).map (fun p =>
        (((Call.drawFromPile "discard" "top" 0).run playedStore
          "abcdefghijkl").pileCards.filter
          (fun r => r.pileId = p.id ∧ r.code = e.code)).length)).sum : Int) = e.inPile) :=
  ⟨⟨Reachable.insertIntoPile _ _ _ _ (Reachable.drawCards _ _ _
      (Reachable.insertDeck _ _ _ Reachable.empty)),
    by decide, fun _ _ hne => Call.noConfusion hne⟩,
    pile_list_integrity playedStore
      (Reachable.insertIntoPile _ _ _ _ (Reachable.drawCards _ _ _
        (Reachable.insertDeck _ _ _ Reachable.empty)))
      (by decide) "abcdefghijkl" (Call.drawFromPile "discard" "top" 0)
      (fun _ _ hne => Call.noConfusion hne)⟩

end DeckOfCards
